import Mathlib

/-!
# depviz: relation extraction and graph resolution (`issue.go`)

A shallow embedding of the issue model of depviz and of `Issues.prepare`,
the pass that mines issue bodies for directives and builds the
depends-on / blocks graph, together with the weight recursion.

Conventions of the embedding

* A Go `string` is a list of runes (`Str`).
* A `*Issue` is an address (`Ptr`) into a heap of issue records; the
  collection `Issues` (a Go map from URL to `*Issue`) is an association list
  whose order is the order in which `range` visits the map.
* Go `int` is 64 bits wide; arithmetic wraps (`wrapInt`).
* A run-time panic (slice bounds, nil dereference, `panic(...)`) and
  exhausted recursion fuel are explicit faults (`Fault`).
* The library calls `url.Parse` and `viper.GetString("epic-label")` are
  taken from an environment (`Env`); `urlParse` is a model of the former.
-/

namespace Depviz

/-- A Go string, as its sequence of runes. -/
abbrev Str := List Char

/-! ## Regular expressions (package `regexp`, leftmost-first semantics) -/

/-- The rune U+212A (Kelvin sign), which simple case folding puts with `k`. -/
def kelvin : Char := Char.ofNat 0x212A

/-- The rune U+017F (long s), which simple case folding puts with `s`. -/
def longS : Char := Char.ofNat 0x17F

/-- ASCII upper-case letter. -/
def isUpperAscii (c : Char) : Bool := 65 ≤ c.toNat && c.toNat ≤ 90

/-- ASCII lower-case letter. -/
def isLowerAscii (c : Char) : Bool := 97 ≤ c.toNat && c.toNat ≤ 122

/-- The other case of an ASCII letter (any other rune is returned as is). -/
def swapCase (c : Char) : Char :=
  if isUpperAscii c then Char.ofNat (c.toNat + 32)
  else if isLowerAscii c then Char.ofNat (c.toNat - 32)
  else c

/-- Under the flag `(?i)`, does the subject rune `r` match the (ASCII)
pattern rune `p`?  The fold orbit of an ASCII letter is its two cases, plus
U+212A for `k` and U+017F for `s`. -/
def foldEq (p r : Char) : Bool :=
  r == p || r == swapCase p ||
  ((p == 'k' || p == 'K') && r == kelvin) ||
  ((p == 's' || p == 'S') && r == longS)

/-- Membership of a rune in a list of inclusive ranges. -/
def inRanges (rs : List (Char × Char)) (r : Char) : Bool :=
  rs.any (fun lh => lh.1.toNat ≤ r.toNat && r.toNat ≤ lh.2.toNat)

/-- Membership in a bracket class with ASCII ranges under `(?i)`: the rune, or
a rune of its fold orbit, lies in one of the ranges. -/
def inClassFold (rs : List (Char × Char)) (r : Char) : Bool :=
  inRanges rs r || inRanges rs (swapCase r) ||
  (r == kelvin && (inRanges rs 'k' || inRanges rs 'K')) ||
  (r == longS && (inRanges rs 's' || inRanges rs 'S'))

/-- The fragment of regular expressions used by `prepare`, all under `(?i)`:
literals, `.`, bracket classes, greedy repetition of a class, concatenation,
ordered alternation and capturing groups. -/
inductive Re where
  | eps : Re
  | lit (c : Char) : Re
  | any : Re
  | cls (rs : List (Char × Char)) : Re
  | star (rs : List (Char × Char)) : Re
  | seq (a b : Re) : Re
  | alt (a b : Re) : Re
  | group (a : Re) : Re

/-- Greedy `[class]*` with backtracking: take as many runes as possible, give
runes back one at a time while the continuation fails. -/
def starRun {β : Type} (rs : List (Char × Char)) :
    Str → (Str → Option β) → Option β
  | [], k => k []
  | c :: s, k =>
    if inClassFold rs c then
      match starRun rs s k with
      | some r => some r
      | none => k (c :: s)
    else k (c :: s)

/-- Backtracking matcher anchored at the start of the subject.  The
continuation receives the unread rest of the subject and the texts of the
groups closed so far; the first success in priority order is the match that
package `regexp` reports (leftmost-first). -/
def Re.run {β : Type} : Re → Str → List Str → (Str → List Str → Option β) → Option β
  | .eps, s, caps, k => k s caps
  | .lit _, [], _, _ => none
  | .lit p, c :: s, caps, k => if foldEq p c then k s caps else none
  | .any, [], _, _ => none
  | .any, c :: s, caps, k => if c == '\n' then none else k s caps
  | .cls _, [], _, _ => none
  | .cls rs, c :: s, caps, k => if inClassFold rs c then k s caps else none
  | .star rs, s, caps, k => starRun rs s (fun rest => k rest caps)
  | .seq a b, s, caps, k => a.run s caps (fun rest caps1 => b.run rest caps1 k)
  | .alt a b, s, caps, k =>
    match a.run s caps k with
    | some r => some r
    | none => b.run s caps k
  | .group a, s, caps, k =>
    a.run s caps (fun rest caps1 => k rest (caps1 ++ [s.take (s.length - rest.length)]))

/-- A match anchored at the start of `s`: the submatch slice
(`[whole, group1, ...]`) and the unread rest of the subject. -/
def matchAt (re : Re) (s : Str) : Option (List Str × Str) :=
  re.run s [] (fun rest caps => some (s.take (s.length - rest.length) :: caps, rest))

/-- The leftmost match in `s`, with the rest of the subject after it. -/
def search (re : Re) : Str → Option (List Str × Str)
  | [] => matchAt re []
  | c :: s =>
    match matchAt re (c :: s) with
    | some r => some r
    | none => search re s

/-- The function `(*Regexp).FindStringSubmatch`: the submatches of the leftmost
match, `none` for Go's `nil`. -/
def FindStringSubmatch (re : Re) (s : Str) : Option (List Str) :=
  (search re s).map Prod.fst

/-- Successive non-overlapping matches, each search starting where the
previous match ended.  The patterns of `prepare` never match the empty
string, so every round consumes a rune and `fuel` bounds the rounds. -/
def findAllAux (re : Re) : Nat → Str → List (List Str)
  | 0, _ => []
  | fuel + 1, s =>
    match search re s with
    | none => []
    | some (m, rest) => m :: findAllAux re fuel rest

/-- The function `(*Regexp).FindAllStringSubmatch(s, -1)`. -/
def FindAllStringSubmatch (re : Re) (s : Str) : List (List Str) :=
  findAllAux re (s.length + 1) s

/-- Concatenation of the literals of a string. -/
def Re.ofStr : Str → Re
  | [] => .eps
  | [c] => .lit c
  | c :: s => .seq (.lit c) (Re.ofStr s)

/-- Ordered alternation of literal strings: `(w1|w2|...)`. -/
def Re.words : List Str → Re
  | [] => .eps
  | [w] => Re.ofStr w
  | w :: ws => .alt (Re.ofStr w) (Re.words ws)

/-- One or more runes of a class: `[class]+`. -/
def Re.plus (rs : List (Char × Char)) : Re := .seq (.cls rs) (.star rs)

/-- The class `[a-z0-9:/_.-]`. -/
def urlClass : List (Char × Char) :=
  [('a', 'z'), ('0', '9'), (':', ':'), ('/', '/'), ('_', '_'), ('.', '.'), ('-', '-')]

/-- The class `[a-z0-9/_-]`. -/
def repoClass : List (Char × Char) :=
  [('a', 'z'), ('0', '9'), ('/', '/'), ('_', '_'), ('-', '-')]

/-- The class `[0-9]`. -/
def digitClass : List (Char × Char) := [('0', '9')]

/-- The reference token `([a-z0-9:/_.-]+|[a-z0-9/_-]*#[0-9]+)`. -/
def refToken : Re :=
  .group (.alt (Re.plus urlClass)
    (.seq (.star repoClass) (.seq (.lit '#') (Re.plus digitClass))))

/-- A phrase family followed by a blank and a reference token. -/
def phraseRegex (ws : List String) : Re :=
  .seq (.group (Re.words (ws.map String.toList))) (.seq (.lit ' ') refToken)

/-- The pattern
`(?i)(require|requires|blocked by|block by|depend on|depends on|parent of) ([a-z0-9:/_.-]+|[a-z0-9/_-]*#[0-9]+)`. -/
def dependsOnRegex : Re :=
  phraseRegex ["require", "requires", "blocked by", "block by", "depend on",
    "depends on", "parent of"]

/-- The pattern
`(?i)(blocks|block|address|addresses|part of|child of|fix|fixes) ([a-z0-9:/_.-]+|[a-z0-9/_-]*#[0-9]+)`. -/
def blocksRegex : Re :=
  phraseRegex ["blocks", "block", "address", "addresses", "part of", "child of",
    "fix", "fixes"]

/-- The pattern
`(?i)(duplicates|duplicate|dup of|dup|duplicate of) ([a-z0-9:/_.-]+|[a-z0-9/_-]*#[0-9]+)`. -/
def isDuplicateRegex : Re :=
  phraseRegex ["duplicates", "duplicate", "dup of", "dup", "duplicate of"]

/-- The literals of a string in which `.` is the wildcard. -/
def Re.ofPattern : Str → Re
  | [] => .eps
  | c :: s => .seq (if c == '.' then .any else .lit c) (Re.ofPattern s)

/-- A key directive `(key[:= ]+)([0-9]+)`. -/
def keyRegex (key : String) : Re :=
  .seq (.group (.seq (Re.ofPattern key.toList) (Re.plus [(':', ':'), ('=', '='), (' ', ' ')])))
    (.group (Re.plus digitClass))

/-- The pattern `(?i)(depviz.weight_multiplier[:= ]+)([0-9]+)`. -/
def weightMultiplierRegex : Re := keyRegex "depviz.weight_multiplier"

/-- The pattern `(?i)(depviz.base_weight[:= ]+)([0-9]+)`. -/
def baseWeightRegex : Re := keyRegex "depviz.base_weight"

/-- The pattern `(?i)(depviz.hide_from_roadmap)`. -/
def hideFromRoadmapRegex : Re := .group (Re.ofPattern "depviz.hide_from_roadmap".toList)

/-! ## Library functions: `strconv.Atoi`, `strings`, `net/url` -/

/-- The largest Go `int` (64 bits). -/
def maxInt : Int := 2 ^ 63 - 1

/-- The smallest Go `int` (64 bits). -/
def minInt : Int := -(2 ^ 63)

/-- Go `int` arithmetic wraps around modulo `2 ^ 64`. -/
def wrapInt (x : Int) : Int := (x + 2 ^ 63) % 2 ^ 64 - 2 ^ 63

/-- The value of a non-empty string of decimal digits (`acc` is the value read
so far), `none` when a rune is not a digit. -/
def digitsVal : Str → Nat → Option Nat
  | [], acc => some acc
  | c :: s, acc =>
    if 48 ≤ c.toNat && c.toNat ≤ 57 then digitsVal s (acc * 10 + (c.toNat - 48)) else none

/-- The value returned by `strconv.Atoi`, its error discarded as `prepare`
does: `0` on a syntax error, the nearest `int` on a range error. -/
def Atoi (s : Str) : Int :=
  match s with
  | [] => 0
  | '-' :: t =>
    match t, digitsVal t 0 with
    | _ :: _, some n => if (n : Int) ≤ 2 ^ 63 then -(n : Int) else minInt
    | _, _ => 0
  | '+' :: t =>
    match t, digitsVal t 0 with
    | _ :: _, some n => if (n : Int) ≤ maxInt then (n : Int) else maxInt
    | _, _ => 0
  | t =>
    match digitsVal t 0 with
    | some n => if (n : Int) ≤ maxInt then (n : Int) else maxInt
    | none => 0

/-- Splitting at every separator rune, as `strings.Split(s, "/")` (`cur` is the
piece being read, reversed). -/
def splitAux (sep : Char) : Str → Str → List Str
  | [], cur => [cur.reverse]
  | c :: s, cur => if c == sep then cur.reverse :: splitAux sep s [] else splitAux sep s (c :: cur)

/-- The function `strings.Split` for a one-rune separator. -/
def split (sep : Char) (s : Str) : List Str := splitAux sep s []

/-- The function `strings.Join`. -/
def join (sep : Str) : List Str → Str
  | [] => []
  | [a] => a
  | a :: rest => a ++ sep ++ join sep rest

/-- Is `pat` a prefix of `s` (`strings.HasPrefix`)? -/
def hasPrefix (pat : Str) (s : Str) : Bool := pat.isPrefixOf s

/-- The function `strings.Contains`. -/
def contains (pat : Str) : Str → Bool
  | [] => pat.isEmpty
  | c :: s => hasPrefix pat (c :: s) || contains pat s

/-- Cut at the first occurrence of a rune: the text before it and, when the
rune occurs, the text after it. -/
def cut (sep : Char) : Str → Str × Option Str
  | [] => ([], none)
  | c :: s =>
    if c == sep then ([], some s)
    else ((c :: (cut sep s).1), (cut sep s).2)

/-- The fields of `url.URL` that `issue.go` reads. -/
structure URL where
  Scheme : Str
  Host : Str
  Path : Str
  Fragment : Str
  deriving DecidableEq, Repr

/-- The function `getScheme` of `net/url`: `none` is the error "missing protocol
scheme", otherwise the scheme (possibly empty) and the rest. -/
def getScheme (raw : Str) : Str → Str → Option (Str × Str)
  | [], _ => some ([], raw)
  | c :: s, seen =>
    if isLowerAscii c || isUpperAscii c then getScheme raw s (c :: seen)
    else if (48 ≤ c.toNat && c.toNat ≤ 57) || c == '+' || c == '-' || c == '.' then
      if seen.isEmpty then some ([], raw) else getScheme raw s (c :: seen)
    else if c == ':' then
      if seen.isEmpty then none else some (seen.reverse, s)
    else some ([], raw)

/-- ASCII lower-casing (`strings.ToLower` on a scheme). -/
def toLowerAscii (s : Str) : Str :=
  s.map (fun c => if isUpperAscii c then Char.ofNat (c.toNat + 32) else c)

/-- The function `validOptionalPort` of `net/url`, on the text after the last
colon of the host. -/
def validPort (port : Str) : Bool := port.all (fun c => 48 ≤ c.toNat && c.toNat ≤ 57)

/-- ASCII runes that `net/url` refuses in a host name. -/
def badHostRune (c : Char) : Bool :=
  c == ' ' || c == '\\' || c == '^' || c == '{' || c == '|' || c == '}' || c.toNat == 96

/-- Runes for which `urlParse` does not model `net/url`: escapes, user
information, IPv6 literals. -/
def unmodelledRune (c : Char) : Bool := c == '%' || c == '@' || c == '[' || c == ']'

/-- A model of `url.Parse` of the Go standard library, which is not part of
the repository.  It follows `net/url` (`Parse`, `parse`, `getScheme`,
`parseHost`) on raw URLs without escapes, user information and IPv6 literals,
which covers reference tokens and tracker URLs; a raw URL with one of the
runes of `unmodelledRune` is outside the model and is answered with `none`
like an error. -/
def urlParse (rawURL : Str) : Option URL :=
  if rawURL.any unmodelledRune then none
  else if rawURL.any (fun c => c.toNat < 32 || c.toNat == 127) then none
  else
    let u := (cut '#' rawURL).1
    let frag := ((cut '#' rawURL).2).getD []
    if u == ['*'] then some ⟨[], [], ['*'], frag⟩
    else
      match getScheme u u [] with
      | none => none
      | some (scheme0, rest0) =>
        let scheme := toLowerAscii scheme0
        let rest := (cut '?' rest0).1
        if !hasPrefix ['/'] rest && !scheme.isEmpty then some ⟨scheme, [], [], frag⟩
        else if !hasPrefix ['/'] rest && ((cut '/' rest).1).contains ':' then none
        else if hasPrefix ['/', '/'] rest && (!scheme.isEmpty || !hasPrefix ['/', '/', '/'] rest) then
          let authority := (cut '/' (rest.drop 2)).1
          let path := (rest.drop 2).drop authority.length
          let port := ((split ':' authority).getLastD [])
          if (authority.contains ':' && !validPort port) || authority.any badHostRune then none
          else some ⟨scheme, authority, path, frag⟩
        else some ⟨scheme, [], rest, frag⟩

/-! ## The issue model -/

/-- What can stop a Go call short of returning: a run-time panic, or recursion
deeper than the fuel given to the model. -/
inductive Fault where
  | panic : Fault
  | fuel : Fault
  deriving DecidableEq, Repr

deriving instance DecidableEq for Except

/-- The type `Provider`; a value other than the two provider constants is
`unknown`. -/
inductive Provider where
  | unknown : Provider
  | github : Provider
  | gitlab : Provider
  deriving DecidableEq, Repr

/-- The struct `IssueLabel`. -/
structure IssueLabel where
  Name : Str
  Color : Str
  deriving DecidableEq, Repr

/-- The struct `Profile`. -/
structure Profile where
  Name : Str
  Username : Str
  deriving DecidableEq, Repr

/-- The fields of `github.Label` that `issue.go` reads; a pointer field is
`none` when nil. -/
structure GitHubLabel where
  Name : Option Str
  Color : Option Str
  deriving DecidableEq, Repr

/-- The fields of `github.User` that `issue.go` reads. -/
structure GitHubUser where
  Login : Option Str
  Name : Option Str
  deriving DecidableEq, Repr

/-- The fields of `github.Issue` that `issue.go` reads.  A pointer field is
`none` when nil; of `PullRequestLinks` only whether it is non-nil is read.
The elements of `Assignees` are taken to be non-nil. -/
structure GitHubIssue where
  Number : Option Int
  Title : Option Str
  State : Option Str
  Body : Option Str
  HTMLURL : Option Str
  RepositoryURL : Option Str
  Labels : List GitHubLabel
  Assignees : List GitHubUser
  hasPullRequestLinks : Bool
  deriving DecidableEq, Repr

/-- An assignee of a `gitlab.Issue`. -/
structure GitLabAssignee where
  Name : Str
  Username : Str
  deriving DecidableEq, Repr

/-- The fields of `gitlab.Issue` that `issue.go` reads (`LinksProject` is
`Links.Project`). -/
structure GitLabIssue where
  IID : Int
  Title : Str
  State : Str
  WebURL : Str
  Description : Str
  LinksProject : Str
  Labels : List Str
  Assignees : List GitLabAssignee
  deriving DecidableEq, Repr

/-- The errors `prepare` records on an issue:
`fmt.Errorf("parent %q not found", num)` and `fmt.Errorf("child %q not found", num)`. -/
inductive IssueError where
  | parentNotFound (num : Str) : IssueError
  | childNotFound (num : Str) : IssueError
  deriving DecidableEq, Repr

/-- An address of an `Issue` (a non-nil `*Issue`). -/
abbrev Ptr := Nat

/-- The type `IssueSlice`. -/
abbrev IssueSlice := List Ptr

/-- The struct `Issue`.  `GitHub` is the proxy pointer (`none` for nil); the
GitLab proxy is never read after normalisation. -/
structure Issue where
  GitHub : Option GitHubIssue
  Provider : Provider
  DependsOn : IssueSlice
  Blocks : IssueSlice
  weightMultiplier : Int
  BaseWeight : Int
  IsOrphan : Bool
  Hidden : Bool
  Duplicates : List Str
  LinkedWithEpic : Bool
  Errors : List IssueError
  Number : Int
  Title : Str
  State : Str
  Body : Str
  RepoURL : Str
  URL : Str
  Labels : List IssueLabel
  Assignees : List Profile
  deriving DecidableEq, Repr

/-- The memory holding the issue records. -/
abbrev Heap := Ptr → Issue

/-- Store a record at an address. -/
def Heap.set (h : Heap) (p : Ptr) (v : Issue) : Heap := fun q => if q = p then v else h q

/-- Update the record at an address. -/
def Heap.modify (h : Heap) (p : Ptr) (f : Issue → Issue) : Heap := h.set p (f (h p))

/-- The type `Issues`, a Go map from string to `*Issue`: an association list
with distinct keys, in the order in which `range` visits the map. -/
abbrev Issues := List (Str × Ptr)

/-- The map read `m[k]`. -/
def Issues.get (m : Issues) (k : Str) : Option Ptr :=
  match m with
  | [] => none
  | (k1, p) :: rest => if k1 = k then some p else Issues.get rest k

/-- The builtin `delete(m, k)`. -/
def Issues.delete (m : Issues) (k : Str) : Issues := m.filter (fun e => e.1 ≠ k)

/-- The map write `m[k] = p`. -/
def Issues.put (m : Issues) (k : Str) (p : Ptr) : Issues :=
  match m with
  | [] => [(k, p)]
  | (k1, p1) :: rest => if k1 = k then (k, p) :: rest else (k1, p1) :: Issues.put rest k p

/-- The calls into libraries and configuration that `issue.go` makes:
`url.Parse` and `viper.GetString("epic-label")`. -/
structure Env where
  parse : Str → Option URL
  epicLabel : Str

/-- The environment with the model of `url.Parse` and the epic label `epic`. -/
def goEnv : Env := ⟨urlParse, "epic".toList⟩

/-- The method `Issue.Path`. -/
def Path (env : Env) (i : Issue) : Except Fault Str :=
  match env.parse i.URL with
  | none => .ok []
  | some u =>
    let parts := split '/' u.Path
    if parts.length < 2 then .error .panic
    else .ok (join ['/'] (parts.take (parts.length - 2)))

/-- The method `Issue.ProviderURL`; the discarded parse error leaves a nil
`*url.URL`, whose dereference panics. -/
def ProviderURL (env : Env) (i : Issue) : Except Fault Str :=
  match env.parse i.URL with
  | none => .error .panic
  | some u => .ok (u.Scheme ++ "://".toList ++ u.Host)

/-- The method `Issue.GetRelativeIssueURL`. -/
def GetRelativeIssueURL (env : Env) (i : Issue) (target : Str) : Except Fault Str :=
  if contains "://".toList target then .ok target
  else
    match env.parse target with
    | none => .ok []
    | some u =>
      match (if u.Path = [] then Path env i else .ok u.Path) with
      | .error e => .error e
      | .ok path =>
        match ProviderURL env i with
        | .error e => .error e
        | .ok base => .ok (base ++ path ++ "/issues/".toList ++ u.Fragment)

/-- The method `Issue.IsEpic`. -/
def IsEpic (env : Env) (i : Issue) : Bool := i.Labels.any (fun l => l.Name = env.epicLabel)

/-- The method `Issue.IsClosed`. -/
def IsClosed (i : Issue) : Bool := i.State = "closed".toList

/-- The method `Issue.IsReady`. -/
def IsReady (i : Issue) : Bool := !i.IsOrphan && i.DependsOn.length = 0

/-- The method `Issue.IsPR`; an issue of neither provider reaches
`panic("should not happen")`, a GitHub issue without proxy a nil dereference. -/
def IsPR (i : Issue) : Except Fault Bool :=
  match i.Provider with
  | .github =>
    match i.GitHub with
    | some g => .ok g.hasPullRequestLinks
    | none => .error .panic
  | .gitlab => .ok false
  | .unknown => .error .panic

/-! ## `Issues.prepare` -/

/-- The collection together with the memory its pointers point into. -/
structure State where
  heap : Heap
  issues : Issues

/-- Update the record at an address. -/
def State.modify (st : State) (p : Ptr) (f : Issue → Issue) : State :=
  { st with heap := st.heap.modify p f }

/-- Body of the first loop of `prepare`: reset the derived relation fields. -/
def resetIssue (i : Issue) : Issue :=
  { i with DependsOn := [], Blocks := [], IsOrphan := true, weightMultiplier := 1,
           BaseWeight := 1 }

/-- First loop of `prepare` (lines 371-377). -/
def resetPass (h : Heap) (m : Issues) : Heap :=
  m.foldl (fun h e => h.modify e.2 resetIssue) h

/-- The last submatch, `match[len(match)-1]`. -/
def lastGroup (m : List Str) : Str := m.getLastD []

/-- Body of the depends-on loop (lines 401-411) for one match. -/
def applyDependsOn (env : Env) (p : Ptr) (st : State) (m : List Str) : Except Fault State :=
  match GetRelativeIssueURL env (st.heap p) (lastGroup m) with
  | .error e => .error e
  | .ok num =>
    match st.issues.get num with
    | none => .ok (st.modify p (fun i => { i with Errors := i.Errors ++ [.parentNotFound num] }))
    | some dep =>
      let st1 := st.modify p (fun i => { i with DependsOn := i.DependsOn ++ [dep] })
      let st2 := st1.modify dep (fun i => { i with Blocks := i.Blocks ++ [p] })
      let st3 := st2.modify p (fun i => { i with IsOrphan := false })
      .ok (st3.modify dep (fun i => { i with IsOrphan := false }))

/-- Body of the blocks loop (lines 415-424) for one match. -/
def applyBlocks (env : Env) (p : Ptr) (st : State) (m : List Str) : Except Fault State :=
  match GetRelativeIssueURL env (st.heap p) (lastGroup m) with
  | .error e => .error e
  | .ok num =>
    match st.issues.get num with
    | none => .ok (st.modify p (fun i => { i with Errors := i.Errors ++ [.childNotFound num] }))
    | some dep =>
      let st1 := st.modify dep (fun i => { i with DependsOn := i.DependsOn ++ [p] })
      let st2 := st1.modify p (fun i => { i with Blocks := i.Blocks ++ [dep] })
      let st3 := st2.modify p (fun i => { i with IsOrphan := false })
      .ok (st3.modify dep (fun i => { i with IsOrphan := false }))

/-- A loop over the matches of a pattern, stopping at a fault. -/
def forMatches (f : State → List Str → Except Fault State) :
    List (List Str) → State → Except Fault State
  | [], st => .ok st
  | m :: ms, st =>
    match f st m with
    | .error e => .error e
    | .ok st1 => forMatches f ms st1

/-- The duplicate directive (lines 383-385). -/
def applyDuplicate (env : Env) (p : Ptr) (st : State) : Except Fault State :=
  match FindStringSubmatch isDuplicateRegex (st.heap p).Body with
  | none => .ok st
  | some m =>
    match GetRelativeIssueURL env (st.heap p) (lastGroup m) with
    | .error e => .error e
    | .ok u => .ok (st.modify p (fun i => { i with Duplicates := i.Duplicates ++ [u] }))

/-- The weight-multiplier directive (lines 387-389). -/
def applyWeightMultiplier (p : Ptr) (st : State) : State :=
  match FindStringSubmatch weightMultiplierRegex (st.heap p).Body with
  | none => st
  | some m => st.modify p (fun i => { i with weightMultiplier := Atoi (lastGroup m) })

/-- The base-weight directive (lines 396-398). -/
def applyBaseWeight (p : Ptr) (st : State) : State :=
  match FindStringSubmatch baseWeightRegex (st.heap p).Body with
  | none => st
  | some m => st.modify p (fun i => { i with BaseWeight := Atoi (lastGroup m) })

/-- Body of the second loop of `prepare` (lines 379-425) for the issue at `p`. -/
def directives (env : Env) (st : State) (p : Ptr) : Except Fault State :=
  if (st.heap p).Body = [] then .ok st
  else
    match applyDuplicate env p st with
    | .error e => .error e
    | .ok st1 =>
      let st2 := applyWeightMultiplier p st1
      match FindStringSubmatch hideFromRoadmapRegex (st2.heap p).Body with
      | some _ => .ok { st2 with issues := st2.issues.delete (st2.heap p).URL }
      | none =>
        let st3 := applyBaseWeight p st2
        match forMatches (applyDependsOn env p)
            (FindAllStringSubmatch dependsOnRegex (st3.heap p).Body) st3 with
        | .error e => .error e
        | .ok st4 =>
          forMatches (applyBlocks env p)
            (FindAllStringSubmatch blocksRegex (st4.heap p).Body) st4

/-- Second loop of `prepare` (lines 378-426).  `order` is the sequence of
entries of the map when the loop starts; an entry deleted before the loop
reaches it is not visited. -/
def directivePass (env : Env) : Issues → State → Except Fault State
  | [], st => .ok st
  | (k, _) :: order, st =>
    match st.issues.get k with
    | none => directivePass env order st
    | some p =>
      match directives env st p with
      | .error e => .error e
      | .ok st1 => directivePass env order st1

/-- Third loop of `prepare` (lines 427-434). -/
def hidingPass : Issues → Heap → Except Fault Heap
  | [], h => .ok h
  | (_, p) :: m, h =>
    let h1 := if (h p).Duplicates.length > 0 then h.modify p (fun i => { i with Hidden := true })
              else h
    match IsPR (h1 p) with
    | .error e => .error e
    | .ok true => hidingPass m (h1.modify p (fun i => { i with Hidden := true }))
    | .ok false => hidingPass m h1

/-- The loop shared by `BlocksAnEpic` and `DependsOnAnEpic`: return true at
the first dependency that is an epic or for which the recursive call says
true. -/
def epicLoop (isEpic : Ptr → Bool) (recur : Ptr → Except Fault Bool) :
    List Ptr → Except Fault Bool
  | [] => .ok false
  | d :: ds =>
    if isEpic d then .ok true
    else
      match recur d with
      | .error e => .error e
      | .ok true => .ok true
      | .ok false => epicLoop isEpic recur ds

/-- The method `Issue.BlocksAnEpic`; `fuel` bounds the depth of the recursion. -/
def BlocksAnEpic (env : Env) (h : Heap) : Nat → Issue → Except Fault Bool
  | 0, _ => .error .fuel
  | fuel + 1, i =>
    epicLoop (fun d => IsEpic env (h d)) (fun d => BlocksAnEpic env h fuel (h d)) i.Blocks

/-- The method `Issue.DependsOnAnEpic`; `fuel` bounds the depth of the
recursion. -/
def DependsOnAnEpic (env : Env) (h : Heap) : Nat → Issue → Except Fault Bool
  | 0, _ => .error .fuel
  | fuel + 1, i =>
    epicLoop (fun d => IsEpic env (h d)) (fun d => DependsOnAnEpic env h fuel (h d)) i.DependsOn

/-- The right-hand side of the assignment in `processEpicLinks`, with the
short-circuit evaluation of `&&` and `||`. -/
def linkedWithEpic (env : Env) (h : Heap) (fuel : Nat) (i : Issue) : Except Fault Bool :=
  if i.Hidden then .ok false
  else if IsEpic env i then .ok true
  else
    match BlocksAnEpic env h fuel i with
    | .error e => .error e
    | .ok true => .ok true
    | .ok false => DependsOnAnEpic env h fuel i

/-- The method `Issues.processEpicLinks`. -/
def processEpicLinks (env : Env) (fuel : Nat) : Issues → Heap → Except Fault Heap
  | [], h => .ok h
  | (_, p) :: m, h =>
    match linkedWithEpic env h fuel (h p) with
    | .error e => .error e
    | .ok b => processEpicLinks env fuel m (h.modify p (fun i => { i with LinkedWithEpic := b }))

/-- The method `Issues.prepare`. -/
def prepare (env : Env) (fuel : Nat) (st : State) : Except Fault State :=
  match directivePass env st.issues ⟨resetPass st.heap st.issues, st.issues⟩ with
  | .error e => .error e
  | .ok st1 =>
    match hidingPass st1.issues st1.heap with
    | .error e => .error e
    | .ok h2 =>
      match processEpicLinks env fuel st1.issues h2 with
      | .error e => .error e
      | .ok h3 => .ok ⟨h3, st1.issues⟩

/-! ## Weights -/

/-- The method `IssueSlice.ToMap`. -/
def ToMap (h : Heap) (s : IssueSlice) : Issues :=
  s.foldl (fun m p => m.put (h p).URL p) []

/-- The method `Issues.ToSlice`. -/
def ToSlice (m : Issues) : IssueSlice := m.map Prod.snd

/-- The method `IssueSlice.Unique`. -/
def Unique (h : Heap) (s : IssueSlice) : IssueSlice := ToSlice (ToMap h s)

/-- The loop of `WeightMultiplier`: `multiplier *= dep.WeightMultiplier()`. -/
def mulLoop (recur : Ptr → Except Fault Int) : List Ptr → Int → Except Fault Int
  | [], acc => .ok acc
  | d :: ds, acc =>
    match recur d with
    | .error e => .error e
    | .ok v => mulLoop recur ds (wrapInt (acc * v))

/-- The loop of `Weight`: `weight += dep.Weight()`. -/
def addLoop (recur : Ptr → Except Fault Int) : List Ptr → Int → Except Fault Int
  | [], acc => .ok acc
  | d :: ds, acc =>
    match recur d with
    | .error e => .error e
    | .ok v => addLoop recur ds (wrapInt (acc + v))

/-- The method `Issue.WeightMultiplier`; `fuel` bounds the depth of the
recursion. -/
def WeightMultiplier (h : Heap) : Nat → Issue → Except Fault Int
  | 0, _ => .error .fuel
  | fuel + 1, i =>
    mulLoop (fun d => WeightMultiplier h fuel (h d)) (Unique h i.Blocks) i.weightMultiplier

/-- The method `Issue.Weight`; `fuel` bounds the depth of the recursion. -/
def Weight (h : Heap) : Nat → Issue → Except Fault Int
  | 0, _ => .error .fuel
  | fuel + 1, i =>
    match addLoop (fun d => Weight h fuel (h d)) (Unique h i.Blocks) i.BaseWeight with
    | .error e => .error e
    | .ok w =>
      match WeightMultiplier h fuel i with
      | .error e => .error e
      | .ok m => .ok (wrapInt (w * m))

/-! ## Auxiliary notions for the proofs -/

/-- The pointers stored in a collection. -/
def vals (m : Issues) : List Ptr := m.map Prod.snd

/-- The keys of a collection. -/
def keys (m : Issues) : List Str := m.map Prod.fst

/-- The edge "a depends on b", as the depends-on and blocks loops record it:
`b` is appended to `a.DependsOn`, `a` to `b.Blocks`, and `IsOrphan` is cleared
on both. -/
def addEdge (h : Heap) (a b : Ptr) : Heap := fun q =>
  { h q with
    DependsOn := if q = a then (h q).DependsOn ++ [b] else (h q).DependsOn
    Blocks := if q = b then (h q).Blocks ++ [a] else (h q).Blocks
    IsOrphan := if q = a ∨ q = b then false else (h q).IsOrphan }

/-- The kinds of update the second loop of `prepare` performs. -/
inductive Kind where
  | dup : Kind
  | wm : Kind
  | bw : Kind
  | hide : Kind
  | err : Kind
  | dep : Kind
  | blk : Kind
  deriving DecidableEq, Repr

/-- One update of the second loop of `prepare`, made while the issue at `p` is
visited. -/
inductive Step (env : Env) (p : Ptr) : Kind → State → State → Prop where
  | dup (st : State) (u : Str) :
      Step env p .dup st (st.modify p (fun i => { i with Duplicates := i.Duplicates ++ [u] }))
  | wm (st : State) (v : Int) :
      Step env p .wm st (st.modify p (fun i => { i with weightMultiplier := v }))
  | bw (st : State) (v : Int) :
      Step env p .bw st (st.modify p (fun i => { i with BaseWeight := v }))
  | hide (st : State)
      (hh : FindStringSubmatch hideFromRoadmapRegex (st.heap p).Body ≠ none) :
      Step env p .hide st { st with issues := st.issues.delete (st.heap p).URL }
  | err (st : State) (e : IssueError) :
      Step env p .err st (st.modify p (fun i => { i with Errors := i.Errors ++ [e] }))
  | dep (st : State) (m : List Str) (num : Str) (d : Ptr)
      (hm : m ∈ FindAllStringSubmatch dependsOnRegex (st.heap p).Body)
      (hnum : GetRelativeIssueURL env (st.heap p) (lastGroup m) = .ok num)
      (hget : st.issues.get num = some d) :
      Step env p .dep st ⟨addEdge st.heap p d, st.issues⟩
  | blk (st : State) (m : List Str) (num : Str) (d : Ptr)
      (hm : m ∈ FindAllStringSubmatch blocksRegex (st.heap p).Body)
      (hnum : GetRelativeIssueURL env (st.heap p) (lastGroup m) = .ok num)
      (hget : st.issues.get num = some d) :
      Step env p .blk st ⟨addEdge st.heap d p, st.issues⟩

/-- A run of updates whose visited issue and kind satisfy `A`; the visited
issue is in the collection when the update is made. -/
inductive Steps (env : Env) (A : Ptr → Kind → Prop) : State → State → Prop where
  | refl (st : State) : Steps env A st st
  | tail {st s1 s2 : State} {p : Ptr} {k : Kind} :
      Steps env A st s1 → A p k → p ∈ vals s1.issues → Step env p k s1 s2 → Steps env A st s2

/-- The fields of an issue that come from the tracker and that no pass
writes. -/
def SameInput (i j : Issue) : Prop :=
  i.URL = j.URL ∧ i.Body = j.Body ∧ i.Labels = j.Labels ∧ i.State = j.State ∧
    i.Provider = j.Provider ∧ i.GitHub = j.GitHub ∧ i.Number = j.Number ∧
    i.Title = j.Title ∧ i.RepoURL = j.RepoURL ∧ i.Assignees = j.Assignees

/-- The collection is keyed by URL, and its keys are distinct. -/
def WF (st : State) : Prop :=
  (∀ e ∈ st.issues, (st.heap e.2).URL = e.1) ∧ (keys st.issues).Nodup

/-- The body carries no hide marker. -/
def NoHide (i : Issue) : Prop := FindStringSubmatch hideFromRoadmapRegex i.Body = none

instance (i : Issue) : Decidable (NoHide i) := by unfold NoHide; infer_instance

/-- The edge "a depends on b" is recorded at both ends, and neither end is an
orphan. -/
def Linked (h : Heap) (a b : Ptr) : Prop :=
  b ∈ (h a).DependsOn ∧ a ∈ (h b).Blocks ∧ (h a).IsOrphan = false ∧ (h b).IsOrphan = false

/-! ## Example collections -/

/-- An open GitLab issue with the given URL, body and label names, derived
fields at their defaults. -/
def mkIssue (url body : String) (labels : List String) : Issue :=
  { GitHub := none, Provider := .gitlab, DependsOn := [], Blocks := [], weightMultiplier := 1,
    BaseWeight := 1, IsOrphan := true, Hidden := false, Duplicates := [],
    LinkedWithEpic := false, Errors := [], Number := 0, Title := [], State := "open".toList,
    Body := body.toList, RepoURL := [], URL := url.toList,
    Labels := labels.map (fun l => ⟨l.toList, []⟩), Assignees := [] }

/-- The heap holding the listed issues at the addresses 0, 1, ... -/
def heapOf (l : List Issue) : Heap := fun p => l.getD p (mkIssue "" "" [])

/-- The collection of the listed issues, keyed by URL and visited in the order
of the list. -/
def stateOf (l : List Issue) : State :=
  ⟨heapOf l, (List.range l.length).map (fun p => ((heapOf l p).URL, p))⟩

/-- Issue 1 says "depends on #2"; issue 2 has an empty body. -/
def dependsState : State :=
  stateOf [mkIssue "https://github.com/o/r/issues/1" "depends on #2" [],
    mkIssue "https://github.com/o/r/issues/2" "" []]

/-- The body of the issue has a depends-on or blocks phrase whose reference
token resolves to the URL of the issue itself. -/
def SelfRef (env : Env) (i : Issue) : Prop :=
  ∃ m ∈ FindAllStringSubmatch dependsOnRegex i.Body ++ FindAllStringSubmatch blocksRegex i.Body,
    GetRelativeIssueURL env i (lastGroup m) = .ok i.URL

instance (env : Env) (i : Issue) : Decidable (SelfRef env i) := by
  unfold SelfRef; infer_instance

/-- Issue 1 says "Blocks #2"; issue 2 has an empty body. -/
def blocksState : State :=
  stateOf [mkIssue "https://github.com/o/r/issues/1" "Blocks #2" [],
    mkIssue "https://github.com/o/r/issues/2" "" []]

/-- An epic, issue 1, whose body says "depends on #1". -/
def selfState : State :=
  stateOf [mkIssue "https://github.com/o/r/issues/1" "depends on #1" ["epic"]]

/-- The value is a Go `int`. -/
def IsInt (x : Int) : Prop := minInt ≤ x ∧ x ≤ maxInt

instance (x : Int) : Decidable (IsInt x) := by unfold IsInt; infer_instance

/-- The reference definition of the weights (spec, section 4.3), as its
recursive equations: `M` is the weight multiplier and `W` the weight of every
issue, the issues of `Blocks` being counted once each, in Go `int`
arithmetic. -/
def IsReferenceWeight (h : Heap) (W M : Ptr → Int) : Prop :=
  ∀ p, M p = wrapInt ((h p).weightMultiplier * Finset.prod (h p).Blocks.toFinset M) ∧
    W p = wrapInt (((h p).BaseWeight + Finset.sum (h p).Blocks.toFinset W) * M p)

/-- The reference multiplier, unrolled to a given depth. -/
def refMultiplier (h : Heap) : Nat → Ptr → Int
  | 0, _ => 0
  | n + 1, p => wrapInt ((h p).weightMultiplier * Finset.prod (h p).Blocks.toFinset (refMultiplier h n))

/-- The reference weight, unrolled to a given depth. -/
def refWeight (h : Heap) : Nat → Ptr → Int
  | 0, _ => 0
  | n + 1, p =>
    wrapInt (((h p).BaseWeight + Finset.sum (h p).Blocks.toFinset (refWeight h n))
      * refMultiplier h (n + 1) p)

/-- The heap in which the issue at `x` has the given `Blocks`. -/
def setBlocks (h : Heap) (x : Ptr) (l : IssueSlice) : Heap :=
  h.modify x (fun i => { i with Blocks := l })

/-- Issue X (address 0, base weight 1) blocks Y and Z (addresses 1 and 2, base
weight 2 each); all multipliers are 1. -/
def weightHeap : Heap :=
  heapOf [{ mkIssue "https://github.com/o/r/issues/1" "" [] with Blocks := [1, 2] },
    { mkIssue "https://github.com/o/r/issues/2" "" [] with BaseWeight := 2 },
    { mkIssue "https://github.com/o/r/issues/3" "" [] with BaseWeight := 2 }]

/-- The URL of the issue at an address. -/
def urlOf (h : Heap) (p : Ptr) : Str := (h p).URL

/-- The submatches `m` are those of the match of `re` at the first position of
`body` at which `re` matches. -/
def FirstMatch (re : Re) (body : Str) (m : List Str) : Prop :=
  ∃ pre suf rest, body = pre ++ suf ∧ matchAt re suf = some (m, rest) ∧
    ∀ pre1 t, pre = pre1 ++ t → t ≠ [] → matchAt re (t ++ suf) = none

/-- One issue whose body has two weight-multiplier, two base-weight and two
duplicate directives. -/
def twiceState : State :=
  stateOf [mkIssue "https://github.com/o/r/issues/1"
    ("depviz.weight_multiplier: 2\ndepviz.weight_multiplier: 5\n" ++
      "depviz.base_weight: 3\ndepviz.base_weight: 7\nduplicate #8\nduplicate #9") []]

/-- One issue whose body is "depviz.weight_multiplier: 2" followed by
"depviz.weight_multiplier: 5". -/
def multiplierState : State :=
  stateOf [mkIssue "https://github.com/o/r/issues/1"
    "depviz.weight_multiplier: 2\ndepviz.weight_multiplier: 5" []]

/-- Issue 1 depends on the issues 2, 3 and 4, whose bodies are empty. -/
def threeState : State :=
  stateOf [mkIssue "https://github.com/o/r/issues/1"
      "depends on #2, depends on #3, depends on #4" [],
    mkIssue "https://github.com/o/r/issues/2" "" [],
    mkIssue "https://github.com/o/r/issues/3" "" [],
    mkIssue "https://github.com/o/r/issues/4" "" []]

/-- Issue 1 depends on the issues 2, 3 and 4, and issue 2 says "blocks #1". -/
def threeBlockedState : State :=
  stateOf [mkIssue "https://github.com/o/r/issues/1"
      "depends on #2, depends on #3, depends on #4" [],
    mkIssue "https://github.com/o/r/issues/2" "blocks #1" [],
    mkIssue "https://github.com/o/r/issues/3" "" [],
    mkIssue "https://github.com/o/r/issues/4" "" []]

/-- No blocks phrase of an issue of the collection resolves to the URL of the
issue at `a`. -/
def NoBlocksInto (env : Env) (st : State) (a : Ptr) : Prop :=
  ∀ p ∈ vals st.issues, ∀ m ∈ FindAllStringSubmatch blocksRegex (st.heap p).Body,
    GetRelativeIssueURL env (st.heap p) (lastGroup m) ≠ .ok (st.heap a).URL

instance (env : Env) (st : State) (a : Ptr) : Decidable (NoBlocksInto env st a) := by
  unfold NoBlocksInto; infer_instance

/-- Issue 1 depends on issue 2, which carries the hide marker; issue 3 refers
to an issue that does not exist. -/
def hiddenTargetState : State :=
  stateOf [mkIssue "https://github.com/o/r/issues/1" "depends on #2" [],
    mkIssue "https://github.com/o/r/issues/2" "depviz.hide_from_roadmap" [],
    mkIssue "https://github.com/o/r/issues/3" "depends on #9" []]

/-- Two heaps agree on what the epic-linkage pass reads. -/
def EpicSame (h h' : Heap) : Prop :=
  ∀ q, (h q).Hidden = (h' q).Hidden ∧ (h q).Labels = (h' q).Labels ∧
    (h q).Blocks = (h' q).Blocks ∧ (h q).DependsOn = (h' q).DependsOn

/-- Issue X (address 0) blocks Y and Z (addresses 1 and 2), which both block W
(address 3), and W blocks nothing; all base weights and multipliers are 1. -/
def diamondHeap : Heap :=
  heapOf [{ mkIssue "https://github.com/o/r/issues/1" "" [] with Blocks := [1, 2] },
    { mkIssue "https://github.com/o/r/issues/2" "" [] with Blocks := [3] },
    { mkIssue "https://github.com/o/r/issues/3" "" [] with Blocks := [3] },
    mkIssue "https://github.com/o/r/issues/4" "" []]

/-- No depends-on or blocks phrase of an issue of the collection resolves to
the URL of the issue at `a`. -/
def NoRefInto (env : Env) (st : State) (a : Ptr) : Prop :=
  ∀ p ∈ vals st.issues, ∀ m ∈ FindAllStringSubmatch dependsOnRegex (st.heap p).Body ++
      FindAllStringSubmatch blocksRegex (st.heap p).Body,
    GetRelativeIssueURL env (st.heap p) (lastGroup m) ≠ .ok (st.heap a).URL

instance (env : Env) (st : State) (a : Ptr) : Decidable (NoRefInto env st a) := by
  unfold NoRefInto; infer_instance

/-- One issue, which says "depends on #9"; there is no issue 9. -/
def unresolvedState : State :=
  stateOf [mkIssue "https://github.com/o/r/issues/1" "depends on #9" []]

/-- Issue 1 says "depends on #9", and there is no issue 9; issue 2 says
"depends on #1". -/
def referencedState : State :=
  stateOf [mkIssue "https://github.com/o/r/issues/1" "depends on #9" [],
    mkIssue "https://github.com/o/r/issues/2" "depends on #1" []]

instance (st : State) : Decidable (WF st) := by unfold WF; infer_instance

/-! ## Normalisation, and the two filters -/

/-- Dereference of a pointer field of a raw record; nil panics. -/
def deref {α : Type} : Option α → Except Fault α
  | some a => .ok a
  | none => .error .panic

/-- The loop over the labels in `FromGitHubIssue` (lines 80-85). -/
def githubLabels : List GitHubLabel → Except Fault (List IssueLabel)
  | [] => .ok []
  | l :: ls =>
    match deref l.Name, deref l.Color with
    | .ok n, .ok c =>
      match githubLabels ls with
      | .ok rest => .ok (⟨n, c⟩ :: rest)
      | .error e => .error e
    | _, _ => .error .panic

/-- The loop over the assignees in `FromGitHubIssue` (lines 86-95). -/
def githubAssignees : List GitHubUser → Except Fault (List Profile)
  | [] => .ok []
  | a :: as =>
    match deref a.Login with
    | .ok login =>
      match githubAssignees as with
      | .ok rest => .ok (⟨a.Name.getD login, login⟩ :: rest)
      | .error e => .error e
    | .error e => .error e

/-- The function `FromGitHubIssue`, for a non-nil `input`.  The fields the
struct literal does not name have their zero values. -/
def FromGitHubIssue (input : GitHubIssue) : Except Fault Issue :=
  match deref input.Number, deref input.Title, deref input.State, deref input.HTMLURL,
      deref input.RepositoryURL with
  | .ok number, .ok title, .ok state, .ok url, .ok repoURL =>
    match githubLabels input.Labels with
    | .error e => .error e
    | .ok labels =>
      match githubAssignees input.Assignees with
      | .error e => .error e
      | .ok assignees =>
        .ok { GitHub := some input, Provider := .github, DependsOn := [], Blocks := [],
              weightMultiplier := 0, BaseWeight := 0, IsOrphan := false, Hidden := false,
              Duplicates := [], LinkedWithEpic := false, Errors := [], Number := number,
              Title := title, State := state, Body := input.Body.getD [], RepoURL := repoURL,
              URL := url, Labels := labels, Assignees := assignees }
  | _, _, _, _, _ => .error .panic

/-- The function `FromGitLabIssue`, for a non-nil `input`. -/
def FromGitLabIssue (input : GitLabIssue) : Issue :=
  { GitHub := none, Provider := .gitlab, DependsOn := [], Blocks := [], weightMultiplier := 0,
    BaseWeight := 0, IsOrphan := false, Hidden := false, Duplicates := [],
    LinkedWithEpic := false, Errors := [], Number := input.IID, Title := input.Title,
    State := input.State, Body := input.Description, RepoURL := input.LinksProject,
    URL := input.WebURL, Labels := input.Labels.map (fun l => ⟨l, "cccccc".toList⟩),
    Assignees := input.Assignees.map (fun a => ⟨a.Name, a.Username⟩) }

/-- The method `Issues.HideClosed`. -/
def HideClosed (m : Issues) (h : Heap) : Heap :=
  m.foldl (fun h e => if IsClosed (h e.2) then h.modify e.2 (fun i => { i with Hidden := true })
    else h) h

/-- The method `Issues.HideOrphans`. -/
def HideOrphans (m : Issues) (h : Heap) : Heap :=
  m.foldl (fun h e =>
    if (h e.2).IsOrphan || !(h e.2).LinkedWithEpic then
      h.modify e.2 (fun i => { i with Hidden := true })
    else h) h

/-- A raw GitHub record of a pull request. -/
def pullRecord : GitHubIssue :=
  { Number := some 3, Title := some "a pull request".toList, State := some "closed".toList,
    Body := none, HTMLURL := some "https://github.com/o/r/pull/3".toList,
    RepositoryURL := some "https://api.github.com/repos/o/r".toList,
    Labels := [⟨some "epic".toList, some "ff0000".toList⟩],
    Assignees := [⟨some "alice".toList, none⟩], hasPullRequestLinks := true }

/-- Issue 1 says "dup of #2"; issue 2 has an empty body; number 3 is a closed
GitHub pull request with the epic label. -/
def hidingState : State :=
  stateOf [mkIssue "https://github.com/o/r/issues/1" "dup of #2" [],
    mkIssue "https://github.com/o/r/issues/2" "" [],
    { mkIssue "https://github.com/o/r/pull/3" "" ["epic"] with
      Provider := .github, GitHub := some pullRecord, State := "closed".toList }]

/-- One open issue with the epic label and an empty body, not a pull request,
that is hidden, linked with an epic and no orphan when the operations start. -/
def alreadyHiddenState : State :=
  stateOf [{ mkIssue "https://github.com/o/r/issues/1" "" ["epic"] with
    Hidden := true, LinkedWithEpic := true, IsOrphan := false }]

/-- An issue carrying the epic label is reachable from the issue at `p` by one
or more edges of the relation `next` (`Issue.Blocks` or `Issue.DependsOn`). -/
def ReachesEpic (env : Env) (h : Heap) (next : Issue → IssueSlice) (p : Ptr) : Prop :=
  ∃ e, Relation.TransGen (fun a b => b ∈ next (h a)) p e ∧ IsEpic env (h e) = true

/-- The reference definition of "linked with epic" (spec, section 4.3): the
issue is not hidden, and it carries the epic label, or transitively blocks an
issue that does, or transitively depends on an issue that does. -/
def LinkedSpec (env : Env) (h : Heap) (p : Ptr) : Prop :=
  (h p).Hidden = false ∧
    (IsEpic env (h p) = true ∨ ReachesEpic env h Issue.Blocks p ∨
      ReachesEpic env h Issue.DependsOn p)

/-- The epic E (issue 1) says "depends on #2"; issue 2, F, has no label; issue
3 is related to neither. -/
def epicState : State :=
  stateOf [mkIssue "https://github.com/o/r/issues/1" "depends on #2" ["epic"],
    mkIssue "https://github.com/o/r/issues/2" "" [],
    mkIssue "https://github.com/o/r/issues/3" "" []]

/-- Issue 1 carries the hide marker (in upper case) next to a depends-on phrase
that resolves to issue 2, a blocks phrase that resolves to no issue and a
base-weight directive; issue 2 has an empty body. -/
def hideState : State :=
  stateOf [mkIssue "https://github.com/o/r/issues/1"
      "DEPVIZ.HIDE_FROM_ROADMAP depends on #2, blocks #9, depviz.base_weight: 5" [],
    mkIssue "https://github.com/o/r/issues/2" "" []]

/-- One issue whose weight-multiplier and base-weight directives carry
`2 ^ 63`, the least value above the largest `int`. -/
def overflowState : State :=
  stateOf [mkIssue "https://github.com/o/r/issues/1"
    "depviz.weight_multiplier: 9223372036854775808 depviz.base_weight: 9223372036854775808" []]

/-- A raw GitHub record of an issue with all fields present. -/
def issueRecord : GitHubIssue :=
  { Number := some 7, Title := some "an issue".toList, State := some "open".toList,
    Body := some "depends on #2".toList,
    HTMLURL := some "https://github.com/o/r/issues/7".toList,
    RepositoryURL := some "https://api.github.com/repos/o/r".toList,
    Labels := [⟨some "bug".toList, some "ff0000".toList⟩],
    Assignees := [⟨some "alice".toList, some "Alice".toList⟩, ⟨some "bob".toList, none⟩],
    hasPullRequestLinks := false }

/-- A raw GitLab record of an issue. -/
def labRecord : GitLabIssue :=
  { IID := 7, Title := "an issue".toList, State := "opened".toList,
    WebURL := "https://gitlab.com/o/r/issues/7".toList, Description := "blocks #2".toList,
    LinksProject := "https://gitlab.com/api/v4/projects/1".toList, Labels := ["bug".toList],
    Assignees := [⟨"Alice".toList, "alice".toList⟩] }

/-- An ASCII digit. -/
def isDigitRune (c : Char) : Bool := 48 ≤ c.toNat && c.toNat ≤ 57

/-- A rune that the model of `url.Parse` reads as text of the URL: no `#`, no
`?`, no escape, user information or bracket, no control rune. -/
def plainRune (c : Char) : Bool :=
  !(c == '#' || c == '?' || unmodelledRune c || decide (c.toNat < 32) || c.toNat == 127)

/-- A rune of a path segment. -/
def segmentRune (c : Char) : Bool := plainRune c && !(c == '/')

/-- A rune of a URL scheme in lower case. -/
def schemeRune (c : Char) : Bool :=
  isLowerAscii c || isDigitRune c || c == '+' || c == '-' || c == '.'

/-- A URL scheme in lower case: a letter, then letters, digits, `+`, `-`, `.`. -/
def isScheme : Str → Bool
  | [] => false
  | c :: s => isLowerAscii c && s.all schemeRune

/-- A host, with or without port, that `url.Parse` accepts. -/
def isHost (h : Str) : Bool :=
  h.all (fun c => segmentRune c && !badHostRune c) &&
    !(h.contains ':' && !validPort ((split ':' h).getLastD []))

/-- The URL `scheme://host/owner/repo/issues/N`. -/
def issueURL (scheme host owner repo N : Str) : Str :=
  scheme ++ "://".toList ++ host ++ "/".toList ++ owner ++ "/".toList ++ repo ++
    "/issues/".toList ++ N

/-- Issue `a/b#1` says "depends on owner/repo#12", and `owner/repo#12` is in
the collection. -/
def qualifiedState : State :=
  stateOf [mkIssue "https://github.com/a/b/issues/1" "depends on owner/repo#12" [],
    mkIssue "https://github.com/owner/repo/issues/12" "" []]

/-- Four issues after resolution: issue 1 is closed and linked, issue 2 is an
orphan, issue 3 is open, linked and no orphan, issue 4 is as issue 3 but
hidden already. -/
def filterState : State :=
  stateOf [{ mkIssue "https://github.com/o/r/issues/1" "" [] with
      State := "closed".toList, IsOrphan := false, LinkedWithEpic := true },
    mkIssue "https://github.com/o/r/issues/2" "" [],
    { mkIssue "https://github.com/o/r/issues/3" "" [] with
      IsOrphan := false, LinkedWithEpic := true },
    { mkIssue "https://github.com/o/r/issues/4" "" [] with
      IsOrphan := false, LinkedWithEpic := true, Hidden := true }]

/-- Two issues, each in the `Blocks` of the other. -/
def cycleHeap : Heap :=
  heapOf [{ mkIssue "https://github.com/o/r/issues/1" "" [] with Blocks := [1], DependsOn := [1] },
    { mkIssue "https://github.com/o/r/issues/2" "" [] with Blocks := [0], DependsOn := [0] }]

/-- One issue, `o/r#1`, whose body is "Duplicate of #2". -/
def duplicateOfState : State :=
  stateOf [mkIssue "https://github.com/o/r/issues/1" "Duplicate of #2" []]

/-- One issue, `o/r#1`, whose body is "dup of #2". -/
def dupOfState : State :=
  stateOf [mkIssue "https://github.com/o/r/issues/1" "dup of #2" []]

/-! ## Rendering -/

/-- The functions `issue.go` calls for rendering that are not in `issue.go`:
`escape` and `wrap` of package `main`, `html.EscapeString`, and the quoting of
the verb `%q` (`strconv.Quote`). -/
structure Render where
  escape : Str → Str
  wrap : Str → Nat → Str
  htmlEscape : Str → Str
  quote : Str → Str

/-- A Go `map[string]string` of attributes: the keys written, each with its
last value. -/
abbrev Attrs := List (String × Str)

/-- The map read `attrs[k]` (`none` when the key is absent). -/
def Attrs.get (a : Attrs) (k : String) : Option Str :=
  match a with
  | [] => none
  | (k1, v) :: rest => if k1 = k then some v else Attrs.get rest k

/-- The map write `attrs[k] = v`. -/
def Attrs.set (a : Attrs) (k : String) (v : Str) : Attrs :=
  match a with
  | [] => [(k, v)]
  | (k1, v1) :: rest => if k1 = k then (k, v) :: rest else (k1, v1) :: Attrs.set rest k v

/-- A call `g.AddNode(parent, name, attrs)`. -/
structure Node where
  parent : Str
  name : Str
  attrs : Attrs
  deriving DecidableEq, Repr

/-- A call `g.AddEdge(src, dst, directed, attrs)`. -/
structure Edge where
  src : Str
  dst : Str
  directed : Bool
  attrs : Attrs
  deriving DecidableEq, Repr

/-- A `gographviz.Graph`, as the calls of `AddNode` and `AddEdge` made on it,
in order.  The library refuses a call only for an attribute name that is not
one of Graphviz; the names `issue.go` uses (`label`, `shape`, `style`, `color`,
`href`, `dir`) are, so the `error` both calls return is nil. -/
structure Graph where
  nodes : List Node
  edges : List Edge
  deriving DecidableEq, Repr

/-- The call `g.AddNode(parent, name, attrs)`. -/
def Graph.AddNode (g : Graph) (parent name : Str) (attrs : Attrs) : Graph :=
  { g with nodes := g.nodes ++ [⟨parent, name, attrs⟩] }

/-- The call `g.AddEdge(src, dst, directed, attrs)`. -/
def Graph.AddEdge (g : Graph) (src dst : Str) (directed : Bool) (attrs : Attrs) : Graph :=
  { g with edges := g.edges ++ [⟨src, dst, directed, attrs⟩] }

/-- The call `strings.Replace(s, old, new, -1)` for a one-rune `old`. -/
def replaceRune (old : Char) (new : Str) : Str → Str
  | [] => []
  | c :: s => (if c == old then new else [c]) ++ replaceRune old new s

/-- The verb `%d` on an `int`. -/
def decimal (n : Int) : Str := (toString n).toList

/-- The method `Issue.NodeName`.  `i.Path()[1:]` panics on an empty path; the
slice is taken on runes (the first rune of the path of a URL with a host is
`/`). -/
def NodeName (env : Env) (i : Issue) : Except Fault Str :=
  match Path env i with
  | .error e => .error e
  | .ok [] => .error .panic
  | .ok (_ :: p) => .ok (p ++ "#".toList ++ decimal i.Number)

/-- The text `err.Error()` of a recorded error. -/
def errorText (r : Render) : IssueError → Str
  | .parentNotFound num => "parent ".toList ++ r.quote num ++ " not found".toList
  | .childNotFound num => "child ".toList ++ r.quote num ++ " not found".toList

/-- The method `Issue.NodeTitle`. -/
def NodeTitle (r : Render) (env : Env) (i : Issue) : Except Fault Str :=
  match NodeName env i with
  | .error e => .error e
  | .ok name =>
    let title0 := name ++ ": ".toList ++ i.Title
    let title1 := replaceRune '|' "-".toList title0
    let title := replaceRune '\n' "<br/>".toList (r.htmlEscape (r.wrap title1 20))
    let labels := (i.Labels.filter
      (fun l => !(l.Name == "t/step".toList || l.Name == "t/epic".toList))).map
      (fun l => "<td bgcolor=\"#".toList ++ l.Color ++ "\">".toList ++ l.Name ++ "</td>".toList)
    let labelsText :=
      if labels.length > 0 then
        "<tr><td><table><tr>".toList ++ join [] labels ++ "</tr></table></td></tr>".toList
      else []
    let assigneeText :=
      if i.Assignees.length > 0 then
        "<tr><td><font color=\"purple\"><i>@".toList ++
          join ", @".toList (i.Assignees.map (fun a => a.Username)) ++
          "</i></font></td></tr>".toList
      else []
    let errorsText :=
      if i.Errors.length > 0 then
        "<tr><td bgcolor=\"red\">ERR: ".toList ++ join "; ".toList (i.Errors.map (errorText r)) ++
          "</td></tr>".toList
      else []
    .ok ("<<table><tr><td>".toList ++ title ++ "</td></tr>".toList ++ labelsText ++
      assigneeText ++ errorsText ++ "</table>>".toList)

/-- The method `Issue.AddNodeToGraph`, with the graph after the call as its
result. -/
def AddNodeToGraph (r : Render) (env : Env) (i : Issue) (g : Graph) (parent : Str) :
    Except Fault Graph :=
  match NodeTitle r env i with
  | .error e => .error e
  | .ok title =>
    let a1 := Attrs.set [] "label" title
    let a2 := a1.set "shape" "record".toList
    let a3 := a2.set "style" "\"rounded,filled\"".toList
    let a4 := a3.set "color" "lightblue".toList
    let a5 := a4.set "href" (r.escape i.URL)
    let a6 := if IsEpic env i then a5.set "shape" "oval".toList else a5
    let a7 :=
      if IsClosed i then a6.set "color" "\"#cccccc33\"".toList
      else if IsReady i then a6.set "color" "pink".toList
      else if IsEpic env i then
        (a6.set "color" "orange".toList).set "style" "\"rounded,filled,bold\"".toList
      else if i.IsOrphan || !i.LinkedWithEpic then a6.set "color" "gray".toList
      else a6
    .ok (g.AddNode parent (r.escape i.URL) a7)

/-- The attributes `AddEdgesToGraph` gives the edge from `i` to its dependency
`d` (lines 296-311). -/
def edgeAttrs (env : Env) (i d : Issue) : Attrs :=
  let a1 := Attrs.set [] "color" "lightblue".toList
  let a2 := a1.set "dir" "none".toList
  let a3 :=
    if IsClosed i || IsClosed d then
      (a2.set "color" "grey".toList).set "style" "dotted".toList
    else a2
  let a4 := if IsReady d then a3.set "color" "pink".toList else a3
  if IsEpic env i then (a4.set "color" "orange".toList).set "style" "dashed".toList else a4

/-- The method `Issue.AddEdgesToGraph`, with the graph after the call as its
result (the `error` returned is nil). -/
def AddEdgesToGraph (r : Render) (env : Env) (h : Heap) (i : Issue) (g : Graph) : Graph :=
  if i.Hidden then g
  else
    i.DependsOn.foldl (fun g d =>
      if (h d).Hidden then g
      else g.AddEdge (r.escape i.URL) (r.escape (h d).URL) true (edgeAttrs env i (h d))) g

/-- Modelled from the spec: the loop of the renderer, which is not in
`issue.go`, calling `AddEdgesToGraph` on every issue of the collection, in the
order in which `range` visits the map. -/
def addAllEdges (r : Render) (env : Env) (h : Heap) (m : Issues) (g : Graph) : Graph :=
  m.foldl (fun g e => AddEdgesToGraph r env h (h e.2) g) g

/-- Library functions for the examples: every text is passed on as it is. -/
def plainRender : Render := ⟨id, fun s _ => s, id, id⟩

/-- The graph on which no call was made. -/
def emptyGraph : Graph := ⟨[], []⟩

/-- A closed issue with the epic label that is ready (no orphan, nothing it
depends on). -/
def closedEpic : Issue :=
  { mkIssue "https://github.com/o/r/issues/1" "" ["epic"] with
    State := "closed".toList, IsOrphan := false, Blocks := [1] }

/-- A closed issue (address 0) that depends on a ready issue (address 1) and on
a hidden one (address 2). -/
def edgeHeap : Heap :=
  heapOf [{ mkIssue "https://github.com/o/r/issues/1" "" [] with
      State := "closed".toList, IsOrphan := false, DependsOn := [1, 2] },
    { mkIssue "https://github.com/o/r/issues/2" "" [] with IsOrphan := false, Blocks := [0] },
    { mkIssue "https://github.com/o/r/issues/3" "" [] with
      IsOrphan := false, Blocks := [0], Hidden := true }]

/-! ## The directive loop as a list of updates -/

/-- An update of the second loop of `prepare`, as data: `edge a b` records
that the issue at `a` depends on the issue at `b`, `hide k` deletes the key
`k` from the map. -/
inductive Op where
  | dup (p : Ptr) (u : Str) : Op
  | wm (p : Ptr) (v : Int) : Op
  | bw (p : Ptr) (v : Int) : Op
  | hide (k : Str) : Op
  | err (p : Ptr) (e : IssueError) : Op
  | edge (a b : Ptr) : Op

/-- The state after an update. -/
def Op.apply : Op → State → State
  | .dup p u, st => st.modify p (fun i => { i with Duplicates := i.Duplicates ++ [u] })
  | .wm p v, st => st.modify p (fun i => { i with weightMultiplier := v })
  | .bw p v, st => st.modify p (fun i => { i with BaseWeight := v })
  | .hide k, st => { st with issues := st.issues.delete k }
  | .err p e, st => st.modify p (fun i => { i with Errors := i.Errors ++ [e] })
  | .edge a b, st => ⟨addEdge st.heap a b, st.issues⟩

/-- The state after a list of updates, made from left to right. -/
def applyOps (ops : List Op) (st : State) : State := ops.foldl (fun s o => o.apply s) st

/-- The update of the duplicate directive (lines 383-385) for the record `i`
at `p`. -/
def planDuplicate (env : Env) (i : Issue) (p : Ptr) : Except Fault (List Op) :=
  match FindStringSubmatch isDuplicateRegex i.Body with
  | none => .ok []
  | some m =>
    match GetRelativeIssueURL env i (lastGroup m) with
    | .error e => .error e
    | .ok u => .ok [.dup p u]

/-- The update of the weight-multiplier directive (lines 387-389). -/
def planWeightMultiplier (i : Issue) (p : Ptr) : List Op :=
  match FindStringSubmatch weightMultiplierRegex i.Body with
  | none => []
  | some m => [.wm p (Atoi (lastGroup m))]

/-- The update of the base-weight directive (lines 396-398). -/
def planBaseWeight (i : Issue) (p : Ptr) : List Op :=
  match FindStringSubmatch baseWeightRegex i.Body with
  | none => []
  | some m => [.bw p (Atoi (lastGroup m))]

/-- The update of the depends-on loop (lines 401-411) for one match, with the
map `lk` for the lookup. -/
def planDependsOn (env : Env) (i : Issue) (lk : Issues) (p : Ptr) (m : List Str) :
    Except Fault Op :=
  match GetRelativeIssueURL env i (lastGroup m) with
  | .error e => .error e
  | .ok num =>
    match lk.get num with
    | none => .ok (.err p (.parentNotFound num))
    | some dep => .ok (.edge p dep)

/-- The update of the blocks loop (lines 415-424) for one match, with the map
`lk` for the lookup. -/
def planBlocks (env : Env) (i : Issue) (lk : Issues) (p : Ptr) (m : List Str) :
    Except Fault Op :=
  match GetRelativeIssueURL env i (lastGroup m) with
  | .error e => .error e
  | .ok num =>
    match lk.get num with
    | none => .ok (.err p (.childNotFound num))
    | some dep => .ok (.edge dep p)

/-- The updates of a loop over the matches of a pattern, stopping at a
fault. -/
def planMatches (f : List Str → Except Fault Op) : List (List Str) → Except Fault (List Op)
  | [] => .ok []
  | m :: ms =>
    match f m with
    | .error e => .error e
    | .ok o =>
      match planMatches f ms with
      | .error e => .error e
      | .ok os => .ok (o :: os)

/-- The updates that the body of the second loop (lines 379-425) makes for the
record `i` at `p`, with the map `lk` for the lookups. -/
def plan (env : Env) (i : Issue) (lk : Issues) (p : Ptr) : Except Fault (List Op) :=
  if i.Body = [] then .ok []
  else
    match planDuplicate env i p with
    | .error e => .error e
    | .ok o1 =>
      match FindStringSubmatch hideFromRoadmapRegex i.Body with
      | some _ => .ok (o1 ++ planWeightMultiplier i p ++ [.hide i.URL])
      | none =>
        match planMatches (planDependsOn env i lk p)
            (FindAllStringSubmatch dependsOnRegex i.Body) with
        | .error e => .error e
        | .ok o4 =>
          match planMatches (planBlocks env i lk p)
              (FindAllStringSubmatch blocksRegex i.Body) with
          | .error e => .error e
          | .ok o5 => .ok (o1 ++ planWeightMultiplier i p ++ planBaseWeight i p ++ o4 ++ o5)

/-- The updates of the second loop for a visiting order, with the records of
`h` and the map `lk` for the lookups. -/
def plans (env : Env) (h : Heap) (lk : Issues) : Issues → Except Fault (List Op)
  | [] => .ok []
  | (_, p) :: order =>
    match plan env (h p) lk p with
    | .error e => .error e
    | .ok a =>
      match plans env h lk order with
      | .error e => .error e
      | .ok b => .ok (a ++ b)

/-- The updates of a visit that returns, none for one that does not. -/
def planOf (env : Env) (h : Heap) (lk : Issues) (e : Str × Ptr) : List Op :=
  match plan env (h e.2) lk e.2 with
  | .error _ => []
  | .ok a => a

/-- No depends-on or blocks phrase of an issue of the collection without the
hide marker resolves to the URL of an issue of the collection that carries
it. -/
def NoHiddenRef (env : Env) (st : State) : Prop :=
  ∀ p ∈ vals st.issues, NoHide (st.heap p) →
    ∀ m ∈ FindAllStringSubmatch dependsOnRegex (st.heap p).Body ++
        FindAllStringSubmatch blocksRegex (st.heap p).Body,
      ∀ a ∈ vals st.issues, NoHide (st.heap a) ∨
        GetRelativeIssueURL env (st.heap p) (lastGroup m) ≠ .ok (st.heap a).URL

instance (env : Env) (st : State) : Decidable (NoHiddenRef env st) := by
  unfold NoHiddenRef; infer_instance

/-- The targets that a list of updates appends to `DependsOn` of the issue at
`q`. -/
def depsOf (q : Ptr) (ops : List Op) : List Ptr :=
  ops.filterMap (fun o => match o with
    | .edge a b => if a = q then some b else none
    | _ => none)

/-- The sources that a list of updates appends to `Blocks` of the issue at
`q`. -/
def blocksOf (q : Ptr) (ops : List Op) : List Ptr :=
  ops.filterMap (fun o => match o with
    | .edge a b => if b = q then some a else none
    | _ => none)

/-- The errors that a list of updates appends to `Errors` of the issue at
`q`. -/
def errorsOf (q : Ptr) (ops : List Op) : List IssueError :=
  ops.filterMap (fun o => match o with
    | .err p e => if p = q then some e else none
    | _ => none)

/-- The URLs that a list of updates appends to `Duplicates` of the issue at
`q`. -/
def duplicatesOf (q : Ptr) (ops : List Op) : List Str :=
  ops.filterMap (fun o => match o with
    | .dup p u => if p = q then some u else none
    | _ => none)

/-- The values that a list of updates writes to `weightMultiplier` of the
issue at `q`. -/
def multipliersOf (q : Ptr) (ops : List Op) : List Int :=
  ops.filterMap (fun o => match o with
    | .wm p v => if p = q then some v else none
    | _ => none)

/-- The values that a list of updates writes to `BaseWeight` of the issue at
`q`. -/
def baseWeightsOf (q : Ptr) (ops : List Op) : List Int :=
  ops.filterMap (fun o => match o with
    | .bw p v => if p = q then some v else none
    | _ => none)

/-- The keys that a list of updates deletes. -/
def hidesOf (ops : List Op) : List Str :=
  ops.filterMap (fun o => match o with
    | .hide k => some k
    | _ => none)

/-- The update records an edge at the issue at `q`. -/
def Op.touches (q : Ptr) : Op → Bool
  | .edge a b => a = q || b = q
  | _ => false

/-- The update writes no list or weight of a record other than the one at
`p`. -/
def Op.own (p : Ptr) : Op → Prop
  | .dup x _ => x = p
  | .wm x _ => x = p
  | .bw x _ => x = p
  | .err x _ => x = p
  | _ => True

/-- The edge that the update records, if it records one, joins issues of
`S`. -/
def Op.within (S : List Ptr) : Op → Prop
  | .edge a b => a ∈ S ∧ b ∈ S
  | _ => True

/-- Two records carry the same derived state: the same dependencies and the
same blocked issues, each as a multiset, the same errors and duplicates, and
the same flags and weight fields. -/
def SameDerived (i j : Issue) : Prop :=
  (i.DependsOn.Perm j.DependsOn ∧ i.Blocks.Perm j.Blocks ∧ i.Errors = j.Errors ∧
      i.Duplicates = j.Duplicates) ∧
    (i.IsOrphan = j.IsOrphan ∧ i.Hidden = j.Hidden ∧ i.LinkedWithEpic = j.LinkedWithEpic) ∧
    i.BaseWeight = j.BaseWeight ∧ i.weightMultiplier = j.weightMultiplier

/-- The same collection, with the map visited in the opposite order. -/
def reversed (st : State) : State := ⟨st.heap, st.issues.reverse⟩

/-- Issue 1 says "depends on #2"; issue 2 carries the hide marker. -/
def hiddenRefState : State :=
  stateOf [mkIssue "https://github.com/o/r/issues/1" "depends on #2" [],
    mkIssue "https://github.com/o/r/issues/2" "depviz.hide_from_roadmap" []]

/-- Issue 1 says "depends on #2" and "blocks #9", and there is no issue 9;
issue 2 has an empty body; issue 3 carries the hide marker next to a phrase
that resolves to issue 1, and no phrase resolves to issue 3. -/
def orderState : State :=
  stateOf [mkIssue "https://github.com/o/r/issues/1" "depends on #2, blocks #9" [],
    mkIssue "https://github.com/o/r/issues/2" "" [],
    mkIssue "https://github.com/o/r/issues/3" "depviz.hide_from_roadmap depends on #1" []]

/-- The update is one of those that the visit of an issue with the hide marker
makes: an append to `Duplicates`, a write of `weightMultiplier`, or the
deletion of a key. -/
def Op.light : Op → Prop
  | .dup _ _ => True
  | .wm _ _ => True
  | .hide _ => True
  | _ => False

/-! # Proofs -/

/-! ## Heaps and collections -/

theorem modify_heap (st : State) (p : Ptr) (f : Issue → Issue) (q : Ptr) :
    (st.modify p f).heap q = if q = p then f (st.heap p) else st.heap q := by
  simp [State.modify, Heap.modify, Heap.set]

theorem modify_issues (st : State) (p : Ptr) (f : Issue → Issue) :
    (st.modify p f).issues = st.issues := rfl

theorem heap_modify_apply (h : Heap) (p : Ptr) (f : Issue → Issue) (q : Ptr) :
    (h.modify p f) q = if q = p then f (h p) else h q := by
  simp [Heap.modify, Heap.set]

theorem addEdge_eq_dep (h : Heap) (p dep : Ptr) :
    Heap.modify (Heap.modify (Heap.modify (Heap.modify h p
      (fun i => { i with DependsOn := i.DependsOn ++ [dep] })) dep
      (fun i => { i with Blocks := i.Blocks ++ [p] })) p
      (fun i => { i with IsOrphan := false })) dep
      (fun i => { i with IsOrphan := false }) = addEdge h p dep := by
  funext q
  by_cases h3 : p = dep
  · subst h3
    by_cases h1 : q = p <;> simp [Heap.modify, Heap.set, addEdge, h1]
  · have h4 : ¬ dep = p := fun e => h3 e.symm
    by_cases h1 : q = p
    · subst h1; simp [Heap.modify, Heap.set, addEdge, h3, h4]
    · by_cases h2 : q = dep
      · subst h2; simp [Heap.modify, Heap.set, addEdge, h3, h4]
      · simp [Heap.modify, Heap.set, addEdge, h1, h2]

theorem addEdge_eq_blk (h : Heap) (p dep : Ptr) :
    Heap.modify (Heap.modify (Heap.modify (Heap.modify h dep
      (fun i => { i with DependsOn := i.DependsOn ++ [p] })) p
      (fun i => { i with Blocks := i.Blocks ++ [dep] })) p
      (fun i => { i with IsOrphan := false })) dep
      (fun i => { i with IsOrphan := false }) = addEdge h dep p := by
  funext q
  by_cases h3 : p = dep
  · subst h3
    by_cases h1 : q = p <;> simp [Heap.modify, Heap.set, addEdge, h1]
  · have h4 : ¬ dep = p := fun e => h3 e.symm
    by_cases h1 : q = p
    · subst h1; simp [Heap.modify, Heap.set, addEdge, h3, h4]
    · by_cases h2 : q = dep
      · subst h2; simp [Heap.modify, Heap.set, addEdge, h3, h4]
      · simp [Heap.modify, Heap.set, addEdge, h1, h2]

theorem applyDependsOn_eq (env : Env) (p : Ptr) (st : State) (m : List Str) :
    applyDependsOn env p st m =
      match GetRelativeIssueURL env (st.heap p) (lastGroup m) with
      | .error e => .error e
      | .ok num =>
        match st.issues.get num with
        | none => .ok (st.modify p (fun i => { i with Errors := i.Errors ++ [.parentNotFound num] }))
        | some dep => .ok ⟨addEdge st.heap p dep, st.issues⟩ := by
  unfold applyDependsOn
  cases GetRelativeIssueURL env (st.heap p) (lastGroup m) with
  | error e => rfl
  | ok num =>
    simp only
    cases st.issues.get num with
    | none => rfl
    | some dep =>
      simp only [State.modify, addEdge_eq_dep]

theorem applyBlocks_eq (env : Env) (p : Ptr) (st : State) (m : List Str) :
    applyBlocks env p st m =
      match GetRelativeIssueURL env (st.heap p) (lastGroup m) with
      | .error e => .error e
      | .ok num =>
        match st.issues.get num with
        | none => .ok (st.modify p (fun i => { i with Errors := i.Errors ++ [.childNotFound num] }))
        | some dep => .ok ⟨addEdge st.heap dep p, st.issues⟩ := by
  unfold applyBlocks
  cases GetRelativeIssueURL env (st.heap p) (lastGroup m) with
  | error e => rfl
  | ok num =>
    simp only
    cases st.issues.get num with
    | none => rfl
    | some dep =>
      simp only [State.modify, addEdge_eq_blk]

theorem get_mem {m : Issues} {k : Str} {p : Ptr} (h : m.get k = some p) : (k, p) ∈ m := by
  induction m with
  | nil => simp [Issues.get] at h
  | cons e rest ih =>
    obtain ⟨k1, p1⟩ := e
    simp only [Issues.get] at h
    split_ifs at h with hk
    · simp only [Option.some.injEq] at h
      subst hk; subst h
      exact List.mem_cons_self _ _
    · exact List.mem_cons_of_mem _ (ih h)

theorem get_mem_vals {m : Issues} {k : Str} {p : Ptr} (h : m.get k = some p) : p ∈ vals m :=
  List.mem_map.mpr ⟨(k, p), get_mem h, rfl⟩

theorem get_of_mem {m : Issues} {k : Str} {p : Ptr} (hnd : (keys m).Nodup) (h : (k, p) ∈ m) :
    m.get k = some p := by
  induction m with
  | nil => simp at h
  | cons e rest ih =>
    obtain ⟨k1, p1⟩ := e
    simp only [keys, List.map_cons, List.nodup_cons] at hnd
    simp only [Issues.get]
    rcases List.mem_cons.mp h with h1 | h1
    · simp only [Prod.mk.injEq] at h1
      obtain ⟨rfl, rfl⟩ := h1
      simp
    · have hne : k1 ≠ k := by
        intro e
        subst e
        exact hnd.1 (List.mem_map.mpr ⟨(k1, p), h1, rfl⟩)
      simp only [hne, if_false]
      exact ih hnd.2 h1

theorem get_none_of_not_mem {m : Issues} {k : Str} (h : k ∉ keys m) : m.get k = none := by
  cases hg : m.get k with
  | none => rfl
  | some p => exact absurd (List.mem_map.mpr ⟨(k, p), get_mem hg, rfl⟩) h

theorem mem_delete {m : Issues} {k : Str} {e : Str × Ptr} :
    e ∈ m.delete k ↔ e ∈ m ∧ e.1 ≠ k := by
  simp [Issues.delete, List.mem_filter]

theorem delete_sublist (m : Issues) (k : Str) : (m.delete k).Sublist m :=
  List.filter_sublist m

theorem keys_delete_nodup {m : Issues} (k : Str) (h : (keys m).Nodup) :
    (keys (m.delete k)).Nodup :=
  ((delete_sublist m k).map Prod.fst).nodup h

/-! ## The updates of the directive loop -/

@[simp] theorem addEdge_DependsOn (h : Heap) (a b q : Ptr) :
    (addEdge h a b q).DependsOn = if q = a then (h q).DependsOn ++ [b] else (h q).DependsOn := rfl

@[simp] theorem addEdge_Blocks (h : Heap) (a b q : Ptr) :
    (addEdge h a b q).Blocks = if q = b then (h q).Blocks ++ [a] else (h q).Blocks := rfl

@[simp] theorem addEdge_IsOrphan (h : Heap) (a b q : Ptr) :
    (addEdge h a b q).IsOrphan = if q = a ∨ q = b then false else (h q).IsOrphan := rfl

theorem addEdge_other (h : Heap) (a b q : Ptr) (ha : q ≠ a) (hb : q ≠ b) :
    addEdge h a b q = h q := by
  simp [addEdge, ha, hb]

theorem SameInput.refl (i : Issue) : SameInput i i := ⟨rfl, rfl, rfl, rfl, rfl, rfl, rfl, rfl, rfl, rfl⟩

theorem SameInput.chain {i j k : Issue} (h1 : SameInput i j) (h2 : SameInput j k) :
    SameInput i k := by
  obtain ⟨a1, a2, a3, a4, a5, a6, a7, a8, a9, a10⟩ := h1
  obtain ⟨b1, b2, b3, b4, b5, b6, b7, b8, b9, b10⟩ := h2
  exact ⟨a1.trans b1, a2.trans b2, a3.trans b3, a4.trans b4, a5.trans b5, a6.trans b6,
    a7.trans b7, a8.trans b8, a9.trans b9, a10.trans b10⟩

theorem SameInput.symm {i j : Issue} (h : SameInput i j) : SameInput j i := by
  obtain ⟨a1, a2, a3, a4, a5, a6, a7, a8, a9, a10⟩ := h
  exact ⟨a1.symm, a2.symm, a3.symm, a4.symm, a5.symm, a6.symm, a7.symm, a8.symm, a9.symm,
    a10.symm⟩

theorem modify_same (f : Issue → Issue) (st : State) (p q : Ptr)
    (hf : ∀ i, SameInput i (f i)) : SameInput (st.heap q) ((st.modify p f).heap q) := by
  rw [modify_heap]
  split_ifs with h
  · rw [h]; exact hf _
  · exact SameInput.refl _

theorem addEdge_same (h : Heap) (a b q : Ptr) : SameInput (h q) (addEdge h a b q) :=
  ⟨rfl, rfl, rfl, rfl, rfl, rfl, rfl, rfl, rfl, rfl⟩

theorem Step.sameInput {env : Env} {p : Ptr} {k : Kind} {st st' : State}
    (h : Step env p k st st') (q : Ptr) : SameInput (st.heap q) (st'.heap q) := by
  cases h with
  | dup | wm | bw | err =>
    apply modify_same
    intro _
    exact ⟨rfl, rfl, rfl, rfl, rfl, rfl, rfl, rfl, rfl, rfl⟩
  | hide => exact SameInput.refl _
  | dep | blk => exact addEdge_same _ _ _ _

theorem Step.sameFlags {env : Env} {p : Ptr} {k : Kind} {st st' : State}
    (h : Step env p k st st') (q : Ptr) :
    (st'.heap q).Hidden = (st.heap q).Hidden ∧
      (st'.heap q).LinkedWithEpic = (st.heap q).LinkedWithEpic := by
  by_cases hq : q = p
  · subst hq; cases h <;> simp [modify_heap, addEdge]
  · cases h <;> simp [modify_heap, addEdge, hq]

theorem Step.sameIssues {env : Env} {p : Ptr} {k : Kind} {st st' : State}
    (h : Step env p k st st') (hk : k ≠ .hide) : st'.issues = st.issues := by
  cases h <;> first | rfl | exact absurd rfl hk

theorem Step.hide_inv {env : Env} {p : Ptr} {st st' : State}
    (h : Step env p .hide st st') :
    st'.heap = st.heap ∧ st'.issues = st.issues.delete (st.heap p).URL ∧
      ¬ NoHide (st.heap p) := by
  cases h with
  | hide _ hh => exact ⟨rfl, rfl, hh⟩

theorem Step.shrinks {env : Env} {p : Ptr} {k : Kind} {st st' : State}
    (h : Step env p k st st') : st'.issues.Sublist st.issues := by
  by_cases hk : k = .hide
  · subst hk
    rw [h.hide_inv.2.1]
    exact delete_sublist _ _
  · rw [h.sameIssues hk]

/-- What an update can do to the relation fields: they only grow, and
`IsOrphan` is only ever cleared. -/
theorem Step.grows {env : Env} {p : Ptr} {k : Kind} {st st' : State}
    (h : Step env p k st st') (q : Ptr) :
    (st.heap q).DependsOn <+: (st'.heap q).DependsOn ∧
      (st.heap q).Blocks <+: (st'.heap q).Blocks ∧
      ((st.heap q).IsOrphan = false → (st'.heap q).IsOrphan = false) := by
  cases h with
  | dup | wm | bw | err =>
    by_cases hq : q = p
    · subst hq; simp [modify_heap]
    · simp [modify_heap, hq]
  | hide => exact ⟨List.prefix_refl _, List.prefix_refl _, id⟩
  | dep | blk =>
    simp only [addEdge_DependsOn, addEdge_Blocks, addEdge_IsOrphan]
    refine ⟨?_, ?_, ?_⟩
    · split_ifs
      · exact List.prefix_append _ _
      · exact List.prefix_refl _
    · split_ifs
      · exact List.prefix_append _ _
      · exact List.prefix_refl _
    · split_ifs
      · exact fun _ => rfl
      · exact id

/-- An update writes only to records of the collection. -/
theorem Step.outside {env : Env} {p : Ptr} {k : Kind} {st st' : State}
    (h : Step env p k st st') (hp : p ∈ vals st.issues) (q : Ptr) (hq : q ∉ vals st.issues) :
    st'.heap q = st.heap q := by
  have hne : q ≠ p := fun e => hq (e ▸ hp)
  cases h with
  | dup | wm | bw | err => simp [modify_heap, hne]
  | hide => rfl
  | dep st m num d hm hnum hget =>
    have hd : q ≠ d := fun e => hq (e ▸ get_mem_vals hget)
    exact addEdge_other _ _ _ _ hne hd
  | blk st m num d hm hnum hget =>
    have hd : q ≠ d := fun e => hq (e ▸ get_mem_vals hget)
    exact addEdge_other _ _ _ _ hd hne

/-- The directive fields of an issue are written only while it is visited,
each by its own kind of update. -/
theorem Step.own {env : Env} {p : Ptr} {k : Kind} {st st' : State}
    (h : Step env p k st st') (q : Ptr) :
    ((st'.heap q).weightMultiplier = (st.heap q).weightMultiplier ∨ (q = p ∧ k = .wm)) ∧
      ((st'.heap q).BaseWeight = (st.heap q).BaseWeight ∨ (q = p ∧ k = .bw)) ∧
      ((st'.heap q).Duplicates = (st.heap q).Duplicates ∨ (q = p ∧ k = .dup)) ∧
      ((st'.heap q).Errors = (st.heap q).Errors ∨ (q = p ∧ k = .err)) := by
  by_cases hq : q = p
  · subst hq; cases h <;> simp [modify_heap, addEdge]
  · cases h <;> simp [modify_heap, addEdge, hq]

theorem mem_vals_url {st : State} (hwf : WF st) {p : Ptr} (hp : p ∈ vals st.issues) :
    ((st.heap p).URL, p) ∈ st.issues := by
  obtain ⟨e, he, rfl⟩ := List.mem_map.mp hp
  have := hwf.1 e he
  rw [this]
  exact he

theorem Step.keepsWF {env : Env} {p : Ptr} {k : Kind} {st st' : State}
    (h : Step env p k st st') (hwf : WF st) : WF st' := by
  refine ⟨fun e he => ?_, (h.shrinks.map Prod.fst).nodup hwf.2⟩
  rw [← (h.sameInput e.2).1]
  exact hwf.1 e (h.shrinks.subset he)

/-- An entry of the collection is deleted only while its own issue is
visited. -/
theorem Step.keepsEntry {env : Env} {p : Ptr} {k : Kind} {st st' : State}
    (h : Step env p k st st') (hwf : WF st) (hp : p ∈ vals st.issues)
    {e : Str × Ptr} (he : e ∈ st.issues) (hne : e.2 ≠ p ∨ k ≠ .hide) : e ∈ st'.issues := by
  by_cases hk : k = .hide
  · subst hk
    rw [h.hide_inv.2.1]
    refine mem_delete.mpr ⟨he, fun hkey => ?_⟩
    have h1 : st.issues.get e.1 = some e.2 := get_of_mem hwf.2 he
    have h2 : st.issues.get e.1 = some p := by
      rw [hkey]; exact get_of_mem hwf.2 (mem_vals_url hwf hp)
    rw [h1] at h2
    simp only [Option.some.injEq] at h2
    rcases hne with hne | hne
    · exact hne h2
    · exact hne rfl
  · rw [h.sameIssues hk]; exact he

/-! ## Runs of updates -/

theorem Steps.trans {env : Env} {A : Ptr → Kind → Prop} {s1 s2 s3 : State}
    (h1 : Steps env A s1 s2) (h2 : Steps env A s2 s3) : Steps env A s1 s3 := by
  induction h2 with
  | refl => exact h1
  | tail _ hA hp hs ih => exact Steps.tail ih hA hp hs

theorem Steps.mono {env : Env} {A B : Ptr → Kind → Prop} {s1 s2 : State}
    (hAB : ∀ p k, A p k → B p k) (h : Steps env A s1 s2) : Steps env B s1 s2 := by
  induction h with
  | refl => exact Steps.refl _
  | tail _ hA hp hs ih => exact Steps.tail ih (hAB _ _ hA) hp hs

theorem Steps.one {env : Env} {A : Ptr → Kind → Prop} {st st' : State} {p : Ptr} {k : Kind}
    (hA : A p k) (hp : p ∈ vals st.issues) (hs : Step env p k st st') : Steps env A st st' :=
  Steps.tail (Steps.refl _) hA hp hs

theorem Steps.same {env : Env} {A : Ptr → Kind → Prop} {s1 s2 : State}
    (h : Steps env A s1 s2) (q : Ptr) : SameInput (s1.heap q) (s2.heap q) := by
  induction h with
  | refl => exact SameInput.refl _
  | tail _ _ _ hs ih => exact ih.chain (hs.sameInput q)

theorem Steps.flags {env : Env} {A : Ptr → Kind → Prop} {s1 s2 : State}
    (h : Steps env A s1 s2) (q : Ptr) :
    (s2.heap q).Hidden = (s1.heap q).Hidden ∧
      (s2.heap q).LinkedWithEpic = (s1.heap q).LinkedWithEpic := by
  induction h with
  | refl => exact ⟨rfl, rfl⟩
  | tail _ _ _ hs ih => exact ⟨(hs.sameFlags q).1.trans ih.1, (hs.sameFlags q).2.trans ih.2⟩

theorem Steps.sublist {env : Env} {A : Ptr → Kind → Prop} {s1 s2 : State}
    (h : Steps env A s1 s2) : s2.issues.Sublist s1.issues := by
  induction h with
  | refl => exact List.Sublist.refl _
  | tail _ _ _ hs ih => exact hs.shrinks.trans ih

theorem Steps.wf {env : Env} {A : Ptr → Kind → Prop} {s1 s2 : State}
    (h : Steps env A s1 s2) (hwf : WF s1) : WF s2 := by
  induction h with
  | refl => exact hwf
  | tail _ _ _ hs ih => exact hs.keepsWF ih

theorem Steps.grow {env : Env} {A : Ptr → Kind → Prop} {s1 s2 : State}
    (h : Steps env A s1 s2) (q : Ptr) :
    (s1.heap q).DependsOn <+: (s2.heap q).DependsOn ∧
      (s1.heap q).Blocks <+: (s2.heap q).Blocks ∧
      ((s1.heap q).IsOrphan = false → (s2.heap q).IsOrphan = false) := by
  induction h with
  | refl => exact ⟨List.prefix_refl _, List.prefix_refl _, id⟩
  | tail _ _ _ hs ih =>
    exact ⟨ih.1.trans (hs.grows q).1, ih.2.1.trans (hs.grows q).2.1,
      fun e => (hs.grows q).2.2 (ih.2.2 e)⟩

theorem vals_sublist {m1 m2 : Issues} (h : m1.Sublist m2) : (vals m1).Sublist (vals m2) :=
  h.map Prod.snd

theorem Steps.untouched {env : Env} {A : Ptr → Kind → Prop} {s1 s2 : State}
    (h : Steps env A s1 s2) (q : Ptr) (hq : q ∉ vals s1.issues) : s2.heap q = s1.heap q := by
  induction h with
  | refl => rfl
  | tail h1 _ hp hs ih =>
    rw [← ih]
    exact hs.outside hp q (fun hmem => hq ((vals_sublist h1.sublist).subset hmem))

theorem Steps.persist {env : Env} {A : Ptr → Kind → Prop} {s1 s2 : State}
    (h : Steps env A s1 s2) (hwf : WF s1) {e : Str × Ptr} (he : e ∈ s1.issues)
    (hA : A e.2 .hide → False) : e ∈ s2.issues := by
  induction h with
  | refl => exact he
  | @tail s3 s4 p k h1 hAp hp hs ih =>
    refine hs.keepsEntry (h1.wf hwf) hp ih ?_
    by_cases hk : k = .hide
    · left
      intro e2
      apply hA
      rw [e2, ← hk]
      exact hAp
    · exact Or.inr hk

theorem Steps.persist_noHide {env : Env} {A : Ptr → Kind → Prop} {s1 s2 : State}
    (h : Steps env A s1 s2) (hwf : WF s1) {e : Str × Ptr} (he : e ∈ s1.issues)
    (hn : NoHide (s1.heap e.2)) : e ∈ s2.issues := by
  induction h with
  | refl => exact he
  | @tail s3 s4 p k h1 hAp hp hs ih =>
    refine hs.keepsEntry (h1.wf hwf) hp ih ?_
    by_cases hk : k = .hide
    · left
      intro e2
      subst hk
      apply hs.hide_inv.2.2
      rw [← e2]
      unfold NoHide at hn ⊢
      rw [← (h1.same e.2).2.1]
      exact hn
    · exact Or.inr hk

/-! ## The directive loop as a run of updates -/

theorem Path_congr (env : Env) {i j : Issue} (h : SameInput i j) : Path env i = Path env j := by
  unfold Path; rw [h.1]

theorem ProviderURL_congr (env : Env) {i j : Issue} (h : SameInput i j) :
    ProviderURL env i = ProviderURL env j := by
  unfold ProviderURL; rw [h.1]

theorem GetRelativeIssueURL_congr (env : Env) {i j : Issue} (h : SameInput i j) (t : Str) :
    GetRelativeIssueURL env i t = GetRelativeIssueURL env j t := by
  unfold GetRelativeIssueURL; rw [Path_congr env h, ProviderURL_congr env h]

theorem applyDependsOn_step {env : Env} {p : Ptr} {st s1 : State} {m : List Str}
    (hm : m ∈ FindAllStringSubmatch dependsOnRegex (st.heap p).Body)
    (h : applyDependsOn env p st m = .ok s1) :
    Step env p .dep st s1 ∨ Step env p .err st s1 := by
  rw [applyDependsOn_eq] at h
  cases hnum : GetRelativeIssueURL env (st.heap p) (lastGroup m) with
  | error e => rw [hnum] at h; simp at h
  | ok num =>
    rw [hnum] at h
    simp only at h
    cases hget : st.issues.get num with
    | none =>
      rw [hget] at h
      simp only [Except.ok.injEq] at h
      subst h
      exact Or.inr (Step.err _ _)
    | some d =>
      rw [hget] at h
      simp only [Except.ok.injEq] at h
      subst h
      exact Or.inl (Step.dep _ m num d hm hnum hget)

theorem applyBlocks_step {env : Env} {p : Ptr} {st s1 : State} {m : List Str}
    (hm : m ∈ FindAllStringSubmatch blocksRegex (st.heap p).Body)
    (h : applyBlocks env p st m = .ok s1) :
    Step env p .blk st s1 ∨ Step env p .err st s1 := by
  rw [applyBlocks_eq] at h
  cases hnum : GetRelativeIssueURL env (st.heap p) (lastGroup m) with
  | error e => rw [hnum] at h; simp at h
  | ok num =>
    rw [hnum] at h
    simp only at h
    cases hget : st.issues.get num with
    | none =>
      rw [hget] at h
      simp only [Except.ok.injEq] at h
      subst h
      exact Or.inr (Step.err _ _)
    | some d =>
      rw [hget] at h
      simp only [Except.ok.injEq] at h
      subst h
      exact Or.inl (Step.blk _ m num d hm hnum hget)

theorem forMatches_dep_steps {env : Env} {A : Ptr → Kind → Prop} {p : Ptr}
    (hd : A p .dep) (he : A p .err) :
    ∀ (ms : List (List Str)) (st st' : State),
      (∀ m ∈ ms, m ∈ FindAllStringSubmatch dependsOnRegex (st.heap p).Body) →
      p ∈ vals st.issues → forMatches (applyDependsOn env p) ms st = .ok st' →
      Steps env A st st' := by
  intro ms
  induction ms with
  | nil =>
    intro st st' _ _ h
    simp only [forMatches, Except.ok.injEq] at h
    subst h
    exact Steps.refl _
  | cons m ms ih =>
    intro st st' hms hp h
    simp only [forMatches] at h
    cases h1 : applyDependsOn env p st m with
    | error e => rw [h1] at h; simp at h
    | ok s1 =>
      rw [h1] at h
      simp only at h
      have hstep := applyDependsOn_step (hms m (List.mem_cons_self _ _)) h1
      have key : ∀ k, Step env p k st s1 → k ≠ .hide → A p k → Steps env A st st' := by
        intro k hs hk hA
        have hbody : (s1.heap p).Body = (st.heap p).Body := ((hs.sameInput p).2.1).symm
        have hiss : s1.issues = st.issues := hs.sameIssues hk
        refine (Steps.one hA hp hs).trans (ih s1 st' ?_ ?_ h)
        · intro m' hm'
          rw [hbody]
          exact hms m' (List.mem_cons_of_mem _ hm')
        · rw [hiss]; exact hp
      rcases hstep with hs | hs
      · exact key _ hs (by decide) hd
      · exact key _ hs (by decide) he

theorem forMatches_blk_steps {env : Env} {A : Ptr → Kind → Prop} {p : Ptr}
    (hd : A p .blk) (he : A p .err) :
    ∀ (ms : List (List Str)) (st st' : State),
      (∀ m ∈ ms, m ∈ FindAllStringSubmatch blocksRegex (st.heap p).Body) →
      p ∈ vals st.issues → forMatches (applyBlocks env p) ms st = .ok st' →
      Steps env A st st' := by
  intro ms
  induction ms with
  | nil =>
    intro st st' _ _ h
    simp only [forMatches, Except.ok.injEq] at h
    subst h
    exact Steps.refl _
  | cons m ms ih =>
    intro st st' hms hp h
    simp only [forMatches] at h
    cases h1 : applyBlocks env p st m with
    | error e => rw [h1] at h; simp at h
    | ok s1 =>
      rw [h1] at h
      simp only at h
      have hstep := applyBlocks_step (hms m (List.mem_cons_self _ _)) h1
      have key : ∀ k, Step env p k st s1 → k ≠ .hide → A p k → Steps env A st st' := by
        intro k hs hk hA
        have hbody : (s1.heap p).Body = (st.heap p).Body := ((hs.sameInput p).2.1).symm
        have hiss : s1.issues = st.issues := hs.sameIssues hk
        refine (Steps.one hA hp hs).trans (ih s1 st' ?_ ?_ h)
        · intro m' hm'
          rw [hbody]
          exact hms m' (List.mem_cons_of_mem _ hm')
        · rw [hiss]; exact hp
      rcases hstep with hs | hs
      · exact key _ hs (by decide) hd
      · exact key _ hs (by decide) he

theorem Steps.issues_eq {env : Env} {A : Ptr → Kind → Prop} {s1 s2 : State}
    (h : Steps env A s1 s2) (hA : ∀ p k, A p k → k ≠ .hide) : s2.issues = s1.issues := by
  induction h with
  | refl => rfl
  | tail _ hAp _ hs ih => rw [hs.sameIssues (hA _ _ hAp), ih]

theorem forMatches_dep_issues {env : Env} {p : Ptr} {ms : List (List Str)} {st st' : State}
    (hms : ∀ m ∈ ms, m ∈ FindAllStringSubmatch dependsOnRegex (st.heap p).Body)
    (hp : p ∈ vals st.issues) (h : forMatches (applyDependsOn env p) ms st = .ok st') :
    st'.issues = st.issues :=
  (forMatches_dep_steps (A := fun _ k => k ≠ .hide) (p := p) (fun e => by cases e) (fun e => by cases e) ms st st'
    hms hp h).issues_eq (fun _ _ hk => hk)

theorem forMatches_blk_issues {env : Env} {p : Ptr} {ms : List (List Str)} {st st' : State}
    (hms : ∀ m ∈ ms, m ∈ FindAllStringSubmatch blocksRegex (st.heap p).Body)
    (hp : p ∈ vals st.issues) (h : forMatches (applyBlocks env p) ms st = .ok st') :
    st'.issues = st.issues :=
  (forMatches_blk_steps (A := fun _ k => k ≠ .hide) (p := p) (fun e => by cases e) (fun e => by cases e) ms st st'
    hms hp h).issues_eq (fun _ _ hk => hk)

theorem applyDuplicate_steps {env : Env} {A : Ptr → Kind → Prop} {p : Ptr} {st s1 : State}
    (hA : A p .dup) (hp : p ∈ vals st.issues) (h : applyDuplicate env p st = .ok s1) :
    Steps env A st s1 := by
  unfold applyDuplicate at h
  cases hm : FindStringSubmatch isDuplicateRegex (st.heap p).Body with
  | none =>
    rw [hm] at h
    simp only [Except.ok.injEq] at h
    subst h
    exact Steps.refl _
  | some m =>
    rw [hm] at h
    simp only at h
    cases hu : GetRelativeIssueURL env (st.heap p) (lastGroup m) with
    | error e => rw [hu] at h; simp at h
    | ok u =>
      rw [hu] at h
      simp only [Except.ok.injEq] at h
      subst h
      exact Steps.one hA hp (Step.dup _ _)

theorem applyWeightMultiplier_steps (env : Env) {A : Ptr → Kind → Prop} {p : Ptr} (st : State)
    (hA : A p .wm) (hp : p ∈ vals st.issues) :
    Steps env A st (applyWeightMultiplier p st) := by
  unfold applyWeightMultiplier
  cases FindStringSubmatch weightMultiplierRegex (st.heap p).Body with
  | none => exact Steps.refl _
  | some m => exact Steps.one hA hp (Step.wm _ _)

theorem applyBaseWeight_steps (env : Env) {A : Ptr → Kind → Prop} {p : Ptr} (st : State)
    (hA : A p .bw) (hp : p ∈ vals st.issues) :
    Steps env A st (applyBaseWeight p st) := by
  unfold applyBaseWeight
  cases FindStringSubmatch baseWeightRegex (st.heap p).Body with
  | none => exact Steps.refl _
  | some m => exact Steps.one hA hp (Step.bw _ _)

theorem applyWeightMultiplier_issues (p : Ptr) (st : State) :
    (applyWeightMultiplier p st).issues = st.issues := by
  unfold applyWeightMultiplier
  cases FindStringSubmatch weightMultiplierRegex (st.heap p).Body <;> rfl

theorem applyBaseWeight_issues (p : Ptr) (st : State) :
    (applyBaseWeight p st).issues = st.issues := by
  unfold applyBaseWeight
  cases FindStringSubmatch baseWeightRegex (st.heap p).Body <;> rfl

theorem applyDuplicate_issues {env : Env} {p : Ptr} {st s1 : State}
    (h : applyDuplicate env p st = .ok s1) : s1.issues = st.issues := by
  unfold applyDuplicate at h
  cases hm : FindStringSubmatch isDuplicateRegex (st.heap p).Body with
  | none =>
    rw [hm] at h
    simp only [Except.ok.injEq] at h
    subst h
    rfl
  | some m =>
    rw [hm] at h
    simp only at h
    cases hu : GetRelativeIssueURL env (st.heap p) (lastGroup m) with
    | error e => rw [hu] at h; simp at h
    | ok u =>
      rw [hu] at h
      simp only [Except.ok.injEq] at h
      subst h
      rfl

theorem applyDuplicate_same {env : Env} {p : Ptr} {st s1 : State}
    (h : applyDuplicate env p st = .ok s1) (q : Ptr) : SameInput (st.heap q) (s1.heap q) := by
  by_cases hp : p ∈ vals st.issues
  · exact (applyDuplicate_steps (A := fun _ _ => True) trivial hp h).same q
  · unfold applyDuplicate at h
    cases hm : FindStringSubmatch isDuplicateRegex (st.heap p).Body with
    | none =>
      rw [hm] at h
      simp only [Except.ok.injEq] at h
      subst h
      exact SameInput.refl _
    | some m =>
      rw [hm] at h
      simp only at h
      cases hu : GetRelativeIssueURL env (st.heap p) (lastGroup m) with
      | error e => rw [hu] at h; simp at h
      | ok u =>
        rw [hu] at h
        simp only [Except.ok.injEq] at h
        subst h
        exact (@Step.dup env p _ _).sameInput q

theorem applyWeightMultiplier_same (p : Ptr) (st : State) (q : Ptr) :
    SameInput (st.heap q) ((applyWeightMultiplier p st).heap q) := by
  unfold applyWeightMultiplier
  cases FindStringSubmatch weightMultiplierRegex (st.heap p).Body with
  | none => exact SameInput.refl _
  | some m => exact (@Step.wm ⟨fun _ => none, []⟩ p _ _).sameInput q

theorem applyBaseWeight_same (p : Ptr) (st : State) (q : Ptr) :
    SameInput (st.heap q) ((applyBaseWeight p st).heap q) := by
  unfold applyBaseWeight
  cases FindStringSubmatch baseWeightRegex (st.heap p).Body with
  | none => exact SameInput.refl _
  | some m => exact (@Step.bw ⟨fun _ => none, []⟩ p _ _).sameInput q

/-- The shape of one visit of the directive loop. -/
theorem directives_cases {env : Env} {p : Ptr} {st st' : State}
    (h : directives env st p = .ok st') :
    ((st.heap p).Body = [] ∧ st' = st) ∨
    ((st.heap p).Body ≠ [] ∧ ∃ s1, applyDuplicate env p st = .ok s1 ∧
      ((¬ NoHide (st.heap p) ∧
          st' = { applyWeightMultiplier p s1 with
                  issues := (applyWeightMultiplier p s1).issues.delete
                    ((applyWeightMultiplier p s1).heap p).URL }) ∨
        (NoHide (st.heap p) ∧ ∃ s4,
          forMatches (applyDependsOn env p)
            (FindAllStringSubmatch dependsOnRegex (st.heap p).Body)
            (applyBaseWeight p (applyWeightMultiplier p s1)) = .ok s4 ∧
          forMatches (applyBlocks env p)
            (FindAllStringSubmatch blocksRegex (s4.heap p).Body) s4 = .ok st'))) := by
  unfold directives at h
  by_cases hb : (st.heap p).Body = []
  · left
    simp only [hb, if_true, Except.ok.injEq] at h
    exact ⟨hb, h.symm⟩
  · right
    refine ⟨hb, ?_⟩
    simp only [hb, if_false] at h
    cases h1 : applyDuplicate env p st with
    | error e => rw [h1] at h; simp at h
    | ok s1 =>
      rw [h1] at h
      simp only at h
      refine ⟨s1, rfl, ?_⟩
      have hb2 : ((applyWeightMultiplier p s1).heap p).Body = (st.heap p).Body :=
        (((applyDuplicate_same h1 p).chain (applyWeightMultiplier_same p s1 p)).2.1).symm
      have hb3 : ((applyBaseWeight p (applyWeightMultiplier p s1)).heap p).Body
          = (st.heap p).Body :=
        ((applyBaseWeight_same p _ p).2.1).symm.trans hb2
      cases hh : FindStringSubmatch hideFromRoadmapRegex
          ((applyWeightMultiplier p s1).heap p).Body with
      | some x =>
        rw [hh] at h
        simp only [Except.ok.injEq] at h
        left
        refine ⟨?_, h.symm⟩
        unfold NoHide
        rw [← hb2, hh]
        simp
      | none =>
        rw [hh] at h
        simp only at h
        right
        refine ⟨by unfold NoHide; rw [← hb2]; exact hh, ?_⟩
        rw [hb3] at h
        cases h4 : forMatches (applyDependsOn env p)
            (FindAllStringSubmatch dependsOnRegex (st.heap p).Body)
            (applyBaseWeight p (applyWeightMultiplier p s1)) with
        | error e => rw [h4] at h; simp at h
        | ok s4 =>
          rw [h4] at h
          exact ⟨s4, rfl, h⟩

/-- One visit of the directive loop is a run of updates of the visited issue. -/
theorem directives_steps {env : Env} {A : Ptr → Kind → Prop} {p : Ptr} {st st' : State}
    (hA : ∀ k, A p k) (hp : p ∈ vals st.issues) (h : directives env st p = .ok st') :
    Steps env A st st' := by
  rcases directives_cases h with ⟨_, rfl⟩ | ⟨_, s1, h1, hrest⟩
  · exact Steps.refl _
  · have hs1 := applyDuplicate_steps (A := A) (hA _) hp h1
    have hp1 : p ∈ vals s1.issues := by rw [applyDuplicate_issues h1]; exact hp
    have hs2 := applyWeightMultiplier_steps env s1 (A := A) (hA _) hp1
    have hp2 : p ∈ vals (applyWeightMultiplier p s1).issues := by
      rw [applyWeightMultiplier_issues]; exact hp1
    have hb2 : ((applyWeightMultiplier p s1).heap p).Body = (st.heap p).Body :=
      (((hs1.trans hs2).same p).2.1).symm
    rcases hrest with ⟨hh, rfl⟩ | ⟨_, s4, h4, h5⟩
    · refine (hs1.trans hs2).trans (Steps.one (hA .hide) hp2 ?_)
      refine Step.hide _ ?_
      rw [hb2]
      exact hh
    · have hs3 := applyBaseWeight_steps env (applyWeightMultiplier p s1) (A := A)
        (hA _) hp2
      have hp3 : p ∈ vals (applyBaseWeight p (applyWeightMultiplier p s1)).issues := by
        rw [applyBaseWeight_issues]; exact hp2
      have hb3 : ((applyBaseWeight p (applyWeightMultiplier p s1)).heap p).Body
          = (st.heap p).Body := ((((hs1.trans hs2).trans hs3).same p).2.1).symm
      have hs4 := forMatches_dep_steps (A := A) (hA _) (hA _) _ _ _
        (fun m hm => by rw [hb3]; exact hm) hp3 h4
      have hp4 : p ∈ vals s4.issues := by
        rw [forMatches_dep_issues (fun m hm => by rw [hb3]; exact hm) hp3 h4]
        exact hp3
      have hs5 := forMatches_blk_steps (A := A) (hA _) (hA _) _ _ _
        (fun m hm => hm) hp4 h5
      exact (((hs1.trans hs2).trans hs3).trans hs4).trans hs5

/-! ## The passes of `prepare` -/

theorem resetPass_apply (m : Issues) (h : Heap) (q : Ptr) :
    resetPass h m q = if q ∈ vals m then resetIssue (h q) else h q := by
  unfold resetPass
  induction m generalizing h with
  | nil => simp [vals]
  | cons e rest ih =>
    simp only [List.foldl_cons, vals, List.map_cons, List.mem_cons]
    rw [ih]
    simp only [vals, heap_modify_apply]
    by_cases h1 : q = e.2
    · subst h1
      simp only [if_true, true_or]
      split_ifs <;> rfl
    · simp only [h1, if_false, false_or]

theorem resetPass_same (m : Issues) (h : Heap) (q : Ptr) :
    SameInput (h q) (resetPass h m q) := by
  rw [resetPass_apply]
  split_ifs
  · exact ⟨rfl, rfl, rfl, rfl, rfl, rfl, rfl, rfl, rfl, rfl⟩
  · exact SameInput.refl _

theorem wf_reset {st : State} (hwf : WF st) : WF ⟨resetPass st.heap st.issues, st.issues⟩ :=
  ⟨fun e he => by
    show (resetPass st.heap st.issues e.2).URL = e.1
    rw [← (resetPass_same st.issues st.heap e.2).1]
    exact hwf.1 e he, hwf.2⟩

/-- The second loop is a run of updates; each visited issue carries the URL of
an entry of the visiting order. -/
theorem directivePass_steps {env : Env} (u : Ptr → Str) :
    ∀ (order : Issues) (st st' : State), WF st → (∀ q, (st.heap q).URL = u q) →
      directivePass env order st = .ok st' →
      Steps env (fun q _ => u q ∈ keys order) st st' := by
  intro order
  induction order with
  | nil =>
    intro st st' _ _ h
    simp only [directivePass, Except.ok.injEq] at h
    subst h
    exact Steps.refl _
  | cons e rest ih =>
    intro st st' hwf hu h
    obtain ⟨k, x⟩ := e
    simp only [directivePass] at h
    have hmono : ∀ (q : Ptr) (kd : Kind), u q ∈ keys rest → u q ∈ keys ((k, x) :: rest) :=
      fun q _ hq => List.mem_cons_of_mem _ hq
    cases hg : st.issues.get k with
    | none =>
      rw [hg] at h
      exact (ih st st' hwf hu h).mono hmono
    | some p =>
      rw [hg] at h
      simp only at h
      cases hd : directives env st p with
      | error err => rw [hd] at h; simp at h
      | ok s1 =>
        rw [hd] at h
        simp only at h
        have hs : Steps env (fun q _ => q = p) st s1 :=
          directives_steps (fun _ => rfl) (get_mem_vals hg) hd
        have hup : u p = k := by rw [← hu]; exact hwf.1 _ (get_mem hg)
        have h1 : Steps env (fun q _ => u q ∈ keys ((k, x) :: rest)) st s1 :=
          hs.mono (fun q _ hq => by
            show u q ∈ keys ((k, x) :: rest)
            rw [hq, hup]
            exact List.mem_cons_self _ _)
        have hu1 : ∀ q, (s1.heap q).URL = u q := fun q => by rw [← (hs.same q).1]; exact hu q
        exact h1.trans ((ih s1 st' (hs.wf hwf) hu1 h).mono hmono)

/-- The run of the second loop, cut at the visit of a given entry: the
updates before and after it are made while other issues are visited. -/
theorem directivePass_turn {env : Env} (u : Ptr → Str) :
    ∀ (order : Issues) (st st' : State), WF st → (∀ q, (st.heap q).URL = u q) →
      (keys order).Nodup → directivePass env order st = .ok st' →
      ∀ (k : Str) (p : Ptr), (k, p) ∈ order → (k, p) ∈ st.issues →
      ∃ sa sb, Steps env (fun q _ => q ≠ p) st sa ∧ (k, p) ∈ sa.issues ∧ WF sa ∧
        directives env sa p = .ok sb ∧ Steps env (fun q _ => q ≠ p) sb st' := by
  intro order
  induction order with
  | nil => intro st st' _ _ _ _ k p hmem; simp at hmem
  | cons e rest ih =>
    intro st st' hwf hu hnd h k p hmem hin
    obtain ⟨k1, x⟩ := e
    simp only [keys, List.map_cons, List.nodup_cons] at hnd
    simp only [directivePass] at h
    have hupk : u p = k := by rw [← hu]; exact hwf.1 _ hin
    by_cases hk : k1 = k
    · subst hk
      have hg : st.issues.get k1 = some p := get_of_mem hwf.2 hin
      rw [hg] at h
      simp only at h
      cases hd : directives env st p with
      | error err => rw [hd] at h; simp at h
      | ok s1 =>
        rw [hd] at h
        simp only at h
        have hs : Steps env (fun q _ => q = p) st s1 :=
          directives_steps (fun _ => rfl) (get_mem_vals hg) hd
        have hu1 : ∀ q, (s1.heap q).URL = u q := fun q => by rw [← (hs.same q).1]; exact hu q
        refine ⟨st, s1, Steps.refl _, hin, hwf, hd, ?_⟩
        refine (directivePass_steps u rest s1 st' (hs.wf hwf) hu1 h).mono ?_
        intro q _ hq hqp
        rw [hqp, hupk] at hq
        exact hnd.1 hq
    · have hmem' : (k, p) ∈ rest := by
        rcases List.mem_cons.mp hmem with h1 | h1
        · simp only [Prod.mk.injEq] at h1
          exact absurd h1.1.symm hk
        · exact h1
      cases hg : st.issues.get k1 with
      | none =>
        rw [hg] at h
        exact ih st st' hwf hu hnd.2 h k p hmem' hin
      | some p1 =>
        rw [hg] at h
        simp only at h
        cases hd : directives env st p1 with
        | error err => rw [hd] at h; simp at h
        | ok s1 =>
          rw [hd] at h
          simp only at h
          have hne : p1 ≠ p := by
            intro e1
            apply hk
            have a1 := hwf.1 _ (get_mem hg)
            have a2 := hwf.1 _ hin
            simp only at a1 a2
            rw [e1] at a1
            exact a1.symm.trans a2
          have hs : Steps env (fun q _ => q ≠ p) st s1 :=
            (directives_steps (A := fun q _ => q = p1) (fun _ => rfl) (get_mem_vals hg) hd).mono
              (fun q _ hq => by rw [hq]; exact hne)
          have hu1 : ∀ q, (s1.heap q).URL = u q :=
            fun q => by rw [← (hs.same q).1]; exact hu q
          have hin1 : (k, p) ∈ s1.issues := hs.persist hwf hin (fun hA => hA rfl)
          obtain ⟨sa, sb, h1, h2, h3, h4, h5⟩ :=
            ih s1 st' (hs.wf hwf) hu1 hnd.2 h k p hmem' hin1
          exact ⟨sa, sb, hs.trans h1, h2, h3, h4, h5⟩

theorem hidden_refl (i : Issue) :
    ∃ b, i = { i with Hidden := b } ∧ (i.Hidden = true → b = true) := ⟨i.Hidden, rfl, id⟩

theorem hidden_trans {i j k : Issue}
    (h1 : ∃ b, j = { i with Hidden := b } ∧ (i.Hidden = true → b = true))
    (h2 : ∃ b, k = { j with Hidden := b } ∧ (j.Hidden = true → b = true)) :
    ∃ b, k = { i with Hidden := b } ∧ (i.Hidden = true → b = true) := by
  obtain ⟨b1, e1, m1⟩ := h1
  obtain ⟨b2, e2, m2⟩ := h2
  subst e1
  exact ⟨b2, e2, fun hi => m2 (m1 hi)⟩

theorem hidden_modify (h : Heap) (p q : Ptr) :
    ∃ b, (h.modify p (fun i => { i with Hidden := true })) q = { h q with Hidden := b } ∧
      ((h q).Hidden = true → b = true) := by
  by_cases hq : q = p
  · subst hq
    exact ⟨true, by simp [heap_modify_apply], fun _ => rfl⟩
  · exact ⟨(h q).Hidden, by simp [heap_modify_apply, hq], id⟩

theorem hidingPass_apply :
    ∀ (m : Issues) (h h' : Heap), hidingPass m h = .ok h' →
      ∀ q, ∃ b, h' q = { h q with Hidden := b } ∧ ((h q).Hidden = true → b = true) := by
  intro m
  induction m with
  | nil =>
    intro h h' hh q
    simp only [hidingPass, Except.ok.injEq] at hh
    subst hh
    exact hidden_refl _
  | cons e rest ih =>
    intro h h' hh q
    obtain ⟨k, p⟩ := e
    simp only [hidingPass] at hh
    have h1 : ∃ b, (if (h p).Duplicates.length > 0 then
        h.modify p (fun i => { i with Hidden := true }) else h) q = { h q with Hidden := b } ∧
        ((h q).Hidden = true → b = true) := by
      split_ifs
      · exact hidden_modify h p q
      · exact hidden_refl _
    split at hh
    · simp at hh
    · exact hidden_trans (hidden_trans h1 (hidden_modify _ p q)) (ih _ _ hh q)
    · exact hidden_trans h1 (ih _ _ hh q)

theorem processEpicLinks_apply {env : Env} {fuel : Nat} :
    ∀ (m : Issues) (h h' : Heap), processEpicLinks env fuel m h = .ok h' →
      ∀ q, ∃ b, h' q = { h q with LinkedWithEpic := b } := by
  intro m
  induction m with
  | nil =>
    intro h h' hh q
    simp only [processEpicLinks, Except.ok.injEq] at hh
    subst hh
    exact ⟨(h q).LinkedWithEpic, rfl⟩
  | cons e rest ih =>
    intro h h' hh q
    obtain ⟨k, p⟩ := e
    simp only [processEpicLinks] at hh
    split at hh
    · simp at hh
    · obtain ⟨b, hb1⟩ := ih _ _ hh q
      by_cases hq : q = p
      · subst hq
        exact ⟨b, by rw [hb1]; simp [heap_modify_apply]⟩
      · exact ⟨b, by rw [hb1]; simp [heap_modify_apply, hq]⟩

/-- The passes of a run of `prepare` that returns. -/
theorem prepare_cases {env : Env} {fuel : Nat} {st st' : State}
    (h : prepare env fuel st = .ok st') :
    ∃ s1 h2, directivePass env st.issues ⟨resetPass st.heap st.issues, st.issues⟩ = .ok s1 ∧
      hidingPass s1.issues s1.heap = .ok h2 ∧
      processEpicLinks env fuel s1.issues h2 = .ok st'.heap ∧ st'.issues = s1.issues := by
  unfold prepare at h
  cases h1 : directivePass env st.issues ⟨resetPass st.heap st.issues, st.issues⟩ with
  | error e => rw [h1] at h; simp at h
  | ok s1 =>
    rw [h1] at h
    simp only at h
    cases h2 : hidingPass s1.issues s1.heap with
    | error e => rw [h2] at h; simp at h
    | ok hp2 =>
      rw [h2] at h
      simp only at h
      cases h3 : processEpicLinks env fuel s1.issues hp2 with
      | error e => rw [h3] at h; simp at h
      | ok hp3 =>
        rw [h3] at h
        simp only [Except.ok.injEq] at h
        subst h
        exact ⟨s1, hp2, rfl, h2, h3, rfl⟩

/-- The last two passes of `prepare` write only `Hidden` and `LinkedWithEpic`. -/
theorem prepare_fields {env : Env} {fuel : Nat} {st st' : State}
    (h : prepare env fuel st = .ok st') :
    ∃ s1, directivePass env st.issues ⟨resetPass st.heap st.issues, st.issues⟩ = .ok s1 ∧
      st'.issues = s1.issues ∧
      ∀ q, ∃ b c, st'.heap q = { s1.heap q with Hidden := b, LinkedWithEpic := c } := by
  obtain ⟨s1, h2, hd, hh, he, hi⟩ := prepare_cases h
  refine ⟨s1, hd, hi, fun q => ?_⟩
  obtain ⟨b, hb, _⟩ := hidingPass_apply _ _ _ hh q
  obtain ⟨c, hc⟩ := processEpicLinks_apply _ _ _ he q
  exact ⟨b, c, by rw [hc, hb]⟩

/-! ## Directives that resolve are recorded -/

theorem Steps.linked {env : Env} {A : Ptr → Kind → Prop} {s1 s2 : State}
    (h : Steps env A s1 s2) {a b : Ptr} (hl : Linked s1.heap a b) : Linked s2.heap a b :=
  ⟨(h.grow a).1.subset hl.1, (h.grow b).2.1.subset hl.2.1, (h.grow a).2.2 hl.2.2.1,
    (h.grow b).2.2 hl.2.2.2⟩

theorem addEdge_linked (h : Heap) (a b : Ptr) : Linked (addEdge h a b) a b := by
  refine ⟨?_, ?_, ?_, ?_⟩ <;> simp

theorem dependsOn_nil : FindAllStringSubmatch dependsOnRegex [] = [] := by decide

theorem blocks_nil : FindAllStringSubmatch blocksRegex [] = [] := by decide

theorem forMatches_dep_edge {env : Env} {a b : Ptr} :
    ∀ (ms : List (List Str)) (st st' : State),
      forMatches (applyDependsOn env a) ms st = .ok st' →
      (∀ m ∈ ms, m ∈ FindAllStringSubmatch dependsOnRegex (st.heap a).Body) →
      a ∈ vals st.issues →
      ∀ m ∈ ms, ∀ ub, GetRelativeIssueURL env (st.heap a) (lastGroup m) = .ok ub →
        st.issues.get ub = some b → Linked st'.heap a b := by
  intro ms
  induction ms with
  | nil => intro st st' _ _ _ m hm; simp at hm
  | cons m0 ms ih =>
    intro st st' h hms ha m hm ub hub hget
    simp only [forMatches] at h
    cases h1 : applyDependsOn env a st m0 with
    | error e => rw [h1] at h; simp at h
    | ok s1 =>
      rw [h1] at h
      simp only at h
      have hst : Steps env (fun _ k => k ≠ .hide) st s1 := by
        rcases applyDependsOn_step (hms m0 (List.mem_cons_self _ _)) h1 with hs | hs
        · exact Steps.one (fun e => by cases e) ha hs
        · exact Steps.one (fun e => by cases e) ha hs
      have hiss : s1.issues = st.issues := hst.issues_eq (fun _ _ hk => hk)
      have hbody : (s1.heap a).Body = (st.heap a).Body := ((hst.same a).2.1).symm
      have hms1 : ∀ m ∈ ms, m ∈ FindAllStringSubmatch dependsOnRegex (s1.heap a).Body := by
        intro m' hm'
        rw [hbody]
        exact hms m' (List.mem_cons_of_mem _ hm')
      have ha1 : a ∈ vals s1.issues := by rw [hiss]; exact ha
      rcases List.mem_cons.mp hm with e | hm'
      · subst e
        rw [applyDependsOn_eq, hub] at h1
        simp only [hget, Except.ok.injEq] at h1
        subst h1
        exact (forMatches_dep_steps (A := fun _ _ => True) trivial trivial ms _ st' hms1 ha1
          h).linked (addEdge_linked _ _ _)
      · refine ih s1 st' h hms1 ha1 m hm' ub ?_ ?_
        · rw [← GetRelativeIssueURL_congr env (hst.same a)]
          exact hub
        · rw [hiss]; exact hget

theorem forMatches_blk_edge {env : Env} {a b : Ptr} :
    ∀ (ms : List (List Str)) (st st' : State),
      forMatches (applyBlocks env a) ms st = .ok st' →
      (∀ m ∈ ms, m ∈ FindAllStringSubmatch blocksRegex (st.heap a).Body) →
      a ∈ vals st.issues →
      ∀ m ∈ ms, ∀ ub, GetRelativeIssueURL env (st.heap a) (lastGroup m) = .ok ub →
        st.issues.get ub = some b → Linked st'.heap b a := by
  intro ms
  induction ms with
  | nil => intro st st' _ _ _ m hm; simp at hm
  | cons m0 ms ih =>
    intro st st' h hms ha m hm ub hub hget
    simp only [forMatches] at h
    cases h1 : applyBlocks env a st m0 with
    | error e => rw [h1] at h; simp at h
    | ok s1 =>
      rw [h1] at h
      simp only at h
      have hst : Steps env (fun _ k => k ≠ .hide) st s1 := by
        rcases applyBlocks_step (hms m0 (List.mem_cons_self _ _)) h1 with hs | hs
        · exact Steps.one (fun e => by cases e) ha hs
        · exact Steps.one (fun e => by cases e) ha hs
      have hiss : s1.issues = st.issues := hst.issues_eq (fun _ _ hk => hk)
      have hbody : (s1.heap a).Body = (st.heap a).Body := ((hst.same a).2.1).symm
      have hms1 : ∀ m ∈ ms, m ∈ FindAllStringSubmatch blocksRegex (s1.heap a).Body := by
        intro m' hm'
        rw [hbody]
        exact hms m' (List.mem_cons_of_mem _ hm')
      have ha1 : a ∈ vals s1.issues := by rw [hiss]; exact ha
      rcases List.mem_cons.mp hm with e | hm'
      · subst e
        rw [applyBlocks_eq, hub] at h1
        simp only [hget, Except.ok.injEq] at h1
        subst h1
        exact (forMatches_blk_steps (A := fun _ _ => True) trivial trivial ms _ st' hms1 ha1
          h).linked (addEdge_linked _ _ _)
      · refine ih s1 st' h hms1 ha1 m hm' ub ?_ ?_
        · rw [← GetRelativeIssueURL_congr env (hst.same a)]
          exact hub
        · rw [hiss]; exact hget

/-- The part of a visit after the hide check, for an issue without hide
marker: the base-weight directive, then the two relation loops. -/
theorem directives_noHide {env : Env} {p : Ptr} {st st' : State}
    (h : directives env st p = .ok st') (hp : p ∈ vals st.issues)
    (hb : (st.heap p).Body ≠ []) (hn : NoHide (st.heap p)) :
    ∃ s3 s4, Steps env (fun q k => q = p ∧ (k = .dup ∨ k = .wm ∨ k = .bw)) st s3 ∧
      forMatches (applyDependsOn env p)
        (FindAllStringSubmatch dependsOnRegex (st.heap p).Body) s3 = .ok s4 ∧
      forMatches (applyBlocks env p)
        (FindAllStringSubmatch blocksRegex (st.heap p).Body) s4 = .ok st' ∧
      s3.issues = st.issues ∧ s4.issues = st.issues := by
  rcases directives_cases h with ⟨hb0, _⟩ | ⟨_, s1, h1, hrest⟩
  · exact absurd hb0 hb
  · rcases hrest with ⟨hh, _⟩ | ⟨_, s4, h4, h5⟩
    · exact absurd hn hh
    · have hs1 := applyDuplicate_steps
        (A := fun q k => q = p ∧ (k = .dup ∨ k = .wm ∨ k = .bw)) ⟨rfl, Or.inl rfl⟩ hp h1
      have hp1 : p ∈ vals s1.issues := by rw [applyDuplicate_issues h1]; exact hp
      have hs2 := applyWeightMultiplier_steps env s1
        (A := fun q k => q = p ∧ (k = .dup ∨ k = .wm ∨ k = .bw)) ⟨rfl, Or.inr (Or.inl rfl)⟩ hp1
      have hp2 : p ∈ vals (applyWeightMultiplier p s1).issues := by
        rw [applyWeightMultiplier_issues]; exact hp1
      have hs3 := applyBaseWeight_steps env (applyWeightMultiplier p s1)
        (A := fun q k => q = p ∧ (k = .dup ∨ k = .wm ∨ k = .bw)) ⟨rfl, Or.inr (Or.inr rfl)⟩ hp2
      have hs := (hs1.trans hs2).trans hs3
      have hi3 : (applyBaseWeight p (applyWeightMultiplier p s1)).issues = st.issues := by
        rw [applyBaseWeight_issues, applyWeightMultiplier_issues, applyDuplicate_issues h1]
      have hb3 : ((applyBaseWeight p (applyWeightMultiplier p s1)).heap p).Body
          = (st.heap p).Body := ((hs.same p).2.1).symm
      have hi4 : s4.issues = st.issues := by
        rw [forMatches_dep_issues (fun m hm => by rw [hb3]; exact hm)
          (by rw [hi3]; exact hp) h4]
        exact hi3
      have hb4 : (s4.heap p).Body = (st.heap p).Body := by
        have := (forMatches_dep_steps (A := fun _ _ => True) (p := p) trivial trivial _ _ _
          (fun m hm => by rw [hb3]; exact hm) (by rw [hi3]; exact hp) h4).same p
        rw [← this.2.1]; exact hb3
      rw [hb4] at h5
      exact ⟨_, s4, hs, h4, h5, hi3, hi4⟩

/-! ## C1: a depends-on directive that resolves is recorded at both ends -/

theorem directivePass_dep_linked {env : Env} {st s1 : State} {a b : Ptr} {m : List Str}
    (hwf : WF st) (ha : a ∈ vals st.issues) (hb : b ∈ vals st.issues)
    (hna : NoHide (st.heap a)) (hnb : NoHide (st.heap b))
    (hm : m ∈ FindAllStringSubmatch dependsOnRegex (st.heap a).Body)
    (hres : GetRelativeIssueURL env (st.heap a) (lastGroup m) = .ok (st.heap b).URL)
    (hpass : directivePass env st.issues st = .ok s1) : Linked s1.heap a b := by
  obtain ⟨sa, sb, h1, h2, h3, h4, h5⟩ :=
    directivePass_turn (fun q => (st.heap q).URL) st.issues st s1 hwf (fun _ => rfl) hwf.2
      hpass _ a (mem_vals_url hwf ha) (mem_vals_url hwf ha)
  have hsame := h1.same
  have hb_in : ((st.heap b).URL, b) ∈ sa.issues :=
    h1.persist_noHide hwf (mem_vals_url hwf hb) hnb
  have ha_in : a ∈ vals sa.issues := List.mem_map.mpr ⟨_, h2, rfl⟩
  have hbody : (sa.heap a).Body = (st.heap a).Body := ((hsame a).2.1).symm
  have hne : (sa.heap a).Body ≠ [] := by
    intro e
    rw [← hbody, e, dependsOn_nil] at hm
    simp at hm
  have hna' : NoHide (sa.heap a) := by unfold NoHide at hna ⊢; rw [hbody]; exact hna
  obtain ⟨s3, s4, hs3, hdep, hblk, hi3, hi4⟩ := directives_noHide h4 ha_in hne hna'
  have hb3 : (s3.heap a).Body = (sa.heap a).Body := ((hs3.same a).2.1).symm
  have hl4 : Linked s4.heap a b := by
    refine forMatches_dep_edge _ s3 s4 hdep ?_ (by rw [hi3]; exact ha_in) m ?_
      (st.heap b).URL ?_ ?_
    · intro m' hm'; rw [hb3]; exact hm'
    · rw [hbody]; exact hm
    · rw [← GetRelativeIssueURL_congr env ((hsame a).chain (hs3.same a))]; exact hres
    · rw [hi3]; exact get_of_mem h3.2 hb_in
  have hl5 : Linked sb.heap a b :=
    (forMatches_blk_steps (A := fun _ _ => True) (p := a) trivial trivial _ s4 sb
      (fun m' hm' => by
        have : (s4.heap a).Body = (sa.heap a).Body := by
          have := (forMatches_dep_steps (A := fun _ _ => True) (p := a) trivial trivial _ _ _
            (fun m hm => by rw [hb3]; exact hm) (by rw [hi3]; exact ha_in) hdep).same a
          rw [← this.2.1]; exact hb3
        rw [this]; exact hm')
      (by rw [hi4]; exact ha_in) hblk).linked hl4
  exact h5.linked hl5

theorem prepare_linked {st' s1 : State} {a b : Ptr}
    (hq : ∀ q, ∃ x y, st'.heap q = { s1.heap q with Hidden := x, LinkedWithEpic := y })
    (hl : Linked s1.heap a b) : Linked st'.heap a b := by
  obtain ⟨x, y, ea⟩ := hq a
  obtain ⟨x', y', eb⟩ := hq b
  unfold Linked
  rw [ea, eb]
  exact hl

/-- A depends-on phrase that resolves is recorded at both ends by `prepare`. -/
theorem prepare_dep_linked {env : Env} {fuel : Nat} {st st' : State} {a b : Ptr}
    {m : List Str} (hwf : WF st) (ha : a ∈ vals st.issues) (hb : b ∈ vals st.issues)
    (hna : NoHide (st.heap a)) (hnb : NoHide (st.heap b))
    (hm : m ∈ FindAllStringSubmatch dependsOnRegex (st.heap a).Body)
    (hres : GetRelativeIssueURL env (st.heap a) (lastGroup m) = .ok (st.heap b).URL)
    (hrun : prepare env fuel st = .ok st') : Linked st'.heap a b := by
  obtain ⟨s1, hpass, _, hq⟩ := prepare_fields hrun
  have hs := resetPass_same st.issues st.heap
  refine prepare_linked hq
    (directivePass_dep_linked (m := m) (wf_reset hwf) ha hb ?_ ?_ ?_ ?_ hpass)
  · unfold NoHide at hna ⊢; rw [← (hs a).2.1]; exact hna
  · unfold NoHide at hnb ⊢; rw [← (hs b).2.1]; exact hnb
  · show m ∈ FindAllStringSubmatch dependsOnRegex (resetPass st.heap st.issues a).Body
    rw [← (hs a).2.1]; exact hm
  · show GetRelativeIssueURL env (resetPass st.heap st.issues a) (lastGroup m)
      = .ok (resetPass st.heap st.issues b).URL
    rw [← GetRelativeIssueURL_congr env (hs a), ← (hs b).1]; exact hres

/-- C1: for every collection keyed by URL and every two issues A and B of it
whose bodies carry no hide marker, if the body of A has a depends-on phrase
whose reference token resolves (through `GetRelativeIssueURL`) to the URL of B,
then after `prepare` B is in `A.DependsOn`, A is in `B.Blocks`, and neither A
nor B is an orphan. -/
theorem dependsOn_directive_recorded (env : Env) (fuel : Nat) (st st' : State) (a b : Ptr)
    (m : List Str) (hwf : WF st) (ha : a ∈ vals st.issues) (hb : b ∈ vals st.issues)
    (hna : NoHide (st.heap a)) (hnb : NoHide (st.heap b))
    (hm : m ∈ FindAllStringSubmatch dependsOnRegex (st.heap a).Body)
    (hres : GetRelativeIssueURL env (st.heap a) (lastGroup m) = .ok (st.heap b).URL)
    (hrun : prepare env fuel st = .ok st') :
    b ∈ (st'.heap a).DependsOn ∧ a ∈ (st'.heap b).Blocks ∧
      (st'.heap a).IsOrphan = false ∧ (st'.heap b).IsOrphan = false :=
  prepare_dep_linked hwf ha hb hna hnb hm hres hrun

/-- Witness for C1: issue 1 with body "depends on #2" and issue 2. -/
theorem dependsOn_directive_recorded_witness :
    WF dependsState ∧
      GetRelativeIssueURL goEnv (dependsState.heap 0) "#2".toList
        = .ok (dependsState.heap 1).URL ∧
      ∃ st', prepare goEnv 2 dependsState = .ok st' ∧
        1 ∈ (st'.heap 0).DependsOn ∧ 0 ∈ (st'.heap 1).Blocks ∧
        (st'.heap 0).IsOrphan = false ∧ (st'.heap 1).IsOrphan = false := by
  have hwf : WF dependsState := by unfold WF; decide
  have hres : GetRelativeIssueURL goEnv (dependsState.heap 0) "#2".toList
      = .ok (dependsState.heap 1).URL := by decide
  refine ⟨hwf, hres, ?_⟩
  cases hrun : prepare goEnv 2 dependsState with
  | error e =>
    have hok : (prepare goEnv 2 dependsState).toBool = true := by decide
    rw [hrun] at hok
    exact absurd hok (by simp [Except.toBool])
  | ok st' =>
    exact ⟨st', rfl, dependsOn_directive_recorded goEnv 2 dependsState st' 0 1
      ["depends on #2".toList, "depends on".toList, "#2".toList] hwf (by decide) (by decide)
      (by decide) (by decide) (by decide) hres hrun⟩

/-! ## C2, C4: the two directed edges of a relation are recorded together -/

theorem except_ok_of {α : Type} {x : Except Fault α} (h : x.toBool = true) :
    ∃ a, x = .ok a := by
  cases x with
  | error e => simp [Except.toBool] at h
  | ok a => exact ⟨a, rfl⟩

/-- Updates other than the two edge kinds leave the relation fields alone. -/
theorem Step.sameRelations {env : Env} {p : Ptr} {k : Kind} {st st' : State}
    (h : Step env p k st st') (hd : k ≠ .dep) (hb : k ≠ .blk) (q : Ptr) :
    (st'.heap q).DependsOn = (st.heap q).DependsOn ∧
      (st'.heap q).Blocks = (st.heap q).Blocks ∧
      (st'.heap q).IsOrphan = (st.heap q).IsOrphan := by
  by_cases hq : q = p
  · subst hq; cases h <;> first | exact absurd rfl hd | exact absurd rfl hb | simp [modify_heap]
  · cases h <;> first | exact absurd rfl hd | exact absurd rfl hb | simp [modify_heap, hq]

/-- An update is an edge, or leaves the relation fields alone. -/
theorem Step.edge_or_same {env : Env} {p : Ptr} {k : Kind} {st st' : State}
    (h : Step env p k st st') :
    (∃ a b, st'.heap = addEdge st.heap a b) ∨
      ∀ q, (st'.heap q).DependsOn = (st.heap q).DependsOn ∧
        (st'.heap q).Blocks = (st.heap q).Blocks ∧
        (st'.heap q).IsOrphan = (st.heap q).IsOrphan := by
  by_cases hd : k = .dep
  · subst hd; cases h; exact Or.inl ⟨_, _, rfl⟩
  · by_cases hb : k = .blk
    · subst hb; cases h; exact Or.inl ⟨_, _, rfl⟩
    · exact Or.inr (h.sameRelations hd hb)

theorem directivePass_run {env : Env} :
    ∀ (order : Issues) (st st' : State), directivePass env order st = .ok st' →
      Steps env (fun _ _ => True) st st' := by
  intro order
  induction order with
  | nil =>
    intro st st' h
    simp only [directivePass, Except.ok.injEq] at h
    subst h
    exact Steps.refl _
  | cons e rest ih =>
    intro st st' h
    obtain ⟨k, x⟩ := e
    simp only [directivePass] at h
    cases hg : st.issues.get k with
    | none => rw [hg] at h; exact ih st st' h
    | some p =>
      rw [hg] at h
      simp only at h
      cases hd : directives env st p with
      | error err => rw [hd] at h; simp at h
      | ok s1 =>
        rw [hd] at h
        simp only at h
        exact (directives_steps (fun _ => trivial) (get_mem_vals hg) hd).trans (ih s1 st' h)

/-- A property of the relation fields that edges preserve holds after the
directive loop if it holds before. -/
theorem Steps.relations_inv {env : Env} {A : Ptr → Kind → Prop} {s1 s2 : State}
    (h : Steps env A s1 s2) (P : IssueSlice → IssueSlice → Bool → Prop) (q : Ptr)
    (hedge : ∀ (hp : Heap) (a b : Ptr),
      P (hp q).DependsOn (hp q).Blocks (hp q).IsOrphan →
      P (addEdge hp a b q).DependsOn (addEdge hp a b q).Blocks (addEdge hp a b q).IsOrphan)
    (h0 : P (s1.heap q).DependsOn (s1.heap q).Blocks (s1.heap q).IsOrphan) :
    P (s2.heap q).DependsOn (s2.heap q).Blocks (s2.heap q).IsOrphan := by
  induction h with
  | refl => exact h0
  | tail _ _ _ hs ih =>
    rcases hs.edge_or_same with ⟨a, b, e⟩ | hsame
    · rw [e]; exact hedge _ a b ih
    · rw [(hsame q).1, (hsame q).2.1, (hsame q).2.2]; exact ih

theorem Steps.count_inv {env : Env} {A : Ptr → Kind → Prop} {s1 s2 : State}
    (h : Steps env A s1 s2) (a b : Ptr)
    (h0 : (s1.heap b).Blocks.count a = (s1.heap a).DependsOn.count b) :
    (s2.heap b).Blocks.count a = (s2.heap a).DependsOn.count b := by
  induction h with
  | refl => exact h0
  | tail _ _ _ hs ih =>
    rcases hs.edge_or_same with ⟨x, y, e⟩ | hsame
    · rw [e]
      simp only [addEdge_Blocks, addEdge_DependsOn]
      by_cases h1 : b = y <;> by_cases h2 : a = x
      · simp [h1, h2, List.count_append]
        rw [← h1, ← h2]; exact ih
      · have : ¬ x = a := fun e => h2 e.symm
        simp [h1, h2, List.count_append, this]
        rw [← h1]; exact ih
      · have : ¬ y = b := fun e => h1 e.symm
        simp [h1, h2, List.count_append, this]
        rw [← h2]; exact ih
      · simp [h1, h2]; exact ih
    · rw [(hsame b).2.1, (hsame a).1]; exact ih

theorem reset_relations (st : State) {q : Ptr} (hq : q ∈ vals st.issues) :
    (resetPass st.heap st.issues q).DependsOn = [] ∧
      (resetPass st.heap st.issues q).Blocks = [] ∧
      (resetPass st.heap st.issues q).IsOrphan = true ∧
      (resetPass st.heap st.issues q).weightMultiplier = 1 ∧
      (resetPass st.heap st.issues q).BaseWeight = 1 := by
  rw [resetPass_apply, if_pos hq]
  exact ⟨rfl, rfl, rfl, rfl, rfl⟩

/-- C2: after `prepare`, for all issues A and B of the collection, A occurs in
`B.Blocks` as many times as B occurs in `A.DependsOn`; in particular A is in
`B.Blocks` if and only if B is in `A.DependsOn`. -/
theorem blocks_dependsOn_symmetric (env : Env) (fuel : Nat) (st st' : State) (a b : Ptr)
    (ha : a ∈ vals st.issues) (hb : b ∈ vals st.issues)
    (hrun : prepare env fuel st = .ok st') :
    (st'.heap b).Blocks.count a = (st'.heap a).DependsOn.count b ∧
      (a ∈ (st'.heap b).Blocks ↔ b ∈ (st'.heap a).DependsOn) := by
  obtain ⟨s1, hpass, _, hq⟩ := prepare_fields hrun
  have hcount : (st'.heap b).Blocks.count a = (st'.heap a).DependsOn.count b := by
    obtain ⟨x, y, ea⟩ := hq a
    obtain ⟨x', y', eb⟩ := hq b
    rw [ea, eb]
    refine (directivePass_run _ _ _ hpass).count_inv a b ?_
    show (resetPass st.heap st.issues b).Blocks.count a
      = (resetPass st.heap st.issues a).DependsOn.count b
    rw [(reset_relations st hb).2.1, (reset_relations st ha).1]
    rfl
  refine ⟨hcount, ?_⟩
  rw [← List.count_pos_iff, ← List.count_pos_iff, hcount]

/-- Witness for C2: issue 1 with body "depends on #2" and issue 2. -/
theorem blocks_dependsOn_symmetric_witness :
    ∃ st', prepare goEnv 2 dependsState = .ok st' ∧
      (st'.heap 1).Blocks.count 0 = (st'.heap 0).DependsOn.count 1 ∧
      (0 ∈ (st'.heap 1).Blocks ↔ 1 ∈ (st'.heap 0).DependsOn) := by
  obtain ⟨st', hrun⟩ := except_ok_of (x := prepare goEnv 2 dependsState) (by decide)
  exact ⟨st', hrun, blocks_dependsOn_symmetric goEnv 2 dependsState st' 0 1 (by decide)
    (by decide) hrun⟩

theorem prepare_shrinks {env : Env} {fuel : Nat} {st st' : State}
    (hrun : prepare env fuel st = .ok st') : st'.issues.Sublist st.issues := by
  obtain ⟨s1, hpass, hi, _⟩ := prepare_fields hrun
  rw [hi]
  exact (directivePass_run _ _ _ hpass).sublist

/-- After `prepare`, an issue that was in the collection is an orphan exactly
when no edge was recorded at it. -/
theorem prepare_orphan_iff {env : Env} {fuel : Nat} {st st' : State} {q : Ptr}
    (hq : q ∈ vals st.issues) (hrun : prepare env fuel st = .ok st') :
    (st'.heap q).IsOrphan = true ↔ (st'.heap q).DependsOn = [] ∧ (st'.heap q).Blocks = [] := by
  obtain ⟨s1, hpass, _, hf⟩ := prepare_fields hrun
  obtain ⟨x, y, e⟩ := hf q
  rw [e]
  refine (directivePass_run _ _ _ hpass).relations_inv
    (fun dep blk orph => orph = true ↔ dep = [] ∧ blk = []) q ?_ ?_
  · intro hp a b h0
    simp only [addEdge_DependsOn, addEdge_Blocks, addEdge_IsOrphan]
    by_cases h1 : q = a <;> by_cases h2 : q = b <;> simp [h1, h2]
    exact h0
  · show (resetPass st.heap st.issues q).IsOrphan = true ↔
      (resetPass st.heap st.issues q).DependsOn = [] ∧ (resetPass st.heap st.issues q).Blocks = []
    rw [(reset_relations st hq).1, (reset_relations st hq).2.1, (reset_relations st hq).2.2.1]
    simp

/-- C4, as the code has it: after `prepare`, an issue of the collection is an
orphan if and only if both its `DependsOn` and its `Blocks` are empty. -/
theorem orphan_iff_no_edge (env : Env) (fuel : Nat) (st st' : State) (q : Ptr)
    (hq : q ∈ vals st'.issues) (hrun : prepare env fuel st = .ok st') :
    (st'.heap q).IsOrphan = true ↔ (st'.heap q).DependsOn = [] ∧ (st'.heap q).Blocks = [] :=
  prepare_orphan_iff ((vals_sublist (prepare_shrinks hrun)).subset hq) hrun

/-- Witness for C4 as amended: issue 2 of the collection in which issue 1
depends on it. -/
theorem orphan_iff_no_edge_witness :
    ∃ st', prepare goEnv 2 dependsState = .ok st' ∧ 1 ∈ vals st'.issues ∧
      ((st'.heap 1).IsOrphan = true ↔
        (st'.heap 1).DependsOn = [] ∧ (st'.heap 1).Blocks = []) := by
  obtain ⟨st', hrun⟩ := except_ok_of (x := prepare goEnv 2 dependsState) (by decide)
  have h : (prepare goEnv 2 dependsState).toOption.map (fun s => decide (1 ∈ vals s.issues))
      = some true := by decide
  rw [hrun] at h
  simp only [Except.toOption, Option.map_some', Option.some.injEq, decide_eq_true_eq] at h
  exact ⟨st', hrun, h, orphan_iff_no_edge goEnv 2 dependsState st' 1 h hrun⟩

/-- Counterexample to C4 as stated: issue 1 says "depends on #2"; after
`prepare` issue 2 has an empty `DependsOn` and yet is no orphan. -/
theorem orphan_iff_dependsOn_empty_counterexample :
    ∃ st', prepare goEnv 2 dependsState = .ok st' ∧ 1 ∈ vals st'.issues ∧
      (st'.heap 1).DependsOn = [] ∧ (st'.heap 1).IsOrphan = false ∧
      ¬ ((st'.heap 1).IsOrphan = true ↔ (st'.heap 1).DependsOn = []) := by
  obtain ⟨st', hrun⟩ := except_ok_of (x := prepare goEnv 2 dependsState) (by decide)
  have h : (prepare goEnv 2 dependsState).toOption.map
      (fun s => (decide (1 ∈ vals s.issues), (s.heap 1).DependsOn, (s.heap 1).IsOrphan))
      = some (true, [], false) := by decide
  rw [hrun] at h
  simp only [Except.toOption, Option.map_some', Option.some.injEq, Prod.mk.injEq,
    decide_eq_true_eq] at h
  obtain ⟨h1, h2, h3⟩ := h
  refine ⟨st', hrun, h1, h2, h3, ?_⟩
  rw [h2, h3]
  simp

/-! ## C5: self-references -/

theorem SelfRef_congr (env : Env) {i j : Issue} (h : SameInput i j) (hs : SelfRef env i) :
    SelfRef env j := by
  obtain ⟨m, hm, hr⟩ := hs
  refine ⟨m, ?_, ?_⟩
  · rw [← h.2.1]; exact hm
  · rw [← GetRelativeIssueURL_congr env h, ← h.1]; exact hr

/-- In a collection keyed by URL, an issue gets an edge to itself only from a
phrase of its own body that resolves to its own URL. -/
theorem Steps.noSelf {env : Env} {A : Ptr → Kind → Prop} {s1 s2 : State}
    (h : Steps env A s1 s2) (hwf : WF s1) (q : Ptr)
    (h0 : q ∈ (s1.heap q).DependsOn ∨ q ∈ (s1.heap q).Blocks → SelfRef env (s1.heap q)) :
    q ∈ (s2.heap q).DependsOn ∨ q ∈ (s2.heap q).Blocks → SelfRef env (s1.heap q) := by
  induction h with
  | refl => exact h0
  | @tail s3 s4 p k h1 _ hp hs ih =>
    have hwf3 : WF s3 := h1.wf hwf
    intro hmem
    have hself : ∀ (m : List Str) (num : Str),
        (m ∈ FindAllStringSubmatch dependsOnRegex (s3.heap q).Body ∨
          m ∈ FindAllStringSubmatch blocksRegex (s3.heap q).Body) →
        GetRelativeIssueURL env (s3.heap q) (lastGroup m) = .ok num →
        s3.issues.get num = some q → SelfRef env (s1.heap q) := by
      intro m num hm hnum hget
      have hurl : (s3.heap q).URL = num := hwf3.1 _ (get_mem hget)
      refine SelfRef_congr env (h1.same q).symm ⟨m, ?_, ?_⟩
      · exact List.mem_append.mpr hm
      · rw [hurl]; exact hnum
    cases hs with
    | dup | wm | bw | err =>
      apply ih
      by_cases hq : q = p
      · subst hq; simpa [modify_heap] using hmem
      · simpa [modify_heap, hq] using hmem
    | hide => exact ih hmem
    | dep st m num d hm hnum hget =>
      simp only [addEdge_DependsOn, addEdge_Blocks] at hmem
      by_cases hqp : q = p
      · by_cases hqd : q = d
        · subst hqp
          subst hqd
          exact hself m num (Or.inl hm) hnum hget
        · apply ih
          subst hqp
          have hne : ¬ d = q := fun e => hqd e.symm
          simpa [hqd, hne] using hmem
      · by_cases hqd : q = d
        · apply ih
          subst hqd
          have hne : ¬ p = q := fun e => hqp e.symm
          simpa [hqp, hne] using hmem
        · apply ih
          simpa [hqp, hqd] using hmem
    | blk st m num d hm hnum hget =>
      simp only [addEdge_DependsOn, addEdge_Blocks] at hmem
      by_cases hqp : q = p
      · by_cases hqd : q = d
        · subst hqp
          subst hqd
          exact hself m num (Or.inr hm) hnum hget
        · apply ih
          subst hqp
          have hne : ¬ d = q := fun e => hqd e.symm
          simpa [hqd, hne] using hmem
      · by_cases hqd : q = d
        · apply ih
          subst hqd
          have hne : ¬ p = q := fun e => hqp e.symm
          simpa [hqp, hne] using hmem
        · apply ih
          simpa [hqp, hqd] using hmem

/-- C5, as the code has it: `prepare` has no guard against self-references;
after `prepare` on a collection keyed by URL, an issue of the collection whose
body has no depends-on or blocks phrase resolving to its own URL is neither in
its own `DependsOn` nor in its own `Blocks`. -/
theorem no_self_edge_without_self_reference (env : Env) (fuel : Nat) (st st' : State)
    (q : Ptr) (hwf : WF st) (hq : q ∈ vals st.issues) (hno : ¬ SelfRef env (st.heap q))
    (hrun : prepare env fuel st = .ok st') :
    q ∉ (st'.heap q).DependsOn ∧ q ∉ (st'.heap q).Blocks := by
  obtain ⟨s1, hpass, _, hf⟩ := prepare_fields hrun
  obtain ⟨x, y, e⟩ := hf q
  have key := (directivePass_run _ _ _ hpass).noSelf (wf_reset hwf) q (by
    show q ∈ (resetPass st.heap st.issues q).DependsOn ∨
      q ∈ (resetPass st.heap st.issues q).Blocks → _
    rw [(reset_relations st hq).1, (reset_relations st hq).2.1]
    simp)
  have hno' : ¬ SelfRef env (resetPass st.heap st.issues q) :=
    fun hs => hno (SelfRef_congr env (resetPass_same st.issues st.heap q).symm hs)
  rw [e]
  exact ⟨fun hm => hno' (key (Or.inl hm)), fun hm => hno' (key (Or.inr hm))⟩

/-- Witness for C5 as amended: issue 1 of the collection in which it depends
on issue 2. -/
theorem no_self_edge_without_self_reference_witness :
    WF dependsState ∧ ¬ SelfRef goEnv (dependsState.heap 0) ∧
      ∃ st', prepare goEnv 2 dependsState = .ok st' ∧
        0 ∉ (st'.heap 0).DependsOn ∧ 0 ∉ (st'.heap 0).Blocks := by
  have hwf : WF dependsState := by unfold WF; decide
  have hno : ¬ SelfRef goEnv (dependsState.heap 0) := by decide
  obtain ⟨st', hrun⟩ := except_ok_of (x := prepare goEnv 2 dependsState) (by decide)
  exact ⟨hwf, hno, st', hrun, no_self_edge_without_self_reference goEnv 2 dependsState st' 0
    hwf (by decide) hno hrun⟩

/-- Counterexample to C5 as stated: an epic, issue 1, whose body says
"depends on #1" is in its own `DependsOn` and in its own `Blocks` after
`prepare`. -/
theorem no_self_edge_counterexample :
    ∃ st', prepare goEnv 0 selfState = .ok st' ∧ 0 ∈ vals st'.issues ∧
      0 ∈ (st'.heap 0).DependsOn ∧ 0 ∈ (st'.heap 0).Blocks := by
  obtain ⟨st', hrun⟩ := except_ok_of (x := prepare goEnv 0 selfState) (by decide)
  have h : (prepare goEnv 0 selfState).toOption.map
      (fun s => (decide (0 ∈ vals s.issues), (s.heap 0).DependsOn, (s.heap 0).Blocks))
      = some (true, [0], [0]) := by decide
  rw [hrun] at h
  simp only [Except.toOption, Option.map_some', Option.some.injEq, Prod.mk.injEq,
    decide_eq_true_eq] at h
  obtain ⟨h1, h2, h3⟩ := h
  exact ⟨st', hrun, h1, by rw [h2]; simp, by rw [h3]; simp⟩

/-! ## C3: a blocks directive that resolves is recorded at both ends -/

theorem directivePass_blk_linked {env : Env} {st s1 : State} {a b : Ptr} {m : List Str}
    (hwf : WF st) (ha : a ∈ vals st.issues) (hb : b ∈ vals st.issues)
    (hna : NoHide (st.heap a)) (hnb : NoHide (st.heap b))
    (hm : m ∈ FindAllStringSubmatch blocksRegex (st.heap a).Body)
    (hres : GetRelativeIssueURL env (st.heap a) (lastGroup m) = .ok (st.heap b).URL)
    (hpass : directivePass env st.issues st = .ok s1) : Linked s1.heap b a := by
  obtain ⟨sa, sb, h1, h2, h3, h4, h5⟩ :=
    directivePass_turn (fun q => (st.heap q).URL) st.issues st s1 hwf (fun _ => rfl) hwf.2
      hpass _ a (mem_vals_url hwf ha) (mem_vals_url hwf ha)
  have hsame := h1.same
  have hb_in : ((st.heap b).URL, b) ∈ sa.issues :=
    h1.persist_noHide hwf (mem_vals_url hwf hb) hnb
  have ha_in : a ∈ vals sa.issues := List.mem_map.mpr ⟨_, h2, rfl⟩
  have hbody : (sa.heap a).Body = (st.heap a).Body := ((hsame a).2.1).symm
  have hne : (sa.heap a).Body ≠ [] := by
    intro e
    rw [← hbody, e, blocks_nil] at hm
    simp at hm
  have hna' : NoHide (sa.heap a) := by unfold NoHide at hna ⊢; rw [hbody]; exact hna
  obtain ⟨s3, s4, hs3, hdep, hblk, hi3, hi4⟩ := directives_noHide h4 ha_in hne hna'
  have hb3 : (s3.heap a).Body = (sa.heap a).Body := ((hs3.same a).2.1).symm
  have hs4 := forMatches_dep_steps (A := fun _ _ => True) (p := a) trivial trivial _ _ _
    (fun m hm => by rw [hb3]; exact hm) (by rw [hi3]; exact ha_in) hdep
  have hb4 : (s4.heap a).Body = (sa.heap a).Body := by
    rw [← (hs4.same a).2.1]; exact hb3
  have hl5 : Linked sb.heap b a := by
    refine forMatches_blk_edge _ s4 sb hblk ?_ (by rw [hi4]; exact ha_in) m ?_
      (st.heap b).URL ?_ ?_
    · intro m' hm'; rw [hb4]; exact hm'
    · rw [hbody]; exact hm
    · rw [← GetRelativeIssueURL_congr env (((hsame a).chain (hs3.same a)).chain (hs4.same a))]
      exact hres
    · rw [hi4]; exact get_of_mem h3.2 hb_in
  exact h5.linked hl5

theorem blocks2_dup : FindStringSubmatch isDuplicateRegex "Blocks #2".toList = none := by
  decide

theorem blocks2_wm : FindStringSubmatch weightMultiplierRegex "Blocks #2".toList = none := by
  decide

theorem blocks2_hide : FindStringSubmatch hideFromRoadmapRegex "Blocks #2".toList = none := by
  decide

theorem blocks2_bw : FindStringSubmatch baseWeightRegex "Blocks #2".toList = none := by
  decide

theorem blocks2_dep : FindAllStringSubmatch dependsOnRegex "Blocks #2".toList = [] := by
  decide

theorem blocks2_blk : FindAllStringSubmatch blocksRegex "Blocks #2".toList
    = [["Blocks #2".toList, "Blocks".toList, "#2".toList]] := by
  decide

/-- The visit of an issue whose body is "Blocks #2". -/
theorem directives_blocks2 {env : Env} {st : State} {a b : Ptr} {u : Str}
    (hbody : (st.heap a).Body = "Blocks #2".toList)
    (hres : GetRelativeIssueURL env (st.heap a) "#2".toList = .ok u)
    (hget : st.issues.get u = some b) :
    directives env st a = .ok ⟨addEdge st.heap b a, st.issues⟩ := by
  have hlast : lastGroup ["Blocks #2".toList, "Blocks".toList, "#2".toList] = "#2".toList := by
    decide
  have hne : ¬ "Blocks #2".toList = ([] : Str) := by decide
  simp only [directives, hbody, hne, if_false, applyDuplicate, blocks2_dup,
    applyWeightMultiplier, blocks2_wm, blocks2_hide, applyBaseWeight, blocks2_bw, blocks2_dep,
    forMatches, blocks2_blk, applyBlocks_eq, hlast, hres, hget]

theorem directives_empty {env : Env} {st : State} {b : Ptr} (hbody : (st.heap b).Body = []) :
    directives env st b = .ok st := by
  simp [directives, hbody]

/-- The directive loop on the two-issue collection of the end-to-end scenario,
in either visiting order. -/
theorem scenario_pass (env : Env) (st : State) (a b : Ptr)
    (hurl : (st.heap a).URL ≠ (st.heap b).URL)
    (hbodyA : (st.heap a).Body = "Blocks #2".toList) (hbodyB : (st.heap b).Body = [])
    (hres : GetRelativeIssueURL env (st.heap a) "#2".toList = .ok (st.heap b).URL)
    (hiss : st.issues = [((st.heap a).URL, a), ((st.heap b).URL, b)] ∨
      st.issues = [((st.heap b).URL, b), ((st.heap a).URL, a)]) :
    directivePass env st.issues st = .ok ⟨addEdge st.heap b a, st.issues⟩ := by
  have hurl' : ¬ (st.heap b).URL = (st.heap a).URL := fun e => hurl e.symm
  have hgetA : st.issues.get (st.heap a).URL = some a := by
    rcases hiss with e | e <;> rw [e] <;> simp [Issues.get, hurl, hurl']
  have hgetB : st.issues.get (st.heap b).URL = some b := by
    rcases hiss with e | e <;> rw [e] <;> simp [Issues.get, hurl, hurl']
  have hdA := directives_blocks2 hbodyA hres hgetB
  have hdB : directives env ⟨addEdge st.heap b a, st.issues⟩ b
      = .ok ⟨addEdge st.heap b a, st.issues⟩ :=
    directives_empty (by
      show (addEdge st.heap b a b).Body = []
      rw [← (addEdge_same st.heap b a b).2.1]; exact hbodyB)
  have hdB0 : directives env st b = .ok st := directives_empty hbodyB
  rcases hiss with e | e
  · conv_lhs => rw [e]
    simp only [directivePass, hgetA, hdA, hgetB, hdB]
  · conv_lhs => rw [e]
    simp only [directivePass, hgetB, hdB0, hgetA, hdA]

/-- C3: end-to-end resolution.  For a collection of two issues A and B, the
body of A being "Blocks #2", that of B empty, and `#2` resolving from A to the
URL of B (in either visiting order): after `prepare`, `A.Blocks = [B]`,
`B.DependsOn = [A]`, `A.DependsOn` and `B.Blocks` are empty and neither is an
orphan.  In general, in a collection keyed by URL, a blocks phrase of A whose
reference token resolves to B (neither carrying the hide marker) puts B in
`A.Blocks`, A in `B.DependsOn` and clears `IsOrphan` on both. -/
theorem blocks_directive_recorded :
    (∀ (env : Env) (fuel : Nat) (h : Heap) (a b : Ptr) (issues : Issues) (st' : State),
      (h a).URL ≠ (h b).URL →
      (h a).Body = "Blocks #2".toList → (h b).Body = [] →
      GetRelativeIssueURL env (h a) "#2".toList = .ok (h b).URL →
      (issues = [((h a).URL, a), ((h b).URL, b)] ∨
        issues = [((h b).URL, b), ((h a).URL, a)]) →
      prepare env fuel ⟨h, issues⟩ = .ok st' →
      (st'.heap a).Blocks = [b] ∧ (st'.heap b).DependsOn = [a] ∧
        (st'.heap a).DependsOn = [] ∧ (st'.heap b).Blocks = [] ∧
        (st'.heap a).IsOrphan = false ∧ (st'.heap b).IsOrphan = false) ∧
    (∀ (env : Env) (fuel : Nat) (st st' : State) (a b : Ptr) (m : List Str),
      WF st → a ∈ vals st.issues → b ∈ vals st.issues →
      NoHide (st.heap a) → NoHide (st.heap b) →
      m ∈ FindAllStringSubmatch blocksRegex (st.heap a).Body →
      GetRelativeIssueURL env (st.heap a) (lastGroup m) = .ok (st.heap b).URL →
      prepare env fuel st = .ok st' →
      b ∈ (st'.heap a).Blocks ∧ a ∈ (st'.heap b).DependsOn ∧
        (st'.heap a).IsOrphan = false ∧ (st'.heap b).IsOrphan = false) := by
  constructor
  · intro env fuel h a b issues st' hurl hbodyA hbodyB hres hiss hrun
    obtain ⟨s1, hpass, _, hf⟩ := prepare_fields hrun
    have hs := resetPass_same issues h
    have hab : a ≠ b := fun e => hurl (by rw [e])
    have hba : b ≠ a := fun e => hab e.symm
    have hp := scenario_pass env ⟨resetPass h issues, issues⟩ a b
      (by show (resetPass h issues a).URL ≠ (resetPass h issues b).URL
          rw [← (hs a).1, ← (hs b).1]; exact hurl)
      (by show (resetPass h issues a).Body = _
          rw [← (hs a).2.1]; exact hbodyA)
      (by show (resetPass h issues b).Body = _
          rw [← (hs b).2.1]; exact hbodyB)
      (by show GetRelativeIssueURL env (resetPass h issues a) _ = .ok (resetPass h issues b).URL
          rw [← GetRelativeIssueURL_congr env (hs a), ← (hs b).1]; exact hres)
      (by show issues = [((resetPass h issues a).URL, a), ((resetPass h issues b).URL, b)] ∨
            issues = [((resetPass h issues b).URL, b), ((resetPass h issues a).URL, a)]
          rw [← (hs a).1, ← (hs b).1]; exact hiss)
    rw [hp] at hpass
    simp only [Except.ok.injEq] at hpass
    have ha : a ∈ vals issues := by rcases hiss with e | e <;> rw [e] <;> simp [vals]
    have hb : b ∈ vals issues := by rcases hiss with e | e <;> rw [e] <;> simp [vals]
    have ra := reset_relations ⟨h, issues⟩ ha
    have rb := reset_relations ⟨h, issues⟩ hb
    simp only at ra rb
    obtain ⟨x, y, ea⟩ := hf a
    obtain ⟨x', y', eb⟩ := hf b
    rw [ea, eb, ← hpass]
    simp only [addEdge_Blocks, addEdge_DependsOn, addEdge_IsOrphan, ra.1, ra.2.1, rb.1, rb.2.1,
      hab, hba, if_true, if_false, List.nil_append, or_true, true_or, and_self]
  · intro env fuel st st' a b m hwf ha hb hna hnb hm hres hrun
    obtain ⟨s1, hpass, _, hq⟩ := prepare_fields hrun
    have hs := resetPass_same st.issues st.heap
    have hl : Linked s1.heap b a := by
      refine directivePass_blk_linked (m := m) (wf_reset hwf) ha hb ?_ ?_ ?_ ?_ hpass
      · unfold NoHide at hna ⊢; rw [← (hs a).2.1]; exact hna
      · unfold NoHide at hnb ⊢; rw [← (hs b).2.1]; exact hnb
      · show m ∈ FindAllStringSubmatch blocksRegex (resetPass st.heap st.issues a).Body
        rw [← (hs a).2.1]; exact hm
      · show GetRelativeIssueURL env (resetPass st.heap st.issues a) (lastGroup m)
          = .ok (resetPass st.heap st.issues b).URL
        rw [← GetRelativeIssueURL_congr env (hs a), ← (hs b).1]; exact hres
    have hl' := prepare_linked hq hl
    exact ⟨hl'.2.1, hl'.1, hl'.2.2.2, hl'.2.2.1⟩

/-- Witness for C3: issue 1 of `github.com/o/r` with body "Blocks #2" and
issue 2 with an empty body. -/
theorem blocks_directive_recorded_witness :
    ∃ st', prepare goEnv 2 blocksState = .ok st' ∧
      (st'.heap 0).Blocks = [1] ∧ (st'.heap 1).DependsOn = [0] ∧
      (st'.heap 0).DependsOn = [] ∧ (st'.heap 1).Blocks = [] ∧
      (st'.heap 0).IsOrphan = false ∧ (st'.heap 1).IsOrphan = false ∧
      1 ∈ (st'.heap 0).Blocks ∧ 0 ∈ (st'.heap 1).DependsOn := by
  obtain ⟨st', hrun⟩ := except_ok_of (x := prepare goEnv 2 blocksState) (by decide)
  have h1 := blocks_directive_recorded.1 goEnv 2 blocksState.heap 0 1 blocksState.issues st'
    (by decide) (by decide) (by decide) (by decide) (Or.inl (by decide)) hrun
  have h2 := blocks_directive_recorded.2 goEnv 2 blocksState st' 0 1
    ["Blocks #2".toList, "Blocks".toList, "#2".toList] (by unfold WF; decide) (by decide)
    (by decide) (by decide) (by decide) (by decide) (by decide) hrun
  exact ⟨st', hrun, h1.1, h1.2.1, h1.2.2.1, h1.2.2.2.1, h1.2.2.2.2.1, h1.2.2.2.2.2, h2.1, h2.2.1⟩

/-! ## Go `int` arithmetic -/

theorem wrapInt_modEq (x : Int) : wrapInt x ≡ x [ZMOD 2 ^ 64] := by
  unfold wrapInt
  have h1 : (x + 2 ^ 63) % 2 ^ 64 ≡ x + 2 ^ 63 [ZMOD 2 ^ 64] := Int.mod_modEq _ _
  have h2 := h1.sub_right (2 ^ 63)
  simpa using h2

theorem wrapInt_isInt (x : Int) : IsInt (wrapInt x) := by
  unfold IsInt wrapInt minInt maxInt
  have h1 : 0 ≤ (x + 2 ^ 63) % 2 ^ 64 := Int.emod_nonneg _ (by norm_num)
  have h2 : (x + 2 ^ 63) % 2 ^ 64 < 2 ^ 64 := Int.emod_lt_of_pos _ (by norm_num)
  constructor <;> omega

theorem wrapInt_of_isInt {x : Int} (h : IsInt x) : wrapInt x = x := by
  unfold IsInt minInt maxInt at h
  unfold wrapInt
  have : (x + 2 ^ 63) % 2 ^ 64 = x + 2 ^ 63 := Int.emod_eq_of_lt (by omega) (by omega)
  rw [this]; ring

theorem wrapInt_congr {x y : Int} (h : x ≡ y [ZMOD 2 ^ 64]) : wrapInt x = wrapInt y := by
  unfold wrapInt
  have : (x + 2 ^ 63) % 2 ^ 64 = (y + 2 ^ 63) % 2 ^ 64 := h.add_right (2 ^ 63)
  rw [this]

theorem wrapInt_mul_left (a b : Int) : wrapInt (wrapInt a * b) = wrapInt (a * b) :=
  wrapInt_congr ((wrapInt_modEq a).mul_right b)

theorem wrapInt_mul_right (a b : Int) : wrapInt (a * wrapInt b) = wrapInt (a * b) :=
  wrapInt_congr ((wrapInt_modEq b).mul_left a)

theorem wrapInt_add_left (a b : Int) : wrapInt (wrapInt a + b) = wrapInt (a + b) :=
  wrapInt_congr ((wrapInt_modEq a).add_right b)

/-! ## `Unique`: de-duplication through a map keyed by URL -/

theorem put_of_mem {m : Issues} {k : Str} {p : Ptr} (hnd : (keys m).Nodup)
    (h : (k, p) ∈ m) : m.put k p = m := by
  induction m with
  | nil => simp at h
  | cons e rest ih =>
    obtain ⟨k1, p1⟩ := e
    simp only [keys, List.map_cons, List.nodup_cons] at hnd
    simp only [Issues.put]
    split_ifs with hk
    · subst hk
      rcases List.mem_cons.mp h with h1 | h1
      · rw [h1]
      · exact absurd (List.mem_map.mpr ⟨(k1, p), h1, rfl⟩) hnd.1
    · rcases List.mem_cons.mp h with h1 | h1
      · simp only [Prod.mk.injEq] at h1
        exact absurd h1.1.symm hk
      · rw [ih hnd.2 h1]

theorem put_of_not_mem {m : Issues} {k : Str} {p : Ptr} (h : k ∉ keys m) :
    m.put k p = m ++ [(k, p)] := by
  induction m with
  | nil => rfl
  | cons e rest ih =>
    obtain ⟨k1, p1⟩ := e
    simp only [keys, List.map_cons, List.mem_cons, not_or] at h
    simp only [Issues.put]
    have hk : ¬ k1 = k := fun e => h.1 e.symm
    simp only [hk, if_false, List.cons_append]
    rw [ih h.2]

/-- Folding the issues of a slice into a map keyed by URL keeps, for issues
that are identified by their URL, exactly the issues of the slice, once
each. -/
theorem toMap_fold (h : Heap) :
    ∀ (l : IssueSlice) (m : Issues),
      (keys m).Nodup → (∀ e ∈ m, (h e.2).URL = e.1) →
      (∀ a ∈ vals m ++ l, ∀ b ∈ vals m ++ l, (h a).URL = (h b).URL → a = b) →
      (keys (l.foldl (fun m p => m.put (h p).URL p) m)).Nodup ∧
        (∀ e ∈ l.foldl (fun m p => m.put (h p).URL p) m, (h e.2).URL = e.1) ∧
        ∀ q, q ∈ vals (l.foldl (fun m p => m.put (h p).URL p) m) ↔ q ∈ vals m ∨ q ∈ l := by
  intro l
  induction l with
  | nil => intro m hnd hk _; exact ⟨hnd, hk, fun q => by simp⟩
  | cons p rest ih =>
    intro m hnd hk hinj
    simp only [List.foldl_cons]
    by_cases hmem : (h p).URL ∈ keys m
    · obtain ⟨e, he, hek⟩ := List.mem_map.mp hmem
      have hpe : e.2 = p := by
        apply hinj
        · exact List.mem_append_left _ (List.mem_map.mpr ⟨e, he, rfl⟩)
        · exact List.mem_append_right _ (List.mem_cons_self _ _)
        · rw [hk e he]; exact hek
      have hin : ((h p).URL, p) ∈ m := by
        have : e = ((h p).URL, p) := Prod.ext hek hpe
        rw [← this]; exact he
      rw [put_of_mem hnd hin]
      have hpv : p ∈ vals m := List.mem_map.mpr ⟨_, hin, rfl⟩
      obtain ⟨r1, r2, r3⟩ := ih m hnd hk (by
        intro a ha b hb
        apply hinj
        · rcases List.mem_append.mp ha with h1 | h1
          · exact List.mem_append_left _ h1
          · exact List.mem_append_right _ (List.mem_cons_of_mem _ h1)
        · rcases List.mem_append.mp hb with h1 | h1
          · exact List.mem_append_left _ h1
          · exact List.mem_append_right _ (List.mem_cons_of_mem _ h1))
      refine ⟨r1, r2, fun q => ?_⟩
      rw [r3 q]
      constructor
      · rintro (h1 | h1)
        · exact Or.inl h1
        · exact Or.inr (List.mem_cons_of_mem _ h1)
      · rintro (h1 | h1)
        · exact Or.inl h1
        · rcases List.mem_cons.mp h1 with h2 | h2
          · rw [h2]; exact Or.inl hpv
          · exact Or.inr h2
    · rw [put_of_not_mem hmem]
      obtain ⟨r1, r2, r3⟩ := ih (m ++ [((h p).URL, p)])
        (by
          simp only [keys, List.map_append, List.map_cons, List.map_nil]
          rw [List.nodup_append]
          refine ⟨hnd, by simp, ?_⟩
          intro x hx hx2
          simp only [List.mem_singleton] at hx2
          subst hx2
          exact hmem hx)
        (by
          intro e he
          rcases List.mem_append.mp he with h1 | h1
          · exact hk e h1
          · simp only [List.mem_singleton] at h1
            rw [h1])
        (by
          intro a ha b hb
          have conv : ∀ x, x ∈ vals (m ++ [((h p).URL, p)]) ++ rest → x ∈ vals m ++ p :: rest := by
            intro x hx
            simp only [vals, List.map_append, List.map_cons, List.map_nil, List.mem_append,
              List.mem_singleton, List.mem_cons] at hx ⊢
            tauto
          exact hinj a (conv a ha) b (conv b hb))
      refine ⟨r1, r2, fun q => ?_⟩
      rw [r3 q]
      simp only [vals, List.map_append, List.map_cons, List.map_nil, List.mem_append,
        List.mem_singleton, List.mem_cons]
      tauto

theorem vals_nodup_of_keyed (h : Heap) (m : Issues) (hnd : (keys m).Nodup)
    (hk : ∀ e ∈ m, (h e.2).URL = e.1) : (vals m).Nodup := by
  induction m with
  | nil => simp [vals]
  | cons e rest ih =>
    simp only [keys, List.map_cons, List.nodup_cons] at hnd
    simp only [vals, List.map_cons, List.nodup_cons]
    refine ⟨fun hmem => ?_, ih hnd.2 (fun e' he' => hk e' (List.mem_cons_of_mem _ he'))⟩
    obtain ⟨e', he', hp⟩ := List.mem_map.mp hmem
    apply hnd.1
    have h1 := hk e' (List.mem_cons_of_mem _ he')
    have h2 := hk e (List.mem_cons_self _ _)
    rw [hp] at h1
    rw [← h2, h1]
    exact List.mem_map.mpr ⟨e', he', rfl⟩

/-- For issues identified by their URL, `Unique` returns the issues of the
slice, once each. -/
theorem unique_spec (h : Heap) (l : IssueSlice)
    (hinj : ∀ a ∈ l, ∀ b ∈ l, (h a).URL = (h b).URL → a = b) :
    (Unique h l).Nodup ∧ ∀ q, q ∈ Unique h l ↔ q ∈ l := by
  obtain ⟨r1, r2, r3⟩ := toMap_fold h l [] (by simp [keys]) (by simp) (by simpa [vals] using hinj)
  refine ⟨vals_nodup_of_keyed h _ r1 r2, fun q => ?_⟩
  have h3 := r3 q
  have e : Unique h l = vals (l.foldl (fun m p => m.put (h p).URL p) []) := rfl
  rw [e, h3]
  simp [vals]

theorem unique_toFinset (h : Heap) (l : IssueSlice)
    (hinj : ∀ a ∈ l, ∀ b ∈ l, (h a).URL = (h b).URL → a = b) :
    (Unique h l).toFinset = l.toFinset := by
  ext q
  simp only [List.mem_toFinset]
  exact (unique_spec h l hinj).2 q

theorem unique_congr (h1 h2 : Heap) (l : IssueSlice)
    (hurl : ∀ a ∈ l, (h1 a).URL = (h2 a).URL) : Unique h1 l = Unique h2 l := by
  unfold Unique ToMap
  congr 1
  have : ∀ (m : Issues), l.foldl (fun m p => m.put (h1 p).URL p) m
      = l.foldl (fun m p => m.put (h2 p).URL p) m := by
    induction l with
    | nil => intro m; rfl
    | cons p rest ih =>
      intro m
      simp only [List.foldl_cons]
      rw [hurl p (List.mem_cons_self _ _)]
      exact ih (fun a ha => hurl a (List.mem_cons_of_mem _ ha)) _
  exact this []

/-! ## C9: the weights satisfy the reference definition -/

theorem mulLoop_ok (recur : Ptr → Except Fault Int) (f : Ptr → Int) :
    ∀ (l : List Ptr) (acc : Int), (∀ d ∈ l, recur d = .ok (f d)) → IsInt acc →
      mulLoop recur l acc = .ok (wrapInt (acc * (l.map f).prod)) := by
  intro l
  induction l with
  | nil =>
    intro acc _ hacc
    simp only [mulLoop, List.map_nil, List.prod_nil, mul_one]
    rw [wrapInt_of_isInt hacc]
  | cons d ds ih =>
    intro acc hl _
    simp only [mulLoop, hl d (List.mem_cons_self _ _)]
    rw [ih _ (fun x hx => hl x (List.mem_cons_of_mem _ hx)) (wrapInt_isInt _)]
    simp only [List.map_cons, List.prod_cons]
    rw [wrapInt_mul_left, mul_assoc]

theorem addLoop_ok (recur : Ptr → Except Fault Int) (f : Ptr → Int) :
    ∀ (l : List Ptr) (acc : Int), (∀ d ∈ l, recur d = .ok (f d)) → IsInt acc →
      addLoop recur l acc = .ok (wrapInt (acc + (l.map f).sum)) := by
  intro l
  induction l with
  | nil =>
    intro acc _ hacc
    simp only [addLoop, List.map_nil, List.sum_nil, add_zero]
    rw [wrapInt_of_isInt hacc]
  | cons d ds ih =>
    intro acc hl _
    simp only [addLoop, hl d (List.mem_cons_self _ _)]
    rw [ih _ (fun x hx => hl x (List.mem_cons_of_mem _ hx)) (wrapInt_isInt _)]
    simp only [List.map_cons, List.sum_cons]
    rw [wrapInt_add_left, add_assoc]

theorem unique_prod (h : Heap) (l : IssueSlice) (f : Ptr → Int)
    (hinj : ∀ a ∈ l, ∀ b ∈ l, (h a).URL = (h b).URL → a = b) :
    ((Unique h l).map f).prod = Finset.prod l.toFinset f := by
  rw [← unique_toFinset h l hinj, List.prod_toFinset f (unique_spec h l hinj).1]

theorem unique_sum (h : Heap) (l : IssueSlice) (f : Ptr → Int)
    (hinj : ∀ a ∈ l, ∀ b ∈ l, (h a).URL = (h b).URL → a = b) :
    ((Unique h l).map f).sum = Finset.sum l.toFinset f := by
  rw [← unique_toFinset h l hinj, List.sum_toFinset f (unique_spec h l hinj).1]

theorem weightMultiplier_eq_reference {h : Heap} {rank : Ptr → Nat} {W M : Ptr → Int}
    (hacyc : ∀ p, ∀ d ∈ (h p).Blocks, rank d < rank p)
    (hinj : ∀ p, ∀ a ∈ (h p).Blocks, ∀ b ∈ (h p).Blocks, (h a).URL = (h b).URL → a = b)
    (hint : ∀ p, IsInt (h p).weightMultiplier ∧ IsInt (h p).BaseWeight)
    (href : IsReferenceWeight h W M) :
    ∀ (n : Nat) (p : Ptr), rank p < n → WeightMultiplier h n (h p) = .ok (M p) := by
  intro n
  induction n with
  | zero => intro p hp; omega
  | succ k ih =>
    intro p hp
    simp only [WeightMultiplier]
    rw [mulLoop_ok _ M _ _ (fun d hd => ih d (by
      have := hacyc p d (((unique_spec h _ (hinj p)).2 d).mp hd)
      omega)) (hint p).1]
    rw [unique_prod h _ M (hinj p), (href p).1]

theorem weight_eq_reference {h : Heap} {rank : Ptr → Nat} {W M : Ptr → Int}
    (hacyc : ∀ p, ∀ d ∈ (h p).Blocks, rank d < rank p)
    (hinj : ∀ p, ∀ a ∈ (h p).Blocks, ∀ b ∈ (h p).Blocks, (h a).URL = (h b).URL → a = b)
    (hint : ∀ p, IsInt (h p).weightMultiplier ∧ IsInt (h p).BaseWeight)
    (href : IsReferenceWeight h W M) :
    ∀ (n : Nat) (p : Ptr), rank p + 1 < n → Weight h n (h p) = .ok (W p) := by
  intro n
  induction n with
  | zero => intro p hp; omega
  | succ k ih =>
    intro p hp
    simp only [Weight]
    rw [addLoop_ok _ W _ _ (fun d hd => ih d (by
      have := hacyc p d (((unique_spec h _ (hinj p)).2 d).mp hd)
      omega)) (hint p).2]
    simp only
    rw [weightMultiplier_eq_reference hacyc hinj hint href k p (by omega)]
    simp only
    rw [unique_sum h _ W (hinj p), wrapInt_mul_left, (href p).2]

theorem refMultiplier_indep {h : Heap} {rank : Ptr → Nat}
    (hacyc : ∀ p, ∀ d ∈ (h p).Blocks, rank d < rank p) :
    ∀ (n m : Nat) (p : Ptr), rank p < n → rank p < m →
      refMultiplier h n p = refMultiplier h m p := by
  intro n
  induction n with
  | zero => intro m p hp; omega
  | succ k ih =>
    intro m p hp hm
    cases m with
    | zero => omega
    | succ j =>
      simp only [refMultiplier]
      congr 2
      apply Finset.prod_congr rfl
      intro d hd
      have := hacyc p d (List.mem_toFinset.mp hd)
      exact ih j d (by omega) (by omega)

theorem refWeight_indep {h : Heap} {rank : Ptr → Nat}
    (hacyc : ∀ p, ∀ d ∈ (h p).Blocks, rank d < rank p) :
    ∀ (n m : Nat) (p : Ptr), rank p < n → rank p < m → refWeight h n p = refWeight h m p := by
  intro n
  induction n with
  | zero => intro m p hp; omega
  | succ k ih =>
    intro m p hp hm
    cases m with
    | zero => omega
    | succ j =>
      simp only [refWeight]
      rw [refMultiplier_indep hacyc (k + 1) (j + 1) p hp hm]
      congr 3
      apply Finset.sum_congr rfl
      intro d hd
      have := hacyc p d (List.mem_toFinset.mp hd)
      exact ih j d (by omega) (by omega)

theorem reference_exists {h : Heap} {rank : Ptr → Nat}
    (hacyc : ∀ p, ∀ d ∈ (h p).Blocks, rank d < rank p) :
    IsReferenceWeight h (fun p => refWeight h (rank p + 1) p)
      (fun p => refMultiplier h (rank p + 1) p) := by
  intro p
  constructor
  · show refMultiplier h (rank p + 1) p = _
    simp only [refMultiplier]
    congr 2
    apply Finset.prod_congr rfl
    intro d hd
    have := hacyc p d (List.mem_toFinset.mp hd)
    exact refMultiplier_indep hacyc (rank p) (rank d + 1) d (by omega) (by omega)
  · show refWeight h (rank p + 1) p = _
    simp only [refWeight]
    congr 3
    apply Finset.sum_congr rfl
    intro d hd
    have := hacyc p d (List.mem_toFinset.mp hd)
    exact refWeight_indep hacyc (rank p) (rank d + 1) d (by omega) (by omega)

/-- C9: on every acyclic `Blocks` graph (a rank decreases along `Blocks`) whose
issues are identified by their URL, the reference recursive definition has a
solution, and for every solution `W`, `M` of it `Weight` returns `W` and
`WeightMultiplier` returns `M`, for every issue and every fuel that covers the
depth of the graph below it. -/
theorem weight_refines_reference (h : Heap) (rank : Ptr → Nat)
    (hacyc : ∀ p, ∀ d ∈ (h p).Blocks, rank d < rank p)
    (hinj : ∀ p, ∀ a ∈ (h p).Blocks, ∀ b ∈ (h p).Blocks, (h a).URL = (h b).URL → a = b)
    (hint : ∀ p, IsInt (h p).weightMultiplier ∧ IsInt (h p).BaseWeight) :
    (∃ W M, IsReferenceWeight h W M) ∧
      ∀ W M, IsReferenceWeight h W M → ∀ (p : Ptr) (fuel : Nat), rank p + 2 ≤ fuel →
        WeightMultiplier h fuel (h p) = .ok (M p) ∧ Weight h fuel (h p) = .ok (W p) :=
  ⟨⟨_, _, reference_exists hacyc⟩, fun _ _ href p fuel hf =>
    ⟨weightMultiplier_eq_reference hacyc hinj hint href fuel p (by omega),
      weight_eq_reference hacyc hinj hint href fuel p (by omega)⟩⟩

theorem weightHeap_tail (p : Ptr) : weightHeap (p + 3) = mkIssue "" "" [] := by
  simp [weightHeap, heapOf]

theorem weightHeap_acyclic :
    ∀ p, ∀ d ∈ (weightHeap p).Blocks, (if d = 0 then 1 else 0) < (if p = 0 then 1 else 0) := by
  intro p
  rcases p with _ | _ | _ | p
  · decide
  · decide
  · decide
  · rw [weightHeap_tail]; simp [mkIssue]

theorem weightHeap_inj :
    ∀ p, ∀ a ∈ (weightHeap p).Blocks, ∀ b ∈ (weightHeap p).Blocks,
      (weightHeap a).URL = (weightHeap b).URL → a = b := by
  intro p
  rcases p with _ | _ | _ | p
  · decide
  · decide
  · decide
  · rw [weightHeap_tail]; simp [mkIssue]

theorem weightHeap_int :
    ∀ p, IsInt (weightHeap p).weightMultiplier ∧ IsInt (weightHeap p).BaseWeight := by
  intro p
  rcases p with _ | _ | _ | p
  · decide
  · decide
  · decide
  · rw [weightHeap_tail]; decide

theorem weightHeap_reference :
    IsReferenceWeight weightHeap
      (fun p => if p = 0 then 5 else if p = 1 then 2 else if p = 2 then 2 else 1)
      (fun _ => 1) := by
  intro p
  rcases p with _ | _ | _ | p
  · decide
  · decide
  · decide
  · rw [weightHeap_tail]
    simp [mkIssue]
    decide

/-- Witness for C9: X with base weight 1 blocks Y and Z, each with base weight
2 and no `Blocks`, all multipliers 1; `Weight(X)` is 5. -/
theorem weight_refines_reference_witness :
    WeightMultiplier weightHeap 3 (weightHeap 0) = .ok 1 ∧
      Weight weightHeap 3 (weightHeap 0) = .ok 5 :=
  (weight_refines_reference weightHeap (fun p => if p = 0 then 1 else 0) weightHeap_acyclic
    weightHeap_inj weightHeap_int).2 _ _ weightHeap_reference 0 3 (by decide)

/-! ## C10: the weights do not depend on order and repetition in `Blocks` -/

theorem mulLoop_fault {recur : Ptr → Except Fault Int}
    (hr : ∀ d e, recur d = .error e → e = .fuel) :
    ∀ (l : List Ptr) (acc : Int) (e : Fault), mulLoop recur l acc = .error e → e = .fuel := by
  intro l
  induction l with
  | nil => intro acc e h; simp [mulLoop] at h
  | cons d ds ih =>
    intro acc e h
    simp only [mulLoop] at h
    cases hd : recur d with
    | error e1 =>
      rw [hd] at h
      simp only [Except.error.injEq] at h
      rw [← h]; exact hr d e1 hd
    | ok v => rw [hd] at h; exact ih _ e h

theorem addLoop_fault {recur : Ptr → Except Fault Int}
    (hr : ∀ d e, recur d = .error e → e = .fuel) :
    ∀ (l : List Ptr) (acc : Int) (e : Fault), addLoop recur l acc = .error e → e = .fuel := by
  intro l
  induction l with
  | nil => intro acc e h; simp [addLoop] at h
  | cons d ds ih =>
    intro acc e h
    simp only [addLoop] at h
    cases hd : recur d with
    | error e1 =>
      rw [hd] at h
      simp only [Except.error.injEq] at h
      rw [← h]; exact hr d e1 hd
    | ok v => rw [hd] at h; exact ih _ e h

theorem weightMultiplier_fault (h : Heap) :
    ∀ (n : Nat) (i : Issue) (e : Fault), WeightMultiplier h n i = .error e → e = .fuel := by
  intro n
  induction n with
  | zero => intro i e he; simp only [WeightMultiplier, Except.error.injEq] at he; exact he.symm
  | succ k ih =>
    intro i e he
    simp only [WeightMultiplier] at he
    exact mulLoop_fault (fun d e1 h1 => ih (h d) e1 h1) _ _ e he

theorem weight_fault (h : Heap) :
    ∀ (n : Nat) (i : Issue) (e : Fault), Weight h n i = .error e → e = .fuel := by
  intro n
  induction n with
  | zero => intro i e he; simp only [Weight, Except.error.injEq] at he; exact he.symm
  | succ k ih =>
    intro i e he
    simp only [Weight] at he
    cases h1 : addLoop (fun d => Weight h k (h d)) (Unique h i.Blocks) i.BaseWeight with
    | error e1 =>
      rw [h1] at he
      simp only [Except.error.injEq] at he
      rw [← he]
      exact addLoop_fault (fun d e2 h2 => ih (h d) e2 h2) _ _ e1 h1
    | ok w =>
      rw [h1] at he
      simp only at he
      cases h2 : WeightMultiplier h k i with
      | error e2 =>
        rw [h2] at he
        simp only [Except.error.injEq] at he
        rw [← he]
        exact weightMultiplier_fault h k i e2 h2
      | ok m => rw [h2] at he; simp at he

theorem mulLoop_perm {recur : Ptr → Except Fault Int}
    (hr : ∀ d e, recur d = .error e → e = .fuel) {l1 l2 : List Ptr} (hp : l1.Perm l2) :
    ∀ acc, mulLoop recur l1 acc = mulLoop recur l2 acc := by
  induction hp with
  | nil => intro acc; rfl
  | cons x _ ih =>
    intro acc
    simp only [mulLoop]
    cases recur x with
    | error e => rfl
    | ok v => exact ih _
  | swap x y l =>
    intro acc
    simp only [mulLoop]
    cases hx : recur x with
    | error e1 =>
      cases hy : recur y with
      | error e2 => rw [hr x e1 hx, hr y e2 hy]
      | ok v => rfl
    | ok v =>
      cases hy : recur y with
      | error e2 => rfl
      | ok w =>
        simp only
        rw [wrapInt_mul_left, wrapInt_mul_left, mul_right_comm]
  | trans _ _ ih1 ih2 => intro acc; rw [ih1, ih2]

theorem addLoop_perm {recur : Ptr → Except Fault Int}
    (hr : ∀ d e, recur d = .error e → e = .fuel) {l1 l2 : List Ptr} (hp : l1.Perm l2) :
    ∀ acc, addLoop recur l1 acc = addLoop recur l2 acc := by
  induction hp with
  | nil => intro acc; rfl
  | cons x _ ih =>
    intro acc
    simp only [addLoop]
    cases recur x with
    | error e => rfl
    | ok v => exact ih _
  | swap x y l =>
    intro acc
    simp only [addLoop]
    cases hx : recur x with
    | error e1 =>
      cases hy : recur y with
      | error e2 => rw [hr x e1 hx, hr y e2 hy]
      | ok v => rfl
    | ok v =>
      cases hy : recur y with
      | error e2 => rfl
      | ok w =>
        simp only
        rw [wrapInt_add_left, wrapInt_add_left, add_right_comm]
  | trans _ _ ih1 ih2 => intro acc; rw [ih1, ih2]

theorem mulLoop_congr {r1 r2 : Ptr → Except Fault Int} :
    ∀ (l : List Ptr) (acc : Int), (∀ d ∈ l, r1 d = r2 d) →
      mulLoop r1 l acc = mulLoop r2 l acc := by
  intro l
  induction l with
  | nil => intro acc _; rfl
  | cons d ds ih =>
    intro acc hl
    simp only [mulLoop]
    rw [hl d (List.mem_cons_self _ _)]
    cases r2 d with
    | error e => rfl
    | ok v => exact ih _ (fun x hx => hl x (List.mem_cons_of_mem _ hx))

theorem addLoop_congr {r1 r2 : Ptr → Except Fault Int} :
    ∀ (l : List Ptr) (acc : Int), (∀ d ∈ l, r1 d = r2 d) →
      addLoop r1 l acc = addLoop r2 l acc := by
  intro l
  induction l with
  | nil => intro acc _; rfl
  | cons d ds ih =>
    intro acc hl
    simp only [addLoop]
    rw [hl d (List.mem_cons_self _ _)]
    cases r2 d with
    | error e => rfl
    | ok v => exact ih _ (fun x hx => hl x (List.mem_cons_of_mem _ hx))

/-- Two heaps that agree below a rank give the same weights below that
rank. -/
theorem weights_congr_below {h1 h2 : Heap} {rank : Ptr → Nat} {r : Nat}
    (hacyc : ∀ p, ∀ d ∈ (h1 p).Blocks, rank d < rank p)
    (hsame : ∀ q, rank q < r → h1 q = h2 q) :
    ∀ (n : Nat) (p : Ptr), rank p < r →
      WeightMultiplier h1 n (h1 p) = WeightMultiplier h2 n (h2 p) ∧
        Weight h1 n (h1 p) = Weight h2 n (h2 p) := by
  intro n
  induction n with
  | zero => intro p _; exact ⟨rfl, rfl⟩
  | succ k ih =>
    intro p hp
    have hpe : h1 p = h2 p := hsame p hp
    have hu : Unique h1 (h1 p).Blocks = Unique h2 (h2 p).Blocks := by
      rw [← hpe]
      apply unique_congr
      intro a ha
      rw [hsame a (by have := hacyc p a ha; omega)]
    have hmem : ∀ d ∈ Unique h1 (h1 p).Blocks, rank d < r := by
      intro d hd
      have hd' : d ∈ (h1 p).Blocks := by
        have hsub : ∀ (l : IssueSlice) (m : Issues) (q : Ptr),
            q ∈ vals (l.foldl (fun m p => m.put (h1 p).URL p) m) → q ∈ vals m ∨ q ∈ l := by
          intro l
          induction l with
          | nil => intro m q hq; exact Or.inl hq
          | cons x xs ihx =>
            intro m q hq
            simp only [List.foldl_cons] at hq
            rcases ihx _ q hq with h3 | h3
            · obtain ⟨e, he, heq⟩ := List.mem_map.mp h3
              by_cases hkey : (h1 x).URL ∈ keys m
              · have hcases : ∀ (m : Issues) (e : Str × Ptr),
                    e ∈ m.put (h1 x).URL x → e = ((h1 x).URL, x) ∨ e ∈ m := by
                  intro m
                  induction m with
                  | nil => intro e he; simp [Issues.put] at he; exact Or.inl he
                  | cons e1 rest ihm =>
                    intro e he
                    obtain ⟨k1, p1⟩ := e1
                    simp only [Issues.put] at he
                    split_ifs at he with hk
                    · rcases List.mem_cons.mp he with h4 | h4
                      · exact Or.inl h4
                      · exact Or.inr (List.mem_cons_of_mem _ h4)
                    · rcases List.mem_cons.mp he with h4 | h4
                      · exact Or.inr (h4 ▸ List.mem_cons_self _ _)
                      · rcases ihm e h4 with h5 | h5
                        · exact Or.inl h5
                        · exact Or.inr (List.mem_cons_of_mem _ h5)
                rcases hcases m e he with h4 | h4
                · right; rw [← heq, h4]; exact List.mem_cons_self _ _
                · left; exact List.mem_map.mpr ⟨e, h4, heq⟩
              · rw [put_of_not_mem hkey] at he
                rcases List.mem_append.mp he with h4 | h4
                · left; exact List.mem_map.mpr ⟨e, h4, heq⟩
                · simp only [List.mem_singleton] at h4
                  right; rw [← heq, h4]; exact List.mem_cons_self _ _
            · exact Or.inr (List.mem_cons_of_mem _ h3)
        rcases hsub _ [] d hd with h3 | h3
        · simp [vals] at h3
        · exact h3
      have := hacyc p d hd'
      omega
    have hwm : WeightMultiplier h1 (k + 1) (h1 p) = WeightMultiplier h2 (k + 1) (h2 p) := by
      simp only [WeightMultiplier]
      rw [← hu, ← hpe]
      exact mulLoop_congr _ _ (fun d hd => (ih d (hmem d hd)).1)
    refine ⟨hwm, ?_⟩
    simp only [Weight]
    rw [← hu, ← hpe, addLoop_congr _ _ (fun d hd => (ih d (hmem d hd)).2)]
    have : WeightMultiplier h1 k (h1 p) = WeightMultiplier h2 k (h1 p) := by
      have := (ih p hp).1
      rw [← hpe] at this
      exact this
    rw [this]

theorem setBlocks_other (h : Heap) (x : Ptr) (l : IssueSlice) {q : Ptr} (hq : q ≠ x) :
    setBlocks h x l q = h q := by
  simp [setBlocks, heap_modify_apply, hq]

theorem setBlocks_self (h : Heap) (x : Ptr) (l : IssueSlice) :
    setBlocks h x l x = { h x with Blocks := l } := by
  simp [setBlocks, heap_modify_apply]

theorem setBlocks_url (h : Heap) (x : Ptr) (l : IssueSlice) (q : Ptr) :
    (setBlocks h x l q).URL = (h q).URL := by
  by_cases hq : q = x
  · subst hq; rw [setBlocks_self]
  · rw [setBlocks_other h x l hq]

/-- C10: for every issue X on an acyclic graph whose issues are identified by
their URL, `Weight(X)` and `WeightMultiplier(X)` are the same for any two
values of `X.Blocks` that have the same set of URLs, whatever the order of the
entries and the number of times an issue occurs. -/
theorem weight_depends_on_url_set (h : Heap) (x : Ptr) (l1 l2 : IssueSlice)
    (rank : Ptr → Nat)
    (hacyc : ∀ p, ∀ d ∈ (setBlocks h x l1 p).Blocks, rank d < rank p)
    (hinj : ∀ a ∈ l1 ++ l2, ∀ b ∈ l1 ++ l2, (h a).URL = (h b).URL → a = b)
    (hset : (∀ u ∈ l1.map (urlOf h), u ∈ l2.map (urlOf h)) ∧
      (∀ u ∈ l2.map (urlOf h), u ∈ l1.map (urlOf h))) (fuel : Nat) :
    Weight (setBlocks h x l1) fuel (setBlocks h x l1 x)
        = Weight (setBlocks h x l2) fuel (setBlocks h x l2 x) ∧
      WeightMultiplier (setBlocks h x l1) fuel (setBlocks h x l1 x)
        = WeightMultiplier (setBlocks h x l2) fuel (setBlocks h x l2 x) := by
  have hmem : ∀ d, d ∈ l1 ↔ d ∈ l2 := by
    intro d
    constructor
    · intro hd
      obtain ⟨d', hd', hu⟩ := List.mem_map.mp (hset.1 _ (List.mem_map.mpr ⟨d, hd, rfl⟩))
      have : d' = d := hinj d' (List.mem_append_right _ hd') d (List.mem_append_left _ hd) hu
      rw [← this]; exact hd'
    · intro hd
      obtain ⟨d', hd', hu⟩ := List.mem_map.mp (hset.2 _ (List.mem_map.mpr ⟨d, hd, rfl⟩))
      have : d' = d := hinj d' (List.mem_append_left _ hd') d (List.mem_append_right _ hd) hu
      rw [← this]; exact hd'
  have hb1 : (setBlocks h x l1 x).Blocks = l1 := by rw [setBlocks_self]
  have hb2 : (setBlocks h x l2 x).Blocks = l2 := by rw [setBlocks_self]
  have hrank : ∀ d ∈ l1, rank d < rank x := fun d hd => hacyc x d (by rw [hb1]; exact hd)
  have hsame : ∀ q, rank q < rank x → setBlocks h x l1 q = setBlocks h x l2 q := by
    intro q hq
    have hne : q ≠ x := fun e => by rw [e] at hq; omega
    rw [setBlocks_other h x l1 hne, setBlocks_other h x l2 hne]
  have hu1 : Unique (setBlocks h x l1) l1 = Unique h l1 :=
    unique_congr _ _ _ (fun a _ => setBlocks_url h x l1 a)
  have hu2 : Unique (setBlocks h x l2) l2 = Unique h l2 :=
    unique_congr _ _ _ (fun a _ => setBlocks_url h x l2 a)
  have hs1 := unique_spec h l1 (fun a ha b hb =>
    hinj a (List.mem_append_left _ ha) b (List.mem_append_left _ hb))
  have hs2 := unique_spec h l2 (fun a ha b hb =>
    hinj a (List.mem_append_right _ ha) b (List.mem_append_right _ hb))
  have hperm : (Unique h l1).Perm (Unique h l2) :=
    (List.perm_ext_iff_of_nodup hs1.1 hs2.1).mpr
      (fun d => by rw [hs1.2 d, hs2.2 d]; exact hmem d)
  have hwm : ∀ n, WeightMultiplier (setBlocks h x l1) n (setBlocks h x l1 x)
      = WeightMultiplier (setBlocks h x l2) n (setBlocks h x l2 x) := by
    intro n
    cases n with
    | zero => rfl
    | succ k =>
      simp only [WeightMultiplier]
      rw [hb1, hb2, hu1, hu2]
      have hw : (setBlocks h x l1 x).weightMultiplier = (setBlocks h x l2 x).weightMultiplier := by
        rw [setBlocks_self, setBlocks_self]
      rw [hw, mulLoop_congr (Unique h l1) _ (fun d hd =>
        (weights_congr_below hacyc hsame k d (hrank d ((hs1.2 d).mp hd))).1)]
      exact mulLoop_perm (fun d e he => weightMultiplier_fault _ k _ e he) hperm _
  refine ⟨?_, hwm fuel⟩
  cases fuel with
  | zero => rfl
  | succ k =>
    simp only [Weight]
    rw [hb1, hb2, hu1, hu2, hwm k]
    have hw : (setBlocks h x l1 x).BaseWeight = (setBlocks h x l2 x).BaseWeight := by
      rw [setBlocks_self, setBlocks_self]
    rw [hw, addLoop_congr (Unique h l1) _ (fun d hd =>
      (weights_congr_below hacyc hsame k d (hrank d ((hs1.2 d).mp hd))).2)]
    rw [addLoop_perm (fun d e he => weight_fault _ k _ e he) hperm _]

theorem weightHeap_set_acyclic :
    ∀ p, ∀ d ∈ (setBlocks weightHeap 0 [1, 1, 2] p).Blocks,
      (if d = 0 then 1 else 0) < (if p = 0 then 1 else 0) := by
  intro p
  rcases p with _ | _ | _ | p
  · decide
  · decide
  · decide
  · rw [setBlocks_other _ _ _ (Nat.succ_ne_zero _), weightHeap_tail]; simp [mkIssue]

/-- Witness for C10: `Blocks = [Y, Y, Z]` and `Blocks = [Z, Y]` give X the same
weight, 5. -/
theorem weight_depends_on_url_set_witness :
    Weight (setBlocks weightHeap 0 [1, 1, 2]) 3 (setBlocks weightHeap 0 [1, 1, 2] 0) = .ok 5 ∧
      Weight (setBlocks weightHeap 0 [1, 1, 2]) 3 (setBlocks weightHeap 0 [1, 1, 2] 0)
        = Weight (setBlocks weightHeap 0 [2, 1]) 3 (setBlocks weightHeap 0 [2, 1] 0) :=
  ⟨by decide, (weight_depends_on_url_set weightHeap 0 [1, 1, 2] [2, 1]
    (fun p => if p = 0 then 1 else 0) weightHeap_set_acyclic (by decide) (by decide) 3).1⟩

/-! ## Which updates write which field -/

theorem Steps.weightMultiplier_same {env : Env} {A : Ptr → Kind → Prop} {s1 s2 : State}
    (h : Steps env A s1 s2) (q : Ptr) (hA : ∀ p k, A p k → ¬ (p = q ∧ k = .wm)) :
    (s2.heap q).weightMultiplier = (s1.heap q).weightMultiplier := by
  induction h with
  | refl => rfl
  | tail _ hAp _ hs ih =>
    rcases (hs.own q).1 with e | ⟨e1, e2⟩
    · rw [e, ih]
    · exact absurd ⟨e1.symm, e2⟩ (hA _ _ hAp)

theorem Steps.baseWeight_same {env : Env} {A : Ptr → Kind → Prop} {s1 s2 : State}
    (h : Steps env A s1 s2) (q : Ptr) (hA : ∀ p k, A p k → ¬ (p = q ∧ k = .bw)) :
    (s2.heap q).BaseWeight = (s1.heap q).BaseWeight := by
  induction h with
  | refl => rfl
  | tail _ hAp _ hs ih =>
    rcases (hs.own q).2.1 with e | ⟨e1, e2⟩
    · rw [e, ih]
    · exact absurd ⟨e1.symm, e2⟩ (hA _ _ hAp)

theorem Steps.duplicates_same {env : Env} {A : Ptr → Kind → Prop} {s1 s2 : State}
    (h : Steps env A s1 s2) (q : Ptr) (hA : ∀ p k, A p k → ¬ (p = q ∧ k = .dup)) :
    (s2.heap q).Duplicates = (s1.heap q).Duplicates := by
  induction h with
  | refl => rfl
  | tail _ hAp _ hs ih =>
    rcases (hs.own q).2.2.1 with e | ⟨e1, e2⟩
    · rw [e, ih]
    · exact absurd ⟨e1.symm, e2⟩ (hA _ _ hAp)

theorem Steps.errors_same {env : Env} {A : Ptr → Kind → Prop} {s1 s2 : State}
    (h : Steps env A s1 s2) (q : Ptr) (hA : ∀ p k, A p k → ¬ (p = q ∧ k = .err)) :
    (s2.heap q).Errors = (s1.heap q).Errors := by
  induction h with
  | refl => rfl
  | tail _ hAp _ hs ih =>
    rcases (hs.own q).2.2.2 with e | ⟨e1, e2⟩
    · rw [e, ih]
    · exact absurd ⟨e1.symm, e2⟩ (hA _ _ hAp)

/-- The part of a visit after the weight-multiplier directive. -/
theorem directives_shape {env : Env} {p : Ptr} {st st' : State}
    (h : directives env st p = .ok st') (hp : p ∈ vals st.issues)
    (hb : (st.heap p).Body ≠ []) :
    ∃ s1, applyDuplicate env p st = .ok s1 ∧
      ((¬ NoHide (st.heap p) ∧ st'.heap = (applyWeightMultiplier p s1).heap) ∨
        (NoHide (st.heap p) ∧
          Steps env (fun q k => q = p ∧ (k = .dep ∨ k = .err ∨ k = .blk))
            (applyBaseWeight p (applyWeightMultiplier p s1)) st')) := by
  rcases directives_cases h with ⟨hb0, _⟩ | ⟨_, s1, h1, hrest⟩
  · exact absurd hb0 hb
  · refine ⟨s1, h1, ?_⟩
    rcases hrest with ⟨hh, e⟩ | ⟨hn, s4, h4, h5⟩
    · exact Or.inl ⟨hh, by rw [e]⟩
    · right
      refine ⟨hn, ?_⟩
      have hi3 : (applyBaseWeight p (applyWeightMultiplier p s1)).issues = st.issues := by
        rw [applyBaseWeight_issues, applyWeightMultiplier_issues, applyDuplicate_issues h1]
      have hb3 : ((applyBaseWeight p (applyWeightMultiplier p s1)).heap p).Body
          = (st.heap p).Body :=
        ((((applyDuplicate_same h1 p).chain (applyWeightMultiplier_same p s1 p)).chain
          (applyBaseWeight_same p _ p)).2.1).symm
      have hs4 := forMatches_dep_steps
        (A := fun q k => q = p ∧ (k = .dep ∨ k = .err ∨ k = .blk)) (p := p)
        ⟨rfl, Or.inl rfl⟩ ⟨rfl, Or.inr (Or.inl rfl)⟩ _ _ _
        (fun m hm => by rw [hb3]; exact hm) (by rw [hi3]; exact hp) h4
      have hi4 : s4.issues = st.issues := by
        rw [forMatches_dep_issues (fun m hm => by rw [hb3]; exact hm)
          (by rw [hi3]; exact hp) h4]
        exact hi3
      have hs5 := forMatches_blk_steps
        (A := fun q k => q = p ∧ (k = .dep ∨ k = .err ∨ k = .blk)) (p := p)
        ⟨rfl, Or.inr (Or.inr rfl)⟩ ⟨rfl, Or.inr (Or.inl rfl)⟩ _ _ _
        (fun m hm => hm) (by rw [hi4]; exact hp) h5
      exact hs4.trans hs5

/-! ## C7: the first match of a single-valued directive is the one applied -/

theorem firstMatch_find {re : Re} {body : Str} {m : List Str} (h : FirstMatch re body m) :
    FindStringSubmatch re body = some m := by
  obtain ⟨pre, suf, rest, hbody, hmatch, hfirst⟩ := h
  subst hbody
  unfold FindStringSubmatch
  have : search re (pre ++ suf) = some (m, rest) := by
    induction pre with
    | nil =>
      simp only [List.nil_append]
      cases suf with
      | nil => exact hmatch
      | cons c s => simp only [search, hmatch]
    | cons c pre ih =>
      have h0 : matchAt re (c :: (pre ++ suf)) = none :=
        hfirst [] (c :: pre) rfl (by simp)
      show (match matchAt re (c :: (pre ++ suf)) with
        | some r => some r
        | none => search re (pre ++ suf)) = some (m, rest)
      rw [h0]
      exact ih (fun pre1 t e ht => hfirst (c :: pre1) t (by rw [e]; rfl) ht)
  rw [this]; rfl

theorem find_firstMatch {re : Re} {body : Str} {m : List Str}
    (h : FindStringSubmatch re body = some m) : FirstMatch re body m := by
  unfold FindStringSubmatch at h
  cases hs : search re body with
  | none => rw [hs] at h; simp at h
  | some r =>
    rw [hs] at h
    simp only [Option.map_some', Option.some.injEq] at h
    obtain ⟨m', rest⟩ := r
    simp only at h
    subst h
    induction body with
    | nil => exact ⟨[], [], rest, rfl, hs, fun pre1 t e ht => by simp at e; exact absurd e.2 ht⟩
    | cons c s ih =>
      simp only [search] at hs
      cases hm : matchAt re (c :: s) with
      | some r =>
        rw [hm] at hs
        simp only [Option.some.injEq] at hs
        subst hs
        exact ⟨[], c :: s, rest, rfl, hm,
          fun pre1 t e ht => by simp at e; exact absurd e.2 ht⟩
      | none =>
        rw [hm] at hs
        obtain ⟨pre, suf, rest', e1, e2, e3⟩ := ih hs
        refine ⟨c :: pre, suf, rest', by rw [e1]; rfl, e2, ?_⟩
        intro pre1 t e ht
        cases pre1 with
        | nil =>
          simp only [List.nil_append] at e
          rw [← e, List.cons_append, ← e1]
          exact hm
        | cons c1 p1 =>
          simp only [List.cons_append, List.cons.injEq] at e
          exact e3 p1 t e.2 ht

theorem wm_nil : FindStringSubmatch weightMultiplierRegex [] = none := by decide

theorem bw_nil : FindStringSubmatch baseWeightRegex [] = none := by decide

theorem dup_nil : FindStringSubmatch isDuplicateRegex [] = none := by decide

theorem applyWeightMultiplier_wm (p : Ptr) (st : State) :
    ((applyWeightMultiplier p st).heap p).weightMultiplier =
      match FindStringSubmatch weightMultiplierRegex (st.heap p).Body with
      | some m => Atoi (lastGroup m)
      | none => (st.heap p).weightMultiplier := by
  unfold applyWeightMultiplier
  cases FindStringSubmatch weightMultiplierRegex (st.heap p).Body with
  | none => rfl
  | some m => simp [modify_heap]

theorem applyBaseWeight_bw (p : Ptr) (st : State) :
    ((applyBaseWeight p st).heap p).BaseWeight =
      match FindStringSubmatch baseWeightRegex (st.heap p).Body with
      | some m => Atoi (lastGroup m)
      | none => (st.heap p).BaseWeight := by
  unfold applyBaseWeight
  cases FindStringSubmatch baseWeightRegex (st.heap p).Body with
  | none => rfl
  | some m => simp [modify_heap]

theorem applyDuplicate_dup {env : Env} {p : Ptr} {st s1 : State}
    (h : applyDuplicate env p st = .ok s1) :
    match FindStringSubmatch isDuplicateRegex (st.heap p).Body with
    | some m => ∃ u, GetRelativeIssueURL env (st.heap p) (lastGroup m) = .ok u ∧
        (s1.heap p).Duplicates = (st.heap p).Duplicates ++ [u]
    | none => (s1.heap p).Duplicates = (st.heap p).Duplicates := by
  unfold applyDuplicate at h
  cases hm : FindStringSubmatch isDuplicateRegex (st.heap p).Body with
  | none =>
    rw [hm] at h
    simp only [Except.ok.injEq] at h
    subst h
    rfl
  | some m =>
    rw [hm] at h
    simp only at h ⊢
    cases hu : GetRelativeIssueURL env (st.heap p) (lastGroup m) with
    | error e => rw [hu] at h; simp at h
    | ok u =>
      rw [hu] at h
      simp only [Except.ok.injEq] at h
      subst h
      exact ⟨u, rfl, by simp [modify_heap]⟩

/-- What the directive loop leaves in the fields that only the visit of the
issue itself writes, in a collection keyed by URL. -/
theorem directivePass_own {env : Env} {st s1 : State} {q : Ptr}
    (hwf : WF st) (hq : q ∈ vals st.issues)
    (hpass : directivePass env st.issues st = .ok s1) :
    ((s1.heap q).weightMultiplier =
        match FindStringSubmatch weightMultiplierRegex (st.heap q).Body with
        | some m => Atoi (lastGroup m)
        | none => (st.heap q).weightMultiplier) ∧
      (NoHide (st.heap q) → (s1.heap q).BaseWeight =
        match FindStringSubmatch baseWeightRegex (st.heap q).Body with
        | some m => Atoi (lastGroup m)
        | none => (st.heap q).BaseWeight) ∧
      (match FindStringSubmatch isDuplicateRegex (st.heap q).Body with
        | some m => ∃ u, GetRelativeIssueURL env (st.heap q) (lastGroup m) = .ok u ∧
            (s1.heap q).Duplicates = (st.heap q).Duplicates ++ [u]
        | none => (s1.heap q).Duplicates = (st.heap q).Duplicates) := by
  obtain ⟨sa, sb, h1, h2, h3, h4, h5⟩ :=
    directivePass_turn (fun p => (st.heap p).URL) st.issues st s1 hwf (fun _ => rfl) hwf.2
      hpass _ q (mem_vals_url hwf hq) (mem_vals_url hwf hq)
  have hne : ∀ (kd : Kind) (p : Ptr) (k : Kind), p ≠ q → ¬ (p = q ∧ k = kd) :=
    fun _ _ _ hp hc => hp hc.1
  have hq_in : q ∈ vals sa.issues := List.mem_map.mpr ⟨_, h2, rfl⟩
  have hsa := h1.same q
  have hbody : (sa.heap q).Body = (st.heap q).Body := hsa.2.1.symm
  -- fields before and after the visit
  have wm_a := h1.weightMultiplier_same q (hne .wm)
  have bw_a := h1.baseWeight_same q (hne .bw)
  have du_a := h1.duplicates_same q (hne .dup)
  have wm_b := h5.weightMultiplier_same q (hne .wm)
  have bw_b := h5.baseWeight_same q (hne .bw)
  have du_b := h5.duplicates_same q (hne .dup)
  have hg : ∀ t, GetRelativeIssueURL env (st.heap q) t = GetRelativeIssueURL env (sa.heap q) t :=
    GetRelativeIssueURL_congr env hsa
  rw [wm_b, bw_b, du_b, ← wm_a, ← bw_a, ← du_a, ← hbody]
  simp only [hg]
  have hnh : NoHide (st.heap q) ↔ NoHide (sa.heap q) := by unfold NoHide; rw [hbody]
  rw [hnh]
  clear wm_a bw_a du_a wm_b bw_b du_b hnh hbody hg hsa h1 h5 hpass
  by_cases hb : (sa.heap q).Body = []
  · have := @directives_empty env sa q hb
    rw [h4] at this
    simp only [Except.ok.injEq] at this
    subst this
    rw [hb, wm_nil, bw_nil, dup_nil]
    exact ⟨rfl, fun _ => rfl, rfl⟩
  · obtain ⟨t1, hdup, hcase⟩ := directives_shape h4 hq_in hb
    have hp1 : q ∈ vals t1.issues := by rw [applyDuplicate_issues hdup]; exact hq_in
    have hp2 : q ∈ vals (applyWeightMultiplier q t1).issues := by
      rw [applyWeightMultiplier_issues]; exact hp1
    have st1 := applyDuplicate_steps (A := fun _ k => k = .dup) rfl hq_in hdup
    have st2 := applyWeightMultiplier_steps env t1 (A := fun _ k => k = .wm) (p := q) rfl hp1
    have st3 := applyBaseWeight_steps env (applyWeightMultiplier q t1)
      (A := fun _ k => k = .bw) (p := q) rfl hp2
    have hb1 : (t1.heap q).Body = (sa.heap q).Body := (st1.same q).2.1.symm
    have hb2 : ((applyWeightMultiplier q t1).heap q).Body = (sa.heap q).Body :=
      ((st2.same q).2.1).symm.trans hb1
    -- the weight multiplier
    have wm2 : ((applyWeightMultiplier q t1).heap q).weightMultiplier =
        match FindStringSubmatch weightMultiplierRegex (sa.heap q).Body with
        | some m => Atoi (lastGroup m)
        | none => (sa.heap q).weightMultiplier := by
      rw [applyWeightMultiplier_wm, hb1,
        st1.weightMultiplier_same q (fun _ k hk hc => by rw [hk] at hc; cases hc.2)]
    have wm3 : ((applyBaseWeight q (applyWeightMultiplier q t1)).heap q).weightMultiplier
        = ((applyWeightMultiplier q t1).heap q).weightMultiplier :=
      st3.weightMultiplier_same q (fun _ k hk hc => by rw [hk] at hc; cases hc.2)
    -- the base weight
    have bw3 : ((applyBaseWeight q (applyWeightMultiplier q t1)).heap q).BaseWeight =
        match FindStringSubmatch baseWeightRegex (sa.heap q).Body with
        | some m => Atoi (lastGroup m)
        | none => (sa.heap q).BaseWeight := by
      rw [applyBaseWeight_bw, hb2,
        st2.baseWeight_same q (fun _ k hk hc => by rw [hk] at hc; cases hc.2),
        st1.baseWeight_same q (fun _ k hk hc => by rw [hk] at hc; cases hc.2)]
    -- the duplicates
    have du1 := applyDuplicate_dup hdup
    have du2 : ((applyWeightMultiplier q t1).heap q).Duplicates = (t1.heap q).Duplicates :=
      st2.duplicates_same q (fun _ k hk hc => by rw [hk] at hc; cases hc.2)
    have du3 : ((applyBaseWeight q (applyWeightMultiplier q t1)).heap q).Duplicates
        = ((applyWeightMultiplier q t1).heap q).Duplicates :=
      st3.duplicates_same q (fun _ k hk hc => by rw [hk] at hc; cases hc.2)
    rcases hcase with ⟨hh, e⟩ | ⟨hn, hs⟩
    · rw [e, wm2, du2]
      exact ⟨rfl, fun hn => absurd hn hh, du1⟩
    · have hk : ∀ (kd : Kind), kd ≠ .dep → kd ≠ .err → kd ≠ .blk → ∀ (p : Ptr) (k : Kind),
          (p = q ∧ (k = .dep ∨ k = .err ∨ k = .blk)) → ¬ (p = q ∧ k = kd) := by
        intro kd n1 n2 n3 p k hA hc
        rcases hA.2 with e | e | e
        · exact n1 (hc.2 ▸ e)
        · exact n2 (hc.2 ▸ e)
        · exact n3 (hc.2 ▸ e)
      rw [hs.weightMultiplier_same q (hk .wm (by decide) (by decide) (by decide)),
        hs.baseWeight_same q (hk .bw (by decide) (by decide) (by decide)),
        hs.duplicates_same q (hk .dup (by decide) (by decide) (by decide)),
        wm3, wm2, bw3, du3, du2]
      exact ⟨rfl, fun _ => rfl, du1⟩

theorem reset_own (st : State) (q : Ptr) :
    (resetPass st.heap st.issues q).Duplicates = (st.heap q).Duplicates ∧
      (resetPass st.heap st.issues q).Errors = (st.heap q).Errors ∧
      (resetPass st.heap st.issues q).Hidden = (st.heap q).Hidden ∧
      (resetPass st.heap st.issues q).LinkedWithEpic = (st.heap q).LinkedWithEpic := by
  rw [resetPass_apply]
  split_ifs <;> exact ⟨rfl, rfl, rfl, rfl⟩

/-- C7, as the code has it: first-match-wins.  After `prepare` on a collection
keyed by URL, the `weightMultiplier` of an issue of the collection is the value
of the weight-multiplier directive at the first position of the body where the
pattern matches; likewise `BaseWeight` (for an issue without hide marker) is the
value of the first base-weight directive, and the URL appended to `Duplicates`
is the one the first duplicate directive resolves to. -/
theorem first_match_wins (env : Env) (fuel : Nat) (st st' : State) (q : Ptr)
    (hwf : WF st) (hq : q ∈ vals st.issues) (hrun : prepare env fuel st = .ok st') :
    (∀ m, FirstMatch weightMultiplierRegex (st.heap q).Body m →
        (st'.heap q).weightMultiplier = Atoi (lastGroup m)) ∧
      (NoHide (st.heap q) → ∀ m, FirstMatch baseWeightRegex (st.heap q).Body m →
        (st'.heap q).BaseWeight = Atoi (lastGroup m)) ∧
      (∀ m, FirstMatch isDuplicateRegex (st.heap q).Body m →
        ∃ u, GetRelativeIssueURL env (st.heap q) (lastGroup m) = .ok u ∧
          (st'.heap q).Duplicates = (st.heap q).Duplicates ++ [u]) := by
  obtain ⟨s1, hpass, _, hf⟩ := prepare_fields hrun
  obtain ⟨x, y, e⟩ := hf q
  have hs := resetPass_same st.issues st.heap q
  obtain ⟨o1, o2, o3⟩ := directivePass_own (q := q) (wf_reset hwf) hq hpass
  simp only at o1 o2 o3
  rw [← hs.2.1] at o1 o2 o3
  have hg : ∀ t, GetRelativeIssueURL env (resetPass st.heap st.issues q) t
      = GetRelativeIssueURL env (st.heap q) t :=
    fun t => (GetRelativeIssueURL_congr env hs t).symm
  simp only [hg, (reset_own st q).1] at o3
  have hnh : NoHide (resetPass st.heap st.issues q) ↔ NoHide (st.heap q) := by
    unfold NoHide; rw [← hs.2.1]
  rw [hnh] at o2
  rw [e]
  refine ⟨fun m hm => ?_, fun hn m hm => ?_, fun m hm => ?_⟩
  · rw [firstMatch_find hm] at o1
    exact o1
  · have := o2 hn
    rw [firstMatch_find hm] at this
    exact this
  · rw [firstMatch_find hm] at o3
    exact o3

/-- Witness for C7 as amended: a body with the weight multipliers 2 and 5, the
base weights 3 and 7 and the duplicate references #8 and #9, in this order. -/
theorem first_match_wins_witness :
    ∃ st', prepare goEnv 0 twiceState = .ok st' ∧
      (st'.heap 0).weightMultiplier = 2 ∧ (st'.heap 0).BaseWeight = 3 ∧
      (st'.heap 0).Duplicates = ["https://github.com/o/r/issues/8".toList] := by
  obtain ⟨st', hrun⟩ := except_ok_of (x := prepare goEnv 0 twiceState) (by decide)
  obtain ⟨h1, h2, h3⟩ := first_match_wins goEnv 0 twiceState st' 0 (by unfold WF; decide)
    (by decide) hrun
  refine ⟨st', hrun, ?_, ?_, ?_⟩
  · exact h1 ["depviz.weight_multiplier: 2".toList, "depviz.weight_multiplier: ".toList,
      "2".toList] ⟨[], (twiceState.heap 0).Body, (twiceState.heap 0).Body.drop 27, rfl,
        by decide, fun pre1 t e ht => by simp at e; exact absurd e.2 ht⟩
  · exact h2 (by decide) ["depviz.base_weight: 3".toList, "depviz.base_weight: ".toList,
      "3".toList] (find_firstMatch (by decide))
  · obtain ⟨u, hu, hd⟩ := h3 ["duplicate #8".toList, "duplicate".toList, "#8".toList]
      (find_firstMatch (by decide))
    have hu' : GetRelativeIssueURL goEnv (twiceState.heap 0) "#8".toList
        = .ok "https://github.com/o/r/issues/8".toList := by decide
    have e1 : lastGroup ["duplicate #8".toList, "duplicate".toList, "#8".toList]
        = "#8".toList := by decide
    rw [e1, hu'] at hu
    simp only [Except.ok.injEq] at hu
    rw [hd, ← hu]
    decide

/-- Counterexample to C7 as stated: for the body "depviz.weight_multiplier: 2"
followed by "depviz.weight_multiplier: 5", `prepare` sets the multiplier to 2,
not to 5. -/
theorem last_match_wins_counterexample :
    ∃ st', prepare goEnv 1 multiplierState = .ok st' ∧ 0 ∈ vals st'.issues ∧
      (st'.heap 0).weightMultiplier = 2 ∧ (st'.heap 0).weightMultiplier ≠ 5 := by
  obtain ⟨st', hrun⟩ := except_ok_of (x := prepare goEnv 1 multiplierState) (by decide)
  have h : (prepare goEnv 1 multiplierState).toOption.map
      (fun s => (decide (0 ∈ vals s.issues), (s.heap 0).weightMultiplier))
      = some (true, 2) := by decide
  rw [hrun] at h
  simp only [Except.toOption, Option.map_some', Option.some.injEq, Prod.mk.injEq,
    decide_eq_true_eq] at h
  exact ⟨st', hrun, h.1, h.2, by rw [h.2]; decide⟩

/-! ## C8: every match of the depends-on pattern is applied -/

/-- `DependsOn` of an issue is written only by its own depends-on loop and by
blocks phrases that resolve to it. -/
theorem Steps.dependsOn_same {env : Env} {A : Ptr → Kind → Prop} {s1 s2 : State}
    (h : Steps env A s1 s2) (hwf : WF s1) (a : Ptr)
    (hA : ∀ p k, A p k → ¬ (p = a ∧ k = .dep))
    (hno : ∀ p ∈ vals s1.issues, ∀ m ∈ FindAllStringSubmatch blocksRegex (s1.heap p).Body,
      GetRelativeIssueURL env (s1.heap p) (lastGroup m) ≠ .ok (s1.heap a).URL) :
    (s2.heap a).DependsOn = (s1.heap a).DependsOn := by
  induction h with
  | refl => rfl
  | @tail s3 s4 p k h1 hAp hp hs ih =>
    rw [← ih]
    have hwf3 : WF s3 := h1.wf hwf
    cases hs with
    | dup | wm | bw | err =>
      by_cases hq : a = p
      · subst hq; simp [modify_heap]
      · simp [modify_heap, hq]
    | hide => rfl
    | dep st m num d hm hnum hget =>
      simp only [addEdge_DependsOn]
      have : ¬ a = p := fun e => hA _ _ hAp ⟨e.symm, rfl⟩
      rw [if_neg this]
    | blk st m num d hm hnum hget =>
      simp only [addEdge_DependsOn]
      have : ¬ a = d := by
        intro e
        subst e
        have hurl : (s3.heap a).URL = num := hwf3.1 _ (get_mem hget)
        refine hno p ((vals_sublist h1.sublist).subset hp) m ?_ ?_
        · rw [(h1.same p).2.1]; exact hm
        · rw [GetRelativeIssueURL_congr env (h1.same p), (h1.same a).1, hurl]; exact hnum
      rw [if_neg this]

theorem forMatches_dep_exact {env : Env} {a : Ptr} :
    ∀ (ms : List (List Str)) (bs : List Ptr) (st st' : State),
      List.Forall₂ (fun m b =>
        GetRelativeIssueURL env (st.heap a) (lastGroup m) = .ok (st.heap b).URL ∧
          st.issues.get (st.heap b).URL = some b) ms bs →
      forMatches (applyDependsOn env a) ms st = .ok st' →
      (st'.heap a).DependsOn = (st.heap a).DependsOn ++ bs := by
  intro ms
  induction ms with
  | nil =>
    intro bs st st' hf h
    cases hf
    simp only [forMatches, Except.ok.injEq] at h
    subst h
    simp
  | cons m ms ih =>
    intro bs st st' hf h
    cases hf with
    | cons hmb hrest =>
      rename_i b bs'
      simp only [forMatches] at h
      rw [applyDependsOn_eq, hmb.1] at h
      simp only [hmb.2] at h
      have key := ih bs' ⟨addEdge st.heap a b, st.issues⟩ st' (by
        refine hrest.imp ?_
        intro m' b' hmb'
        show GetRelativeIssueURL env (addEdge st.heap a b a) (lastGroup m')
            = .ok (addEdge st.heap a b b').URL ∧
          st.issues.get (addEdge st.heap a b b').URL = some b'
        rw [← GetRelativeIssueURL_congr env (addEdge_same st.heap a b a),
          ← (addEdge_same st.heap a b b').1]
        exact hmb') h
      rw [key]
      simp [addEdge_DependsOn]

theorem Steps.noBlocksInto {env : Env} {A : Ptr → Kind → Prop} {s1 s2 : State}
    (h : Steps env A s1 s2) {a : Ptr} (hno : NoBlocksInto env s1 a) :
    NoBlocksInto env s2 a := by
  intro p hp m hm
  rw [← GetRelativeIssueURL_congr env (h.same p), ← (h.same a).1]
  refine hno p ((vals_sublist h.sublist).subset hp) m ?_
  rw [(h.same p).2.1]; exact hm

theorem Steps.dependsOn_keep {env : Env} {A : Ptr → Kind → Prop} {s1 s2 : State}
    (h : Steps env A s1 s2) (hwf : WF s1) (a : Ptr)
    (hA : ∀ p k, A p k → ¬ (p = a ∧ k = .dep)) (hno : NoBlocksInto env s1 a) :
    (s2.heap a).DependsOn = (s1.heap a).DependsOn :=
  h.dependsOn_same hwf a hA hno

/-- In a collection keyed by URL, when no blocks phrase resolves to the issue,
the directive loop appends to its `DependsOn` the targets of its depends-on
phrases, in the order of the phrases. -/
theorem directivePass_dependsOn_exact {env : Env} {st s1 : State} {a : Ptr}
    {ms : List (List Str)} {bs : List Ptr}
    (hwf : WF st) (ha : a ∈ vals st.issues) (hna : NoHide (st.heap a))
    (hms : FindAllStringSubmatch dependsOnRegex (st.heap a).Body = ms)
    (hbs : List.Forall₂ (fun m b =>
      GetRelativeIssueURL env (st.heap a) (lastGroup m) = .ok (st.heap b).URL ∧
        b ∈ vals st.issues ∧ NoHide (st.heap b)) ms bs)
    (hno : NoBlocksInto env st a)
    (hpass : directivePass env st.issues st = .ok s1) :
    (s1.heap a).DependsOn = (st.heap a).DependsOn ++ bs := by
  obtain ⟨sa, sb, h1, h2, h3, h4, h5⟩ :=
    directivePass_turn (fun q => (st.heap q).URL) st.issues st s1 hwf (fun _ => rfl) hwf.2
      hpass _ a (mem_vals_url hwf ha) (mem_vals_url hwf ha)
  have hother : ∀ (p : Ptr) (k : Kind), p ≠ a → ¬ (p = a ∧ k = .dep) :=
    fun _ _ hp hc => hp hc.1
  have ha_in : a ∈ vals sa.issues := List.mem_map.mpr ⟨_, h2, rfl⟩
  have hturn : Steps env (fun _ _ => True) sa sb := directives_steps (fun _ => trivial) ha_in h4
  have e1 : (sa.heap a).DependsOn = (st.heap a).DependsOn := h1.dependsOn_keep hwf a hother hno
  have e5 : (s1.heap a).DependsOn = (sb.heap a).DependsOn :=
    h5.dependsOn_keep (hturn.wf h3) a hother (hturn.noBlocksInto (h1.noBlocksInto hno))
  rw [e5, ← e1]
  have hbody : (sa.heap a).Body = (st.heap a).Body := ((h1.same a).2.1).symm
  by_cases hb : (sa.heap a).Body = []
  · have := @directives_empty env sa a hb
    rw [h4] at this
    simp only [Except.ok.injEq] at this
    subst this
    rw [← hbody, hb, dependsOn_nil] at hms
    subst hms
    cases hbs
    simp
  · have hna' : NoHide (sa.heap a) := by unfold NoHide at hna ⊢; rw [hbody]; exact hna
    obtain ⟨s3, s4, hs3, hdep, hblk, hi3, hi4⟩ := directives_noHide h4 ha_in hb hna'
    have e3 : (s3.heap a).DependsOn = (sa.heap a).DependsOn :=
      hs3.dependsOn_keep h3 a (fun p k hA hc => by
        rw [hc.2] at hA
        rcases hA.2 with e | e | e <;> cases e) (h1.noBlocksInto hno)
    have hb3 : (s3.heap a).Body = (sa.heap a).Body := ((hs3.same a).2.1).symm
    have ha3 : a ∈ vals s3.issues := by rw [hi3]; exact ha_in
    have hs4 := forMatches_dep_steps (A := fun _ _ => True) (p := a) trivial trivial _ _ _
      (fun m hm => by rw [hb3]; exact hm) ha3 hdep
    have hb4 : (s4.heap a).Body = (sa.heap a).Body := by
      rw [← (hs4.same a).2.1]; exact hb3
    have ha4 : a ∈ vals s4.issues := by rw [hi4]; exact ha_in
    have hs5 := forMatches_blk_steps
      (A := fun q k => q = a ∧ (k = .blk ∨ k = .err)) (p := a)
      ⟨rfl, Or.inl rfl⟩ ⟨rfl, Or.inr rfl⟩ _ _ _
      (fun m hm => by rw [hb4]; exact hm) ha4 hblk
    have hwf3 : WF s3 := hs3.wf h3
    have e5' : (sb.heap a).DependsOn = (s4.heap a).DependsOn :=
      hs5.dependsOn_keep (hs4.wf hwf3) a (fun p k hA hc => by
        rw [hc.2] at hA
        rcases hA.2 with e | e <;> cases e)
        (hs4.noBlocksInto (hs3.noBlocksInto (h1.noBlocksInto hno)))
    have e4 : (s4.heap a).DependsOn = (s3.heap a).DependsOn ++ bs := by
      refine forMatches_dep_exact ms bs s3 s4 ?_ (by rw [← hms, ← hbody]; exact hdep)
      refine hbs.imp ?_
      intro m b hmb
      have hsame := fun q => (h1.same q).chain (hs3.same q)
      rw [← GetRelativeIssueURL_congr env (hsame a), ← (hsame b).1]
      refine ⟨hmb.1, ?_⟩
      rw [hi3]
      exact get_of_mem h3.2 (h1.persist_noHide hwf (mem_vals_url hwf hmb.2.1) hmb.2.2)
    rw [e5', e4, e3]

/-- C8, as the code has it: all matches are applied.  For an issue of a
collection keyed by URL whose body has three depends-on phrases resolving to
three distinct issues of the collection (none carrying the hide marker), after
`prepare` its `DependsOn` contains each of the three; when in addition no blocks
phrase of the collection resolves to the issue, its `DependsOn` consists of
exactly those three, each once, in the order of the phrases. -/
theorem all_dependsOn_matches_applied (env : Env) (fuel : Nat) (st st' : State)
    (a b1 b2 b3 : Ptr) (m1 m2 m3 : List Str) (hwf : WF st) (ha : a ∈ vals st.issues)
    (hb1 : b1 ∈ vals st.issues) (hb2 : b2 ∈ vals st.issues) (hb3 : b3 ∈ vals st.issues)
    (hna : NoHide (st.heap a)) (hn1 : NoHide (st.heap b1)) (hn2 : NoHide (st.heap b2))
    (hn3 : NoHide (st.heap b3))
    (hms : FindAllStringSubmatch dependsOnRegex (st.heap a).Body = [m1, m2, m3])
    (hr1 : GetRelativeIssueURL env (st.heap a) (lastGroup m1) = .ok (st.heap b1).URL)
    (hr2 : GetRelativeIssueURL env (st.heap a) (lastGroup m2) = .ok (st.heap b2).URL)
    (hr3 : GetRelativeIssueURL env (st.heap a) (lastGroup m3) = .ok (st.heap b3).URL)
    (hd : b1 ≠ b2 ∧ b1 ≠ b3 ∧ b2 ≠ b3)
    (hrun : prepare env fuel st = .ok st') :
    (b1 ∈ (st'.heap a).DependsOn ∧ b2 ∈ (st'.heap a).DependsOn ∧
        b3 ∈ (st'.heap a).DependsOn) ∧
      (NoBlocksInto env st a →
        (st'.heap a).DependsOn = [b1, b2, b3] ∧ (st'.heap a).DependsOn.Nodup) := by
  have hmem : ∀ m ∈ [m1, m2, m3], m ∈ FindAllStringSubmatch dependsOnRegex (st.heap a).Body :=
    fun m hm => by rw [hms]; exact hm
  refine ⟨⟨?_, ?_, ?_⟩, fun hno => ?_⟩
  · exact (prepare_dep_linked hwf ha hb1 hna hn1 (hmem m1 (by simp)) hr1 hrun).1
  · exact (prepare_dep_linked hwf ha hb2 hna hn2 (hmem m2 (by simp)) hr2 hrun).1
  · exact (prepare_dep_linked hwf ha hb3 hna hn3 (hmem m3 (by simp)) hr3 hrun).1
  · obtain ⟨s1, hpass, _, hf⟩ := prepare_fields hrun
    obtain ⟨x, y, e⟩ := hf a
    have hs := resetPass_same st.issues st.heap
    have hg : ∀ t, GetRelativeIssueURL env (resetPass st.heap st.issues a) t
        = GetRelativeIssueURL env (st.heap a) t :=
      fun t => (GetRelativeIssueURL_congr env (hs a) t).symm
    have hnh : ∀ q, NoHide (st.heap q) → NoHide (resetPass st.heap st.issues q) := by
      intro q hq; unfold NoHide at hq ⊢; rw [← (hs q).2.1]; exact hq
    have key := @directivePass_dependsOn_exact env ⟨resetPass st.heap st.issues, st.issues⟩ s1
      a [m1, m2, m3] [b1, b2, b3] (wf_reset hwf) ha (hnh a hna)
      (by show FindAllStringSubmatch dependsOnRegex (resetPass st.heap st.issues a).Body = _
          rw [← (hs a).2.1]; exact hms)
      (by
        refine List.Forall₂.cons ⟨?_, hb1, hnh b1 hn1⟩ (List.Forall₂.cons ⟨?_, hb2, hnh b2 hn2⟩
          (List.Forall₂.cons ⟨?_, hb3, hnh b3 hn3⟩ List.Forall₂.nil))
        · show GetRelativeIssueURL env (resetPass st.heap st.issues a) _
            = .ok (resetPass st.heap st.issues b1).URL
          rw [hg, ← (hs b1).1]; exact hr1
        · show GetRelativeIssueURL env (resetPass st.heap st.issues a) _
            = .ok (resetPass st.heap st.issues b2).URL
          rw [hg, ← (hs b2).1]; exact hr2
        · show GetRelativeIssueURL env (resetPass st.heap st.issues a) _
            = .ok (resetPass st.heap st.issues b3).URL
          rw [hg, ← (hs b3).1]; exact hr3)
      (by
        intro p hp m hm
        show GetRelativeIssueURL env (resetPass st.heap st.issues p) (lastGroup m)
          ≠ .ok (resetPass st.heap st.issues a).URL
        rw [← GetRelativeIssueURL_congr env (hs p), ← (hs a).1]
        refine hno p hp m ?_
        rw [(hs p).2.1]; exact hm)
      hpass
    have hD : (st'.heap a).DependsOn = [b1, b2, b3] := by
      rw [e]
      show (s1.heap a).DependsOn = _
      rw [key]
      show (resetPass st.heap st.issues a).DependsOn ++ _ = _
      rw [(reset_relations st ha).1]
      rfl
    refine ⟨hD, ?_⟩
    rw [hD]
    simp [hd.1, hd.2.1, hd.2.2]

/-- Witness for C8 as amended: issue 1 with three depends-on phrases for the
issues 2, 3 and 4. -/
theorem all_dependsOn_matches_applied_witness :
    NoBlocksInto goEnv threeState 0 ∧
      ∃ st', prepare goEnv 2 threeState = .ok st' ∧ (st'.heap 0).DependsOn = [1, 2, 3] := by
  have hno : NoBlocksInto goEnv threeState 0 := by decide
  obtain ⟨st', hrun⟩ := except_ok_of (x := prepare goEnv 2 threeState) (by decide)
  exact ⟨hno, st', hrun, ((all_dependsOn_matches_applied goEnv 2 threeState st' 0 1 2 3
    ["depends on #2".toList, "depends on".toList, "#2".toList]
    ["depends on #3".toList, "depends on".toList, "#3".toList]
    ["depends on #4".toList, "depends on".toList, "#4".toList]
    (by unfold WF; decide) (by decide) (by decide) (by decide) (by decide) (by decide)
    (by decide) (by decide) (by decide) (by decide) (by decide) (by decide) (by decide)
    (by decide) hrun).2 hno).1⟩

/-- Counterexample to C8 as stated: issue 1 depends on the issues 2, 3 and 4,
and issue 2 says "blocks #1"; after `prepare` issue 2 is twice in the
`DependsOn` of issue 1. -/
theorem exactly_three_counterexample :
    (FindAllStringSubmatch dependsOnRegex (threeBlockedState.heap 0).Body).map lastGroup
        = ["#2".toList, "#3".toList, "#4".toList] ∧
      (∀ p ∈ vals threeBlockedState.issues, NoHide (threeBlockedState.heap p)) ∧
      ∃ st', prepare goEnv 2 threeBlockedState = .ok st' ∧
        (st'.heap 0).DependsOn = [1, 2, 3, 1] ∧ (st'.heap 0).DependsOn.count 1 = 2 := by
  obtain ⟨st', hrun⟩ := except_ok_of (x := prepare goEnv 2 threeBlockedState) (by decide)
  have h : (prepare goEnv 2 threeBlockedState).toOption.map (fun s => (s.heap 0).DependsOn)
      = some [1, 2, 3, 1] := by decide
  rw [hrun] at h
  simp only [Except.toOption, Option.map_some', Option.some.injEq] at h
  exact ⟨by decide, by decide, st', hrun, h, by rw [h]; decide⟩

/-! ## C6: running `prepare` again -/

theorem IsPR_congr {i j : Issue} (h : SameInput i j) : IsPR i = IsPR j := by
  unfold IsPR
  rw [h.2.2.2.2.1, h.2.2.2.2.2.1]

/-- What the hiding loop guarantees for the issues it visits. -/
theorem hidingPass_sets :
    ∀ (m : Issues) (h h' : Heap), hidingPass m h = .ok h' →
      ∀ q ∈ vals m, ((h q).Duplicates.length > 0 → (h' q).Hidden = true) ∧
        ∃ b, IsPR (h q) = .ok b ∧ (b = true → (h' q).Hidden = true) := by
  intro m
  induction m with
  | nil => intro h h' _ q hq; simp [vals] at hq
  | cons e rest ih =>
    intro h h' hh q hq
    obtain ⟨k, p⟩ := e
    simp only [hidingPass] at hh
    -- the heap after the duplicates test
    have hmid : ∀ x, ∃ b, (if (h p).Duplicates.length > 0 then
        h.modify p (fun i => { i with Hidden := true }) else h) x = { h x with Hidden := b } ∧
        ((h x).Hidden = true → b = true) := by
      intro x
      split_ifs
      · exact hidden_modify h p x
      · exact hidden_refl _
    have hmidp : (h p).Duplicates.length > 0 → ((if (h p).Duplicates.length > 0 then
        h.modify p (fun i => { i with Hidden := true }) else h) p).Hidden = true := by
      intro hd
      rw [if_pos hd]
      simp [heap_modify_apply]
    have hpr : ∀ x, IsPR ((if (h p).Duplicates.length > 0 then
        h.modify p (fun i => { i with Hidden := true }) else h) x) = IsPR (h x) := by
      intro x
      obtain ⟨b, hb, _⟩ := hmid x
      rw [hb]
      rfl
    rw [hpr p] at hh
    cases hpr1 : IsPR (h p) with
    | error err => rw [hpr1] at hh; simp at hh
    | ok b =>
      rw [hpr1] at hh
      cases b with
      | true =>
        simp only at hh
        have hmono := hidingPass_apply _ _ _ hh
        by_cases hqp : q = p
        · subst hqp
          obtain ⟨b2, e2, m2⟩ := hmono q
          have : (h' q).Hidden = true := by
            rw [e2]
            exact m2 (by simp [heap_modify_apply])
          exact ⟨fun _ => this, true, hpr1, fun _ => this⟩
        · have hq' : q ∈ vals rest := by
            simp only [vals, List.map_cons, List.mem_cons] at hq
            rcases hq with h1 | h1
            · exact absurd h1 hqp
            · exact h1
          obtain ⟨r1, r2⟩ := ih _ _ hh q hq'
          obtain ⟨b3, e3, _⟩ := hmid q
          have eq : (Heap.modify (if (h p).Duplicates.length > 0 then
              h.modify p (fun i => { i with Hidden := true }) else h) p
              (fun i => { i with Hidden := true })) q = { h q with Hidden := b3 } := by
            rw [heap_modify_apply, if_neg hqp, e3]
          rw [eq] at r1 r2
          exact ⟨r1, r2⟩
      | false =>
        simp only at hh
        have hmono := hidingPass_apply _ _ _ hh
        by_cases hqp : q = p
        · subst hqp
          obtain ⟨b2, e2, m2⟩ := hmono q
          refine ⟨fun hd => ?_, false, hpr1, fun hf => by cases hf⟩
          rw [e2]
          exact m2 (hmidp hd)
        · have hq' : q ∈ vals rest := by
            simp only [vals, List.map_cons, List.mem_cons] at hq
            rcases hq with h1 | h1
            · exact absurd h1 hqp
            · exact h1
          obtain ⟨r1, r2⟩ := ih _ _ hh q hq'
          obtain ⟨b3, e3, _⟩ := hmid q
          rw [e3] at r1 r2
          exact ⟨r1, r2⟩

theorem epicLoop_congr {f g : Ptr → Bool} {r s : Ptr → Except Fault Bool}
    (hf : ∀ d, f d = g d) (hr : ∀ d, r d = s d) :
    ∀ l, epicLoop f r l = epicLoop g s l := by
  intro l
  induction l with
  | nil => rfl
  | cons d ds ih => simp only [epicLoop, hf, hr, ih]

theorem IsEpic_congr (env : Env) {i j : Issue} (h : i.Labels = j.Labels) :
    IsEpic env i = IsEpic env j := by
  unfold IsEpic; rw [h]

theorem BlocksAnEpic_congr (env : Env) {h h' : Heap} (hs : EpicSame h h') :
    ∀ (n : Nat) (i j : Issue), i.Blocks = j.Blocks →
      BlocksAnEpic env h n i = BlocksAnEpic env h' n j := by
  intro n
  induction n with
  | zero => intro i j _; rfl
  | succ k ih =>
    intro i j hij
    simp only [BlocksAnEpic]
    rw [hij]
    exact epicLoop_congr (fun d => IsEpic_congr env (hs d).2.1)
      (fun d => ih (h d) (h' d) (hs d).2.2.1) _

theorem DependsOnAnEpic_congr (env : Env) {h h' : Heap} (hs : EpicSame h h') :
    ∀ (n : Nat) (i j : Issue), i.DependsOn = j.DependsOn →
      DependsOnAnEpic env h n i = DependsOnAnEpic env h' n j := by
  intro n
  induction n with
  | zero => intro i j _; rfl
  | succ k ih =>
    intro i j hij
    simp only [DependsOnAnEpic]
    rw [hij]
    exact epicLoop_congr (fun d => IsEpic_congr env (hs d).2.1)
      (fun d => ih (h d) (h' d) (hs d).2.2.2) _

theorem linkedWithEpic_congr (env : Env) {h h' : Heap} (hs : EpicSame h h') (fuel : Nat)
    (q : Ptr) : linkedWithEpic env h fuel (h q) = linkedWithEpic env h' fuel (h' q) := by
  unfold linkedWithEpic
  rw [(hs q).1, IsEpic_congr env (hs q).2.1,
    BlocksAnEpic_congr env hs fuel (h q) (h' q) (hs q).2.2.1,
    DependsOnAnEpic_congr env hs fuel (h q) (h' q) (hs q).2.2.2]

theorem processEpicLinks_outside {env : Env} {fuel : Nat} :
    ∀ (m : Issues) (h r : Heap), processEpicLinks env fuel m h = .ok r →
      ∀ q, q ∉ vals m → r q = h q := by
  intro m
  induction m with
  | nil =>
    intro h r hh q _
    simp only [processEpicLinks, Except.ok.injEq] at hh
    rw [hh]
  | cons e rest ih =>
    intro h r hh q hq
    obtain ⟨k, p⟩ := e
    simp only [vals, List.map_cons, List.mem_cons, not_or] at hq
    simp only [processEpicLinks] at hh
    split at hh
    · simp at hh
    · rw [ih _ _ hh q hq.2, heap_modify_apply, if_neg hq.1]

theorem epicSame_modify {h h' : Heap} (hs : EpicSame h h') (p : Ptr) (b : Bool) :
    EpicSame (h.modify p (fun i => { i with LinkedWithEpic := b }))
      (h'.modify p (fun i => { i with LinkedWithEpic := b })) := by
  intro q
  simp only [heap_modify_apply]
  split_ifs with hq
  · exact hs p
  · exact hs q

/-- The epic-linkage pass gives the same flags on two heaps that agree on what
it reads. -/
theorem processEpicLinks_congr {env : Env} {fuel : Nat} :
    ∀ (m : Issues) (h h' r : Heap), EpicSame h h' → processEpicLinks env fuel m h = .ok r →
      ∃ r', processEpicLinks env fuel m h' = .ok r' ∧
        ∀ q, q ∈ vals m → (r' q).LinkedWithEpic = (r q).LinkedWithEpic := by
  intro m
  induction m with
  | nil => intro h h' r _ _; exact ⟨h', rfl, fun q hq => by simp [vals] at hq⟩
  | cons e rest ih =>
    intro h h' r hs hh
    obtain ⟨k, p⟩ := e
    simp only [processEpicLinks] at hh ⊢
    rw [← linkedWithEpic_congr env hs fuel p]
    cases hl : linkedWithEpic env h fuel (h p) with
    | error err => rw [hl] at hh; simp at hh
    | ok b =>
      rw [hl] at hh
      simp only at hh ⊢
      obtain ⟨r', hr', hq'⟩ := ih _ _ r (epicSame_modify hs p b) hh
      refine ⟨r', hr', fun q hq => ?_⟩
      by_cases hin : q ∈ vals rest
      · exact hq' q hin
      · have hqp : q = p := by
          simp only [vals, List.map_cons, List.mem_cons] at hq
          rcases hq with h1 | h1
          · exact h1
          · exact absurd h1 hin
        rw [processEpicLinks_outside _ _ _ hr' q hin, processEpicLinks_outside _ _ _ hh q hin,
          hqp]
        simp [heap_modify_apply]

theorem resetPass_flags (h : Heap) (m : Issues) (q : Ptr) :
    (resetPass h m q).Duplicates = (h q).Duplicates ∧
      (resetPass h m q).Hidden = (h q).Hidden ∧
      (resetPass h m q).LinkedWithEpic = (h q).LinkedWithEpic := by
  rw [resetPass_apply]
  split_ifs <;> exact ⟨rfl, rfl, rfl⟩

/-- Counterexample to C6 as stated: issue 1 says "depends on #2" and is
visited before issue 2, whose body carries the hide marker, and issue 3 says
"depends on #9". The first run records the edge from 1 to 2 and then takes
issue 2 out of the collection; the second run no longer finds it, so issue 1
ends with an empty `DependsOn` and as an orphan, and the `Errors` of issue 3,
which no pass clears, have grown from one entry to two. -/
theorem prepare_twice_counterexample :
    ∃ s1 s2, prepare goEnv 2 hiddenTargetState = .ok s1 ∧ prepare goEnv 2 s1 = .ok s2 ∧
      (s1.heap 0).DependsOn = [1] ∧ (s2.heap 0).DependsOn = [] ∧
      (s1.heap 0).IsOrphan = false ∧ (s2.heap 0).IsOrphan = true ∧
      (s1.heap 2).Errors.length = 1 ∧ (s2.heap 2).Errors.length = 2 := by
  obtain ⟨s1, hrun⟩ := except_ok_of (x := prepare goEnv 2 hiddenTargetState) (by decide)
  have h : ((prepare goEnv 2 hiddenTargetState).toOption.bind (fun s1 =>
      (prepare goEnv 2 s1).toOption.map (fun s2 =>
        ((s1.heap 0).DependsOn, (s2.heap 0).DependsOn, (s1.heap 0).IsOrphan,
          (s2.heap 0).IsOrphan)))) = some ([1], [], false, true) := by decide
  have h' : ((prepare goEnv 2 hiddenTargetState).toOption.bind (fun s1 =>
      (prepare goEnv 2 s1).toOption.map (fun s2 =>
        ((s1.heap 2).Errors.length, (s2.heap 2).Errors.length)))) = some (1, 2) := by decide
  rw [hrun] at h h'
  simp only [Except.toOption, Option.some_bind] at h h'
  cases hx : prepare goEnv 2 s1 with
  | error e =>
    rw [hx] at h
    simp at h
  | ok s2 =>
    rw [hx] at h h'
    simp only [Option.map_some', Option.some.injEq, Prod.mk.injEq] at h h'
    exact ⟨s1, s2, hrun, hx, h.1, h.2.1, h.2.2.1, h.2.2.2, h'.1, h'.2⟩

/-! ## C11: weights in a diamond -/

theorem wrapInt_small (x : Int) (h1 : -100 ≤ x) (h2 : x ≤ 100) : wrapInt x = x := by
  apply wrapInt_of_isInt
  unfold IsInt minInt maxInt
  constructor <;> omega

theorem unique_one (h : Heap) (w : Ptr) : Unique h [w] = [w] := by
  simp [Unique, ToMap, ToSlice, Issues.put]

theorem unique_two (h : Heap) (y z : Ptr) (hurl : (h y).URL ≠ (h z).URL) :
    Unique h [y, z] = [y, z] := by
  simp [Unique, ToMap, ToSlice, Issues.put, hurl]

theorem unique_nil (h : Heap) : Unique h [] = [] := rfl

/-- The weights in a diamond X → Y, Z → W with unit base weights and
multipliers. -/
theorem diamond_weights (h : Heap) (x y z w : Ptr) (n : Nat)
    (hx : (h x).Blocks = [y, z]) (hy : (h y).Blocks = [w]) (hz : (h z).Blocks = [w])
    (hw : (h w).Blocks = []) (hurl : (h y).URL ≠ (h z).URL)
    (hb : ∀ p ∈ [x, y, z, w], (h p).BaseWeight = 1 ∧ (h p).weightMultiplier = 1) :
    Weight h (n + 4) (h w) = .ok 1 ∧ Weight h (n + 4) (h y) = .ok 2 ∧
      Weight h (n + 4) (h z) = .ok 2 ∧ Weight h (n + 4) (h x) = .ok 5 := by
  have bx := hb x (by simp)
  have by1 := hb y (by simp)
  have bz := hb z (by simp)
  have bw := hb w (by simp)
  have mw : ∀ k, WeightMultiplier h (k + 1) (h w) = .ok 1 := by
    intro k
    simp [WeightMultiplier, hw, unique_nil, mulLoop, bw.2]
  have my : ∀ k, WeightMultiplier h (k + 2) (h y) = .ok 1 := by
    intro k
    simp [WeightMultiplier, hy, hw, unique_one, unique_nil, mulLoop, bw.2, by1.2, wrapInt_small]
  have mz : ∀ k, WeightMultiplier h (k + 2) (h z) = .ok 1 := by
    intro k
    simp [WeightMultiplier, hz, hw, unique_one, unique_nil, mulLoop, bw.2, bz.2, wrapInt_small]
  have mx : ∀ k, WeightMultiplier h (k + 3) (h x) = .ok 1 := by
    intro k
    rw [WeightMultiplier, hx, unique_two h y z hurl]
    simp [mulLoop, my, mz, bx.2, wrapInt_small]
  have ww : ∀ k, Weight h (k + 2) (h w) = .ok 1 := by
    intro k
    rw [Weight, hw, unique_nil, mw]
    simp [addLoop, bw.1, wrapInt_small]
  have wy : ∀ k, Weight h (k + 3) (h y) = .ok 2 := by
    intro k
    rw [Weight, hy, unique_one, my]
    simp [addLoop, ww, by1.1, wrapInt_small]
  have wz : ∀ k, Weight h (k + 3) (h z) = .ok 2 := by
    intro k
    rw [Weight, hz, unique_one, mz]
    simp [addLoop, ww, bz.1, wrapInt_small]
  refine ⟨ww (n + 2), wy (n + 1), wz (n + 1), ?_⟩
  rw [Weight, hx, unique_two h y z hurl, mx]
  simp [addLoop, wy, wz, bx.1, wrapInt_small]

theorem diamondHeap_facts :
    (diamondHeap 0).Blocks = [1, 2] ∧ (diamondHeap 1).Blocks = [3] ∧
      (diamondHeap 2).Blocks = [3] ∧ (diamondHeap 3).Blocks = [] ∧
      (diamondHeap 1).URL ≠ (diamondHeap 2).URL ∧
      ∀ p ∈ [0, 1, 2, 3], (diamondHeap p).BaseWeight = 1 ∧ (diamondHeap p).weightMultiplier = 1 := by
  refine ⟨rfl, rfl, rfl, rfl, by decide, by decide⟩

/-- C11, as the code has it: when X blocks Y and Z, Y and Z both block W, W
blocks nothing, and all base weights and multipliers are 1, then (the issues
Y and Z having different URLs, and the fuel covering the depth) `Weight`
returns 1 for W, 2 for Y and for Z, and 5 for X: only the direct `Blocks` of
an issue are de-duplicated, and W is counted once in the weight of Y and once
more in the weight of Z. -/
theorem diamond_counts_per_path (h : Heap) (x y z w : Ptr) (fuel : Nat)
    (hx : (h x).Blocks = [y, z]) (hy : (h y).Blocks = [w]) (hz : (h z).Blocks = [w])
    (hw : (h w).Blocks = []) (hurl : (h y).URL ≠ (h z).URL)
    (hb : ∀ p ∈ [x, y, z, w], (h p).BaseWeight = 1 ∧ (h p).weightMultiplier = 1)
    (hfuel : 4 ≤ fuel) :
    Weight h fuel (h w) = .ok 1 ∧ Weight h fuel (h y) = .ok 2 ∧
      Weight h fuel (h z) = .ok 2 ∧ Weight h fuel (h x) = .ok 5 := by
  obtain ⟨n, rfl⟩ : ∃ n, fuel = n + 4 := ⟨fuel - 4, by omega⟩
  exact diamond_weights h x y z w n hx hy hz hw hurl hb

/-- Witness for C11 as amended: the diamond at the addresses 0 to 3. -/
theorem diamond_counts_per_path_witness :
    Weight diamondHeap 4 (diamondHeap 3) = .ok 1 ∧ Weight diamondHeap 4 (diamondHeap 1) = .ok 2 ∧
      Weight diamondHeap 4 (diamondHeap 2) = .ok 2 ∧ Weight diamondHeap 4 (diamondHeap 0) = .ok 5 :=
  diamond_counts_per_path diamondHeap 0 1 2 3 4 rfl rfl rfl rfl (by decide) (by decide)
    (by decide)

/-- Counterexample to C11 as stated: in the diamond with unit base weights and
multipliers `Weight` of X is 5, and for no fuel is it 4. -/
theorem weight_four_counterexample :
    Weight diamondHeap 4 (diamondHeap 0) = .ok 5 ∧
      ∀ fuel, Weight diamondHeap fuel (diamondHeap 0) ≠ .ok 4 := by
  obtain ⟨f1, f2, f3, f4, f5, f6⟩ := diamondHeap_facts
  refine ⟨(diamond_weights diamondHeap 0 1 2 3 0 f1 f2 f3 f4 f5 f6).2.2.2, fun fuel => ?_⟩
  by_cases hf : 4 ≤ fuel
  · obtain ⟨n, rfl⟩ : ∃ n, fuel = n + 4 := ⟨fuel - 4, by omega⟩
    rw [(diamond_weights diamondHeap 0 1 2 3 n f1 f2 f3 f4 f5 f6).2.2.2]
    decide
  · have : fuel = 0 ∨ fuel = 1 ∨ fuel = 2 ∨ fuel = 3 := by omega
    rcases this with rfl | rfl | rfl | rfl <;> decide

/-! ## C12: a reference that resolves to no issue -/

/-- The run of `prepare`, cut at the visit of one issue of the collection. -/
theorem prepare_turn {env : Env} {fuel : Nat} {st st' : State} {a : Ptr}
    (hwf : WF st) (ha : a ∈ vals st.issues) (hrun : prepare env fuel st = .ok st') :
    ∃ sa sb s1, Steps env (fun q _ => q ≠ a) ⟨resetPass st.heap st.issues, st.issues⟩ sa ∧
      ((st.heap a).URL, a) ∈ sa.issues ∧ WF sa ∧ directives env sa a = .ok sb ∧
      Steps env (fun q _ => q ≠ a) sb s1 ∧ st'.issues = s1.issues ∧
      ∀ q, ∃ b c, st'.heap q = { s1.heap q with Hidden := b, LinkedWithEpic := c } := by
  obtain ⟨s1, hpass, hiss, hf⟩ := prepare_fields hrun
  have hwf0 : WF ⟨resetPass st.heap st.issues, st.issues⟩ := wf_reset hwf
  have hurl : (resetPass st.heap st.issues a).URL = (st.heap a).URL :=
    (resetPass_same st.issues st.heap a).1.symm
  have hmem : ((st.heap a).URL, a) ∈ st.issues := mem_vals_url hwf ha
  obtain ⟨sa, sb, h1, h2, h3, h4, h5⟩ :=
    directivePass_turn (fun p => (resetPass st.heap st.issues p).URL) st.issues
      ⟨resetPass st.heap st.issues, st.issues⟩ s1 hwf0 (fun _ => rfl) hwf.2 hpass _ a hmem hmem
  exact ⟨sa, sb, s1, h1, h2, h3, h4, h5, hiss, hf⟩

/-- The visit of an issue whose only directive is one depends-on phrase that
resolves to no key of the collection appends one error, and nothing else. -/
theorem directives_unresolved {env : Env} {s : State} {a : Ptr} {m : List Str} {num : Str}
    (hm : FindAllStringSubmatch dependsOnRegex (s.heap a).Body = [m])
    (hblk : FindAllStringSubmatch blocksRegex (s.heap a).Body = [])
    (hdup : FindStringSubmatch isDuplicateRegex (s.heap a).Body = none)
    (hwm : FindStringSubmatch weightMultiplierRegex (s.heap a).Body = none)
    (hbw : FindStringSubmatch baseWeightRegex (s.heap a).Body = none)
    (hhide : NoHide (s.heap a))
    (hres : GetRelativeIssueURL env (s.heap a) (lastGroup m) = .ok num)
    (hget : s.issues.get num = none) :
    directives env s a
      = .ok (s.modify a (fun i => { i with Errors := i.Errors ++ [.parentNotFound num] })) := by
  have hb : (s.heap a).Body ≠ [] := by
    intro e
    rw [e, dependsOn_nil] at hm
    cases hm
  unfold NoHide at hhide
  unfold directives
  rw [if_neg hb]
  simp only [applyDuplicate, hdup, applyWeightMultiplier, hwm, hhide, applyBaseWeight, hbw, hm,
    forMatches, applyDependsOn_eq, hres, hget]
  simp only [modify_heap, if_true, hblk, forMatches]

/-- Updates made while other issues are visited, none of whose phrases
resolves to the issue at `a`, leave the relations of that issue alone. -/
theorem Steps.relations_keep {env : Env} {A : Ptr → Kind → Prop} {s1 s2 : State}
    (h : Steps env A s1 s2) (hwf : WF s1) (a : Ptr)
    (hA : ∀ p k, A p k → p ≠ a) (hno : NoRefInto env s1 a) :
    (s2.heap a).DependsOn = (s1.heap a).DependsOn ∧ (s2.heap a).Blocks = (s1.heap a).Blocks ∧
      (s2.heap a).IsOrphan = (s1.heap a).IsOrphan := by
  induction h with
  | refl => exact ⟨rfl, rfl, rfl⟩
  | @tail s3 s4 p k h1 hAp hp hs ih =>
    rw [← ih.1, ← ih.2.1, ← ih.2.2]
    have hwf3 : WF s3 := h1.wf hwf
    have hpa : a ≠ p := fun e => hA _ _ hAp e.symm
    have key : ∀ (m : List Str) (num : Str) (d : Ptr),
        m ∈ FindAllStringSubmatch dependsOnRegex (s3.heap p).Body ++
          FindAllStringSubmatch blocksRegex (s3.heap p).Body →
        GetRelativeIssueURL env (s3.heap p) (lastGroup m) = .ok num →
        s3.issues.get num = some d → a ≠ d := by
      intro m num d hm hnum hget e
      subst e
      have hurl : (s3.heap a).URL = num := hwf3.1 _ (get_mem hget)
      refine hno p ((vals_sublist h1.sublist).subset hp) m ?_ ?_
      · rw [(h1.same p).2.1]; exact hm
      · rw [GetRelativeIssueURL_congr env (h1.same p), (h1.same a).1, hurl]; exact hnum
    cases hs with
    | dup | wm | bw | err =>
      simp [modify_heap, hpa]
    | hide => exact ⟨rfl, rfl, rfl⟩
    | dep st m num d hm hnum hget =>
      have hd := key m num d (List.mem_append_left _ hm) hnum hget
      show (addEdge s3.heap p d a).DependsOn = _ ∧ (addEdge s3.heap p d a).Blocks = _ ∧
        (addEdge s3.heap p d a).IsOrphan = _
      rw [addEdge_other _ _ _ _ hpa hd]
      exact ⟨rfl, rfl, rfl⟩
    | blk st m num d hm hnum hget =>
      have hd := key m num d (List.mem_append_right _ hm) hnum hget
      show (addEdge s3.heap d p a).DependsOn = _ ∧ (addEdge s3.heap d p a).Blocks = _ ∧
        (addEdge s3.heap d p a).IsOrphan = _
      rw [addEdge_other _ _ _ _ hd hpa]
      exact ⟨rfl, rfl, rfl⟩

/-- The phrases that resolve to an issue depend on the input fields only. -/
theorem noRefInto_congr {env : Env} {s t : State} {a : Ptr}
    (hsame : ∀ q, SameInput (s.heap q) (t.heap q)) (hsub : vals t.issues ⊆ vals s.issues)
    (hno : NoRefInto env s a) : NoRefInto env t a := by
  intro p hp m hm
  have hs := hsame p
  rw [← GetRelativeIssueURL_congr env hs, ← (hsame a).1]
  refine hno p (hsub hp) m ?_
  rw [hs.2.1]; exact hm

theorem keys_sublist {m1 m2 : Issues} (h : m1.Sublist m2) : (keys m1).Sublist (keys m2) :=
  h.map _

/-- C12, as the code has it: an issue of a collection keyed by URL whose body
has exactly one depends-on phrase and no other directive, the reference
resolving to a URL that is no key of the collection.  After `prepare` its
`Errors` are those it had plus the one error "parent not found"; the visit of
the issue is that one append, whatever the state in which it is made (no entry
is added to a `DependsOn` or `Blocks` list and `IsOrphan` is not written); and
when no depends-on or blocks phrase of an issue of the collection resolves to
the issue, its `DependsOn` and `Blocks` are empty and its `IsOrphan` is true. -/
theorem unresolved_reference_recorded (env : Env) (fuel : Nat) (st st' : State) (a : Ptr)
    (m : List Str) (num : Str) (hwf : WF st) (ha : a ∈ vals st.issues)
    (hm : FindAllStringSubmatch dependsOnRegex (st.heap a).Body = [m])
    (hblk : FindAllStringSubmatch blocksRegex (st.heap a).Body = [])
    (hdup : FindStringSubmatch isDuplicateRegex (st.heap a).Body = none)
    (hwm : FindStringSubmatch weightMultiplierRegex (st.heap a).Body = none)
    (hbw : FindStringSubmatch baseWeightRegex (st.heap a).Body = none)
    (hhide : NoHide (st.heap a))
    (hres : GetRelativeIssueURL env (st.heap a) (lastGroup m) = .ok num)
    (hkey : num ∉ keys st.issues)
    (hrun : prepare env fuel st = .ok st') :
    (st'.heap a).Errors = (st.heap a).Errors ++ [.parentNotFound num] ∧
      (∀ s : State, SameInput (st.heap a) (s.heap a) → s.issues.get num = none →
        directives env s a
          = .ok (s.modify a (fun i => { i with Errors := i.Errors ++ [.parentNotFound num] }))) ∧
      (NoRefInto env st a →
        (st'.heap a).DependsOn = [] ∧ (st'.heap a).Blocks = [] ∧
          (st'.heap a).IsOrphan = true) := by
  have visit : ∀ s : State, SameInput (st.heap a) (s.heap a) → s.issues.get num = none →
      directives env s a
        = .ok (s.modify a (fun i => { i with Errors := i.Errors ++ [.parentNotFound num] })) := by
    intro s hs hget
    have hb : (s.heap a).Body = (st.heap a).Body := hs.2.1.symm
    refine directives_unresolved (m := m) ?_ ?_ ?_ ?_ ?_ ?_ ?_ hget
    · rw [hb]; exact hm
    · rw [hb]; exact hblk
    · rw [hb]; exact hdup
    · rw [hb]; exact hwm
    · rw [hb]; exact hbw
    · unfold NoHide at hhide ⊢; rw [hb]; exact hhide
    · rw [← GetRelativeIssueURL_congr env hs]; exact hres
  obtain ⟨sa, sb, s1, h1, h2, h3, h4, h5, hiss, hf⟩ := prepare_turn hwf ha hrun
  have hreset := resetPass_same st.issues st.heap
  have hsa : SameInput (st.heap a) (sa.heap a) := (hreset a).chain (h1.same a)
  have hget : sa.issues.get num = none :=
    get_none_of_not_mem (fun hk => hkey ((keys_sublist h1.sublist).subset hk))
  have hsb := visit sa hsa hget
  rw [h4] at hsb
  simp only [Except.ok.injEq] at hsb
  have hne : ∀ (kd : Kind) (p : Ptr) (k : Kind), p ≠ a → ¬ (p = a ∧ k = kd) :=
    fun _ _ _ hp hc => hp hc.1
  obtain ⟨b, c, hfa⟩ := hf a
  refine ⟨?_, visit, fun hno => ?_⟩
  · rw [hfa]
    show (s1.heap a).Errors = _
    rw [h5.errors_same a (hne .err), hsb]
    simp only [modify_heap, if_true]
    rw [h1.errors_same a (hne .err)]
    show (resetPass st.heap st.issues a).Errors ++ _ = _
    rw [(reset_own st a).2.1]
  · have hno0 : NoRefInto env ⟨resetPass st.heap st.issues, st.issues⟩ a :=
      noRefInto_congr hreset (fun _ hq => hq) hno
    have hnoa : NoRefInto env sa a :=
      noRefInto_congr h1.same (vals_sublist h1.sublist).subset hno0
    have hstep : Step env a .err sa sb := by rw [hsb]; exact Step.err sa _
    have hnob : NoRefInto env sb a :=
      noRefInto_congr hstep.sameInput (vals_sublist hstep.shrinks).subset hnoa
    have k1 := h1.relations_keep (wf_reset hwf) a (fun _ _ hp => hp) hno0
    have k2 := h5.relations_keep (hstep.keepsWF h3) a (fun _ _ hp => hp) hnob
    have k3 := hstep.sameRelations (by decide) (by decide) a
    have k0 := reset_relations st ha
    rw [hfa]
    show (s1.heap a).DependsOn = [] ∧ (s1.heap a).Blocks = [] ∧ (s1.heap a).IsOrphan = true
    rw [k2.1, k2.2.1, k2.2.2, k3.1, k3.2.1, k3.2.2, k1.1, k1.2.1, k1.2.2]
    exact ⟨k0.1, k0.2.1, k0.2.2.1⟩

/-- Witness for C12 as amended: the one issue that says "depends on #9". -/
theorem unresolved_reference_recorded_witness :
    ∃ st', prepare goEnv 1 unresolvedState = .ok st' ∧
      (st'.heap 0).Errors = [.parentNotFound "https://github.com/o/r/issues/9".toList] ∧
      (st'.heap 0).DependsOn = [] ∧ (st'.heap 0).Blocks = [] ∧ (st'.heap 0).IsOrphan = true := by
  obtain ⟨st', hrun⟩ := except_ok_of (x := prepare goEnv 1 unresolvedState) (by decide)
  have h := unresolved_reference_recorded goEnv 1 unresolvedState st' 0
    ["depends on #9".toList, "depends on".toList, "#9".toList]
    "https://github.com/o/r/issues/9".toList (by decide) (by decide) (by decide) (by decide)
    (by decide) (by decide) (by decide) (by decide) (by decide) (by decide) hrun
  exact ⟨st', hrun, h.1, h.2.2 (by decide)⟩

/-- Counterexample to C12 as stated: issue 1 says "depends on #9", which
resolves to no key, and issue 2 says "depends on #1".  After `prepare` issue 1
has its one error, and it is in the `DependsOn` of issue 2, has issue 2 in its
`Blocks`, and is no orphan. -/
theorem unresolved_orphan_counterexample :
    FindAllStringSubmatch dependsOnRegex (referencedState.heap 0).Body
        = [["depends on #9".toList, "depends on".toList, "#9".toList]] ∧
      GetRelativeIssueURL goEnv (referencedState.heap 0) "#9".toList
        = .ok "https://github.com/o/r/issues/9".toList ∧
      "https://github.com/o/r/issues/9".toList ∉ keys referencedState.issues ∧
      ∃ st', prepare goEnv 2 referencedState = .ok st' ∧
        (st'.heap 0).Errors = [.parentNotFound "https://github.com/o/r/issues/9".toList] ∧
        (st'.heap 0).Blocks = [1] ∧ (st'.heap 1).DependsOn = [0] ∧
        (st'.heap 0).IsOrphan = false := by
  obtain ⟨st', hrun⟩ := except_ok_of (x := prepare goEnv 2 referencedState) (by decide)
  have h : (prepare goEnv 2 referencedState).toOption.map (fun s =>
      ((s.heap 0).Errors, (s.heap 0).Blocks, (s.heap 1).DependsOn, (s.heap 0).IsOrphan))
      = some ([.parentNotFound "https://github.com/o/r/issues/9".toList], [1], [0], false) := by
    decide
  rw [hrun] at h
  simp only [Except.toOption, Option.map_some', Option.some.injEq, Prod.mk.injEq] at h
  exact ⟨by decide, by decide, by decide, st', hrun, h.1, h.2.1, h.2.2.1, h.2.2.2⟩

/-! ## C13: the hiding pass -/

/-- The fields of an issue that come from the tracker are those it had before
`prepare`. -/
theorem prepare_same {env : Env} {fuel : Nat} {st st' : State}
    (hrun : prepare env fuel st = .ok st') (q : Ptr) : SameInput (st.heap q) (st'.heap q) := by
  obtain ⟨s1, hpass, _, hf⟩ := prepare_fields hrun
  obtain ⟨b, c, e⟩ := hf q
  rw [e]
  exact ((resetPass_same st.issues st.heap q).chain ((directivePass_run _ _ _ hpass).same q)).chain
    ⟨rfl, rfl, rfl, rfl, rfl, rfl, rfl, rfl, rfl, rfl⟩

/-- C13: after `prepare` on a collection keyed by URL, every issue that is
still in the collection and whose body matches the duplicate directive, and
every issue still in the collection that `IsPR` classifies as a pull request,
has `Hidden = true`; nothing is asked of its state, labels or relations. -/
theorem duplicates_and_pull_requests_hidden (env : Env) (fuel : Nat) (st st' : State) (q : Ptr)
    (hwf : WF st) (hq : q ∈ vals st'.issues) (hrun : prepare env fuel st = .ok st') :
    (FindStringSubmatch isDuplicateRegex (st'.heap q).Body ≠ none →
        (st'.heap q).Hidden = true) ∧
      (IsPR (st'.heap q) = .ok true → (st'.heap q).Hidden = true) := by
  have hsame := prepare_same hrun q
  obtain ⟨s1, g1, hpass, hhide, hepic, hiss⟩ := prepare_cases hrun
  have hq1 : q ∈ vals s1.issues := by rw [← hiss]; exact hq
  have hq0 : q ∈ vals st.issues := (vals_sublist (prepare_shrinks hrun)).subset hq
  obtain ⟨c, hc⟩ := processEpicLinks_apply _ _ _ hepic q
  have hH : (st'.heap q).Hidden = (g1 q).Hidden := by rw [hc]
  obtain ⟨k1, b, k2, k3⟩ := hidingPass_sets _ _ _ hhide q hq1
  have hs1 : SameInput (st.heap q) (s1.heap q) :=
    (resetPass_same st.issues st.heap q).chain ((directivePass_run _ _ _ hpass).same q)
  constructor
  · intro hdup
    rw [hH]
    apply k1
    have own := (directivePass_own (wf_reset hwf) hq0 hpass).2.2
    have hb : (resetPass st.heap st.issues q).Body = (st'.heap q).Body :=
      ((resetPass_same st.issues st.heap q).symm.chain hsame).2.1
    simp only [hb] at own
    cases hfind : FindStringSubmatch isDuplicateRegex (st'.heap q).Body with
    | none => exact absurd hfind hdup
    | some m =>
      rw [hfind] at own
      obtain ⟨u, _, hu⟩ := own
      rw [hu]
      simp
  · intro hpr
    rw [hH]
    apply k3
    have e1 : IsPR (s1.heap q) = IsPR (st'.heap q) := IsPR_congr (hs1.symm.chain hsame)
    rw [e1, hpr] at k2
    simp only [Except.ok.injEq] at k2
    exact k2.symm

/-- Witness for C13: issue 1, a duplicate, and the pull request 3, which is
closed, carries the epic label and has no relations. -/
theorem duplicates_and_pull_requests_hidden_witness :
    ∃ st', prepare goEnv 1 hidingState = .ok st' ∧ 0 ∈ vals st'.issues ∧ 2 ∈ vals st'.issues ∧
      FindStringSubmatch isDuplicateRegex (st'.heap 0).Body ≠ none ∧
      IsPR (st'.heap 2) = .ok true ∧
      (st'.heap 0).Hidden = true ∧ (st'.heap 2).Hidden = true ∧ (st'.heap 1).Hidden = false := by
  obtain ⟨st', hrun⟩ := except_ok_of (x := prepare goEnv 1 hidingState) (by decide)
  have h : (prepare goEnv 1 hidingState).toOption.map (fun s =>
      (decide (0 ∈ vals s.issues), decide (2 ∈ vals s.issues),
        decide (FindStringSubmatch isDuplicateRegex (s.heap 0).Body ≠ none),
        decide (IsPR (s.heap 2) = .ok true)))
      = some (true, true, true, true) := by decide
  have h' : (prepare goEnv 1 hidingState).toOption.map (fun s => (s.heap 1).Hidden)
      = some false := by decide
  rw [hrun] at h h'
  simp only [Except.toOption, Option.map_some', Option.some.injEq, Prod.mk.injEq,
    decide_eq_true_eq] at h h'
  have hwf : WF hidingState := by decide
  exact ⟨st', hrun, h.1, h.2.1, h.2.2.1, h.2.2.2,
    (duplicates_and_pull_requests_hidden goEnv 1 hidingState st' 0 hwf h.1 hrun).1 h.2.2.1,
    (duplicates_and_pull_requests_hidden goEnv 1 hidingState st' 2 hwf h.2.1 hrun).2 h.2.2.2, h'⟩

/-! ## C14: `Hidden` is never cleared -/

theorem prepare_hidden_mono {env : Env} {fuel : Nat} {st st' : State} (q : Ptr)
    (hrun : prepare env fuel st = .ok st') (hq : (st.heap q).Hidden = true) :
    (st'.heap q).Hidden = true := by
  obtain ⟨s1, g1, hpass, hhide, hepic, _⟩ := prepare_cases hrun
  obtain ⟨c, hc⟩ := processEpicLinks_apply _ _ _ hepic q
  obtain ⟨b, hb, hmono⟩ := hidingPass_apply _ _ _ hhide q
  have h1 : (s1.heap q).Hidden = true := by
    rw [((directivePass_run _ _ _ hpass).flags q).1]
    show (resetPass st.heap st.issues q).Hidden = true
    rw [(reset_own st q).2.2.1]
    exact hq
  rw [hc, hb]
  exact hmono h1

theorem processEpicLinks_hidden {env : Env} {fuel : Nat} {m : Issues} {h h' : Heap} (q : Ptr)
    (hrun : processEpicLinks env fuel m h = .ok h') : (h' q).Hidden = (h q).Hidden := by
  obtain ⟨c, hc⟩ := processEpicLinks_apply _ _ _ hrun q
  rw [hc]

theorem HideClosed_hidden_mono (q : Ptr) :
    ∀ (m : Issues) (h : Heap), (h q).Hidden = true → (HideClosed m h q).Hidden = true := by
  intro m
  induction m with
  | nil => intro h hq; exact hq
  | cons e m ih =>
    intro h hq
    unfold HideClosed
    rw [List.foldl_cons]
    apply ih
    split_ifs
    · rw [heap_modify_apply]
      split_ifs
      · rfl
      · exact hq
    · exact hq

theorem HideOrphans_hidden_mono (q : Ptr) :
    ∀ (m : Issues) (h : Heap), (h q).Hidden = true → (HideOrphans m h q).Hidden = true := by
  intro m
  induction m with
  | nil => intro h hq; exact hq
  | cons e m ih =>
    intro h hq
    unfold HideOrphans
    rw [List.foldl_cons]
    apply ih
    split_ifs
    · rw [heap_modify_apply]
      split_ifs
      · rfl
      · exact hq
    · exact hq

/-- C14: `Hidden` is monotone.  For every issue, if `Hidden` is true before
`prepare`, `processEpicLinks`, `HideClosed` or `HideOrphans`, it is true after
it (for the first two: when the operation returns). -/
theorem hidden_never_cleared :
    (∀ (env : Env) (fuel : Nat) (st st' : State) (q : Ptr),
        prepare env fuel st = .ok st' → (st.heap q).Hidden = true →
        (st'.heap q).Hidden = true) ∧
      (∀ (env : Env) (fuel : Nat) (m : Issues) (h h' : Heap) (q : Ptr),
        processEpicLinks env fuel m h = .ok h' → (h q).Hidden = true →
        (h' q).Hidden = true) ∧
      (∀ (m : Issues) (h : Heap) (q : Ptr),
        (h q).Hidden = true → (HideClosed m h q).Hidden = true) ∧
      (∀ (m : Issues) (h : Heap) (q : Ptr),
        (h q).Hidden = true → (HideOrphans m h q).Hidden = true) :=
  ⟨fun _ _ _ _ q hrun hq => prepare_hidden_mono q hrun hq,
    fun _ _ _ _ _ q hrun hq => by rw [processEpicLinks_hidden q hrun]; exact hq,
    fun m h q hq => HideClosed_hidden_mono q m h hq,
    fun m h q hq => HideOrphans_hidden_mono q m h hq⟩

/-- Witness for C14: an issue that is hidden at the start and that none of the
four operations would hide (open, epic, linked, no duplicate, no pull
request) is hidden after each of them. -/
theorem hidden_never_cleared_witness :
    (alreadyHiddenState.heap 0).Hidden = true ∧
      (∃ st', prepare goEnv 1 alreadyHiddenState = .ok st' ∧ (st'.heap 0).Hidden = true) ∧
      (∃ h', processEpicLinks goEnv 1 alreadyHiddenState.issues alreadyHiddenState.heap = .ok h' ∧
        (h' 0).Hidden = true) ∧
      (HideClosed alreadyHiddenState.issues alreadyHiddenState.heap 0).Hidden = true ∧
      (HideOrphans alreadyHiddenState.issues alreadyHiddenState.heap 0).Hidden = true := by
  obtain ⟨st', hrun⟩ := except_ok_of (x := prepare goEnv 1 alreadyHiddenState) (by decide)
  obtain ⟨h', hrun'⟩ := except_ok_of
    (x := processEpicLinks goEnv 1 alreadyHiddenState.issues alreadyHiddenState.heap) (by decide)
  have h0 : (alreadyHiddenState.heap 0).Hidden = true := by decide
  exact ⟨h0, ⟨st', hrun, hidden_never_cleared.1 goEnv 1 _ st' 0 hrun h0⟩,
    ⟨h', hrun', hidden_never_cleared.2.1 goEnv 1 _ _ h' 0 hrun' h0⟩,
    hidden_never_cleared.2.2.1 _ _ 0 h0, hidden_never_cleared.2.2.2 _ _ 0 h0⟩

/-! ## C15: the epic-linkage closure -/

theorem reachesEpic_unfold (env : Env) (h : Heap) (next : Issue → IssueSlice) (p : Ptr) :
    ReachesEpic env h next p ↔
      ∃ d ∈ next (h p), IsEpic env (h d) = true ∨ ReachesEpic env h next d := by
  constructor
  · rintro ⟨e, hpe, he⟩
    obtain ⟨d, hd, hde⟩ := Relation.TransGen.head'_iff.mp hpe
    refine ⟨d, hd, ?_⟩
    rcases Relation.reflTransGen_iff_eq_or_transGen.mp hde with heq | ht
    · left; rw [← heq]; exact he
    · right; exact ⟨e, ht, he⟩
  · rintro ⟨d, hd, hor⟩
    rcases hor with he | ⟨e, hde, he⟩
    · exact ⟨d, Relation.TransGen.single hd, he⟩
    · exact ⟨e, Relation.TransGen.head hd hde, he⟩

/-- What the loop of `BlocksAnEpic` and `DependsOnAnEpic` returns, when it
returns. -/
theorem epicLoop_spec {isEpic : Ptr → Bool} {recur : Ptr → Except Fault Bool} {R : Ptr → Prop} :
    ∀ (l : List Ptr) (b : Bool), epicLoop isEpic recur l = .ok b →
      (∀ d ∈ l, ∀ b', recur d = .ok b' → (b' = true ↔ R d)) →
      (b = true ↔ ∃ d ∈ l, isEpic d = true ∨ R d) := by
  intro l
  induction l with
  | nil =>
    intro b h _
    simp only [epicLoop, Except.ok.injEq] at h
    subst h
    simp
  | cons d ds ih =>
    intro b h hr
    unfold epicLoop at h
    by_cases he : isEpic d = true
    · rw [if_pos he] at h
      simp only [Except.ok.injEq] at h
      subst h
      simp only [true_iff]
      exact ⟨d, List.mem_cons_self _ _, Or.inl he⟩
    · rw [if_neg he] at h
      cases hrd : recur d with
      | error e => rw [hrd] at h; cases h
      | ok b' =>
        rw [hrd] at h
        have hd := hr d (List.mem_cons_self _ _) b' hrd
        cases b' with
        | true =>
          simp only [Except.ok.injEq] at h
          subst h
          simp only [true_iff]
          exact ⟨d, List.mem_cons_self _ _, Or.inr (hd.mp rfl)⟩
        | false =>
          simp only at h
          have hnR : ¬ R d := fun hR => by simpa using hd.mpr hR
          rw [ih b h (fun d' hd' => hr d' (List.mem_cons_of_mem _ hd'))]
          constructor
          · rintro ⟨d', hd', hor⟩
            exact ⟨d', List.mem_cons_of_mem _ hd', hor⟩
          · rintro ⟨d', hd', hor⟩
            rcases List.mem_cons.mp hd' with rfl | hmem
            · rcases hor with h1 | h1
              · exact absurd h1 he
              · exact absurd h1 hnR
            · exact ⟨d', hmem, hor⟩

/-- A recursion of the shape of `BlocksAnEpic` returns true exactly when an
epic is reachable, whenever it returns. -/
theorem anEpic_spec (env : Env) (h : Heap) (next : Issue → IssueSlice)
    (F : Nat → Issue → Except Fault Bool) (h0 : ∀ i, F 0 i = .error .fuel)
    (hs : ∀ n i, F (n + 1) i
      = epicLoop (fun d => IsEpic env (h d)) (fun d => F n (h d)) (next i)) :
    ∀ (n : Nat) (i : Issue) (b : Bool), F n i = .ok b →
      (b = true ↔ ∃ d ∈ next i, IsEpic env (h d) = true ∨ ReachesEpic env h next d) := by
  intro n
  induction n with
  | zero => intro i b hb; rw [h0] at hb; cases hb
  | succ n ih =>
    intro i b hb
    rw [hs] at hb
    refine epicLoop_spec (R := ReachesEpic env h next) _ b hb ?_
    intro d _ b' hb'
    rw [ih (h d) b' hb', reachesEpic_unfold]

theorem BlocksAnEpic_spec (env : Env) (h : Heap) (n : Nat) (p : Ptr) (b : Bool)
    (hb : BlocksAnEpic env h n (h p) = .ok b) :
    b = true ↔ ReachesEpic env h Issue.Blocks p := by
  rw [reachesEpic_unfold]
  exact anEpic_spec env h Issue.Blocks (BlocksAnEpic env h) (fun _ => rfl) (fun _ _ => rfl)
    n (h p) b hb

theorem DependsOnAnEpic_spec (env : Env) (h : Heap) (n : Nat) (p : Ptr) (b : Bool)
    (hb : DependsOnAnEpic env h n (h p) = .ok b) :
    b = true ↔ ReachesEpic env h Issue.DependsOn p := by
  rw [reachesEpic_unfold]
  exact anEpic_spec env h Issue.DependsOn (DependsOnAnEpic env h) (fun _ => rfl)
    (fun _ _ => rfl) n (h p) b hb

/-- The value assigned by `processEpicLinks`, when it is computed. -/
theorem linkedWithEpic_spec (env : Env) (h : Heap) (fuel : Nat) (q : Ptr) (b : Bool)
    (hb : linkedWithEpic env h fuel (h q) = .ok b) : b = true ↔ LinkedSpec env h q := by
  unfold linkedWithEpic at hb
  unfold LinkedSpec
  by_cases hh : (h q).Hidden = true
  · rw [if_pos hh] at hb
    simp only [Except.ok.injEq] at hb
    subst hb
    simp [hh]
  · rw [if_neg hh] at hb
    have hh' : (h q).Hidden = false := by simpa using hh
    by_cases he : IsEpic env (h q) = true
    · rw [if_pos he] at hb
      simp only [Except.ok.injEq] at hb
      subst hb
      simp [hh', he]
    · rw [if_neg he] at hb
      cases hbl : BlocksAnEpic env h fuel (h q) with
      | error e => rw [hbl] at hb; cases hb
      | ok b1 =>
        rw [hbl] at hb
        have s1 := BlocksAnEpic_spec env h fuel q b1 hbl
        cases b1 with
        | true =>
          simp only [Except.ok.injEq] at hb
          subst hb
          simp only [true_iff]
          exact ⟨hh', Or.inr (Or.inl (s1.mp rfl))⟩
        | false =>
          simp only at hb
          have s2 := DependsOnAnEpic_spec env h fuel q b hb
          have n1 : ¬ ReachesEpic env h Issue.Blocks q := fun hR => by simpa using s1.mpr hR
          rw [s2]
          constructor
          · intro hR; exact ⟨hh', Or.inr (Or.inr hR)⟩
          · rintro ⟨_, h1 | h1 | h1⟩
            · exact absurd h1 he
            · exact absurd h1 n1
            · exact h1

theorem epicSame_linked (h : Heap) (p : Ptr) (b : Bool) :
    EpicSame h (h.modify p (fun i => { i with LinkedWithEpic := b })) := by
  intro q
  simp only [heap_modify_apply]
  split_ifs with hq
  · subst hq; exact ⟨rfl, rfl, rfl, rfl⟩
  · exact ⟨rfl, rfl, rfl, rfl⟩

/-- The flag `processEpicLinks` leaves on an issue of the collection is the
value of the right-hand side on the heap it started from. -/
theorem processEpicLinks_value {env : Env} {fuel : Nat} :
    ∀ (m : Issues) (h r : Heap), processEpicLinks env fuel m h = .ok r →
      ∀ q ∈ vals m, linkedWithEpic env h fuel (h q) = .ok (r q).LinkedWithEpic := by
  intro m
  induction m with
  | nil => intro h r _ q hq; simp [vals] at hq
  | cons e rest ih =>
    intro h r hh q hq
    obtain ⟨k, p⟩ := e
    simp only [processEpicLinks] at hh
    cases hl : linkedWithEpic env h fuel (h p) with
    | error err => rw [hl] at hh; simp at hh
    | ok b =>
      rw [hl] at hh
      simp only at hh
      by_cases hin : q ∈ vals rest
      · rw [linkedWithEpic_congr env (epicSame_linked h p b) fuel q]
        exact ih _ r hh q hin
      · have hqp : q = p := by
          simp only [vals, List.map_cons, List.mem_cons] at hq
          rcases hq with h1 | h1
          · exact h1
          · exact absurd h1 hin
        rw [processEpicLinks_outside _ _ _ hh q hin, hqp, hl]
        simp [heap_modify_apply]

theorem epicSame_of_apply {h r : Heap}
    (hr : ∀ q, ∃ b, r q = { h q with LinkedWithEpic := b }) : EpicSame h r := by
  intro q
  obtain ⟨b, hb⟩ := hr q
  rw [hb]
  exact ⟨rfl, rfl, rfl, rfl⟩

/-- After `processEpicLinks`, the flag of every issue of the collection is
the reference value on the resulting heap. -/
theorem processEpicLinks_spec {env : Env} {fuel : Nat} {m : Issues} {h r : Heap}
    (hrun : processEpicLinks env fuel m h = .ok r) (q : Ptr) (hq : q ∈ vals m) :
    (r q).LinkedWithEpic = true ↔ LinkedSpec env r q := by
  have hv := processEpicLinks_value m h r hrun q hq
  rw [linkedWithEpic_congr env (epicSame_of_apply (processEpicLinks_apply _ _ _ hrun)) fuel q]
    at hv
  exact linkedWithEpic_spec env r fuel q _ hv

/-- The loop returns when every recursive call does. -/
theorem epicLoop_total {isEpic : Ptr → Bool} {recur : Ptr → Except Fault Bool} :
    ∀ l : List Ptr, (∀ d ∈ l, ∃ b, recur d = .ok b) → ∃ b, epicLoop isEpic recur l = .ok b := by
  intro l
  induction l with
  | nil => intro _; exact ⟨false, rfl⟩
  | cons d ds ih =>
    intro hr
    unfold epicLoop
    by_cases he : isEpic d = true
    · rw [if_pos he]; exact ⟨true, rfl⟩
    · rw [if_neg he]
      obtain ⟨b, hb⟩ := hr d (List.mem_cons_self _ _)
      rw [hb]
      cases b with
      | true => exact ⟨true, rfl⟩
      | false => exact ih (fun d' hd' => hr d' (List.mem_cons_of_mem _ hd'))

/-- A recursion of the shape of `BlocksAnEpic` returns on an acyclic relation,
once the fuel exceeds the rank: `S` is a set of issues closed under the
relation, along which `rank` decreases. -/
theorem anEpic_total (env : Env) (h : Heap) (next : Issue → IssueSlice)
    (F : Nat → Issue → Except Fault Bool)
    (hs : ∀ n i, F (n + 1) i
      = epicLoop (fun d => IsEpic env (h d)) (fun d => F n (h d)) (next i))
    (S : List Ptr) (rank : Ptr → Nat)
    (hacyc : ∀ p ∈ S, ∀ d ∈ next (h p), d ∈ S ∧ rank d < rank p) :
    ∀ (n : Nat) (p : Ptr), p ∈ S → rank p < n → ∃ b, F n (h p) = .ok b := by
  intro n
  induction n with
  | zero => intro p _ hp; omega
  | succ n ih =>
    intro p hpS hp
    rw [hs]
    apply epicLoop_total
    intro d hd
    have := hacyc p hpS d hd
    exact ih d this.1 (by omega)

theorem linkedWithEpic_total (env : Env) (h : Heap) (fuel : Nat) (S : List Ptr)
    (rb rd : Ptr → Nat)
    (hb : ∀ p ∈ S, ∀ d ∈ (h p).Blocks, d ∈ S ∧ rb d < rb p)
    (hd : ∀ p ∈ S, ∀ d ∈ (h p).DependsOn, d ∈ S ∧ rd d < rd p) (q : Ptr)
    (hq : q ∈ S) (hfuel : rb q < fuel ∧ rd q < fuel) :
    ∃ b, linkedWithEpic env h fuel (h q) = .ok b := by
  unfold linkedWithEpic
  split_ifs
  · exact ⟨false, rfl⟩
  · exact ⟨true, rfl⟩
  · obtain ⟨b1, h1⟩ := anEpic_total env h Issue.Blocks (BlocksAnEpic env h) (fun _ _ => rfl)
      S rb hb fuel q hq hfuel.1
    rw [h1]
    cases b1 with
    | true => exact ⟨true, rfl⟩
    | false =>
      exact anEpic_total env h Issue.DependsOn (DependsOnAnEpic env h) (fun _ _ => rfl)
        S rd hd fuel q hq hfuel.2

/-- The pass `processEpicLinks` returns on an acyclic graph, once the fuel
exceeds the ranks of the issues of the collection. -/
theorem processEpicLinks_total (env : Env) (fuel : Nat) (h0 : Heap) (S : List Ptr)
    (rb rd : Ptr → Nat)
    (hb : ∀ p ∈ S, ∀ d ∈ (h0 p).Blocks, d ∈ S ∧ rb d < rb p)
    (hd : ∀ p ∈ S, ∀ d ∈ (h0 p).DependsOn, d ∈ S ∧ rd d < rd p) :
    ∀ (m : Issues) (h : Heap), EpicSame h0 h →
      (∀ q ∈ vals m, q ∈ S ∧ rb q < fuel ∧ rd q < fuel) →
      ∃ r, processEpicLinks env fuel m h = .ok r := by
  intro m
  induction m with
  | nil => intro h _ _; exact ⟨h, rfl⟩
  | cons e rest ih =>
    intro h hs hfuel
    obtain ⟨k, p⟩ := e
    simp only [processEpicLinks]
    have hp := hfuel p (by simp [vals])
    obtain ⟨b, hbv⟩ := linkedWithEpic_total env h0 fuel S rb rd hb hd p hp.1 hp.2
    rw [← linkedWithEpic_congr env hs fuel p, hbv]
    simp only
    refine ih _ ?_ (fun q hq => hfuel q (by
      simp only [vals, List.map_cons, List.mem_cons]; exact Or.inr hq))
    intro q
    have h1 := hs q
    have h2 := epicSame_linked h p b q
    exact ⟨h1.1.trans h2.1, h1.2.1.trans h2.2.1, h1.2.2.1.trans h2.2.2.1,
      h1.2.2.2.trans h2.2.2.2⟩

/-- After `prepare`, an issue of the collection is in the `Blocks` of another as
often as that one is in its `DependsOn`. -/
theorem prepare_mirror {env : Env} {fuel : Nat} {st st' : State} {a b : Ptr}
    (ha : a ∈ vals st.issues) (hb : b ∈ vals st.issues)
    (hrun : prepare env fuel st = .ok st') :
    (st'.heap b).Blocks.count a = (st'.heap a).DependsOn.count b := by
  obtain ⟨s1, hpass, _, hq⟩ := prepare_fields hrun
  obtain ⟨x, y, ea⟩ := hq a
  obtain ⟨x', y', eb⟩ := hq b
  rw [ea, eb]
  refine (directivePass_run _ _ _ hpass).count_inv a b ?_
  show (resetPass st.heap st.issues b).Blocks.count a
    = (resetPass st.heap st.issues a).DependsOn.count b
  rw [(reset_relations st hb).2.1, (reset_relations st ha).1]
  rfl

/-- C15: epic-linkage closure.  After `prepare`, for every issue of the
collection, `LinkedWithEpic` holds if and only if the issue is not hidden and
carries the epic label, or an issue carrying the epic label is reachable from
it by one or more `Blocks` edges, or by one or more `DependsOn` edges.  In
particular, if E carries the epic label and depends on F, which is not hidden,
then F is linked.  And on an acyclic relation graph `prepare` does return:
when the directive and hiding loops return a graph on which a rank decreases
along `Blocks` and one along `DependsOn`, every fuel above the ranks of the
issues of the collection is enough. -/
theorem linked_with_epic_closure (env : Env) (fuel : Nat) (st : State) :
    (∀ st', prepare env fuel st = .ok st' → ∀ q ∈ vals st'.issues,
        ((st'.heap q).LinkedWithEpic = true ↔ LinkedSpec env st'.heap q)) ∧
      (∀ (st' : State) (E F : Ptr), prepare env fuel st = .ok st' → E ∈ vals st.issues →
        F ∈ vals st'.issues → IsEpic env (st'.heap E) = true →
        F ∈ (st'.heap E).DependsOn → (st'.heap F).Hidden = false →
        (st'.heap F).LinkedWithEpic = true) ∧
      (∀ (s1 : State) (g1 : Heap) (S : List Ptr) (rb rd : Ptr → Nat),
        directivePass env st.issues ⟨resetPass st.heap st.issues, st.issues⟩ = .ok s1 →
        hidingPass s1.issues s1.heap = .ok g1 →
        (∀ p ∈ S, ∀ d ∈ (g1 p).Blocks, d ∈ S ∧ rb d < rb p) →
        (∀ p ∈ S, ∀ d ∈ (g1 p).DependsOn, d ∈ S ∧ rd d < rd p) →
        (∀ q ∈ vals s1.issues, q ∈ S ∧ rb q < fuel ∧ rd q < fuel) →
        ∃ st', prepare env fuel st = .ok st') := by
  have part1 : ∀ st', prepare env fuel st = .ok st' → ∀ q ∈ vals st'.issues,
      ((st'.heap q).LinkedWithEpic = true ↔ LinkedSpec env st'.heap q) := by
    intro st' hrun q hq
    obtain ⟨s1, g1, _, _, hepic, hiss⟩ := prepare_cases hrun
    exact processEpicLinks_spec hepic q (by rw [← hiss]; exact hq)
  refine ⟨part1, ?_, ?_⟩
  · intro st' E F hrun hE hF hepic hdep hhid
    rw [part1 st' hrun F hF]
    have hF0 : F ∈ vals st.issues := (vals_sublist (prepare_shrinks hrun)).subset hF
    have hmir := prepare_mirror hE hF0 hrun
    have hblk : E ∈ (st'.heap F).Blocks := by
      rw [← List.count_pos_iff, hmir, List.count_pos_iff]
      exact hdep
    exact ⟨hhid, Or.inr (Or.inl ⟨E, Relation.TransGen.single hblk, hepic⟩)⟩
  · intro s1 g1 S rb rd hpass hhide hb hd hfuel
    obtain ⟨r, hr⟩ := processEpicLinks_total env fuel g1 S rb rd hb hd s1.issues g1
      (fun _ => ⟨rfl, rfl, rfl, rfl⟩) hfuel
    refine ⟨⟨r, s1.issues⟩, ?_⟩
    unfold prepare
    rw [hpass]
    simp only
    rw [hhide]
    simp only
    rw [hr]

/-- Witness for C15: the epic E depends on F, and G is unrelated.  `prepare`
returns, F is linked by the closure rule, and G is not linked. -/
theorem linked_with_epic_closure_witness :
    ∃ st', prepare goEnv 2 epicState = .ok st' ∧
      (st'.heap 0).LinkedWithEpic = true ∧ (st'.heap 1).LinkedWithEpic = true ∧
      (st'.heap 2).LinkedWithEpic = false ∧
      LinkedSpec goEnv st'.heap 1 ∧ ¬ LinkedSpec goEnv st'.heap 2 := by
  obtain ⟨s1, hs1⟩ := except_ok_of
    (x := directivePass goEnv epicState.issues
      ⟨resetPass epicState.heap epicState.issues, epicState.issues⟩) (by decide)
  have hacyc : ((directivePass goEnv epicState.issues
      ⟨resetPass epicState.heap epicState.issues, epicState.issues⟩).toOption.bind (fun s =>
        (hidingPass s.issues s.heap).toOption.map (fun g =>
          (decide (∀ p ∈ [0, 1, 2], ∀ d ∈ (g p).Blocks,
              d ∈ [0, 1, 2] ∧ (if d = 1 then 1 else 0) < (if p = 1 then 1 else 0)),
            decide (∀ p ∈ [0, 1, 2], ∀ d ∈ (g p).DependsOn,
              d ∈ [0, 1, 2] ∧ (if d = 0 then 1 else 0) < (if p = 0 then 1 else 0)),
            decide (∀ q ∈ vals s.issues, q ∈ [0, 1, 2] ∧
              (if q = 1 then 1 else 0) < 2 ∧ (if q = 0 then 1 else 0) < 2)))))
      = some (true, true, true) := by decide
  rw [hs1] at hacyc
  simp only [Except.toOption, Option.some_bind] at hacyc
  cases hg : hidingPass s1.issues s1.heap with
  | error e => rw [hg] at hacyc; simp at hacyc
  | ok g1 =>
    rw [hg] at hacyc
    simp only [Option.map_some', Option.some.injEq, Prod.mk.injEq, decide_eq_true_eq] at hacyc
    obtain ⟨st', hrun⟩ := (linked_with_epic_closure goEnv 2 epicState).2.2 s1 g1 [0, 1, 2]
      (fun p => if p = 1 then 1 else 0) (fun p => if p = 0 then 1 else 0) hs1 hg
      hacyc.1 hacyc.2.1 hacyc.2.2
    have h : (prepare goEnv 2 epicState).toOption.map (fun s =>
        (decide (1 ∈ vals s.issues), decide (2 ∈ vals s.issues),
          decide (1 ∈ (s.heap 0).DependsOn), IsEpic goEnv (s.heap 0)))
        = some (true, true, true, true) := by decide
    have h' : (prepare goEnv 2 epicState).toOption.map (fun s =>
        ((s.heap 1).Hidden, (s.heap 0).LinkedWithEpic, (s.heap 2).LinkedWithEpic))
        = some (false, true, false) := by decide
    rw [hrun] at h h'
    simp only [Except.toOption, Option.map_some', Option.some.injEq, Prod.mk.injEq,
      decide_eq_true_eq] at h h'
    have hF := (linked_with_epic_closure goEnv 2 epicState).2.1 st' 0 1 hrun (by decide)
      h.1 h.2.2.2 h.2.2.1 h'.1
    have i1 := (linked_with_epic_closure goEnv 2 epicState).1 st' hrun 1 h.1
    have i2 := (linked_with_epic_closure goEnv 2 epicState).1 st' hrun 2 h.2.1
    refine ⟨st', hrun, h'.2.1, hF, h'.2.2, i1.mp hF, fun hc => ?_⟩
    have := i2.mpr hc
    rw [h'.2.2] at this
    cases this

/-! ## C16: the hide marker -/

theorem hide_nil : FindStringSubmatch hideFromRoadmapRegex [] = none := by decide

theorem applyDuplicate_fields {env : Env} {p : Ptr} {st s1 : State}
    (h : applyDuplicate env p st = .ok s1) (x : Ptr) :
    (s1.heap x).DependsOn = (st.heap x).DependsOn ∧ (s1.heap x).Blocks = (st.heap x).Blocks ∧
      (s1.heap x).IsOrphan = (st.heap x).IsOrphan ∧ (s1.heap x).Errors = (st.heap x).Errors ∧
      (s1.heap x).BaseWeight = (st.heap x).BaseWeight := by
  unfold applyDuplicate at h
  split at h
  · simp only [Except.ok.injEq] at h
    subst h
    exact ⟨rfl, rfl, rfl, rfl, rfl⟩
  · split at h
    · cases h
    · simp only [Except.ok.injEq] at h
      subst h
      rw [modify_heap]
      split_ifs with hx
      · subst hx; exact ⟨rfl, rfl, rfl, rfl, rfl⟩
      · exact ⟨rfl, rfl, rfl, rfl, rfl⟩

theorem applyWeightMultiplier_fields (p : Ptr) (st : State) (x : Ptr) :
    ((applyWeightMultiplier p st).heap x).DependsOn = (st.heap x).DependsOn ∧
      ((applyWeightMultiplier p st).heap x).Blocks = (st.heap x).Blocks ∧
      ((applyWeightMultiplier p st).heap x).IsOrphan = (st.heap x).IsOrphan ∧
      ((applyWeightMultiplier p st).heap x).Errors = (st.heap x).Errors ∧
      ((applyWeightMultiplier p st).heap x).BaseWeight = (st.heap x).BaseWeight := by
  unfold applyWeightMultiplier
  split
  · exact ⟨rfl, rfl, rfl, rfl, rfl⟩
  · rw [modify_heap]
    split_ifs with hx
    · subst hx; exact ⟨rfl, rfl, rfl, rfl, rfl⟩
    · exact ⟨rfl, rfl, rfl, rfl, rfl⟩

/-- The visit of an issue whose body carries the hide marker deletes its key
and writes no relation, error or base weight. -/
theorem directives_hidden {env : Env} {s s' : State} {q : Ptr}
    (hh : ¬ NoHide (s.heap q)) (hd : directives env s q = .ok s') :
    s'.issues = s.issues.delete (s.heap q).URL ∧
      ∀ x, (s'.heap x).DependsOn = (s.heap x).DependsOn ∧
        (s'.heap x).Blocks = (s.heap x).Blocks ∧ (s'.heap x).IsOrphan = (s.heap x).IsOrphan ∧
        (s'.heap x).Errors = (s.heap x).Errors ∧
        (s'.heap x).BaseWeight = (s.heap x).BaseWeight := by
  rcases directives_cases hd with ⟨hb, _⟩ | ⟨_, s1, h1, hrest⟩
  · exfalso
    apply hh
    unfold NoHide
    rw [hb]
    exact hide_nil
  · rcases hrest with ⟨_, e⟩ | ⟨hn, _⟩
    · subst e
      constructor
      · show (applyWeightMultiplier q s1).issues.delete ((applyWeightMultiplier q s1).heap q).URL
          = _
        rw [applyWeightMultiplier_issues, applyDuplicate_issues h1,
          ← (applyWeightMultiplier_same q s1 q).1, ← (applyDuplicate_same h1 q).1]
      · intro x
        have a := applyDuplicate_fields h1 x
        have b := applyWeightMultiplier_fields q s1 x
        exact ⟨b.1.trans a.1, b.2.1.trans a.2.1, b.2.2.1.trans a.2.2.1,
          b.2.2.2.1.trans a.2.2.2.1, b.2.2.2.2.trans a.2.2.2.2⟩
    · exact absurd hn hh

/-- C16: the hide marker.  After `prepare` on a collection keyed by URL, an
issue of the collection whose body carries the hide marker is no key and no
entry of the collection, and every issue left in the collection is without
marker.  None of its later directives is applied: its visit deletes its key
and writes no `DependsOn`, `Blocks`, `IsOrphan`, `Errors` or `BaseWeight` of
any issue, whatever the state in which it is made; after `prepare` its base
weight is 1 and its errors are those it had. -/
theorem hide_marker_removes (env : Env) (fuel : Nat) (st st' : State) (q : Ptr)
    (hwf : WF st) (hq : q ∈ vals st.issues) (hh : ¬ NoHide (st.heap q))
    (hrun : prepare env fuel st = .ok st') :
    ((st.heap q).URL ∉ keys st'.issues ∧ q ∉ vals st'.issues ∧
        ∀ p ∈ vals st'.issues, NoHide (st'.heap p)) ∧
      (∀ s s' : State, SameInput (st.heap q) (s.heap q) → directives env s q = .ok s' →
        s'.issues = s.issues.delete (s.heap q).URL ∧
        ∀ x, (s'.heap x).DependsOn = (s.heap x).DependsOn ∧
          (s'.heap x).Blocks = (s.heap x).Blocks ∧
          (s'.heap x).IsOrphan = (s.heap x).IsOrphan ∧
          (s'.heap x).Errors = (s.heap x).Errors ∧
          (s'.heap x).BaseWeight = (s.heap x).BaseWeight) ∧
      (st'.heap q).BaseWeight = 1 ∧ (st'.heap q).Errors = (st.heap q).Errors := by
  have visit : ∀ s s' : State, SameInput (st.heap q) (s.heap q) →
      directives env s q = .ok s' →
      s'.issues = s.issues.delete (s.heap q).URL ∧
      ∀ x, (s'.heap x).DependsOn = (s.heap x).DependsOn ∧
        (s'.heap x).Blocks = (s.heap x).Blocks ∧
        (s'.heap x).IsOrphan = (s.heap x).IsOrphan ∧
        (s'.heap x).Errors = (s.heap x).Errors ∧
        (s'.heap x).BaseWeight = (s.heap x).BaseWeight := by
    intro s s' hs hd
    refine directives_hidden ?_ hd
    unfold NoHide at hh ⊢
    rw [← hs.2.1]
    exact hh
  -- every issue with the marker leaves the collection
  have gone : ∀ p ∈ vals st.issues, ¬ NoHide (st.heap p) → (st.heap p).URL ∉ keys st'.issues := by
    intro p hp hhp
    obtain ⟨sa, sb, s1, h1, h2, h3, h4, h5, hiss, hf⟩ := prepare_turn hwf hp hrun
    have hsa : SameInput (st.heap p) (sa.heap p) :=
      (resetPass_same st.issues st.heap p).chain (h1.same p)
    have hdel := (directives_hidden (by unfold NoHide at hhp ⊢; rw [← hsa.2.1]; exact hhp) h4).1
    intro hk
    rw [hiss] at hk
    have hk2 := (keys_sublist h5.sublist).subset hk
    rw [hdel] at hk2
    obtain ⟨e, he, hek⟩ := List.mem_map.mp hk2
    have := (mem_delete.mp he).2
    exact this (hek.trans hsa.1)
  have entry : ∀ p ∈ vals st'.issues, ((st.heap p).URL, p) ∈ st'.issues := by
    intro p hp
    obtain ⟨e, he, hep⟩ := List.mem_map.mp hp
    have he0 : e ∈ st.issues := (prepare_shrinks hrun).subset he
    have hu := hwf.1 e he0
    rw [hep] at hu
    have : e = ((st.heap p).URL, p) := Prod.ext hu.symm hep
    rw [← this]
    exact he
  refine ⟨⟨gone q hq hh, ?_, ?_⟩, visit, ?_⟩
  · intro hq'
    exact gone q hq hh (List.mem_map.mpr ⟨_, entry q hq', rfl⟩)
  · intro p hp
    by_contra hc
    have hp0 : p ∈ vals st.issues := (vals_sublist (prepare_shrinks hrun)).subset hp
    have hc0 : ¬ NoHide (st.heap p) := by
      unfold NoHide at hc ⊢
      rw [(prepare_same hrun p).2.1]
      exact hc
    exact gone p hp0 hc0 (List.mem_map.mpr ⟨_, entry p hp, rfl⟩)
  · obtain ⟨sa, sb, s1, h1, h2, h3, h4, h5, hiss, hf⟩ := prepare_turn hwf hq hrun
    have hsa : SameInput (st.heap q) (sa.heap q) :=
      (resetPass_same st.issues st.heap q).chain (h1.same q)
    have hv := (visit sa sb hsa h4).2 q
    have hne : ∀ (kd : Kind) (p : Ptr) (k : Kind), p ≠ q → ¬ (p = q ∧ k = kd) :=
      fun _ _ _ hp hc => hp hc.1
    obtain ⟨b, c, hfq⟩ := hf q
    rw [hfq]
    show (s1.heap q).BaseWeight = 1 ∧ (s1.heap q).Errors = (st.heap q).Errors
    rw [h5.baseWeight_same q (hne .bw), h5.errors_same q (hne .err), hv.2.2.2.2, hv.2.2.2.1,
      h1.baseWeight_same q (hne .bw), h1.errors_same q (hne .err)]
    exact ⟨(reset_relations st hq).2.2.2.2, (reset_own st q).2.1⟩

/-- Witness for C16: issue 1 carries the marker, a depends-on phrase for issue
2, a blocks phrase and a base-weight directive.  After `prepare` only issue 2
is left, without any relation, and issue 1 has no relation, no error and the
base weight 1. -/
theorem hide_marker_removes_witness :
    ¬ NoHide (hideState.heap 0) ∧
      ∃ st', prepare goEnv 1 hideState = .ok st' ∧ vals st'.issues = [1] ∧
        (st'.heap 0).BaseWeight = 1 ∧ (st'.heap 0).Errors = [] ∧
        (st'.heap 0).DependsOn = [] ∧ (st'.heap 0).Blocks = [] ∧
        (st'.heap 1).Blocks = [] ∧ (st'.heap 1).IsOrphan = true := by
  obtain ⟨st', hrun⟩ := except_ok_of (x := prepare goEnv 1 hideState) (by decide)
  have hh : ¬ NoHide (hideState.heap 0) := by decide
  have h : (prepare goEnv 1 hideState).toOption.map (fun s =>
      (vals s.issues, (s.heap 0).DependsOn, (s.heap 0).Blocks, (s.heap 1).Blocks))
      = some ([1], [], [], []) := by decide
  have h' : (prepare goEnv 1 hideState).toOption.map (fun s => (s.heap 1).IsOrphan)
      = some true := by decide
  rw [hrun] at h h'
  simp only [Except.toOption, Option.map_some', Option.some.injEq, Prod.mk.injEq] at h h'
  have key := hide_marker_removes goEnv 1 hideState st' 0 (by decide) (by decide) hh hrun
  exact ⟨hh, st', hrun, h.1, key.2.2.1, key.2.2.2, h.2.1, h.2.2.1, h.2.2.2, h'⟩

/-! ## C17: a directive value that does not fit an `int` -/

/-- The value `strconv.Atoi` returns for a non-empty string of digits. -/
theorem Atoi_digits {s : Str} {n : Nat} (hs : s ≠ []) (hd : digitsVal s 0 = some n) :
    Atoi s = if (n : Int) ≤ maxInt then (n : Int) else maxInt := by
  unfold Atoi
  split
  · exact absurd rfl hs
  · simp [digitsVal] at hd
  · simp [digitsVal] at hd
  · rw [hd]

/-- Greedy repetition hands the continuation a suffix of the subject, the
runes before it being of the class. -/
theorem starRun_calls {β : Type} (rs : List (Char × Char)) :
    ∀ (s : Str) (k : Str → Option β) (r : β), starRun rs s k = some r →
      ∃ pre rest, s = pre ++ rest ∧ (∀ c ∈ pre, inClassFold rs c = true) ∧ k rest = some r := by
  intro s
  induction s with
  | nil =>
    intro k r h
    exact ⟨[], [], rfl, by simp, h⟩
  | cons c s ih =>
    intro k r h
    unfold starRun at h
    by_cases hc : inClassFold rs c = true
    · rw [if_pos hc] at h
      cases hrec : starRun rs s k with
      | some r' =>
        rw [hrec] at h
        simp only [Option.some.injEq] at h
        subst h
        obtain ⟨pre, rest, e, hall, hk⟩ := ih k r' hrec
        refine ⟨c :: pre, rest, by rw [e]; rfl, ?_, hk⟩
        intro x hx
        rcases List.mem_cons.mp hx with rfl | hx'
        · exact hc
        · exact hall x hx'
      | none =>
        rw [hrec] at h
        exact ⟨[], c :: s, rfl, by simp, h⟩
    · rw [if_neg hc] at h
      exact ⟨[], c :: s, rfl, by simp, h⟩

/-- A match calls its continuation. -/
theorem run_calls {β : Type} :
    ∀ (re : Re) (s : Str) (caps : List Str) (k : Str → List Str → Option β) (r : β),
      re.run s caps k = some r → ∃ rest caps', k rest caps' = some r := by
  intro re
  induction re with
  | eps => intro s caps k r h; exact ⟨s, caps, h⟩
  | lit p =>
    intro s caps k r h
    cases s with
    | nil => simp [Re.run] at h
    | cons c s =>
      simp only [Re.run] at h
      split_ifs at h
      exact ⟨s, caps, h⟩
  | any =>
    intro s caps k r h
    cases s with
    | nil => simp [Re.run] at h
    | cons c s =>
      simp only [Re.run] at h
      split_ifs at h
      exact ⟨s, caps, h⟩
  | cls rs =>
    intro s caps k r h
    cases s with
    | nil => simp [Re.run] at h
    | cons c s =>
      simp only [Re.run] at h
      split_ifs at h
      exact ⟨s, caps, h⟩
  | star rs =>
    intro s caps k r h
    simp only [Re.run] at h
    obtain ⟨_, rest, _, _, hk⟩ := starRun_calls rs s _ r h
    exact ⟨rest, caps, hk⟩
  | seq a b iha ihb =>
    intro s caps k r h
    simp only [Re.run] at h
    obtain ⟨rest, caps', h'⟩ := iha s caps _ r h
    exact ihb rest caps' k r h'
  | alt a b iha ihb =>
    intro s caps k r h
    simp only [Re.run] at h
    cases ha : a.run s caps k with
    | some r' =>
      rw [ha] at h
      simp only [Option.some.injEq] at h
      subst h
      exact iha s caps k r' ha
    | none =>
      rw [ha] at h
      exact ihb s caps k r h
  | group a iha =>
    intro s caps k r h
    simp only [Re.run] at h
    obtain ⟨rest, caps', h'⟩ := iha s caps _ r h
    exact ⟨rest, _, h'⟩

/-- A group `([class]+)` hands the continuation a non-empty text of runes of
the class as its capture. -/
theorem group_plus_calls {β : Type} (rs : List (Char × Char)) (s : Str) (caps : List Str)
    (k : Str → List Str → Option β) (r : β)
    (h : (Re.group (Re.plus rs)).run s caps k = some r) :
    ∃ pre rest, pre ≠ [] ∧ (∀ c ∈ pre, inClassFold rs c = true) ∧
      k rest (caps ++ [pre]) = some r := by
  cases s with
  | nil => simp [Re.run, Re.plus] at h
  | cons c s =>
    simp only [Re.run, Re.plus] at h
    split_ifs at h with hc
    obtain ⟨pre, rest, e, hall, hk⟩ := starRun_calls rs s _ r h
    refine ⟨c :: pre, rest, by simp, ?_, ?_⟩
    · intro x hx
      rcases List.mem_cons.mp hx with rfl | hx'
      · exact hc
      · exact hall x hx'
    · have : (c :: s).take ((c :: s).length - rest.length) = c :: pre := by
        rw [e]
        have : (c :: (pre ++ rest)).length - rest.length = (c :: pre).length := by
          simp only [List.length_cons, List.length_append]; omega
        rw [this]
        exact List.take_left' rfl
      rw [this] at hk
      exact hk

/-- A rune of the class `[0-9]` under `(?i)` is an ASCII digit. -/
theorem digitClass_digit (c : Char) (h : inClassFold digitClass c = true) :
    48 ≤ c.toNat ∧ c.toNat ≤ 57 := by
  have hk : (inRanges digitClass 'k' || inRanges digitClass 'K') = false := by decide
  have hs : (inRanges digitClass 's' || inRanges digitClass 'S') = false := by decide
  have hr : ∀ x : Char, inRanges digitClass x = true → 48 ≤ x.toNat ∧ x.toNat ≤ 57 := by
    intro x hx
    simpa [inRanges, digitClass] using hx
  unfold inClassFold at h
  rw [hk, hs] at h
  simp only [Bool.and_false, Bool.or_false, Bool.or_eq_true] at h
  rcases h with h | h
  · exact hr c h
  · have h2 := hr _ h
    unfold swapCase at h h2
    by_cases hu : isUpperAscii c = true
    · rw [if_pos hu] at h2
      exfalso
      have hb : 65 ≤ c.toNat ∧ c.toNat ≤ 90 := by simpa [isUpperAscii] using hu
      have : (Char.ofNat (c.toNat + 32)).toNat = c.toNat + 32 := by
        obtain ⟨l, u⟩ := hb
        generalize c.toNat = n at l u
        interval_cases n <;> rfl
      omega
    · rw [if_neg hu] at h2
      by_cases hl : isLowerAscii c = true
      · rw [if_pos hl] at h2
        exfalso
        have hb : 97 ≤ c.toNat ∧ c.toNat ≤ 122 := by simpa [isLowerAscii] using hl
        have : (Char.ofNat (c.toNat - 32)).toNat = c.toNat - 32 := by
          obtain ⟨l, u⟩ := hb
          generalize c.toNat = n at l u
          interval_cases n <;> rfl
        omega
      · rw [if_neg hl] at h2
        exact h2

theorem digitsVal_total : ∀ (s : Str) (acc : Nat), (∀ c ∈ s, inClassFold digitClass c = true) →
    ∃ n, digitsVal s acc = some n := by
  intro s
  induction s with
  | nil => intro acc _; exact ⟨acc, rfl⟩
  | cons c s ih =>
    intro acc h
    have hc := digitClass_digit c (h c (List.mem_cons_self _ _))
    unfold digitsVal
    have : (decide (48 ≤ c.toNat) && decide (c.toNat ≤ 57)) = true := by simp [hc.1, hc.2]
    rw [if_pos this]
    exact ih _ (fun x hx => h x (List.mem_cons_of_mem _ hx))

theorem run_seq {β : Type} (a b : Re) (s : Str) (caps : List Str)
    (k : Str → List Str → Option β) :
    (Re.seq a b).run s caps k = a.run s caps (fun rest caps1 => b.run rest caps1 k) := by
  simp only [Re.run]

/-- The value of a key directive is a non-empty string of digits: the
pattern admits nothing else. -/
theorem keyRegex_digits (key : String) (body : Str) (m : List Str)
    (h : FindStringSubmatch (keyRegex key) body = some m) :
    lastGroup m ≠ [] ∧ ∃ n, digitsVal (lastGroup m) 0 = some n := by
  obtain ⟨pre, suf, rest, _, hm, _⟩ := find_firstMatch h
  unfold matchAt keyRegex at hm
  rw [run_seq] at hm
  obtain ⟨rest1, caps1, h1⟩ := run_calls _ suf [] _ _ hm
  obtain ⟨val, rest2, hne, hall, hk⟩ := group_plus_calls digitClass rest1 _ _ _ h1
  simp only [Option.some.injEq, Prod.mk.injEq] at hk
  have hl : lastGroup m = val := by
    rw [← hk.1, ← List.cons_append]
    unfold lastGroup
    rw [List.getLastD_eq_getLast?, List.getLast?_append]
    rfl
  rw [hl]
  exact ⟨hne, digitsVal_total val 0 hall⟩

/-- C17, as the code has it: `prepare` assigns what `strconv.Atoi` returns and
discards its error.  In a collection keyed by URL, when the body of an issue
has a weight-multiplier directive, its value is a non-empty string of digits
(the pattern admits nothing else) and after `prepare` the multiplier is that
number if it fits an `int` and the largest `int`, `2 ^ 63 - 1`, otherwise; the
same holds of the base-weight directive of an issue without hide marker.  So a
value too large for an `int` does not leave the default 1. -/
theorem directive_value_saturates (env : Env) (fuel : Nat) (st st' : State) (q : Ptr)
    (hwf : WF st) (hq : q ∈ vals st.issues) (hrun : prepare env fuel st = .ok st') :
    (∀ m, FindStringSubmatch weightMultiplierRegex (st.heap q).Body = some m →
        ∃ n, lastGroup m ≠ [] ∧ digitsVal (lastGroup m) 0 = some n ∧
          (st'.heap q).weightMultiplier = if (n : Int) ≤ maxInt then (n : Int) else maxInt) ∧
      (NoHide (st.heap q) →
        ∀ m, FindStringSubmatch baseWeightRegex (st.heap q).Body = some m →
          ∃ n, lastGroup m ≠ [] ∧ digitsVal (lastGroup m) 0 = some n ∧
            (st'.heap q).BaseWeight = if (n : Int) ≤ maxInt then (n : Int) else maxInt) := by
  obtain ⟨s1, hpass, _, hf⟩ := prepare_fields hrun
  obtain ⟨b, c, hfq⟩ := hf q
  have own := directivePass_own (wf_reset hwf) hq hpass
  have hb : (resetPass st.heap st.issues q).Body = (st.heap q).Body :=
    (resetPass_same st.issues st.heap q).2.1.symm
  simp only [hb] at own
  constructor
  · intro m hm
    obtain ⟨hne, n, hn⟩ := keyRegex_digits "depviz.weight_multiplier" _ m hm
    refine ⟨n, hne, hn, ?_⟩
    rw [hfq]
    show (s1.heap q).weightMultiplier = _
    rw [own.1, hm]
    exact Atoi_digits hne hn
  · intro hnh m hm
    obtain ⟨hne, n, hn⟩ := keyRegex_digits "depviz.base_weight" _ m hm
    refine ⟨n, hne, hn, ?_⟩
    have hnh0 : NoHide (resetPass st.heap st.issues q) := by
      unfold NoHide at hnh ⊢; rw [hb]; exact hnh
    rw [hfq]
    show (s1.heap q).BaseWeight = _
    rw [own.2.1 hnh0, hm]
    exact Atoi_digits hne hn

/-- Witness for C17 as amended: the two directives with the value `2 ^ 63`. -/
theorem directive_value_saturates_witness :
    ∃ st', prepare goEnv 1 overflowState = .ok st' ∧
      (st'.heap 0).weightMultiplier = maxInt ∧ (st'.heap 0).BaseWeight = maxInt := by
  obtain ⟨st', hrun⟩ := except_ok_of (x := prepare goEnv 1 overflowState) (by decide)
  have key := directive_value_saturates goEnv 1 overflowState st' 0 (by decide) (by decide) hrun
  obtain ⟨n1, _, h1, e1⟩ := key.1 ["depviz.weight_multiplier: 9223372036854775808".toList,
    "depviz.weight_multiplier: ".toList, "9223372036854775808".toList] (by decide)
  obtain ⟨n2, _, h2, e2⟩ := key.2 (by decide) ["depviz.base_weight: 9223372036854775808".toList,
    "depviz.base_weight: ".toList, "9223372036854775808".toList] (by decide)
  have v : digitsVal (lastGroup ["depviz.weight_multiplier: 9223372036854775808".toList,
      "depviz.weight_multiplier: ".toList, "9223372036854775808".toList]) 0
      = some 9223372036854775808 := by decide
  have v' : digitsVal (lastGroup ["depviz.base_weight: 9223372036854775808".toList,
      "depviz.base_weight: ".toList, "9223372036854775808".toList]) 0
      = some 9223372036854775808 := by decide
  rw [v] at h1
  rw [v'] at h2
  simp only [Option.some.injEq] at h1 h2
  subst h1 h2
  refine ⟨st', hrun, ?_, ?_⟩
  · rw [e1]; decide
  · rw [e2]; decide

/-- Counterexample to C17 as stated: the directives carry `2 ^ 63`, which
`strconv.Atoi` cannot represent; `prepare` returns, and the multiplier and the
base weight are `2 ^ 63 - 1`, not the default 1. -/
theorem default_kept_counterexample :
    FindStringSubmatch weightMultiplierRegex (overflowState.heap 0).Body
        = some ["depviz.weight_multiplier: 9223372036854775808".toList,
          "depviz.weight_multiplier: ".toList, "9223372036854775808".toList] ∧
      digitsVal "9223372036854775808".toList 0 = some (2 ^ 63) ∧ maxInt < 2 ^ 63 ∧
      ∃ st', prepare goEnv 1 overflowState = .ok st' ∧
        (st'.heap 0).weightMultiplier = 9223372036854775807 ∧
        (st'.heap 0).BaseWeight = 9223372036854775807 ∧
        (st'.heap 0).weightMultiplier ≠ 1 ∧ (st'.heap 0).BaseWeight ≠ 1 := by
  obtain ⟨st', hrun⟩ := except_ok_of (x := prepare goEnv 1 overflowState) (by decide)
  have h : (prepare goEnv 1 overflowState).toOption.map (fun s =>
      ((s.heap 0).weightMultiplier, (s.heap 0).BaseWeight))
      = some (9223372036854775807, 9223372036854775807) := by decide
  rw [hrun] at h
  simp only [Except.toOption, Option.map_some', Option.some.injEq, Prod.mk.injEq] at h
  refine ⟨by decide, by decide, by decide, st', hrun, h.1, h.2, ?_, ?_⟩
  · rw [h.1]; decide
  · rw [h.2]; decide

/-! ## C18: the normalisers -/

theorem githubLabels_ok : ∀ ls : List GitHubLabel,
    (∀ l ∈ ls, l.Name ≠ none ∧ l.Color ≠ none) →
    githubLabels ls = .ok (ls.map (fun l => ⟨l.Name.getD [], l.Color.getD []⟩)) := by
  intro ls
  induction ls with
  | nil => intro _; rfl
  | cons l ls ih =>
    intro h
    obtain ⟨hn, hc⟩ := h l (List.mem_cons_self _ _)
    obtain ⟨n, en⟩ := Option.ne_none_iff_exists'.mp hn
    obtain ⟨c, ec⟩ := Option.ne_none_iff_exists'.mp hc
    simp only [githubLabels, en, ec, deref, ih (fun x hx => h x (List.mem_cons_of_mem _ hx)),
      List.map_cons, Option.getD_some]

theorem githubAssignees_ok : ∀ l : List GitHubUser,
    (∀ a ∈ l, a.Login ≠ none) →
    githubAssignees l
      = .ok (l.map (fun a => ⟨a.Name.getD (a.Login.getD []), a.Login.getD []⟩)) := by
  intro l
  induction l with
  | nil => intro _; rfl
  | cons a l ih =>
    intro h
    obtain ⟨n, en⟩ := Option.ne_none_iff_exists'.mp (h a (List.mem_cons_self _ _))
    simp only [githubAssignees, en, deref, ih (fun x hx => h x (List.mem_cons_of_mem _ hx)),
      List.map_cons, Option.getD_some]

/-- The weight of an issue that blocks nothing. -/
theorem weight_leaf (h : Heap) (i : Issue) (n : Nat) (hb : i.Blocks = []) :
    Weight h (n + 2) i = .ok (wrapInt (i.BaseWeight * i.weightMultiplier)) := by
  simp [Weight, WeightMultiplier, hb, unique_nil, addLoop, mulLoop]

/-- C18, as the code has it: for a raw GitHub record whose required fields are
present, and for every raw GitLab record, the normaliser returns an issue whose
mapped fields copy the record and whose derived fields are the zero values of
their types: `DependsOn` and `Blocks` empty, `IsOrphan = false`,
`weightMultiplier = 0`, `BaseWeight = 0`, `Hidden = false`, so that `Weight` of
a freshly normalised issue is 0.  The values `IsOrphan = true`,
`weightMultiplier = 1` and `BaseWeight = 1`, with weight 1, are those after the
first loop of `prepare`. -/
theorem normalizers_leave_zero_values :
    (∀ (input : GitHubIssue) (n : Int) (t s u r : Str),
        input.Number = some n → input.Title = some t → input.State = some s →
        input.HTMLURL = some u → input.RepositoryURL = some r →
        (∀ l ∈ input.Labels, l.Name ≠ none ∧ l.Color ≠ none) →
        (∀ a ∈ input.Assignees, a.Login ≠ none) →
        ∃ i, FromGitHubIssue input = .ok i ∧
          (i.URL = u ∧ i.Number = n ∧ i.Title = t ∧ i.State = s ∧
            i.Body = input.Body.getD [] ∧ i.RepoURL = r ∧
            i.Labels = input.Labels.map (fun l => ⟨l.Name.getD [], l.Color.getD []⟩) ∧
            i.Assignees = input.Assignees.map
              (fun a => ⟨a.Name.getD (a.Login.getD []), a.Login.getD []⟩)) ∧
          (i.DependsOn = [] ∧ i.Blocks = [] ∧ i.IsOrphan = false ∧ i.weightMultiplier = 0 ∧
            i.BaseWeight = 0 ∧ i.Hidden = false) ∧
          (∀ (h : Heap) (fuel : Nat), 2 ≤ fuel → Weight h fuel i = .ok 0) ∧
          ((resetIssue i).IsOrphan = true ∧ (resetIssue i).weightMultiplier = 1 ∧
            (resetIssue i).BaseWeight = 1 ∧
            ∀ (h : Heap) (fuel : Nat), 2 ≤ fuel → Weight h fuel (resetIssue i) = .ok 1)) ∧
      (∀ input : GitLabIssue,
        ((FromGitLabIssue input).URL = input.WebURL ∧
          (FromGitLabIssue input).Number = input.IID ∧
          (FromGitLabIssue input).Title = input.Title ∧
          (FromGitLabIssue input).State = input.State ∧
          (FromGitLabIssue input).Body = input.Description ∧
          (FromGitLabIssue input).RepoURL = input.LinksProject ∧
          (FromGitLabIssue input).Labels = input.Labels.map (fun l => ⟨l, "cccccc".toList⟩) ∧
          (FromGitLabIssue input).Assignees
            = input.Assignees.map (fun a => ⟨a.Name, a.Username⟩)) ∧
        ((FromGitLabIssue input).DependsOn = [] ∧ (FromGitLabIssue input).Blocks = [] ∧
          (FromGitLabIssue input).IsOrphan = false ∧
          (FromGitLabIssue input).weightMultiplier = 0 ∧
          (FromGitLabIssue input).BaseWeight = 0 ∧ (FromGitLabIssue input).Hidden = false) ∧
        (∀ (h : Heap) (fuel : Nat), 2 ≤ fuel → Weight h fuel (FromGitLabIssue input) = .ok 0) ∧
        ∀ (h : Heap) (fuel : Nat), 2 ≤ fuel →
          Weight h fuel (resetIssue (FromGitLabIssue input)) = .ok 1) := by
  have w0 : wrapInt (0 * 0) = 0 := by decide
  have w1 : wrapInt (1 * 1) = 1 := by decide
  constructor
  · intro input n t s u r hn ht hs hu hr hl ha
    refine ⟨{ GitHub := some input, Provider := .github, DependsOn := [], Blocks := [],
              weightMultiplier := 0, BaseWeight := 0, IsOrphan := false, Hidden := false,
              Duplicates := [], LinkedWithEpic := false, Errors := [], Number := n,
              Title := t, State := s, Body := input.Body.getD [], RepoURL := r, URL := u,
              Labels := input.Labels.map (fun l => ⟨l.Name.getD [], l.Color.getD []⟩),
              Assignees := input.Assignees.map
                (fun a => ⟨a.Name.getD (a.Login.getD []), a.Login.getD []⟩) },
      ?_, ⟨rfl, rfl, rfl, rfl, rfl, rfl, rfl, rfl⟩, ⟨rfl, rfl, rfl, rfl, rfl, rfl⟩,
      ?_, rfl, rfl, rfl, ?_⟩
    · simp only [FromGitHubIssue, hn, ht, hs, hu, hr, deref, githubLabels_ok _ hl,
        githubAssignees_ok _ ha]
    · intro h fuel hf
      obtain ⟨k, rfl⟩ : ∃ k, fuel = k + 2 := ⟨fuel - 2, by omega⟩
      rw [weight_leaf h _ k rfl]
      exact congrArg _ w0
    · intro h fuel hf
      obtain ⟨k, rfl⟩ : ∃ k, fuel = k + 2 := ⟨fuel - 2, by omega⟩
      rw [weight_leaf h _ k rfl]
      exact congrArg _ w1
  · intro input
    refine ⟨⟨rfl, rfl, rfl, rfl, rfl, rfl, rfl, rfl⟩, ⟨rfl, rfl, rfl, rfl, rfl, rfl⟩, ?_, ?_⟩
    · intro h fuel hf
      obtain ⟨k, rfl⟩ : ∃ k, fuel = k + 2 := ⟨fuel - 2, by omega⟩
      rw [weight_leaf h _ k rfl]
      exact congrArg _ w0
    · intro h fuel hf
      obtain ⟨k, rfl⟩ : ∃ k, fuel = k + 2 := ⟨fuel - 2, by omega⟩
      rw [weight_leaf h _ k rfl]
      exact congrArg _ w1

/-- Witness for C18 as amended: a GitHub record and a GitLab record. -/
theorem normalizers_leave_zero_values_witness :
    (∃ i, FromGitHubIssue issueRecord = .ok i ∧
        i.URL = "https://github.com/o/r/issues/7".toList ∧ i.Number = 7 ∧
        i.Assignees = [⟨"Alice".toList, "alice".toList⟩, ⟨"bob".toList, "bob".toList⟩] ∧
        i.IsOrphan = false ∧ i.weightMultiplier = 0 ∧ i.BaseWeight = 0 ∧
        Weight (heapOf []) 2 i = .ok 0 ∧ Weight (heapOf []) 2 (resetIssue i) = .ok 1) ∧
      (FromGitLabIssue labRecord).URL = "https://gitlab.com/o/r/issues/7".toList ∧
      (FromGitLabIssue labRecord).IsOrphan = false ∧
      Weight (heapOf []) 2 (FromGitLabIssue labRecord) = .ok 0 := by
  obtain ⟨i, hi, hm, hd, hw, hr⟩ := normalizers_leave_zero_values.1 issueRecord 7
    "an issue".toList "open".toList "https://github.com/o/r/issues/7".toList
    "https://api.github.com/repos/o/r".toList rfl rfl rfl rfl rfl (by decide) (by decide)
  have hg := normalizers_leave_zero_values.2 labRecord
  refine ⟨⟨i, hi, hm.1, hm.2.1, ?_, hd.2.2.1, hd.2.2.2.1, hd.2.2.2.2.1,
    hw _ 2 (le_refl _), hr.2.2.2 _ 2 (le_refl _)⟩, ?_, hg.2.1.2.2.1, hg.2.2.1 _ 2 (le_refl _)⟩
  · rw [hm.2.2.2.2.2.2.2]; decide
  · rw [hg.1.1]; decide

/-- Counterexample to C18 as stated: the issue normalised from a GitHub record
with all fields present, and the one normalised from a GitLab record, have
`IsOrphan = false`, `weightMultiplier = 0` and `BaseWeight = 0`, and their
weight is 0. -/
theorem normalizer_defaults_counterexample :
    (∃ i, FromGitHubIssue issueRecord = .ok i ∧ i.IsOrphan = false ∧ i.weightMultiplier = 0 ∧
        i.BaseWeight = 0 ∧ Weight (heapOf [i]) 2 i = .ok 0) ∧
      (FromGitLabIssue labRecord).IsOrphan = false ∧
      (FromGitLabIssue labRecord).weightMultiplier = 0 ∧
      (FromGitLabIssue labRecord).BaseWeight = 0 ∧
      Weight (heapOf [FromGitLabIssue labRecord]) 2 (FromGitLabIssue labRecord) = .ok 0 := by
  obtain ⟨i, hi⟩ := except_ok_of (x := FromGitHubIssue issueRecord) (by decide)
  have h : (FromGitHubIssue issueRecord).toOption.map (fun i =>
      (i.IsOrphan, i.weightMultiplier, i.BaseWeight, Weight (heapOf [i]) 2 i))
      = some (false, 0, 0, .ok 0) := by decide
  rw [hi] at h
  simp only [Except.toOption, Option.map_some', Option.some.injEq, Prod.mk.injEq] at h
  exact ⟨⟨i, hi, h.1, h.2.1, h.2.2.1, h.2.2.2⟩, by decide, by decide, by decide, by decide⟩

/-! ## C19: the bare short form `#M` -/

theorem cut_not_mem (sep : Char) : ∀ s : Str, (∀ c ∈ s, c ≠ sep) → cut sep s = (s, none) := by
  intro s
  induction s with
  | nil => intro _; rfl
  | cons c s ih =>
    intro h
    have hc : (c == sep) = false := by simpa using h c (List.mem_cons_self _ _)
    have := ih (fun x hx => h x (List.mem_cons_of_mem _ hx))
    simp [cut, hc, this]

theorem cut_append (sep : Char) (t : Str) :
    ∀ a : Str, (∀ c ∈ a, c ≠ sep) → cut sep (a ++ sep :: t) = (a, some t) := by
  intro a
  induction a with
  | nil => intro _; simp [cut]
  | cons c a ih =>
    intro h
    have hc : (c == sep) = false := by simpa using h c (List.mem_cons_self _ _)
    have := ih (fun x hx => h x (List.mem_cons_of_mem _ hx))
    simp [cut, hc, this]

theorem splitAux_not_mem (sep : Char) :
    ∀ (a cur : Str), (∀ c ∈ a, c ≠ sep) → splitAux sep a cur = [cur.reverse ++ a] := by
  intro a
  induction a with
  | nil => intro cur _; simp [splitAux]
  | cons c a ih =>
    intro cur h
    have hc : (c == sep) = false := by simpa using h c (List.mem_cons_self _ _)
    simp [splitAux, hc, ih (c :: cur) (fun x hx => h x (List.mem_cons_of_mem _ hx))]

theorem splitAux_append (sep : Char) (t : Str) :
    ∀ (a cur : Str), (∀ c ∈ a, c ≠ sep) →
      splitAux sep (a ++ sep :: t) cur = (cur.reverse ++ a) :: splitAux sep t [] := by
  intro a
  induction a with
  | nil => intro cur _; simp [splitAux]
  | cons c a ih =>
    intro cur h
    have hc : (c == sep) = false := by simpa using h c (List.mem_cons_self _ _)
    simp [splitAux, hc, ih (c :: cur) (fun x hx => h x (List.mem_cons_of_mem _ hx))]

theorem contains_sep_false : ∀ s : Str, (∀ c ∈ s, c ≠ ':') → contains "://".toList s = false := by
  intro s
  induction s with
  | nil => intro _; rfl
  | cons c s ih =>
    intro h
    have hc : (':' == c) = false := by
      have := h c (List.mem_cons_self _ _)
      simpa using fun e => this e.symm
    have this : contains [':', '/', '/'] s = false :=
      ih (fun x hx => h x (List.mem_cons_of_mem _ hx))
    simp [contains, hasPrefix, List.isPrefixOf, hc, this]

/-- What an ASCII digit is not. -/
theorem digit_facts (c : Char) (h : isDigitRune c = true) :
    plainRune c = true ∧ c ≠ ':' ∧ c ≠ '/' ∧ isUpperAscii c = false ∧ schemeRune c = true := by
  have hb : 48 ≤ c.toNat ∧ c.toNat ≤ 57 := by simpa [isDigitRune] using h
  have ne : ∀ d : Char, (d.toNat < 48 ∨ 57 < d.toNat) → c ≠ d := by
    intro d hd e
    subst e
    omega
  refine ⟨?_, ne _ (by decide), ne _ (by decide), ?_, ?_⟩
  · simp only [plainRune, unmodelledRune, Bool.not_eq_true', Bool.or_eq_false_iff,
      beq_eq_false_iff_ne, ne_eq, decide_eq_false_iff_not]
    refine ⟨⟨⟨⟨ne _ (by decide), ne _ (by decide)⟩, ⟨⟨⟨ne _ (by decide), ne _ (by decide)⟩,
      ne _ (by decide)⟩, ne _ (by decide)⟩⟩, by omega⟩, by omega⟩
  · simp only [isUpperAscii, Bool.and_eq_false_iff, decide_eq_false_iff_not]
    omega
  · simp [schemeRune, h]

/-- What a rune of a lower-case scheme is not. -/
theorem scheme_facts (c : Char) (h : schemeRune c = true) :
    plainRune c = true ∧ c ≠ ':' ∧ c ≠ '/' ∧ isUpperAscii c = false := by
  simp only [schemeRune, Bool.or_eq_true, beq_iff_eq] at h
  rcases h with (((h | h) | h) | h) | h
  · have hb : 97 ≤ c.toNat ∧ c.toNat ≤ 122 := by simpa [isLowerAscii] using h
    have ne : ∀ d : Char, (d.toNat < 97 ∨ 122 < d.toNat) → c ≠ d := by
      intro d hd e
      subst e
      omega
    refine ⟨?_, ne _ (by decide), ne _ (by decide), ?_⟩
    · simp only [plainRune, unmodelledRune, Bool.not_eq_true', Bool.or_eq_false_iff,
        beq_eq_false_iff_ne, ne_eq, decide_eq_false_iff_not]
      refine ⟨⟨⟨⟨ne _ (by decide), ne _ (by decide)⟩, ⟨⟨⟨ne _ (by decide), ne _ (by decide)⟩,
        ne _ (by decide)⟩, ne _ (by decide)⟩⟩, by omega⟩, by omega⟩
    · simp only [isUpperAscii, Bool.and_eq_false_iff, decide_eq_false_iff_not]
      omega
  · have := digit_facts c h
    exact ⟨this.1, this.2.1, this.2.2.1, this.2.2.2.1⟩
  · subst h; decide
  · subst h; decide
  · subst h; decide

/-- The function `getScheme` on a lower-case scheme followed by a colon. -/
theorem getScheme_scheme (raw rest : Str) :
    ∀ (s seen : Str), s.all schemeRune = true →
      (seen ≠ [] ∨ ∃ c t, s = c :: t ∧ isLowerAscii c = true) →
      getScheme raw (s ++ ':' :: rest) seen = some (seen.reverse ++ s, rest) := by
  intro s
  induction s with
  | nil =>
    intro seen _ hfirst
    rcases hfirst with hne | ⟨c, t, e, _⟩
    · cases seen with
      | nil => exact absurd rfl hne
      | cons x seen => simp [getScheme, isLowerAscii, isUpperAscii]
    · cases e
  | cons c s ih =>
    intro seen hall hfirst
    have hc : schemeRune c = true := by
      simp only [List.all_cons, Bool.and_eq_true] at hall; exact hall.1
    have hs : s.all schemeRune = true := by
      simp only [List.all_cons, Bool.and_eq_true] at hall; exact hall.2
    have hrec := ih (c :: seen) hs (Or.inl (List.cons_ne_nil _ _))
    have hup := (scheme_facts c hc).2.2.2
    have hcolon : (c == ':') = false := by simpa using (scheme_facts c hc).2.1
    simp only [List.cons_append, getScheme, hup, Bool.or_false]
    by_cases hl : isLowerAscii c = true
    · rw [if_pos hl]
      exact hrec.trans (by simp)
    · rw [if_neg hl]
      have hseen : seen ≠ [] := by
        rcases hfirst with hne | ⟨c', t, e, hl'⟩
        · exact hne
        · cases e; exact absurd hl' hl
      have hrest : ((decide (48 ≤ c.toNat) && decide (c.toNat ≤ 57)) || c == '+' || c == '-'
          || c == '.') = true := by
        simp only [schemeRune, isDigitRune] at hc
        simpa [hl] using hc
      rw [if_pos hrest]
      have : seen.isEmpty = false := by
        cases seen with
        | nil => exact absurd rfl hseen
        | cons _ _ => rfl
      rw [this]
      simp only [Bool.false_eq_true, if_false]
      exact hrec.trans (by simp)

theorem toLowerAscii_scheme : ∀ s : Str, s.all schemeRune = true → toLowerAscii s = s := by
  intro s
  induction s with
  | nil => intro _; rfl
  | cons c s ih =>
    intro hall
    simp only [List.all_cons, Bool.and_eq_true] at hall
    have hup := (scheme_facts c hall.1).2.2.2
    have := ih hall.2
    unfold toLowerAscii at this ⊢
    simp [hup, this]

theorem plain_facts (c : Char) (h : plainRune c = true) :
    c ≠ '#' ∧ c ≠ '?' ∧ unmodelledRune c = false ∧
      (decide (c.toNat < 32) || c.toNat == 127) = false := by
  simp only [plainRune, Bool.not_eq_true', Bool.or_eq_false_iff, beq_eq_false_iff_ne, ne_eq,
    decide_eq_false_iff_not] at h
  refine ⟨h.1.1.1.1, h.1.1.1.2, h.1.1.2, ?_⟩
  simp only [Bool.or_eq_false_iff, decide_eq_false_iff_not, beq_eq_false_iff_ne, ne_eq]
  exact ⟨h.1.2, h.2⟩

/-- The model of `url.Parse` on `scheme://host/path`. -/
theorem urlParse_absolute (scheme host p : Str) (hs : isScheme scheme = true)
    (hh : isHost host = true) (hp : p.all plainRune = true) :
    urlParse (scheme ++ "://".toList ++ host ++ '/' :: p) = some ⟨scheme, host, '/' :: p, []⟩ := by
  obtain ⟨c0, s0, rfl⟩ : ∃ c0 s0, scheme = c0 :: s0 := by
    cases scheme with
    | nil => simp [isScheme] at hs
    | cons c s => exact ⟨c, s, rfl⟩
  simp only [isScheme, Bool.and_eq_true] at hs
  have hsall : (c0 :: s0).all schemeRune = true := by
    simp only [List.all_cons, Bool.and_eq_true]
    exact ⟨by simp [schemeRune, hs.1], hs.2⟩
  simp only [isHost, Bool.and_eq_true, Bool.not_eq_true'] at hh
  have hhost : ∀ c ∈ host, segmentRune c = true ∧ badHostRune c = false := by
    intro c hc
    have := List.all_eq_true.mp hh.1 c hc
    simpa using this
  have hhplain : ∀ c ∈ host, plainRune c = true := by
    intro c hc
    have := (hhost c hc).1
    simp only [segmentRune, Bool.and_eq_true] at this
    exact this.1
  have hhslash : ∀ c ∈ host, c ≠ '/' := by
    intro c hc
    have := (hhost c hc).1
    simp only [segmentRune, Bool.and_eq_true, Bool.not_eq_true', beq_eq_false_iff_ne] at this
    exact this.2
  -- the rest after the scheme
  set rest : Str := '/' :: '/' :: (host ++ '/' :: p) with hrest
  have hraw : (c0 :: s0) ++ "://".toList ++ host ++ '/' :: p = (c0 :: s0) ++ ':' :: rest := by
    simp [hrest]
  rw [hraw]
  have hplain : ∀ c ∈ (c0 :: s0) ++ ':' :: rest, plainRune c = true := by
    intro c hc
    simp only [hrest, List.mem_append, List.mem_cons] at hc
    rcases hc with hc | rfl | rfl | rfl | hc | rfl | hc
    · exact (scheme_facts c (List.all_eq_true.mp hsall c (by simpa using hc))).1
    · decide
    · decide
    · decide
    · exact hhplain c hc
    · decide
    · exact List.all_eq_true.mp hp c hc
  have h1 : ((c0 :: s0) ++ ':' :: rest).any unmodelledRune = false := by
    rw [List.any_eq_false]
    intro c hc
    rw [(plain_facts c (hplain c hc)).2.2.1]
    simp
  have h2 : ((c0 :: s0) ++ ':' :: rest).any (fun c => decide (c.toNat < 32) || c.toNat == 127)
      = false := by
    rw [List.any_eq_false]
    intro c hc
    rw [(plain_facts c (hplain c hc)).2.2.2]
    simp
  have h3 : cut '#' ((c0 :: s0) ++ ':' :: rest) = ((c0 :: s0) ++ ':' :: rest, none) :=
    cut_not_mem _ _ (fun c hc => (plain_facts c (hplain c hc)).1)
  have h4 : getScheme ((c0 :: s0) ++ ':' :: rest) ((c0 :: s0) ++ ':' :: rest) []
      = some (c0 :: s0, rest) := by
    have := getScheme_scheme ((c0 :: s0) ++ ':' :: rest) rest (c0 :: s0) [] hsall
      (Or.inr ⟨c0, s0, rfl, hs.1⟩)
    simpa using this
  have h5 : toLowerAscii (c0 :: s0) = c0 :: s0 := toLowerAscii_scheme _ hsall
  have h6 : cut '?' rest = (rest, none) := by
    apply cut_not_mem
    intro c hc
    exact (plain_facts c (hplain c (by simp [hc]))).2.1
  have h7 : cut '/' (rest.drop 2) = (host, some p) := by
    show cut '/' (host ++ '/' :: p) = _
    exact cut_append '/' p host hhslash
  have h8 : (rest.drop 2).drop host.length = '/' :: p := by
    show (host ++ '/' :: p).drop host.length = _
    simp
  have h9 : ((host.contains ':' && !validPort ((split ':' host).getLastD []))
      || host.any badHostRune) = false := by
    have hb : host.any badHostRune = false := by
      rw [List.any_eq_false]
      intro c hc
      rw [(hhost c hc).2]
      simp
    rw [hb, Bool.or_false]
    exact hh.2
  have h10 : (((c0 :: s0) ++ ':' :: rest) == ['*']) = false := by
    cases s0 <;> simp
  unfold urlParse
  simp only [h1, h2, h3, h4, h5, h6, h7, h8, h9, h10]
  simp [hrest, hasPrefix]

/-- The model of `url.Parse` on the bare short form `#M`. -/
theorem urlParse_fragment (M : Str) (hM : M.all isDigitRune = true) :
    urlParse ('#' :: M) = some ⟨[], [], [], M⟩ := by
  have hplain : ∀ c ∈ M, plainRune c = true :=
    fun c hc => (digit_facts c (List.all_eq_true.mp hM c hc)).1
  have h1 : ('#' :: M).any unmodelledRune = false := by
    rw [List.any_eq_false]
    intro c hc
    rcases List.mem_cons.mp hc with rfl | hc
    · decide
    · rw [(plain_facts c (hplain c hc)).2.2.1]; simp
  have h2 : ('#' :: M).any (fun c => decide (c.toNat < 32) || c.toNat == 127) = false := by
    rw [List.any_eq_false]
    intro c hc
    rcases List.mem_cons.mp hc with rfl | hc
    · decide
    · rw [(plain_facts c (hplain c hc)).2.2.2]; simp
  unfold urlParse
  simp only [h1, h2]
  simp [cut, getScheme, hasPrefix, toLowerAscii]

/-- The path of `/owner/repo/issues/N` without its last two segments. -/
theorem split_issue_path (owner repo N : Str) (ho : owner.all segmentRune = true)
    (hr : repo.all segmentRune = true) (hN : N.all segmentRune = true) :
    split '/' ('/' :: (owner ++ "/".toList ++ repo ++ "/issues/".toList ++ N))
      = [[], owner, repo, "issues".toList, N] := by
  have seg : ∀ s : Str, s.all segmentRune = true → ∀ c ∈ s, c ≠ '/' := by
    intro s hs c hc
    have := List.all_eq_true.mp hs c hc
    simp only [segmentRune, Bool.and_eq_true, Bool.not_eq_true', beq_eq_false_iff_ne] at this
    exact this.2
  have e : '/' :: (owner ++ "/".toList ++ repo ++ "/issues/".toList ++ N)
      = [] ++ '/' :: (owner ++ '/' :: (repo ++ '/' :: ("issues".toList ++ '/' :: N))) := by
    simp
  rw [e]
  unfold split
  rw [splitAux_append '/' _ [] [] (by simp), splitAux_append '/' _ owner [] (seg owner ho),
    splitAux_append '/' _ repo [] (seg repo hr),
    splitAux_append '/' _ "issues".toList [] (by decide), splitAux_not_mem '/' N [] (seg N hN)]
  simp

/-- C19: bare short-form resolution.  For every issue whose URL is
`scheme://host/owner/repo/issues/N` (a lower-case scheme, a host that
`url.Parse` accepts, path segments without separator or escape) and every
number `M`, `Path()` is `/owner/repo`, `ProviderURL()` is `scheme://host`, and
`GetRelativeIssueURL("#M")` returns `scheme://host/owner/repo/issues/M`. -/
theorem bare_reference_resolves (i : Issue) (scheme host owner repo N M : Str)
    (hurl : i.URL = issueURL scheme host owner repo N)
    (hs : isScheme scheme = true) (hh : isHost host = true)
    (ho : owner.all segmentRune = true) (hr : repo.all segmentRune = true)
    (hN : N.all segmentRune = true) (hM : M.all isDigitRune = true) :
    Path goEnv i = .ok ("/".toList ++ owner ++ "/".toList ++ repo) ∧
      ProviderURL goEnv i = .ok (scheme ++ "://".toList ++ host) ∧
      GetRelativeIssueURL goEnv i ('#' :: M) = .ok (issueURL scheme host owner repo M) := by
  have seg : ∀ s : Str, s.all segmentRune = true → s.all plainRune = true := by
    intro s hs
    rw [List.all_eq_true] at hs ⊢
    intro c hc
    have := hs c hc
    simp only [segmentRune, Bool.and_eq_true] at this
    exact this.1
  have hpath : (owner ++ "/".toList ++ repo ++ "/issues/".toList ++ N).all plainRune = true := by
    simp only [List.all_append, seg owner ho, seg repo hr, seg N hN, Bool.and_true,
      Bool.true_and, Bool.and_eq_true]
    exact ⟨by decide, by decide⟩
  have hparse : goEnv.parse i.URL
      = some ⟨scheme, host, '/' :: (owner ++ "/".toList ++ repo ++ "/issues/".toList ++ N), []⟩ := by
    rw [hurl]
    have := urlParse_absolute scheme host _ hs hh hpath
    show urlParse _ = _
    rw [← this]
    congr 1
    simp [issueURL]
  have hP : Path goEnv i = .ok ("/".toList ++ owner ++ "/".toList ++ repo) := by
    unfold Path
    rw [hparse]
    simp only [split_issue_path owner repo N ho hr hN]
    simp [join]
  have hU : ProviderURL goEnv i = .ok (scheme ++ "://".toList ++ host) := by
    unfold ProviderURL
    rw [hparse]
  refine ⟨hP, hU, ?_⟩
  unfold GetRelativeIssueURL
  have hc : contains "://".toList ('#' :: M) = false := by
    apply contains_sep_false
    intro c hc
    rcases List.mem_cons.mp hc with rfl | hc
    · decide
    · exact (digit_facts c (List.all_eq_true.mp hM c hc)).2.1
  have hf : goEnv.parse ('#' :: M) = some ⟨[], [], [], M⟩ := urlParse_fragment M hM
  rw [hc, hf]
  simp only [Bool.false_eq_true, if_false, if_true, hP, hU]
  simp [issueURL]

/-- Witness for C19: the issue `https://github.com/o/r/issues/1` with `#2`, and
an issue of a tracker on a port with `#345`. -/
theorem bare_reference_resolves_witness :
    GetRelativeIssueURL goEnv (dependsState.heap 0) "#2".toList
        = .ok "https://github.com/o/r/issues/2".toList ∧
      GetRelativeIssueURL goEnv (mkIssue "http://git.example.org:8080/team/tool/issues/12" "" [])
        "#345".toList = .ok "http://git.example.org:8080/team/tool/issues/345".toList :=
  ⟨(bare_reference_resolves (dependsState.heap 0) "https".toList "github.com".toList "o".toList
    "r".toList "1".toList "2".toList (by decide) (by decide) (by decide) (by decide) (by decide)
    (by decide) (by decide)).2.2,
  (bare_reference_resolves (mkIssue "http://git.example.org:8080/team/tool/issues/12" "" [])
    "http".toList "git.example.org:8080".toList "team".toList "tool".toList "12".toList
    "345".toList (by decide) (by decide) (by decide) (by decide) (by decide) (by decide)
    (by decide)).2.2⟩

/-! ## C20: the qualified short form `owner/repo#12` -/

/-- C20, on the code: the issue `https://github.com/a/b/issues/1` says
"depends on owner/repo#12" and `https://github.com/owner/repo/issues/12` is in
the collection.  The pattern captures the token `owner/repo` (its first
alternative matches up to the `#`), which `GetRelativeIssueURL` resolves to
`https://github.comowner/repo/issues/`; no issue has that key, so `prepare`
records the error "parent not found" and adds no edge.  The full token
`owner/repo#12` would resolve to `https://github.comowner/repo/issues/12`,
not to the URL of the issue. -/
theorem qualified_reference_unresolved :
    FindAllStringSubmatch dependsOnRegex (qualifiedState.heap 0).Body
        = [["depends on owner/repo".toList, "depends on".toList, "owner/repo".toList]] ∧
      GetRelativeIssueURL goEnv (qualifiedState.heap 0) "owner/repo".toList
        = .ok "https://github.comowner/repo/issues/".toList ∧
      GetRelativeIssueURL goEnv (qualifiedState.heap 0) "owner/repo#12".toList
        = .ok "https://github.comowner/repo/issues/12".toList ∧
      (qualifiedState.heap 1).URL = "https://github.com/owner/repo/issues/12".toList ∧
      ∃ st', prepare goEnv 1 qualifiedState = .ok st' ∧
        (st'.heap 0).DependsOn = [] ∧ (st'.heap 1).Blocks = [] ∧
        (st'.heap 0).IsOrphan = true ∧
        (st'.heap 0).Errors
          = [.parentNotFound "https://github.comowner/repo/issues/".toList] := by
  obtain ⟨st', hrun⟩ := except_ok_of (x := prepare goEnv 1 qualifiedState) (by decide)
  have h : (prepare goEnv 1 qualifiedState).toOption.map (fun s =>
      ((s.heap 0).DependsOn, (s.heap 1).Blocks, (s.heap 0).IsOrphan, (s.heap 0).Errors))
      = some ([], [], true, [.parentNotFound "https://github.comowner/repo/issues/".toList]) := by
    decide
  rw [hrun] at h
  simp only [Except.toOption, Option.map_some', Option.some.injEq, Prod.mk.injEq] at h
  exact ⟨by decide, by decide, by decide, by decide, st', hrun, h.1, h.2.1, h.2.2.1, h.2.2.2⟩

/-! ## C21, C22: the two filters -/

/-- A loop that hides the issues of the collection satisfying a condition that
does not read `Hidden`. -/
theorem hideFold_apply (c : Issue → Bool) (hc : ∀ (i : Issue) (b : Bool), c { i with Hidden := b } = c i)
    (q : Ptr) :
    ∀ (m : Issues) (h : Heap),
      (m.foldl (fun h e => if c (h e.2) then h.modify e.2 (fun i => { i with Hidden := true })
        else h) h) q
        = if q ∈ vals m ∧ c (h q) = true then { h q with Hidden := true } else h q := by
  intro m
  induction m with
  | nil => intro h; simp [vals]
  | cons e rest ih =>
    intro h
    rw [List.foldl_cons, ih]
    simp only [vals, List.map_cons, List.mem_cons]
    by_cases hce : c (h e.2) = true
    · rw [if_pos hce]
      simp only [heap_modify_apply]
      by_cases hq : q = e.2
      · subst hq
        simp only [if_true, hc, hce, and_true, true_or]
        split_ifs <;> rfl
      · simp only [hq, if_false, false_or]
    · rw [if_neg hce]
      by_cases hq : q = e.2
      · have hcq : ¬ c (h q) = true := by rw [hq]; exact hce
        rw [if_neg (fun hx => hcq hx.2), if_neg (fun hx => hcq hx.2)]
      · simp only [hq, false_or]

theorem HideClosed_apply (m : Issues) (h : Heap) (q : Ptr) :
    HideClosed m h q
      = if q ∈ vals m ∧ IsClosed (h q) = true then { h q with Hidden := true } else h q :=
  hideFold_apply IsClosed (fun _ _ => rfl) q m h

theorem HideOrphans_apply (m : Issues) (h : Heap) (q : Ptr) :
    HideOrphans m h q
      = if q ∈ vals m ∧ ((h q).IsOrphan || !(h q).LinkedWithEpic) = true then
          { h q with Hidden := true } else h q :=
  hideFold_apply (fun i => i.IsOrphan || !i.LinkedWithEpic) (fun _ _ => rfl) q m h

/-- C21: the visibility controls are idempotent.  `HideClosed` applied twice
gives the heap it gives applied once, and so does `HideOrphans`; neither
touches the map. -/
theorem hide_idempotent (m : Issues) (h : Heap) :
    HideClosed m (HideClosed m h) = HideClosed m h ∧
      HideOrphans m (HideOrphans m h) = HideOrphans m h := by
  constructor
  · funext q
    rw [HideClosed_apply m (HideClosed m h), HideClosed_apply m h]
    by_cases hq : q ∈ vals m ∧ IsClosed (h q) = true
    · rw [if_pos hq]
      have : IsClosed ({ h q with Hidden := true }) = true := hq.2
      rw [if_pos ⟨hq.1, this⟩]
    · rw [if_neg hq, if_neg hq]
  · funext q
    rw [HideOrphans_apply m (HideOrphans m h), HideOrphans_apply m h]
    by_cases hq : q ∈ vals m ∧ ((h q).IsOrphan || !(h q).LinkedWithEpic) = true
    · rw [if_pos hq]
      have : (({ h q with Hidden := true } : Issue).IsOrphan
          || !({ h q with Hidden := true } : Issue).LinkedWithEpic) = true := hq.2
      rw [if_pos ⟨hq.1, this⟩]
    · rw [if_neg hq, if_neg hq]

/-- C22: the visibility controls are order-independent.  `HideClosed` followed
by `HideOrphans` gives the same heap as `HideOrphans` followed by
`HideClosed`; an issue of the collection is hidden afterwards if and only if it
was hidden before, or is closed, or is an orphan, or is not linked with an
epic; and each of the two writes no field but `Hidden`. -/
theorem hide_order_independent (m : Issues) (h : Heap) :
    HideOrphans m (HideClosed m h) = HideClosed m (HideOrphans m h) ∧
      (∀ q ∈ vals m, ((HideOrphans m (HideClosed m h) q).Hidden = true ↔
        ((h q).Hidden = true ∨ IsClosed (h q) = true ∨ (h q).IsOrphan = true ∨
          (h q).LinkedWithEpic = false))) ∧
      (∀ q, ∃ b, HideClosed m h q = { h q with Hidden := b }) ∧
      (∀ q, ∃ b, HideOrphans m h q = { h q with Hidden := b }) := by
  refine ⟨?_, ?_, ?_, ?_⟩
  · funext q
    rw [HideOrphans_apply m (HideClosed m h), HideClosed_apply m (HideOrphans m h),
      HideClosed_apply m h, HideOrphans_apply m h]
    by_cases hq : q ∈ vals m
    · by_cases h1 : IsClosed (h q) = true <;>
        by_cases h2 : ((h q).IsOrphan || !(h q).LinkedWithEpic) = true <;>
        simp [hq, h1, h2, IsClosed] <;> simp_all [IsClosed]
    · simp [hq]
  · intro q hq
    rw [HideOrphans_apply m (HideClosed m h), HideClosed_apply m h]
    by_cases h1 : IsClosed (h q) = true <;>
      by_cases h2 : ((h q).IsOrphan || !(h q).LinkedWithEpic) = true <;>
      simp [hq, h1, h2, IsClosed] <;> simp_all [IsClosed]
  · intro q
    rw [HideClosed_apply]
    split_ifs
    · exact ⟨true, rfl⟩
    · exact ⟨(h q).Hidden, rfl⟩
  · intro q
    rw [HideOrphans_apply]
    split_ifs
    · exact ⟨true, rfl⟩
    · exact ⟨(h q).Hidden, rfl⟩

/-- Witness for C22: a closed issue, an orphan, a visible issue and an issue
hidden beforehand. -/
theorem hide_order_independent_witness :
    (HideOrphans filterState.issues (HideClosed filterState.issues filterState.heap) 0).Hidden
        = true ∧
      (HideOrphans filterState.issues (HideClosed filterState.issues filterState.heap) 1).Hidden
        = true ∧
      ¬ (HideOrphans filterState.issues (HideClosed filterState.issues filterState.heap) 2).Hidden
        = true ∧
      (HideOrphans filterState.issues (HideClosed filterState.issues filterState.heap) 3).Hidden
        = true :=
  ⟨((hide_order_independent filterState.issues filterState.heap).2.1 0 (by decide)).mpr
      (Or.inr (Or.inl (by decide))),
    ((hide_order_independent filterState.issues filterState.heap).2.1 1 (by decide)).mpr
      (Or.inr (Or.inr (Or.inl (by decide)))),
    fun hh => absurd
      (((hide_order_independent filterState.issues filterState.heap).2.1 2 (by decide)).mp hh)
      (by decide),
    ((hide_order_independent filterState.issues filterState.heap).2.1 3 (by decide)).mpr
      (Or.inl (by decide))⟩

/-! ## C30: orphans and ready issues -/

/-- C30: after `prepare`, for every issue that was in the collection when
`prepare` started, `IsOrphan` is true if and only if both its `DependsOn` and
its `Blocks` are empty; and the issue is ready (`IsReady`) if and only if its
`DependsOn` is empty and its `Blocks` is not. -/
theorem orphan_and_ready_after_prepare (env : Env) (fuel : Nat) (st st' : State) (q : Ptr)
    (hq : q ∈ vals st.issues) (hrun : prepare env fuel st = .ok st') :
    ((st'.heap q).IsOrphan = true ↔
        (st'.heap q).DependsOn = [] ∧ (st'.heap q).Blocks = []) ∧
      (IsReady (st'.heap q) = true ↔
        (st'.heap q).DependsOn = [] ∧ (st'.heap q).Blocks ≠ []) := by
  have ho := prepare_orphan_iff hq hrun
  refine ⟨ho, ?_⟩
  unfold IsReady
  simp only [Bool.and_eq_true, Bool.not_eq_true', decide_eq_true_eq, List.length_eq_zero]
  constructor
  · rintro ⟨h1, h2⟩
    refine ⟨h2, fun h3 => ?_⟩
    have := ho.mpr ⟨h2, h3⟩
    rw [h1] at this
    cases this
  · rintro ⟨h1, h2⟩
    refine ⟨?_, h1⟩
    cases hio : (st'.heap q).IsOrphan with
    | false => rfl
    | true => exact absurd (ho.mp hio).2 h2

/-- Witness for C30: issue 1 depends on issue 2; after `prepare` issue 2 is
ready and issue 1 is not. -/
theorem orphan_and_ready_after_prepare_witness :
    ∃ st', prepare goEnv 2 dependsState = .ok st' ∧
      IsReady (st'.heap 1) = true ∧ (st'.heap 1).DependsOn = [] ∧ (st'.heap 1).Blocks ≠ [] ∧
      ¬ IsReady (st'.heap 0) = true := by
  obtain ⟨st', hrun⟩ := except_ok_of (x := prepare goEnv 2 dependsState) (by decide)
  have h : (prepare goEnv 2 dependsState).toOption.map (fun s =>
      (IsReady (s.heap 1), decide ((s.heap 0).DependsOn = [])))
      = some (true, false) := by decide
  rw [hrun] at h
  simp only [Except.toOption, Option.map_some', Option.some.injEq, Prod.mk.injEq,
    decide_eq_false_iff_not] at h
  have k1 := (orphan_and_ready_after_prepare goEnv 2 dependsState st' 1 (by decide) hrun).2
  have k0 := (orphan_and_ready_after_prepare goEnv 2 dependsState st' 0 (by decide) hrun).2
  exact ⟨st', hrun, h.1, (k1.mp h.1).1, (k1.mp h.1).2, fun hr => h.2 (k0.mp hr).1⟩

/-! ## C28: termination of the recursions -/

/-- A relation along which a rank decreases has no cycle. -/
theorem acyclic_of_rank (next : Ptr → List Ptr) (S : List Ptr) (rank : Ptr → Nat)
    (h : ∀ p ∈ S, ∀ d ∈ next p, d ∈ S ∧ rank d < rank p) :
    ∀ p ∈ S, ¬ Relation.TransGen (fun a b => b ∈ next a) p p := by
  have key : ∀ p q, Relation.TransGen (fun a b => b ∈ next a) p q → p ∈ S →
      q ∈ S ∧ rank q < rank p := by
    intro p q hpq
    induction hpq with
    | single hd => intro hp; exact h p hp _ hd
    | tail _ hd ih =>
      intro hp
      obtain ⟨hb, hr⟩ := ih hp
      obtain ⟨hc, hr'⟩ := h _ hb _ hd
      exact ⟨hc, by omega⟩
  intro p hp hc
  have := (key p p hc hp).2
  omega

/-- On a finite set closed under a relation without cycle, the number of
issues reachable from an issue is a rank that decreases along the relation. -/
theorem rank_of_acyclic (next : Ptr → List Ptr) (S : List Ptr)
    (hclosed : ∀ p ∈ S, ∀ d ∈ next p, d ∈ S)
    (hacyc : ∀ p ∈ S, ¬ Relation.TransGen (fun a b => b ∈ next a) p p) :
    ∃ rank : Ptr → Nat, (∀ p ∈ S, ∀ d ∈ next p, d ∈ S ∧ rank d < rank p) ∧
      ∀ p, rank p ≤ S.length := by
  classical
  refine ⟨fun p => (S.toFinset.filter
    (fun q => Relation.TransGen (fun a b => b ∈ next a) p q)).card, ?_, ?_⟩
  · intro p hp d hd
    have hdS := hclosed p hp d hd
    refine ⟨hdS, Finset.card_lt_card ?_⟩
    rw [Finset.ssubset_iff_of_subset]
    · refine ⟨d, ?_, ?_⟩
      · simp only [Finset.mem_filter, List.mem_toFinset]
        exact ⟨hdS, Relation.TransGen.single hd⟩
      · simp only [Finset.mem_filter, List.mem_toFinset, not_and]
        intro _
        exact hacyc d hdS
    · intro q hq
      simp only [Finset.mem_filter, List.mem_toFinset] at hq ⊢
      exact ⟨hq.1, Relation.TransGen.head hd hq.2⟩
  · intro p
    exact (Finset.card_filter_le _ _).trans (List.toFinset_card_le S)

/-- The issues `Unique` returns are among those it is given. -/
theorem unique_subset (h : Heap) (l : IssueSlice) : ∀ q ∈ Unique h l, q ∈ l := by
  have put_vals : ∀ (m : Issues) (k : Str) (p q : Ptr), q ∈ vals (m.put k p) →
      q ∈ vals m ∨ q = p := by
    intro m
    induction m with
    | nil => intro k p q hq; simp [Issues.put, vals] at hq; exact Or.inr hq
    | cons e m ih =>
      intro k p q hq
      obtain ⟨k1, p1⟩ := e
      unfold Issues.put at hq
      split_ifs at hq
      · simp only [vals, List.map_cons, List.mem_cons] at hq ⊢
        rcases hq with hq | hq
        · exact Or.inr hq
        · exact Or.inl (Or.inr hq)
      · simp only [vals, List.map_cons, List.mem_cons] at hq ⊢
        rcases hq with hq | hq
        · exact Or.inl (Or.inl hq)
        · rcases ih k p q hq with h1 | h1
          · exact Or.inl (Or.inr h1)
          · exact Or.inr h1
  have fold : ∀ (l : IssueSlice) (m : Issues) (q : Ptr),
      q ∈ vals (l.foldl (fun m p => m.put (h p).URL p) m) → q ∈ vals m ∨ q ∈ l := by
    intro l
    induction l with
    | nil => intro m q hq; exact Or.inl hq
    | cons a l ih =>
      intro m q hq
      rw [List.foldl_cons] at hq
      rcases ih _ q hq with h1 | h1
      · rcases put_vals m _ a q h1 with h2 | h2
        · exact Or.inl h2
        · exact Or.inr (by rw [h2]; exact List.mem_cons_self _ _)
      · exact Or.inr (List.mem_cons_of_mem _ h1)
  intro q hq
  rcases fold l [] q hq with h1 | h1
  · simp [vals] at h1
  · exact h1

theorem mulLoop_total {recur : Ptr → Except Fault Int} :
    ∀ (l : List Ptr) (acc : Int), (∀ d ∈ l, ∃ v, recur d = .ok v) →
      ∃ v, mulLoop recur l acc = .ok v := by
  intro l
  induction l with
  | nil => intro acc _; exact ⟨acc, rfl⟩
  | cons d ds ih =>
    intro acc hr
    obtain ⟨v, hv⟩ := hr d (List.mem_cons_self _ _)
    unfold mulLoop
    rw [hv]
    exact ih _ (fun d' hd' => hr d' (List.mem_cons_of_mem _ hd'))

theorem addLoop_total {recur : Ptr → Except Fault Int} :
    ∀ (l : List Ptr) (acc : Int), (∀ d ∈ l, ∃ v, recur d = .ok v) →
      ∃ v, addLoop recur l acc = .ok v := by
  intro l
  induction l with
  | nil => intro acc _; exact ⟨acc, rfl⟩
  | cons d ds ih =>
    intro acc hr
    obtain ⟨v, hv⟩ := hr d (List.mem_cons_self _ _)
    unfold addLoop
    rw [hv]
    exact ih _ (fun d' hd' => hr d' (List.mem_cons_of_mem _ hd'))

/-- The recursion of `WeightMultiplier` returns once the fuel exceeds the rank. -/
theorem weightMultiplier_total (h : Heap) (S : List Ptr) (rank : Ptr → Nat)
    (hacyc : ∀ p ∈ S, ∀ d ∈ (h p).Blocks, d ∈ S ∧ rank d < rank p) :
    ∀ (n : Nat) (p : Ptr), p ∈ S → rank p < n → ∃ v, WeightMultiplier h n (h p) = .ok v := by
  intro n
  induction n with
  | zero => intro p _ hp; omega
  | succ n ih =>
    intro p hpS hp
    unfold WeightMultiplier
    apply mulLoop_total
    intro d hd
    have := hacyc p hpS d (unique_subset h _ d hd)
    exact ih d this.1 (by omega)

/-- The recursion of `Weight` returns once the fuel exceeds the rank by one. -/
theorem weight_total (h : Heap) (S : List Ptr) (rank : Ptr → Nat)
    (hacyc : ∀ p ∈ S, ∀ d ∈ (h p).Blocks, d ∈ S ∧ rank d < rank p) :
    ∀ (n : Nat) (p : Ptr), p ∈ S → rank p + 1 < n → ∃ v, Weight h n (h p) = .ok v := by
  intro n
  induction n with
  | zero => intro p _ hp; omega
  | succ n ih =>
    intro p hpS hp
    unfold Weight
    obtain ⟨w, hw⟩ := @addLoop_total (fun d => Weight h n (h d))
      (Unique h (h p).Blocks) (h p).BaseWeight (fun d hd => by
        have := hacyc p hpS d (unique_subset h _ d hd)
        exact ih d this.1 (by omega))
    obtain ⟨m, hm⟩ := weightMultiplier_total h S rank hacyc n p hpS (by omega)
    rw [hw, hm]
    exact ⟨_, rfl⟩

theorem addLoop_error {recur : Ptr → Except Fault Int}
    (hr : ∀ d e, recur d = .error e → e = .fuel) (d0 : Ptr) (h0 : recur d0 = .error .fuel) :
    ∀ (l : List Ptr) (acc : Int), d0 ∈ l → addLoop recur l acc = .error .fuel := by
  intro l
  induction l with
  | nil => intro acc hd; cases hd
  | cons d ds ih =>
    intro acc hd
    unfold addLoop
    cases hrd : recur d with
    | error e => rw [hr d e hrd]
    | ok v =>
      simp only
      apply ih
      rcases List.mem_cons.mp hd with rfl | hmem
      · rw [h0] at hrd; cases hrd
      · exact hmem

theorem mulLoop_error {recur : Ptr → Except Fault Int}
    (hr : ∀ d e, recur d = .error e → e = .fuel) (d0 : Ptr) (h0 : recur d0 = .error .fuel) :
    ∀ (l : List Ptr) (acc : Int), d0 ∈ l → mulLoop recur l acc = .error .fuel := by
  intro l
  induction l with
  | nil => intro acc hd; cases hd
  | cons d ds ih =>
    intro acc hd
    unfold mulLoop
    cases hrd : recur d with
    | error e => rw [hr d e hrd]
    | ok v =>
      simp only
      apply ih
      rcases List.mem_cons.mp hd with rfl | hmem
      · rw [h0] at hrd; cases hrd
      · exact hmem

/-- An issue on a cycle has a successor on the cycle. -/
theorem cycle_successor (next : Ptr → List Ptr) (p : Ptr)
    (hc : Relation.TransGen (fun a b => b ∈ next a) p p) :
    ∃ d ∈ next p, Relation.TransGen (fun a b => b ∈ next a) d d := by
  obtain ⟨d, hd, hdp⟩ := Relation.TransGen.head'_iff.mp hc
  exact ⟨d, hd, Relation.TransGen.tail' hdp hd⟩

/-- On a cycle of `Blocks` the recursions of `Weight` and `WeightMultiplier`
exhaust every fuel. -/
theorem weight_cycle (h : Heap)
    (hinj : ∀ q, ∀ a ∈ (h q).Blocks, ∀ b ∈ (h q).Blocks, (h a).URL = (h b).URL → a = b) :
    ∀ (n : Nat) (p : Ptr), Relation.TransGen (fun a b => b ∈ (h a).Blocks) p p →
      Weight h n (h p) = .error .fuel ∧ WeightMultiplier h n (h p) = .error .fuel := by
  intro n
  induction n with
  | zero => intro p _; exact ⟨rfl, rfl⟩
  | succ n ih =>
    intro p hc
    obtain ⟨d, hd, hdc⟩ := cycle_successor (fun a => (h a).Blocks) p hc
    have hdu : d ∈ Unique h (h p).Blocks := ((unique_spec h _ (hinj p)).2 d).mpr hd
    constructor
    · unfold Weight
      rw [addLoop_error (fun d e he => weight_fault h n _ e he) d (ih d hdc).1 _ _ hdu]
    · unfold WeightMultiplier
      exact mulLoop_error (fun d e he => weightMultiplier_fault h n _ e he) d (ih d hdc).2 _ _ hdu

/-- C28: termination.  On a finite set `S` of issues closed under `Blocks` and
without a cycle of `Blocks`, the recursions of `Weight`, `WeightMultiplier`
and `BlocksAnEpic` return for every issue of `S`, with any fuel above the size
of `S` plus one; `DependsOnAnEpic` returns likewise when `DependsOn` has no
cycle.  For an issue on a cycle of `Blocks` (issues being identified by URL)
the recursions of `Weight` and `WeightMultiplier` exceed every depth. -/
theorem recursions_terminate_iff_acyclic (env : Env) (h : Heap) :
    (∀ S : List Ptr, (∀ p ∈ S, ∀ d ∈ (h p).Blocks, d ∈ S) →
        (∀ p ∈ S, ¬ Relation.TransGen (fun a b => b ∈ (h a).Blocks) p p) →
        ∀ p ∈ S, ∀ fuel, S.length + 2 ≤ fuel →
          (∃ w, Weight h fuel (h p) = .ok w) ∧ (∃ m, WeightMultiplier h fuel (h p) = .ok m) ∧
            ∃ b, BlocksAnEpic env h fuel (h p) = .ok b) ∧
      (∀ S : List Ptr, (∀ p ∈ S, ∀ d ∈ (h p).DependsOn, d ∈ S) →
        (∀ p ∈ S, ¬ Relation.TransGen (fun a b => b ∈ (h a).DependsOn) p p) →
        ∀ p ∈ S, ∀ fuel, S.length + 2 ≤ fuel → ∃ b, DependsOnAnEpic env h fuel (h p) = .ok b) ∧
      ((∀ q, ∀ a ∈ (h q).Blocks, ∀ b ∈ (h q).Blocks, (h a).URL = (h b).URL → a = b) →
        ∀ p, Relation.TransGen (fun a b => b ∈ (h a).Blocks) p p →
          ∀ fuel, Weight h fuel (h p) = .error .fuel ∧
            WeightMultiplier h fuel (h p) = .error .fuel) := by
  refine ⟨?_, ?_, ?_⟩
  · intro S hclosed hacyc p hp fuel hfuel
    obtain ⟨rank, hr, hb⟩ := rank_of_acyclic (fun a => (h a).Blocks) S hclosed hacyc
    have hrp := hb p
    exact ⟨weight_total h S rank hr fuel p hp (by omega),
      weightMultiplier_total h S rank hr fuel p hp (by omega),
      anEpic_total env h Issue.Blocks (BlocksAnEpic env h) (fun _ _ => rfl) S rank hr fuel p hp
        (by omega)⟩
  · intro S hclosed hacyc p hp fuel hfuel
    obtain ⟨rank, hr, hb⟩ := rank_of_acyclic (fun a => (h a).DependsOn) S hclosed hacyc
    have hrp := hb p
    exact anEpic_total env h Issue.DependsOn (DependsOnAnEpic env h) (fun _ _ => rfl) S rank hr
      fuel p hp (by omega)
  · intro hinj p hc fuel
    exact weight_cycle h hinj fuel p hc

theorem cycleHeap_inj : ∀ q, ∀ a ∈ (cycleHeap q).Blocks, ∀ b ∈ (cycleHeap q).Blocks,
    (cycleHeap a).URL = (cycleHeap b).URL → a = b := by
  intro q a ha b hb _
  rcases q with _ | _ | q
  · have e : (cycleHeap 0).Blocks = [1] := rfl
    rw [e] at ha hb
    simp only [List.mem_singleton] at ha hb
    rw [ha, hb]
  · have e : (cycleHeap 1).Blocks = [0] := rfl
    rw [e] at ha hb
    simp only [List.mem_singleton] at ha hb
    rw [ha, hb]
  · have e : (cycleHeap (q + 2)).Blocks = [] := rfl
    rw [e] at ha
    cases ha

/-- Witness for C28: in the diamond of four issues the recursions return with
fuel 6; for the two issues that block each other `Weight` exceeds every
depth. -/
theorem recursions_terminate_iff_acyclic_witness :
    ((∃ w, Weight diamondHeap 6 (diamondHeap 0) = .ok w) ∧
        (∃ m, WeightMultiplier diamondHeap 6 (diamondHeap 0) = .ok m) ∧
        ∃ b, BlocksAnEpic goEnv diamondHeap 6 (diamondHeap 0) = .ok b) ∧
      Relation.TransGen (fun a b => b ∈ (cycleHeap a).Blocks) 0 0 ∧
      ∀ fuel, Weight cycleHeap fuel (cycleHeap 0) = .error .fuel ∧
        WeightMultiplier cycleHeap fuel (cycleHeap 0) = .error .fuel := by
  have hcyc : Relation.TransGen (fun a b => b ∈ (cycleHeap a).Blocks) 0 0 :=
    Relation.TransGen.head (b := 1) (by decide) (Relation.TransGen.single (by decide))
  exact ⟨(recursions_terminate_iff_acyclic goEnv diamondHeap).1 [0, 1, 2, 3] (by decide)
      (acyclic_of_rank (fun a => (diamondHeap a).Blocks) [0, 1, 2, 3]
        (fun p => if p = 0 then 2 else if p = 3 then 0 else 1) (by decide))
      0 (by decide) 6 (by decide),
    hcyc,
    (recursions_terminate_iff_acyclic goEnv cycleHeap).2.2 cycleHeap_inj 0 hcyc⟩

/-! ## C29: the phrase "duplicate of" -/

/-- C29, on the code: the body of `https://github.com/o/r/issues/1` is
"Duplicate of #2".  The alternative `duplicate` of the pattern comes before
`duplicate of` and matches, so the captured token is `of`, which
`GetRelativeIssueURL` resolves to `https://github.comof/issues/`; that is what
`prepare` records in `Duplicates`, not the URL of issue 2.  The phrase
"dup of #2", whose alternative comes before `dup`, does record
`https://github.com/o/r/issues/2`. -/
theorem duplicate_of_captures_of :
    FindStringSubmatch isDuplicateRegex (duplicateOfState.heap 0).Body
        = some ["Duplicate of".toList, "Duplicate".toList, "of".toList] ∧
      GetRelativeIssueURL goEnv (duplicateOfState.heap 0) "of".toList
        = .ok "https://github.comof/issues/".toList ∧
      (∃ st', prepare goEnv 1 duplicateOfState = .ok st' ∧
        (st'.heap 0).Duplicates = ["https://github.comof/issues/".toList] ∧
        (st'.heap 0).Duplicates ≠ ["https://github.com/o/r/issues/2".toList]) ∧
      ∃ st', prepare goEnv 1 dupOfState = .ok st' ∧
        (st'.heap 0).Duplicates = ["https://github.com/o/r/issues/2".toList] := by
  obtain ⟨st', hrun⟩ := except_ok_of (x := prepare goEnv 1 duplicateOfState) (by decide)
  obtain ⟨st2, hrun2⟩ := except_ok_of (x := prepare goEnv 1 dupOfState) (by decide)
  have h : (prepare goEnv 1 duplicateOfState).toOption.map (fun s => (s.heap 0).Duplicates)
      = some ["https://github.comof/issues/".toList] := by decide
  have h2 : (prepare goEnv 1 dupOfState).toOption.map (fun s => (s.heap 0).Duplicates)
      = some ["https://github.com/o/r/issues/2".toList] := by decide
  rw [hrun] at h
  rw [hrun2] at h2
  simp only [Except.toOption, Option.map_some', Option.some.injEq] at h h2
  refine ⟨by decide, by decide, ⟨st', hrun, h, ?_⟩, st2, hrun2, h2⟩
  rw [h]
  decide

/-! ## C23: node encoding -/

/-- The path of an issue whose URL is `scheme://host/owner/repo/issues/N`. -/
theorem Path_issueURL (i : Issue) (scheme host owner repo N : Str)
    (hurl : i.URL = issueURL scheme host owner repo N)
    (hs : isScheme scheme = true) (hh : isHost host = true)
    (ho : owner.all segmentRune = true) (hr : repo.all segmentRune = true)
    (hN : N.all segmentRune = true) :
    Path goEnv i = .ok ("/".toList ++ owner ++ "/".toList ++ repo) := by
  have seg : ∀ s : Str, s.all segmentRune = true → s.all plainRune = true := by
    intro s hs
    rw [List.all_eq_true] at hs ⊢
    intro c hc
    have := hs c hc
    simp only [segmentRune, Bool.and_eq_true] at this
    exact this.1
  have hpath : (owner ++ "/".toList ++ repo ++ "/issues/".toList ++ N).all plainRune = true := by
    simp only [List.all_append, seg owner ho, seg repo hr, seg N hN, Bool.and_true,
      Bool.true_and, Bool.and_eq_true]
    exact ⟨by decide, by decide⟩
  have hparse : goEnv.parse i.URL
      = some ⟨scheme, host, '/' :: (owner ++ "/".toList ++ repo ++ "/issues/".toList ++ N), []⟩ := by
    rw [hurl]
    have := urlParse_absolute scheme host _ hs hh hpath
    show urlParse _ = _
    rw [← this]
    congr 1
    simp [issueURL]
  unfold Path
  rw [hparse]
  simp only [split_issue_path owner repo N ho hr hN]
  simp [join]

/-- C23: node encoding.  When `NodeTitle` returns (it does for every issue whose
URL is `scheme://host/owner/repo/issues/N`), `AddNodeToGraph` makes one call of
`AddNode`, whose shape is `oval` if the issue is an epic and `record`
otherwise, and whose colour and style follow the first condition that holds,
in the order closed (`"#cccccc33"`), ready (`pink`), epic (`orange`, style
`"rounded,filled,bold"`), orphan or not linked with an epic (`gray`), none
(`lightblue`); the style is `"rounded,filled"` in every case but the epic one.
So a closed issue is pale grey whatever else it is.  When `NodeTitle` panics,
so does `AddNodeToGraph`. -/
theorem node_encoding (r : Render) (env : Env) (i : Issue) (g : Graph) (parent : Str) :
    (∀ title, NodeTitle r env i = .ok title →
      ∃ a, AddNodeToGraph r env i g parent
          = .ok ⟨g.nodes ++ [⟨parent, r.escape i.URL, a⟩], g.edges⟩ ∧
        a.get "label" = some title ∧ a.get "href" = some (r.escape i.URL) ∧
        a.get "shape" = some (if IsEpic env i then "oval".toList else "record".toList) ∧
        a.get "color" = some
          (if IsClosed i then "\"#cccccc33\"".toList
           else if IsReady i then "pink".toList
           else if IsEpic env i then "orange".toList
           else if i.IsOrphan || !i.LinkedWithEpic then "gray".toList
           else "lightblue".toList) ∧
        a.get "style" = some
          (if IsClosed i then "\"rounded,filled\"".toList
           else if IsReady i then "\"rounded,filled\"".toList
           else if IsEpic env i then "\"rounded,filled,bold\"".toList
           else "\"rounded,filled\"".toList) ∧
        (IsClosed i = true → a.get "color" = some "\"#cccccc33\"".toList)) ∧
      (∀ e, NodeTitle r env i = .error e → AddNodeToGraph r env i g parent = .error e) ∧
      (∀ scheme host owner repo N : Str, env = goEnv →
        i.URL = issueURL scheme host owner repo N → isScheme scheme = true →
        isHost host = true → owner.all segmentRune = true → repo.all segmentRune = true →
        N.all segmentRune = true → ∃ title, NodeTitle r env i = .ok title) := by
  refine ⟨?_, ?_, ?_⟩
  · intro title htitle
    unfold AddNodeToGraph
    rw [htitle]
    simp only [Graph.AddNode]
    refine ⟨_, rfl, ?_⟩
    cases h1 : IsEpic env i <;> cases h2 : IsClosed i <;> cases h3 : IsReady i <;>
      cases h4 : (i.IsOrphan || !i.LinkedWithEpic) <;>
      simp [Attrs.set, Attrs.get]
  · intro e he
    unfold AddNodeToGraph
    rw [he]
  · intro scheme host owner repo N henv hurl hs hh ho hr hN
    subst henv
    have hp := Path_issueURL i scheme host owner repo N hurl hs hh ho hr hN
    unfold NodeTitle NodeName
    rw [hp]
    exact ⟨_, rfl⟩

/-- Witness for C23: a closed issue that is also an epic and ready is drawn as
an oval in pale grey with the plain style. -/
theorem node_encoding_witness :
    ∃ a, AddNodeToGraph plainRender goEnv closedEpic emptyGraph "cluster".toList
        = .ok ⟨[⟨"cluster".toList, "https://github.com/o/r/issues/1".toList, a⟩], []⟩ ∧
      a.get "shape" = some "oval".toList ∧ a.get "color" = some "\"#cccccc33\"".toList ∧
      a.get "style" = some "\"rounded,filled\"".toList := by
  obtain ⟨title, ht⟩ := (node_encoding plainRender goEnv closedEpic emptyGraph
    "cluster".toList).2.2 "https".toList "github.com".toList "o".toList "r".toList "1".toList
    rfl (by decide) (by decide) (by decide) (by decide) (by decide) (by decide)
  obtain ⟨a, ha, _, _, hshape, hcolor, hstyle, _⟩ :=
    (node_encoding plainRender goEnv closedEpic emptyGraph "cluster".toList).1 title ht
  have hE : IsEpic goEnv closedEpic = true := by decide
  have hC : IsClosed closedEpic = true := by decide
  rw [hE] at hshape
  rw [hC] at hcolor hstyle
  exact ⟨a, ha, hshape, hcolor, hstyle⟩

/-! ## C24, C25: edges -/

/-- The attributes of an edge, read key by key. -/
theorem edgeAttrs_get (env : Env) (i d : Issue) :
    (edgeAttrs env i d).get "dir" = some "none".toList ∧
      (edgeAttrs env i d).get "color" = some
        (if IsEpic env i then "orange".toList
         else if IsReady d then "pink".toList
         else if IsClosed i || IsClosed d then "grey".toList
         else "lightblue".toList) ∧
      (edgeAttrs env i d).get "style" =
        (if IsEpic env i then some "dashed".toList
         else if IsClosed i || IsClosed d then some "dotted".toList
         else none) := by
  unfold edgeAttrs
  cases h1 : IsEpic env i <;> cases h2 : (IsClosed i || IsClosed d) <;> cases h3 : IsReady d <;>
    simp [Attrs.set, Attrs.get]

/-- The calls of `AddEdge` that the loop of `AddEdgesToGraph` makes. -/
theorem addEdges_fold (r : Render) (env : Env) (h : Heap) (i : Issue) :
    ∀ (l : List Ptr) (g : Graph),
      l.foldl (fun g d =>
        if (h d).Hidden then g
        else g.AddEdge (r.escape i.URL) (r.escape (h d).URL) true (edgeAttrs env i (h d))) g
        = ⟨g.nodes, g.edges ++ (l.filter (fun d => !(h d).Hidden)).map
            (fun d => ⟨r.escape i.URL, r.escape (h d).URL, true, edgeAttrs env i (h d)⟩)⟩ := by
  intro l
  induction l with
  | nil => intro g; simp
  | cons d l ih =>
    intro g
    rw [List.foldl_cons, ih]
    cases hd : (h d).Hidden
    · simp [Graph.AddEdge, hd]
    · simp [hd]

/-- The graph after `AddEdgesToGraph`: no call for a hidden issue, otherwise one
call of `AddEdge` for each entry of `DependsOn` that is not hidden. -/
theorem AddEdgesToGraph_eq (r : Render) (env : Env) (h : Heap) (i : Issue) (g : Graph) :
    AddEdgesToGraph r env h i g
      = ⟨g.nodes, g.edges ++
          (if i.Hidden then []
           else (i.DependsOn.filter (fun d => !(h d).Hidden)).map
            (fun d => ⟨r.escape i.URL, r.escape (h d).URL, true, edgeAttrs env i (h d)⟩))⟩ := by
  unfold AddEdgesToGraph
  cases hi : i.Hidden
  · simp only [Bool.false_eq_true, if_false]
    exact addEdges_fold r env h i _ g
  · simp

/-- C24: edge encoding.  Every edge that `AddEdgesToGraph` adds for an issue `i`
goes to an entry `d` of `i.DependsOn`, is directed, has `dir` `none`, and has
the colour and style that result from the base colour `lightblue` by the three
rules in their order: `grey` and `dotted` if `i` or `d` is closed, then `pink`
if `d` is ready, then `orange` and `dashed` if `i` is an epic.  So with a
closed endpoint, a ready dependency and a source that is no epic the edge is
`pink` and `dotted`. -/
theorem edge_encoding (r : Render) (env : Env) (h : Heap) (i : Issue) (g : Graph) :
    ∀ e ∈ (AddEdgesToGraph r env h i g).edges, e ∈ g.edges ∨
      ∃ d ∈ i.DependsOn, e = ⟨r.escape i.URL, r.escape (h d).URL, true, edgeAttrs env i (h d)⟩ ∧
        e.attrs.get "dir" = some "none".toList ∧
        e.attrs.get "color" = some
          (if IsEpic env i then "orange".toList
           else if IsReady (h d) then "pink".toList
           else if IsClosed i || IsClosed (h d) then "grey".toList
           else "lightblue".toList) ∧
        e.attrs.get "style" =
          (if IsEpic env i then some "dashed".toList
           else if IsClosed i || IsClosed (h d) then some "dotted".toList
           else none) ∧
        ((IsClosed i || IsClosed (h d)) = true → IsReady (h d) = true → IsEpic env i = false →
          e.attrs.get "color" = some "pink".toList ∧
            e.attrs.get "style" = some "dotted".toList) := by
  intro e he
  rw [AddEdgesToGraph_eq] at he
  simp only [List.mem_append] at he
  rcases he with he | he
  · exact Or.inl he
  · right
    split_ifs at he with hi
    · cases he
    · obtain ⟨d, hd, rfl⟩ := List.mem_map.mp he
      have hg := edgeAttrs_get env i (h d)
      refine ⟨d, (List.mem_filter.mp hd).1, rfl, hg.1, hg.2.1, hg.2.2, ?_⟩
      intro hc hr hep
      simp only at hg ⊢
      rw [hg.2.1, hg.2.2, hep, hr, hc]
      simp

/-- Witness for C24: the closed issue that depends on a ready issue gets a pink,
dotted edge. -/
theorem edge_encoding_witness :
    ∃ e, e ∈ (AddEdgesToGraph plainRender goEnv edgeHeap (edgeHeap 0) emptyGraph).edges ∧
      e.src = "https://github.com/o/r/issues/1".toList ∧
      e.dst = "https://github.com/o/r/issues/2".toList ∧
      e.attrs.get "color" = some "pink".toList ∧ e.attrs.get "style" = some "dotted".toList ∧
      e.attrs.get "dir" = some "none".toList := by
  have he : (⟨"https://github.com/o/r/issues/1".toList, "https://github.com/o/r/issues/2".toList,
      true, edgeAttrs goEnv (edgeHeap 0) (edgeHeap 1)⟩ : Edge)
      ∈ (AddEdgesToGraph plainRender goEnv edgeHeap (edgeHeap 0) emptyGraph).edges := by decide
  refine ⟨_, he, rfl, rfl, ?_⟩
  rcases edge_encoding plainRender goEnv edgeHeap (edgeHeap 0) emptyGraph _ he with
    h0 | ⟨d, hd, heq, hdir, _, _, hex⟩
  · cases h0
  · have hd' : d = 1 ∨ d = 2 := by
      have : (edgeHeap 0).DependsOn = [1, 2] := rfl
      rw [this] at hd
      simpa using hd
    rcases hd' with rfl | rfl
    · have := hex (by decide) (by decide) (by decide)
      exact ⟨this.1, this.2, hdir⟩
    · exact absurd heq (by decide)

/-- After `prepare` on a collection keyed by URL, an issue that is still in the
collection and whose body matches the duplicate pattern is hidden. -/
theorem prepare_hides_duplicate {env : Env} {fuel : Nat} {st st' : State} {q : Ptr}
    (hwf : WF st) (hq : q ∈ vals st'.issues) (hrun : prepare env fuel st = .ok st')
    (hdup : FindStringSubmatch isDuplicateRegex (st'.heap q).Body ≠ none) :
    (st'.heap q).Hidden = true := by
  have hsame := prepare_same hrun q
  obtain ⟨s1, g1, hpass, hhide, hepic, hiss⟩ := prepare_cases hrun
  have hq1 : q ∈ vals s1.issues := by rw [← hiss]; exact hq
  have hq0 : q ∈ vals st.issues := (vals_sublist (prepare_shrinks hrun)).subset hq
  obtain ⟨c, hc⟩ := processEpicLinks_apply _ _ _ hepic q
  have hH : (st'.heap q).Hidden = (g1 q).Hidden := by rw [hc]
  obtain ⟨k1, _⟩ := hidingPass_sets _ _ _ hhide q hq1
  rw [hH]
  apply k1
  have own := (directivePass_own (wf_reset hwf) hq0 hpass).2.2
  have hb : (resetPass st.heap st.issues q).Body = (st'.heap q).Body :=
    ((resetPass_same st.issues st.heap q).symm.chain hsame).2.1
  simp only [hb] at own
  cases hfind : FindStringSubmatch isDuplicateRegex (st'.heap q).Body with
  | none => exact absurd hfind hdup
  | some m =>
    rw [hfind] at own
    obtain ⟨u, _, hu⟩ := own
    rw [hu]
    simp

/-- C25: edges exist only between visible issues.  `AddEdgesToGraph` leaves the
graph as it is when the issue is hidden; otherwise it adds, in order, exactly
one edge for each entry `d` of `DependsOn` that is not hidden, from the URL of
the issue to the URL of `d`, and none for a hidden entry.  So no edge it adds
has a hidden endpoint; and after `prepare` an issue of the collection whose
body matches the duplicate pattern adds no edge and is the target of none. -/
theorem edges_between_visible (r : Render) (env : Env) (h : Heap) (i : Issue) (g : Graph) :
    (i.Hidden = true → AddEdgesToGraph r env h i g = g) ∧
      (i.Hidden = false →
        AddEdgesToGraph r env h i g = ⟨g.nodes, g.edges ++
          (i.DependsOn.filter (fun d => !(h d).Hidden)).map
            (fun d => ⟨r.escape i.URL, r.escape (h d).URL, true, edgeAttrs env i (h d)⟩)⟩) ∧
      (∀ e ∈ (AddEdgesToGraph r env h i g).edges, e ∈ g.edges ∨
        (i.Hidden = false ∧ ∃ d ∈ i.DependsOn, (h d).Hidden = false ∧
          e.src = r.escape i.URL ∧ e.dst = r.escape (h d).URL)) ∧
      (∀ (fuel : Nat) (st st' : State) (q : Ptr), WF st → prepare env fuel st = .ok st' →
        q ∈ vals st'.issues →
        FindStringSubmatch isDuplicateRegex (st'.heap q).Body ≠ none →
        AddEdgesToGraph r env st'.heap (st'.heap q) g = g ∧
          ∀ p, q ∉ (st'.heap p).DependsOn.filter (fun d => !(st'.heap d).Hidden)) := by
  refine ⟨?_, ?_, ?_, ?_⟩
  · intro hi
    rw [AddEdgesToGraph_eq, hi]
    simp
  · intro hi
    rw [AddEdgesToGraph_eq, hi]
    simp
  · intro e he
    rw [AddEdgesToGraph_eq] at he
    simp only [List.mem_append] at he
    rcases he with he | he
    · exact Or.inl he
    · right
      cases hi : i.Hidden
      · rw [hi] at he
        simp only [Bool.false_eq_true, if_false] at he
        obtain ⟨d, hd, rfl⟩ := List.mem_map.mp he
        obtain ⟨hd1, hd2⟩ := List.mem_filter.mp hd
        exact ⟨rfl, d, hd1, by simpa using hd2, rfl, rfl⟩
      · rw [hi] at he
        simp at he
  · intro fuel st st' q hwf hrun hq hdup
    have hh := prepare_hides_duplicate hwf hq hrun hdup
    constructor
    · rw [AddEdgesToGraph_eq, hh]
      simp
    · intro p hp
      have := (List.mem_filter.mp hp).2
      rw [hh] at this
      simp at this

/-- Witness for C25: the issue that depends on a visible and on a hidden issue
gets the one edge to the visible one, and hidden itself it gets none. -/
theorem edges_between_visible_witness :
    (AddEdgesToGraph plainRender goEnv edgeHeap (edgeHeap 0) emptyGraph).edges
        = [⟨"https://github.com/o/r/issues/1".toList, "https://github.com/o/r/issues/2".toList,
            true, edgeAttrs goEnv (edgeHeap 0) (edgeHeap 1)⟩] ∧
      AddEdgesToGraph plainRender goEnv edgeHeap { edgeHeap 0 with Hidden := true } emptyGraph
        = emptyGraph := by
  constructor
  · rw [(edges_between_visible plainRender goEnv edgeHeap (edgeHeap 0) emptyGraph).2.1
      (by decide)]
    decide
  · exact (edges_between_visible plainRender goEnv edgeHeap { edgeHeap 0 with Hidden := true }
      emptyGraph).1 rfl

/-! ## C26: rendering the two-issue collection -/

/-- The third loop of `prepare` leaves `Hidden` as it is on an issue without
recorded duplicates that is no pull request. -/
theorem hidingPass_keeps (q : Ptr) :
    ∀ (m : Issues) (h h' : Heap), hidingPass m h = .ok h' →
      (h q).Duplicates = [] → IsPR (h q) = .ok false → (h' q).Hidden = (h q).Hidden := by
  intro m
  induction m with
  | nil =>
    intro h h' hh _ _
    simp only [hidingPass, Except.ok.injEq] at hh
    rw [hh]
  | cons e rest ih =>
    intro h h' hh hd hpr
    obtain ⟨k, p⟩ := e
    simp only [hidingPass] at hh
    by_cases hqp : q = p
    · subst hqp
      have hlen : ¬ (h q).Duplicates.length > 0 := by rw [hd]; simp
      rw [if_neg hlen, hpr] at hh
      exact ih h h' hh hd hpr
    · have h1q : ∀ x : Heap, (x.modify p (fun i => { i with Hidden := true })) q = x q := by
        intro x
        rw [heap_modify_apply, if_neg hqp]
      have hmid : (if (h p).Duplicates.length > 0 then
          h.modify p (fun i => { i with Hidden := true }) else h) q = h q := by
        split_ifs
        · exact h1q h
        · rfl
      cases hpr1 : IsPR ((if (h p).Duplicates.length > 0 then
          h.modify p (fun i => { i with Hidden := true }) else h) p) with
      | error err => rw [hpr1] at hh; simp at hh
      | ok b =>
        rw [hpr1] at hh
        cases b with
        | true =>
          simp only at hh
          have := ih _ h' hh (by rw [h1q, hmid]; exact hd) (by rw [h1q, hmid]; exact hpr)
          rw [this, h1q, hmid]
        | false =>
          simp only at hh
          have := ih _ h' hh (by rw [hmid]; exact hd) (by rw [hmid]; exact hpr)
          rw [this, hmid]

/-- The state after `prepare` on the collection of A, whose body is
"Blocks #2", and B, whose body is empty, when `#2` resolves from A to B. -/
theorem scenario_prepare {env : Env} {fuel : Nat} {h : Heap} {a b : Ptr} {issues : Issues}
    {st' : State} (hurl : (h a).URL ≠ (h b).URL) (hbodyA : (h a).Body = "Blocks #2".toList)
    (hbodyB : (h b).Body = [])
    (hres : GetRelativeIssueURL env (h a) "#2".toList = .ok (h b).URL)
    (hiss : issues = [((h a).URL, a), ((h b).URL, b)] ∨
      issues = [((h b).URL, b), ((h a).URL, a)])
    (hrun : prepare env fuel ⟨h, issues⟩ = .ok st') :
    st'.issues = issues ∧
      ((st'.heap a).Blocks = [b] ∧ (st'.heap b).DependsOn = [a] ∧
        (st'.heap a).DependsOn = [] ∧ (st'.heap b).Blocks = [] ∧
        (st'.heap a).IsOrphan = false ∧ (st'.heap b).IsOrphan = false) ∧
      ∀ q, (q = a ∨ q = b) → (h q).Duplicates = [] → IsPR (h q) = .ok false →
        (st'.heap q).Hidden = (h q).Hidden := by
  obtain ⟨s1, g1, hpass, hhide, hepic, hiss'⟩ := prepare_cases hrun
  obtain ⟨_, _, _, hf⟩ := prepare_fields hrun
  have hs := resetPass_same issues h
  have hab : a ≠ b := fun e => hurl (by rw [e])
  have hba : b ≠ a := fun e => hab e.symm
  have hp := scenario_pass env ⟨resetPass h issues, issues⟩ a b
    (by show (resetPass h issues a).URL ≠ (resetPass h issues b).URL
        rw [← (hs a).1, ← (hs b).1]; exact hurl)
    (by show (resetPass h issues a).Body = _
        rw [← (hs a).2.1]; exact hbodyA)
    (by show (resetPass h issues b).Body = _
        rw [← (hs b).2.1]; exact hbodyB)
    (by show GetRelativeIssueURL env (resetPass h issues a) _ = .ok (resetPass h issues b).URL
        rw [← GetRelativeIssueURL_congr env (hs a), ← (hs b).1]; exact hres)
    (by show issues = [((resetPass h issues a).URL, a), ((resetPass h issues b).URL, b)] ∨
          issues = [((resetPass h issues b).URL, b), ((resetPass h issues a).URL, a)]
        rw [← (hs a).1, ← (hs b).1]; exact hiss)
  have hpass' : directivePass env issues ⟨resetPass h issues, issues⟩ = .ok s1 := hpass
  rw [hp] at hpass'
  simp only [Except.ok.injEq] at hpass'
  have ha : a ∈ vals issues := by rcases hiss with e | e <;> rw [e] <;> simp [vals]
  have hb : b ∈ vals issues := by rcases hiss with e | e <;> rw [e] <;> simp [vals]
  have ra := reset_relations ⟨h, issues⟩ ha
  have rb := reset_relations ⟨h, issues⟩ hb
  simp only at ra rb
  refine ⟨?_, ?_, ?_⟩
  · rw [hiss', ← hpass']
  · obtain ⟨x, y, ea⟩ := hf a
    obtain ⟨x', y', eb⟩ := hf b
    have e1 : (st'.heap a).Blocks = (s1.heap a).Blocks := by
      obtain ⟨c, hc⟩ := processEpicLinks_apply _ _ _ hepic a
      obtain ⟨d, hd, _⟩ := hidingPass_apply _ _ _ hhide a
      rw [hc, hd]
    have e2 : (st'.heap b).DependsOn = (s1.heap b).DependsOn := by
      obtain ⟨c, hc⟩ := processEpicLinks_apply _ _ _ hepic b
      obtain ⟨d, hd, _⟩ := hidingPass_apply _ _ _ hhide b
      rw [hc, hd]
    have e3 : (st'.heap a).DependsOn = (s1.heap a).DependsOn := by
      obtain ⟨c, hc⟩ := processEpicLinks_apply _ _ _ hepic a
      obtain ⟨d, hd, _⟩ := hidingPass_apply _ _ _ hhide a
      rw [hc, hd]
    have e4 : (st'.heap b).Blocks = (s1.heap b).Blocks := by
      obtain ⟨c, hc⟩ := processEpicLinks_apply _ _ _ hepic b
      obtain ⟨d, hd, _⟩ := hidingPass_apply _ _ _ hhide b
      rw [hc, hd]
    have e5 : (st'.heap a).IsOrphan = (s1.heap a).IsOrphan := by
      obtain ⟨c, hc⟩ := processEpicLinks_apply _ _ _ hepic a
      obtain ⟨d, hd, _⟩ := hidingPass_apply _ _ _ hhide a
      rw [hc, hd]
    have e6 : (st'.heap b).IsOrphan = (s1.heap b).IsOrphan := by
      obtain ⟨c, hc⟩ := processEpicLinks_apply _ _ _ hepic b
      obtain ⟨d, hd, _⟩ := hidingPass_apply _ _ _ hhide b
      rw [hc, hd]
    rw [e1, e2, e3, e4, e5, e6, ← hpass']
    simp only [addEdge_Blocks, addEdge_DependsOn, addEdge_IsOrphan, ra.1, ra.2.1, rb.1, rb.2.1,
      hab, hba, if_true, if_false, List.nil_append, or_true, true_or, and_self]
  · intro q _ hd hpr
    obtain ⟨c, hc⟩ := processEpicLinks_apply _ _ _ hepic q
    have hH : (st'.heap q).Hidden = (g1 q).Hidden := by rw [hc]
    have hs1 : s1.heap q = addEdge (resetPass h issues) b a q := by rw [← hpass']
    have hsame : SameInput (h q) (s1.heap q) := by
      rw [hs1]
      exact (hs q).chain (addEdge_same _ _ _ _)
    have hk := hidingPass_keeps q _ _ _ hhide
      (by rw [hs1]
          show (resetPass h issues q).Duplicates = []
          rw [(resetPass_flags h issues q).1]; exact hd)
      (by rw [← IsPR_congr hsame]; exact hpr)
    rw [hH, hk, hs1]
    show (resetPass h issues q).Hidden = _
    exact (resetPass_flags h issues q).2.1

/-- C26, as the code has it: for the collection of A, whose body is "Blocks #2",
and B, whose body is empty (`#2` resolving from A to B, in either order of the
map, neither issue hidden, a recorded duplicate or a pull request), after
`prepare`, calling `AddEdgesToGraph` on every issue makes exactly one edge.  Its
source is B and its target is A, since an edge runs from an issue to the
entries of its `DependsOn`; A is ready and B is not; and its colour is pink
unless B is an epic, in which case it is orange. -/
theorem blocks_edge_rendered (r : Render) (env : Env) (fuel : Nat) (h : Heap) (a b : Ptr)
    (issues : Issues) (st' : State)
    (hurl : (h a).URL ≠ (h b).URL) (hbodyA : (h a).Body = "Blocks #2".toList)
    (hbodyB : (h b).Body = [])
    (hres : GetRelativeIssueURL env (h a) "#2".toList = .ok (h b).URL)
    (hiss : issues = [((h a).URL, a), ((h b).URL, b)] ∨
      issues = [((h b).URL, b), ((h a).URL, a)])
    (hvis : ∀ q, (q = a ∨ q = b) →
      (h q).Hidden = false ∧ (h q).Duplicates = [] ∧ IsPR (h q) = .ok false)
    (hrun : prepare env fuel ⟨h, issues⟩ = .ok st') :
    addAllEdges r env st'.heap st'.issues emptyGraph
        = ⟨[], [⟨r.escape (h b).URL, r.escape (h a).URL, true,
            edgeAttrs env (st'.heap b) (st'.heap a)⟩]⟩ ∧
      IsReady (st'.heap a) = true ∧ IsReady (st'.heap b) = false ∧
      (edgeAttrs env (st'.heap b) (st'.heap a)).get "color"
        = some (if IsEpic env (h b) then "orange".toList else "pink".toList) := by
  obtain ⟨hi, ⟨f1, f2, f3, f4, f5, f6⟩, hH⟩ :=
    scenario_prepare hurl hbodyA hbodyB hres hiss hrun
  have va := hvis a (Or.inl rfl)
  have vb := hvis b (Or.inr rfl)
  have Ha : (st'.heap a).Hidden = false := by
    rw [hH a (Or.inl rfl) va.2.1 va.2.2]; exact va.1
  have Hb : (st'.heap b).Hidden = false := by
    rw [hH b (Or.inr rfl) vb.2.1 vb.2.2]; exact vb.1
  have hsa := prepare_same hrun a
  have hsb := prepare_same hrun b
  have ua : (st'.heap a).URL = (h a).URL := hsa.1.symm
  have ub : (st'.heap b).URL = (h b).URL := hsb.1.symm
  have ra : IsReady (st'.heap a) = true := by
    unfold IsReady; rw [f5, f3]; rfl
  have rb : IsReady (st'.heap b) = false := by
    unfold IsReady; rw [f6, f2]; rfl
  have hep : IsEpic env (st'.heap b) = IsEpic env (h b) := IsEpic_congr env hsb.2.2.1.symm
  refine ⟨?_, ra, rb, ?_⟩
  · rw [hi]
    unfold addAllEdges
    rcases hiss with e | e <;> rw [e] <;>
      simp only [List.foldl_cons, List.foldl_nil, AddEdgesToGraph_eq, Ha, Hb, f2, f3, emptyGraph,
        Bool.false_eq_true, if_false, List.filter_nil, List.map_nil, List.append_nil,
        List.filter_cons, Bool.not_false, if_true, List.map_cons, List.nil_append, ua, ub]
  · rw [(edgeAttrs_get env (st'.heap b) (st'.heap a)).2.1, ra, hep]
    simp

/-- Witness for C26 as amended: the collection of issue 1, "Blocks #2", and issue
2; the one edge goes from issue 2 to issue 1 and is pink. -/
theorem blocks_edge_rendered_witness :
    ∃ st', prepare goEnv 2 blocksState = .ok st' ∧
      (addAllEdges plainRender goEnv st'.heap st'.issues emptyGraph).edges.map
          (fun e => (e.src, e.dst, e.attrs.get "color"))
        = [("https://github.com/o/r/issues/2".toList, "https://github.com/o/r/issues/1".toList,
            some "pink".toList)] ∧
      IsReady (st'.heap 0) = true ∧ IsReady (st'.heap 1) = false := by
  obtain ⟨st', hrun⟩ := except_ok_of (x := prepare goEnv 2 blocksState) (by decide)
  have key := blocks_edge_rendered plainRender goEnv 2 blocksState.heap 0 1 blocksState.issues
    st' (by decide) (by decide) (by decide) (by decide) (Or.inl (by decide))
    (by
      intro q hq
      rcases hq with rfl | rfl <;> decide) hrun
  refine ⟨st', hrun, ?_, key.2.1, key.2.2.1⟩
  rw [key.1]
  simp only [List.map_cons, List.map_nil, key.2.2.2]
  rfl

/-- Counterexample to C26 as stated: for issue 1, "Blocks #2", and issue 2, the
one edge has issue 2 as its source and issue 1 as its target, and it is pink
although issue 2, B, is not ready. -/
theorem edge_direction_counterexample :
    ∃ st', prepare goEnv 2 blocksState = .ok st' ∧
      (addAllEdges plainRender goEnv st'.heap st'.issues emptyGraph).edges.map (fun e => e.src)
        = [(blocksState.heap 1).URL] ∧
      (addAllEdges plainRender goEnv st'.heap st'.issues emptyGraph).edges.map (fun e => e.dst)
        = [(blocksState.heap 0).URL] ∧
      (addAllEdges plainRender goEnv st'.heap st'.issues emptyGraph).edges.map
          (fun e => e.attrs.get "color") = [some "pink".toList] ∧
      (blocksState.heap 1).URL ≠ (blocksState.heap 0).URL ∧
      IsReady (st'.heap 1) = false := by
  obtain ⟨st', hrun⟩ := except_ok_of (x := prepare goEnv 2 blocksState) (by decide)
  have h1 : (prepare goEnv 2 blocksState).toOption.map (fun s =>
      (addAllEdges plainRender goEnv s.heap s.issues emptyGraph).edges.map (fun e => e.src))
      = some [(blocksState.heap 1).URL] := by decide
  have h2 : (prepare goEnv 2 blocksState).toOption.map (fun s =>
      (addAllEdges plainRender goEnv s.heap s.issues emptyGraph).edges.map (fun e => e.dst))
      = some [(blocksState.heap 0).URL] := by decide
  have h3 : (prepare goEnv 2 blocksState).toOption.map (fun s =>
      (addAllEdges plainRender goEnv s.heap s.issues emptyGraph).edges.map
        (fun e => e.attrs.get "color"))
      = some [some "pink".toList] := by decide
  have h4 : (prepare goEnv 2 blocksState).toOption.map (fun s => IsReady (s.heap 1))
      = some false := by decide
  rw [hrun] at h1 h2 h3 h4
  simp only [Except.toOption, Option.map_some', Option.some.injEq] at h1 h2 h3 h4
  exact ⟨st', hrun, h1, h2, h3, by decide, h4⟩

/-! ## C27: the order in which the second loop visits the map -/

theorem applyOps_cons (o : Op) (ops : List Op) (st : State) :
    applyOps (o :: ops) st = applyOps ops (o.apply st) := rfl

theorem applyOps_append (a b : List Op) (st : State) :
    applyOps (a ++ b) st = applyOps b (applyOps a st) := by
  unfold applyOps; rw [List.foldl_append]

theorem Op.apply_same (o : Op) (st : State) (q : Ptr) :
    SameInput (st.heap q) ((o.apply st).heap q) := by
  cases o with
  | dup p u => exact modify_same _ st p q (fun _ => ⟨rfl, rfl, rfl, rfl, rfl, rfl, rfl, rfl, rfl, rfl⟩)
  | wm p v => exact modify_same _ st p q (fun _ => ⟨rfl, rfl, rfl, rfl, rfl, rfl, rfl, rfl, rfl, rfl⟩)
  | bw p v => exact modify_same _ st p q (fun _ => ⟨rfl, rfl, rfl, rfl, rfl, rfl, rfl, rfl, rfl, rfl⟩)
  | hide k => exact SameInput.refl _
  | err p e => exact modify_same _ st p q (fun _ => ⟨rfl, rfl, rfl, rfl, rfl, rfl, rfl, rfl, rfl, rfl⟩)
  | edge a b => exact addEdge_same st.heap a b q

theorem applyOps_same (ops : List Op) : ∀ (st : State) (q : Ptr),
    SameInput (st.heap q) ((applyOps ops st).heap q) := by
  induction ops with
  | nil => intro st q; exact SameInput.refl _
  | cons o os ih =>
    intro st q
    rw [applyOps_cons]
    exact (o.apply_same st q).chain (ih _ q)

theorem hidesOf_append (a b : List Op) : hidesOf (a ++ b) = hidesOf a ++ hidesOf b := by
  unfold hidesOf; rw [List.filterMap_append]

theorem applyOps_issues (ops : List Op) : ∀ (st : State),
    (applyOps ops st).issues = (hidesOf ops).foldl Issues.delete st.issues := by
  induction ops with
  | nil => intro st; rfl
  | cons o os ih =>
    intro st
    rw [applyOps_cons, ih]
    cases o <;> rfl

theorem applyOps_issues_same {ops : List Op} (h : hidesOf ops = []) (st : State) :
    (applyOps ops st).issues = st.issues := by
  rw [applyOps_issues, h]; rfl

theorem planMatches_hides {f : List Str → Except Fault Op}
    (hf : ∀ m o, f m = .ok o → hidesOf [o] = []) :
    ∀ (ms : List (List Str)) (ops : List Op), planMatches f ms = .ok ops → hidesOf ops = [] := by
  intro ms
  induction ms with
  | nil =>
    intro ops h
    simp only [planMatches, Except.ok.injEq] at h
    subst h; rfl
  | cons m ms ih =>
    intro ops h
    simp only [planMatches] at h
    cases hm : f m with
    | error e => rw [hm] at h; simp at h
    | ok o =>
      rw [hm] at h
      simp only at h
      cases hr : planMatches f ms with
      | error e => rw [hr] at h; simp at h
      | ok os =>
        rw [hr] at h
        simp only [Except.ok.injEq] at h
        subst h
        have e : o :: os = [o] ++ os := rfl
        rw [e, hidesOf_append, hf m o hm, ih os hr]
        rfl

theorem planDependsOn_hides {env : Env} {i : Issue} {lk : Issues} {p : Ptr} (m : List Str)
    (o : Op) (h : planDependsOn env i lk p m = .ok o) : hidesOf [o] = [] := by
  unfold planDependsOn at h
  cases hg : GetRelativeIssueURL env i (lastGroup m) with
  | error e => rw [hg] at h; simp at h
  | ok num =>
    rw [hg] at h
    simp only at h
    cases hl : lk.get num with
    | none => rw [hl] at h; simp only [Except.ok.injEq] at h; subst h; rfl
    | some d => rw [hl] at h; simp only [Except.ok.injEq] at h; subst h; rfl

theorem planBlocks_hides {env : Env} {i : Issue} {lk : Issues} {p : Ptr} (m : List Str)
    (o : Op) (h : planBlocks env i lk p m = .ok o) : hidesOf [o] = [] := by
  unfold planBlocks at h
  cases hg : GetRelativeIssueURL env i (lastGroup m) with
  | error e => rw [hg] at h; simp at h
  | ok num =>
    rw [hg] at h
    simp only at h
    cases hl : lk.get num with
    | none => rw [hl] at h; simp only [Except.ok.injEq] at h; subst h; rfl
    | some d => rw [hl] at h; simp only [Except.ok.injEq] at h; subst h; rfl

theorem planDuplicate_hides {env : Env} {i : Issue} {p : Ptr} {o : List Op}
    (h : planDuplicate env i p = .ok o) : hidesOf o = [] := by
  unfold planDuplicate at h
  cases hf : FindStringSubmatch isDuplicateRegex i.Body with
  | none => rw [hf] at h; simp only [Except.ok.injEq] at h; subst h; rfl
  | some m =>
    rw [hf] at h
    simp only at h
    cases hg : GetRelativeIssueURL env i (lastGroup m) with
    | error e => rw [hg] at h; simp at h
    | ok u => rw [hg] at h; simp only [Except.ok.injEq] at h; subst h; rfl

theorem planWeightMultiplier_hides (i : Issue) (p : Ptr) :
    hidesOf (planWeightMultiplier i p) = [] := by
  unfold planWeightMultiplier
  cases FindStringSubmatch weightMultiplierRegex i.Body <;> rfl

theorem planBaseWeight_hides (i : Issue) (p : Ptr) :
    hidesOf (planBaseWeight i p) = [] := by
  unfold planBaseWeight
  cases FindStringSubmatch baseWeightRegex i.Body <;> rfl

theorem applyDuplicate_plan {env : Env} {i : Issue} {p : Ptr} {st : State}
    (hs : SameInput i (st.heap p)) :
    applyDuplicate env p st =
      match planDuplicate env i p with
      | .error e => .error e
      | .ok o => .ok (applyOps o st) := by
  unfold applyDuplicate planDuplicate
  rw [← hs.2.1]
  cases FindStringSubmatch isDuplicateRegex i.Body with
  | none => rfl
  | some m =>
    simp only
    rw [← GetRelativeIssueURL_congr env hs]
    cases GetRelativeIssueURL env i (lastGroup m) with
    | error e => rfl
    | ok u => rfl

theorem applyWeightMultiplier_plan {i : Issue} {p : Ptr} {st : State}
    (hs : SameInput i (st.heap p)) :
    applyWeightMultiplier p st = applyOps (planWeightMultiplier i p) st := by
  unfold applyWeightMultiplier planWeightMultiplier
  rw [← hs.2.1]
  cases FindStringSubmatch weightMultiplierRegex i.Body <;> rfl

theorem applyBaseWeight_plan {i : Issue} {p : Ptr} {st : State}
    (hs : SameInput i (st.heap p)) :
    applyBaseWeight p st = applyOps (planBaseWeight i p) st := by
  unfold applyBaseWeight planBaseWeight
  rw [← hs.2.1]
  cases FindStringSubmatch baseWeightRegex i.Body <;> rfl

theorem forMatches_dep_plan {env : Env} {i : Issue} {lk : Issues} {p : Ptr} :
    ∀ (ms : List (List Str)) (st : State), SameInput i (st.heap p) →
      (∀ m ∈ ms, ∀ num, GetRelativeIssueURL env i (lastGroup m) = .ok num →
        st.issues.get num = lk.get num) →
      forMatches (applyDependsOn env p) ms st =
        match planMatches (planDependsOn env i lk p) ms with
        | .error e => .error e
        | .ok ops => .ok (applyOps ops st) := by
  intro ms
  induction ms with
  | nil => intro st _ _; rfl
  | cons m ms ih =>
    intro st hs hlk
    simp only [forMatches, planMatches]
    rw [applyDependsOn_eq, ← GetRelativeIssueURL_congr env hs]
    cases hg : GetRelativeIssueURL env i (lastGroup m) with
    | error e =>
      have e1 : planDependsOn env i lk p m = .error e := by unfold planDependsOn; rw [hg]
      rw [e1]
    | ok num =>
      simp only
      rw [hlk m (List.mem_cons_self _ _) num hg]
      have hrest : ∀ m1 ∈ ms, ∀ num, GetRelativeIssueURL env i (lastGroup m1) = .ok num →
          st.issues.get num = lk.get num :=
        fun m1 h1 => hlk m1 (List.mem_cons_of_mem _ h1)
      cases hl : lk.get num with
      | none =>
        have e1 : planDependsOn env i lk p m = .ok (.err p (.parentNotFound num)) := by
          unfold planDependsOn; rw [hg]; simp only [hl]
        rw [e1]
        simp only
        refine (ih (Op.apply (.err p (.parentNotFound num)) st)
          (hs.chain (Op.apply_same _ st p)) hrest).trans ?_
        cases planMatches (planDependsOn env i lk p) ms <;> rfl
      | some d =>
        have e1 : planDependsOn env i lk p m = .ok (.edge p d) := by
          unfold planDependsOn; rw [hg]; simp only [hl]
        rw [e1]
        simp only
        refine (ih (Op.apply (.edge p d) st) (hs.chain (Op.apply_same _ st p)) hrest).trans ?_
        cases planMatches (planDependsOn env i lk p) ms <;> rfl

theorem forMatches_blk_plan {env : Env} {i : Issue} {lk : Issues} {p : Ptr} :
    ∀ (ms : List (List Str)) (st : State), SameInput i (st.heap p) →
      (∀ m ∈ ms, ∀ num, GetRelativeIssueURL env i (lastGroup m) = .ok num →
        st.issues.get num = lk.get num) →
      forMatches (applyBlocks env p) ms st =
        match planMatches (planBlocks env i lk p) ms with
        | .error e => .error e
        | .ok ops => .ok (applyOps ops st) := by
  intro ms
  induction ms with
  | nil => intro st _ _; rfl
  | cons m ms ih =>
    intro st hs hlk
    simp only [forMatches, planMatches]
    rw [applyBlocks_eq, ← GetRelativeIssueURL_congr env hs]
    cases hg : GetRelativeIssueURL env i (lastGroup m) with
    | error e =>
      have e1 : planBlocks env i lk p m = .error e := by unfold planBlocks; rw [hg]
      rw [e1]
    | ok num =>
      simp only
      rw [hlk m (List.mem_cons_self _ _) num hg]
      have hrest : ∀ m1 ∈ ms, ∀ num, GetRelativeIssueURL env i (lastGroup m1) = .ok num →
          st.issues.get num = lk.get num :=
        fun m1 h1 => hlk m1 (List.mem_cons_of_mem _ h1)
      cases hl : lk.get num with
      | none =>
        have e1 : planBlocks env i lk p m = .ok (.err p (.childNotFound num)) := by
          unfold planBlocks; rw [hg]; simp only [hl]
        rw [e1]
        simp only
        refine (ih (Op.apply (.err p (.childNotFound num)) st)
          (hs.chain (Op.apply_same _ st p)) hrest).trans ?_
        cases planMatches (planBlocks env i lk p) ms <;> rfl
      | some d =>
        have e1 : planBlocks env i lk p m = .ok (.edge d p) := by
          unfold planBlocks; rw [hg]; simp only [hl]
        rw [e1]
        simp only
        refine (ih (Op.apply (.edge d p) st) (hs.chain (Op.apply_same _ st p)) hrest).trans ?_
        cases planMatches (planBlocks env i lk p) ms <;> rfl

/-- A visit of the second loop makes the updates of its plan, when the
lookups of the visit give what the map of the plan gives. -/
theorem directives_plan {env : Env} {i : Issue} {lk : Issues} {p : Ptr} {st : State}
    (hs : SameInput i (st.heap p))
    (hlk : NoHide i → ∀ m ∈ FindAllStringSubmatch dependsOnRegex i.Body ++
        FindAllStringSubmatch blocksRegex i.Body, ∀ num,
      GetRelativeIssueURL env i (lastGroup m) = .ok num → st.issues.get num = lk.get num) :
    directives env st p =
      match plan env i lk p with
      | .error e => .error e
      | .ok ops => .ok (applyOps ops st) := by
  unfold directives plan
  rw [← hs.2.1]
  by_cases hb : i.Body = []
  · rw [if_pos hb, if_pos hb]; rfl
  · rw [if_neg hb, if_neg hb, applyDuplicate_plan hs]
    cases hd : planDuplicate env i p with
    | error e => rfl
    | ok o1 =>
      simp only
      have hs1 : SameInput i ((applyOps o1 st).heap p) := hs.chain (applyOps_same o1 st p)
      rw [applyWeightMultiplier_plan hs1]
      have hs2 : SameInput i
          ((applyOps (planWeightMultiplier i p) (applyOps o1 st)).heap p) :=
        hs1.chain (applyOps_same _ _ p)
      have hi2 : (applyOps (planWeightMultiplier i p) (applyOps o1 st)).issues = st.issues := by
        rw [applyOps_issues_same (planWeightMultiplier_hides i p),
          applyOps_issues_same (planDuplicate_hides hd)]
      rw [← hs2.2.1]
      cases hh : FindStringSubmatch hideFromRoadmapRegex i.Body with
      | some x =>
        simp only
        rw [← hs2.1, applyOps_append, applyOps_append]
        rfl
      | none =>
        simp only
        rw [applyBaseWeight_plan hs2]
        have hs3 : SameInput i ((applyOps (planBaseWeight i p)
            (applyOps (planWeightMultiplier i p) (applyOps o1 st))).heap p) :=
          hs2.chain (applyOps_same _ _ p)
        have hi3 : (applyOps (planBaseWeight i p)
            (applyOps (planWeightMultiplier i p) (applyOps o1 st))).issues = st.issues := by
          rw [applyOps_issues_same (planBaseWeight_hides i p), hi2]
        rw [← hs3.2.1]
        rw [@forMatches_dep_plan env i lk p _ _ hs3 (fun m hm num hnum => by
          rw [hi3]
          exact hlk hh m (List.mem_append_left _ hm) num hnum)]
        cases h4 : planMatches (planDependsOn env i lk p)
            (FindAllStringSubmatch dependsOnRegex i.Body) with
        | error e => rfl
        | ok o4 =>
          simp only
          have hs4 : SameInput i ((applyOps o4 (applyOps (planBaseWeight i p)
              (applyOps (planWeightMultiplier i p) (applyOps o1 st)))).heap p) :=
            hs3.chain (applyOps_same _ _ p)
          have hi4 : (applyOps o4 (applyOps (planBaseWeight i p)
              (applyOps (planWeightMultiplier i p) (applyOps o1 st)))).issues = st.issues := by
            rw [applyOps_issues_same (planMatches_hides planDependsOn_hides _ _ h4), hi3]
          rw [← hs4.2.1]
          rw [@forMatches_blk_plan env i lk p _ _ hs4 (fun m hm num hnum => by
            rw [hi4]
            exact hlk hh m (List.mem_append_right _ hm) num hnum)]
          cases h5 : planMatches (planBlocks env i lk p)
              (FindAllStringSubmatch blocksRegex i.Body) with
          | error e => rfl
          | ok o5 =>
            simp only
            rw [applyOps_append, applyOps_append, applyOps_append, applyOps_append]

theorem get_delete (m : Issues) (k k1 : Str) :
    (m.delete k).get k1 = if k1 = k then none else m.get k1 := by
  induction m with
  | nil => simp [Issues.delete, Issues.get]
  | cons e rest ih =>
    obtain ⟨k2, p⟩ := e
    unfold Issues.delete at ih ⊢
    by_cases h2 : k2 = k
    · subst h2
      rw [List.filter_cons_of_neg (by simp), ih]
      simp only [Issues.get]
      by_cases h1 : k1 = k2
      · simp [h1]
      · have : ¬ k2 = k1 := fun e => h1 e.symm
        simp [h1, this]
    · rw [List.filter_cons_of_pos (by simpa using h2)]
      simp only [Issues.get]
      by_cases h3 : k2 = k1
      · subst h3
        simp [h2]
      · simp only [h3, if_false]
        exact ih

theorem get_foldl_delete (D : List Str) : ∀ (m : Issues) (k : Str),
    (D.foldl Issues.delete m).get k = if k ∈ D then none else m.get k := by
  induction D with
  | nil => intro m k; simp
  | cons d ds ih =>
    intro m k
    rw [List.foldl_cons, ih, get_delete]
    by_cases h1 : k ∈ ds
    · simp [h1]
    · by_cases h2 : k = d
      · simp [h2]
      · simp [h1, h2]

theorem get_perm {m1 m2 : Issues} (hp : m1.Perm m2) (hnd : (keys m1).Nodup) (k : Str) :
    m1.get k = m2.get k := by
  have hnd2 : (keys m2).Nodup := (hp.map Prod.fst).nodup_iff.mp hnd
  cases h1 : m1.get k with
  | some p => exact (get_of_mem hnd2 (hp.subset (get_mem h1))).symm
  | none =>
    cases h2 : m2.get k with
    | none => rfl
    | some p =>
      rw [get_of_mem hnd (hp.symm.subset (get_mem h2))] at h1
      exact absurd h1 (by simp)

theorem plan_hides {env : Env} {i : Issue} {lk : Issues} {p : Ptr} {a : List Op}
    (h : plan env i lk p = .ok a) :
    hidesOf a = [] ∨ (hidesOf a = [i.URL] ∧ ¬ NoHide i) := by
  unfold plan at h
  by_cases hb : i.Body = []
  · rw [if_pos hb] at h
    simp only [Except.ok.injEq] at h
    subst h
    exact Or.inl rfl
  · rw [if_neg hb] at h
    cases hd : planDuplicate env i p with
    | error e => rw [hd] at h; simp at h
    | ok o1 =>
      rw [hd] at h
      simp only at h
      cases hh : FindStringSubmatch hideFromRoadmapRegex i.Body with
      | some x =>
        rw [hh] at h
        simp only [Except.ok.injEq] at h
        subst h
        refine Or.inr ⟨?_, ?_⟩
        · rw [hidesOf_append, hidesOf_append, planDuplicate_hides hd,
            planWeightMultiplier_hides]
          rfl
        · unfold NoHide; rw [hh]; simp
      | none =>
        rw [hh] at h
        simp only at h
        cases h4 : planMatches (planDependsOn env i lk p)
            (FindAllStringSubmatch dependsOnRegex i.Body) with
        | error e => rw [h4] at h; simp at h
        | ok o4 =>
          rw [h4] at h
          simp only at h
          cases h5 : planMatches (planBlocks env i lk p)
              (FindAllStringSubmatch blocksRegex i.Body) with
          | error e => rw [h5] at h; simp at h
          | ok o5 =>
            rw [h5] at h
            simp only [Except.ok.injEq] at h
            subst h
            left
            rw [hidesOf_append, hidesOf_append, hidesOf_append, hidesOf_append,
              planDuplicate_hides hd, planWeightMultiplier_hides, planBaseWeight_hides,
              planMatches_hides planDependsOn_hides _ _ h4,
              planMatches_hides planBlocks_hides _ _ h5]
            rfl

/-- The second loop makes the updates of the plans of the entries it visits,
in the order of the visits, when no phrase of an issue without the hide marker
resolves to an issue that carries it. -/
theorem directivePass_plan {env : Env} {h0 : Heap} {m0 : Issues} (hwf : WF ⟨h0, m0⟩)
    (hno : NoHiddenRef env ⟨h0, m0⟩) :
    ∀ (order : Issues) (st : State) (D : List Str), (keys order).Nodup →
      (∀ e ∈ order, e ∈ m0) → (∀ q, SameInput (h0 q) (st.heap q)) →
      st.issues = D.foldl Issues.delete m0 → (∀ k ∈ D, k ∉ keys order) →
      (∀ k ∈ D, ∀ p, (k, p) ∈ m0 → ¬ NoHide (h0 p)) →
      directivePass env order st =
        match plans env h0 m0 order with
        | .error e => .error e
        | .ok ops => .ok (applyOps ops st) := by
  intro order
  induction order with
  | nil => intro st D _ _ _ _ _ _; rfl
  | cons e rest ih =>
    intro st D hnd hmem hsame hiss hD hDm
    obtain ⟨k, p⟩ := e
    simp only [keys, List.map_cons, List.nodup_cons] at hnd
    have hkp : (k, p) ∈ m0 := hmem _ (List.mem_cons_self _ _)
    have hkD : k ∉ D := fun hk => hD k hk (List.mem_cons_self _ _)
    have hg : st.issues.get k = some p := by
      rw [hiss, get_foldl_delete, if_neg hkD]
      exact get_of_mem hwf.2 hkp
    have hurl : (h0 p).URL = k := hwf.1 _ hkp
    simp only [directivePass, plans]
    rw [hg]
    simp only
    rw [@directives_plan env (h0 p) m0 p st (hsame p) (by
      intro hnh m hm num hnum
      rw [hiss, get_foldl_delete]
      split_ifs with hin
      · cases hq : m0.get num with
        | none => rfl
        | some d =>
          exfalso
          have hd : (num, d) ∈ m0 := get_mem hq
          have hdv : d ∈ vals m0 := get_mem_vals hq
          have hpv : p ∈ vals m0 := List.mem_map.mpr ⟨(k, p), hkp, rfl⟩
          rcases hno p hpv hnh m hm d hdv with h1 | h1
          · exact hDm num hin d hd h1
          · apply h1
            have : (h0 d).URL = num := hwf.1 _ hd
            show GetRelativeIssueURL env (h0 p) (lastGroup m) = .ok (h0 d).URL
            rw [this]; exact hnum
      · rfl)]
    cases hp : plan env (h0 p) m0 p with
    | error err => rfl
    | ok a =>
      simp only
      rw [ih (applyOps a st) (D ++ hidesOf a) hnd.2
        (fun e he => hmem e (List.mem_cons_of_mem _ he))
        (fun q => (hsame q).chain (applyOps_same a st q))
        (by rw [applyOps_issues, hiss, List.foldl_append])
        (by
          intro k1 hk1
          rcases List.mem_append.mp hk1 with h1 | h1
          · exact fun h2 => hD k1 h1 (List.mem_cons_of_mem _ h2)
          · rcases plan_hides hp with h2 | h2
            · rw [h2] at h1; simp at h1
            · rw [h2.1, hurl] at h1
              simp only [List.mem_singleton] at h1
              rw [h1]; exact hnd.1)
        (by
          intro k1 hk1 p1 hp1
          rcases List.mem_append.mp hk1 with h1 | h1
          · exact hDm k1 h1 p1 hp1
          · rcases plan_hides hp with h2 | h2
            · rw [h2] at h1; simp at h1
            · rw [h2.1, hurl] at h1
              simp only [List.mem_singleton] at h1
              subst h1
              have e1 := get_of_mem hwf.2 hp1
              rw [get_of_mem hwf.2 hkp] at e1
              simp only [Option.some.injEq] at e1
              rw [← e1]; exact h2.2)]
      cases plans env h0 m0 rest with
      | error err => rfl
      | ok b =>
        simp only
        rw [applyOps_append]

theorem plans_eq_bind {env : Env} {h : Heap} {lk : Issues} :
    ∀ (order : Issues) (ops : List Op), plans env h lk order = .ok ops →
      ops = order.flatMap (planOf env h lk) := by
  intro order
  induction order with
  | nil =>
    intro ops ho
    simp only [plans, Except.ok.injEq] at ho
    subst ho; rfl
  | cons e rest ih =>
    intro ops ho
    obtain ⟨k, p⟩ := e
    simp only [plans] at ho
    cases hp : plan env (h p) lk p with
    | error err => rw [hp] at ho; simp at ho
    | ok a =>
      rw [hp] at ho
      simp only at ho
      cases hr : plans env h lk rest with
      | error err => rw [hr] at ho; simp at ho
      | ok b =>
        rw [hr] at ho
        simp only [Except.ok.injEq] at ho
        subst ho
        rw [List.flatMap_cons, ← ih b hr]
        unfold planOf
        simp only [hp]

theorem plan_lookup_congr {env : Env} {i : Issue} {l1 l2 : Issues} {p : Ptr}
    (h : ∀ k, l1.get k = l2.get k) : plan env i l1 p = plan env i l2 p := by
  have e1 : planDependsOn env i l1 p = planDependsOn env i l2 p := by
    funext m; unfold planDependsOn
    cases GetRelativeIssueURL env i (lastGroup m) with
    | error e => rfl
    | ok num => simp only [h]
  have e2 : planBlocks env i l1 p = planBlocks env i l2 p := by
    funext m; unfold planBlocks
    cases GetRelativeIssueURL env i (lastGroup m) with
    | error e => rfl
    | ok num => simp only [h]
  unfold plan
  rw [e1, e2]

/-- What one update does to the derived fields of the record at `q`. -/
theorem Op.apply_fields (o : Op) (st : State) (q : Ptr) :
    (((o.apply st).heap q).DependsOn = (st.heap q).DependsOn ++ depsOf q [o] ∧
      ((o.apply st).heap q).Blocks = (st.heap q).Blocks ++ blocksOf q [o] ∧
      ((o.apply st).heap q).Errors = (st.heap q).Errors ++ errorsOf q [o] ∧
      ((o.apply st).heap q).Duplicates = (st.heap q).Duplicates ++ duplicatesOf q [o]) ∧
    (((o.apply st).heap q).weightMultiplier
        = (multipliersOf q [o]).foldl (fun _ v => v) (st.heap q).weightMultiplier ∧
      ((o.apply st).heap q).BaseWeight
        = (baseWeightsOf q [o]).foldl (fun _ v => v) (st.heap q).BaseWeight ∧
      ((o.apply st).heap q).IsOrphan = ((st.heap q).IsOrphan && !o.touches q)) ∧
    ((o.apply st).heap q).Hidden = (st.heap q).Hidden ∧
      ((o.apply st).heap q).LinkedWithEpic = (st.heap q).LinkedWithEpic := by
  cases o with
  | dup p u =>
    by_cases hq : q = p
    · subst hq
      simp [Op.apply, modify_heap, depsOf, blocksOf, errorsOf, duplicatesOf, multipliersOf,
        baseWeightsOf, Op.touches]
    · have hq2 : ¬ p = q := fun e => hq e.symm
      simp [Op.apply, modify_heap, depsOf, blocksOf, errorsOf, duplicatesOf, multipliersOf,
        baseWeightsOf, Op.touches, hq, hq2]
  | wm p v =>
    by_cases hq : q = p
    · subst hq
      simp [Op.apply, modify_heap, depsOf, blocksOf, errorsOf, duplicatesOf, multipliersOf,
        baseWeightsOf, Op.touches]
    · have hq2 : ¬ p = q := fun e => hq e.symm
      simp [Op.apply, modify_heap, depsOf, blocksOf, errorsOf, duplicatesOf, multipliersOf,
        baseWeightsOf, Op.touches, hq, hq2]
  | bw p v =>
    by_cases hq : q = p
    · subst hq
      simp [Op.apply, modify_heap, depsOf, blocksOf, errorsOf, duplicatesOf, multipliersOf,
        baseWeightsOf, Op.touches]
    · have hq2 : ¬ p = q := fun e => hq e.symm
      simp [Op.apply, modify_heap, depsOf, blocksOf, errorsOf, duplicatesOf, multipliersOf,
        baseWeightsOf, Op.touches, hq, hq2]
  | hide k =>
    simp [Op.apply, depsOf, blocksOf, errorsOf, duplicatesOf, multipliersOf,
      baseWeightsOf, Op.touches]
  | err p e =>
    by_cases hq : q = p
    · subst hq
      simp [Op.apply, modify_heap, depsOf, blocksOf, errorsOf, duplicatesOf, multipliersOf,
        baseWeightsOf, Op.touches]
    · have hq2 : ¬ p = q := fun e => hq e.symm
      simp [Op.apply, modify_heap, depsOf, blocksOf, errorsOf, duplicatesOf, multipliersOf,
        baseWeightsOf, Op.touches, hq, hq2]
  | edge a b =>
    by_cases ha : q = a <;> by_cases hb : q = b
    · subst ha; subst hb
      simp [Op.apply, depsOf, blocksOf, errorsOf, duplicatesOf, multipliersOf,
        baseWeightsOf, Op.touches, addEdge]
    · subst ha
      have hb2 : ¬ b = q := fun e => hb e.symm
      simp [Op.apply, depsOf, blocksOf, errorsOf, duplicatesOf, multipliersOf,
        baseWeightsOf, Op.touches, addEdge, hb, hb2]
    · subst hb
      have ha2 : ¬ a = q := fun e => ha e.symm
      simp [Op.apply, depsOf, blocksOf, errorsOf, duplicatesOf, multipliersOf,
        baseWeightsOf, Op.touches, addEdge, ha, ha2]
    · have ha2 : ¬ a = q := fun e => ha e.symm
      have hb2 : ¬ b = q := fun e => hb e.symm
      simp [Op.apply, depsOf, blocksOf, errorsOf, duplicatesOf, multipliersOf,
        baseWeightsOf, Op.touches, addEdge, ha, hb, ha2, hb2]

theorem depsOf_cons (q : Ptr) (o : Op) (os : List Op) :
    depsOf q (o :: os) = depsOf q [o] ++ depsOf q os := by
  show depsOf q ([o] ++ os) = _
  unfold depsOf; rw [List.filterMap_append]

theorem blocksOf_cons (q : Ptr) (o : Op) (os : List Op) :
    blocksOf q (o :: os) = blocksOf q [o] ++ blocksOf q os := by
  show blocksOf q ([o] ++ os) = _
  unfold blocksOf; rw [List.filterMap_append]

theorem errorsOf_cons (q : Ptr) (o : Op) (os : List Op) :
    errorsOf q (o :: os) = errorsOf q [o] ++ errorsOf q os := by
  show errorsOf q ([o] ++ os) = _
  unfold errorsOf; rw [List.filterMap_append]

theorem duplicatesOf_cons (q : Ptr) (o : Op) (os : List Op) :
    duplicatesOf q (o :: os) = duplicatesOf q [o] ++ duplicatesOf q os := by
  show duplicatesOf q ([o] ++ os) = _
  unfold duplicatesOf; rw [List.filterMap_append]

theorem multipliersOf_cons (q : Ptr) (o : Op) (os : List Op) :
    multipliersOf q (o :: os) = multipliersOf q [o] ++ multipliersOf q os := by
  show multipliersOf q ([o] ++ os) = _
  unfold multipliersOf; rw [List.filterMap_append]

theorem baseWeightsOf_cons (q : Ptr) (o : Op) (os : List Op) :
    baseWeightsOf q (o :: os) = baseWeightsOf q [o] ++ baseWeightsOf q os := by
  show baseWeightsOf q ([o] ++ os) = _
  unfold baseWeightsOf; rw [List.filterMap_append]

/-- What a list of updates does to the derived fields of the record at `q`:
it appends to the four lists, the last value written to a weight stays, and
the issue stays an orphan when no update records an edge at it. -/
theorem applyOps_fields (ops : List Op) : ∀ (st : State) (q : Ptr),
    (((applyOps ops st).heap q).DependsOn = (st.heap q).DependsOn ++ depsOf q ops ∧
      ((applyOps ops st).heap q).Blocks = (st.heap q).Blocks ++ blocksOf q ops ∧
      ((applyOps ops st).heap q).Errors = (st.heap q).Errors ++ errorsOf q ops ∧
      ((applyOps ops st).heap q).Duplicates = (st.heap q).Duplicates ++ duplicatesOf q ops) ∧
    (((applyOps ops st).heap q).weightMultiplier
        = (multipliersOf q ops).foldl (fun _ v => v) (st.heap q).weightMultiplier ∧
      ((applyOps ops st).heap q).BaseWeight
        = (baseWeightsOf q ops).foldl (fun _ v => v) (st.heap q).BaseWeight ∧
      ((applyOps ops st).heap q).IsOrphan
        = ((st.heap q).IsOrphan && ops.all (fun o => !o.touches q))) ∧
    ((applyOps ops st).heap q).Hidden = (st.heap q).Hidden ∧
      ((applyOps ops st).heap q).LinkedWithEpic = (st.heap q).LinkedWithEpic := by
  induction ops with
  | nil =>
    intro st q
    simp [applyOps, depsOf, blocksOf, errorsOf, duplicatesOf, multipliersOf, baseWeightsOf]
  | cons o os ih =>
    intro st q
    obtain ⟨⟨a1, a2, a3, a4⟩, ⟨a5, a6, a7⟩, a8, a9⟩ := ih (o.apply st) q
    obtain ⟨⟨b1, b2, b3, b4⟩, ⟨b5, b6, b7⟩, b8, b9⟩ := o.apply_fields st q
    rw [applyOps_cons]
    refine ⟨⟨?_, ?_, ?_, ?_⟩, ⟨?_, ?_, ?_⟩, ?_, ?_⟩
    · rw [depsOf_cons q o os, a1, b1, List.append_assoc]
    · rw [blocksOf_cons q o os, a2, b2, List.append_assoc]
    · rw [errorsOf_cons q o os, a3, b3, List.append_assoc]
    · rw [duplicatesOf_cons q o os, a4, b4, List.append_assoc]
    · rw [multipliersOf_cons q o os, a5, b5, List.foldl_append]
    · rw [baseWeightsOf_cons q o os, a6, b6, List.foldl_append]
    · rw [a7, b7, List.all_cons, Bool.and_assoc]
    · rw [a8, b8]
    · rw [a9, b9]

theorem planMatches_forall {f : List Str → Except Fault Op} {P : Op → Prop}
    (hf : ∀ m o, f m = .ok o → P o) :
    ∀ (ms : List (List Str)) (ops : List Op), planMatches f ms = .ok ops → ∀ o ∈ ops, P o := by
  intro ms
  induction ms with
  | nil =>
    intro ops h
    simp only [planMatches, Except.ok.injEq] at h
    subst h
    intro o ho; simp at ho
  | cons m ms ih =>
    intro ops h
    simp only [planMatches] at h
    cases hm : f m with
    | error e => rw [hm] at h; simp at h
    | ok o =>
      rw [hm] at h
      simp only at h
      cases hr : planMatches f ms with
      | error e => rw [hr] at h; simp at h
      | ok os =>
        rw [hr] at h
        simp only [Except.ok.injEq] at h
        subst h
        intro o1 ho1
        rcases List.mem_cons.mp ho1 with h1 | h1
        · rw [h1]; exact hf m o hm
        · exact ih os hr o1 h1

theorem planDependsOn_op {env : Env} {i : Issue} {lk : Issues} {p : Ptr} (hp : p ∈ vals lk)
    (m : List Str) (o : Op) (h : planDependsOn env i lk p m = .ok o) :
    o.own p ∧ o.within (vals lk) := by
  unfold planDependsOn at h
  cases hg : GetRelativeIssueURL env i (lastGroup m) with
  | error e => rw [hg] at h; simp at h
  | ok num =>
    rw [hg] at h
    simp only at h
    cases hl : lk.get num with
    | none =>
      rw [hl] at h; simp only [Except.ok.injEq] at h; subst h
      exact ⟨rfl, trivial⟩
    | some d =>
      rw [hl] at h; simp only [Except.ok.injEq] at h; subst h
      exact ⟨trivial, hp, get_mem_vals hl⟩

theorem planBlocks_op {env : Env} {i : Issue} {lk : Issues} {p : Ptr} (hp : p ∈ vals lk)
    (m : List Str) (o : Op) (h : planBlocks env i lk p m = .ok o) :
    o.own p ∧ o.within (vals lk) := by
  unfold planBlocks at h
  cases hg : GetRelativeIssueURL env i (lastGroup m) with
  | error e => rw [hg] at h; simp at h
  | ok num =>
    rw [hg] at h
    simp only at h
    cases hl : lk.get num with
    | none =>
      rw [hl] at h; simp only [Except.ok.injEq] at h; subst h
      exact ⟨rfl, trivial⟩
    | some d =>
      rw [hl] at h; simp only [Except.ok.injEq] at h; subst h
      exact ⟨trivial, get_mem_vals hl, hp⟩

theorem planDuplicate_op {env : Env} {i : Issue} {p : Ptr} {a : List Op} (S : List Ptr)
    (h : planDuplicate env i p = .ok a) : ∀ o ∈ a, o.own p ∧ o.within S := by
  unfold planDuplicate at h
  cases hf : FindStringSubmatch isDuplicateRegex i.Body with
  | none =>
    rw [hf] at h; simp only [Except.ok.injEq] at h; subst h
    intro o ho; simp at ho
  | some m =>
    rw [hf] at h
    simp only at h
    cases hg : GetRelativeIssueURL env i (lastGroup m) with
    | error e => rw [hg] at h; simp at h
    | ok u =>
      rw [hg] at h; simp only [Except.ok.injEq] at h; subst h
      intro o ho
      simp only [List.mem_singleton] at ho
      subst ho
      exact ⟨rfl, trivial⟩

theorem planWeightMultiplier_op (i : Issue) (p : Ptr) (S : List Ptr) :
    ∀ o ∈ planWeightMultiplier i p, o.own p ∧ o.within S := by
  unfold planWeightMultiplier
  cases FindStringSubmatch weightMultiplierRegex i.Body with
  | none => intro o ho; simp at ho
  | some m =>
    intro o ho
    simp only [List.mem_singleton] at ho
    subst ho
    exact ⟨rfl, trivial⟩

theorem planBaseWeight_op (i : Issue) (p : Ptr) (S : List Ptr) :
    ∀ o ∈ planBaseWeight i p, o.own p ∧ o.within S := by
  unfold planBaseWeight
  cases FindStringSubmatch baseWeightRegex i.Body with
  | none => intro o ho; simp at ho
  | some m =>
    intro o ho
    simp only [List.mem_singleton] at ho
    subst ho
    exact ⟨rfl, trivial⟩

/-- The updates of a visit write the lists and weights of the visited record
only, and their edges join issues of the map. -/
theorem plan_ops {env : Env} {i : Issue} {lk : Issues} {p : Ptr} {a : List Op}
    (hp : p ∈ vals lk) (h : plan env i lk p = .ok a) :
    ∀ o ∈ a, o.own p ∧ o.within (vals lk) := by
  unfold plan at h
  by_cases hb : i.Body = []
  · rw [if_pos hb] at h
    simp only [Except.ok.injEq] at h
    subst h
    intro o ho; simp at ho
  · rw [if_neg hb] at h
    cases hd : planDuplicate env i p with
    | error e => rw [hd] at h; simp at h
    | ok o1 =>
      rw [hd] at h
      simp only at h
      cases hh : FindStringSubmatch hideFromRoadmapRegex i.Body with
      | some x =>
        rw [hh] at h
        simp only [Except.ok.injEq] at h
        subst h
        intro o ho
        simp only [List.mem_append, List.mem_singleton] at ho
        rcases ho with (h1 | h1) | h1
        · exact planDuplicate_op _ hd o h1
        · exact planWeightMultiplier_op i p _ o h1
        · subst h1; exact ⟨trivial, trivial⟩
      | none =>
        rw [hh] at h
        simp only at h
        cases h4 : planMatches (planDependsOn env i lk p)
            (FindAllStringSubmatch dependsOnRegex i.Body) with
        | error e => rw [h4] at h; simp at h
        | ok o4 =>
          rw [h4] at h
          simp only at h
          cases h5 : planMatches (planBlocks env i lk p)
              (FindAllStringSubmatch blocksRegex i.Body) with
          | error e => rw [h5] at h; simp at h
          | ok o5 =>
            rw [h5] at h
            simp only [Except.ok.injEq] at h
            subst h
            intro o ho
            simp only [List.mem_append] at ho
            rcases ho with (((h1 | h1) | h1) | h1) | h1
            · exact planDuplicate_op _ hd o h1
            · exact planWeightMultiplier_op i p _ o h1
            · exact planBaseWeight_op i p _ o h1
            · exact planMatches_forall (planDependsOn_op hp) _ _ h4 o h1
            · exact planMatches_forall (planBlocks_op hp) _ _ h5 o h1

theorem planOf_ops {env : Env} {h : Heap} {lk : Issues} {e : Str × Ptr} (he : e.2 ∈ vals lk) :
    ∀ o ∈ planOf env h lk e, o.own e.2 ∧ o.within (vals lk) := by
  unfold planOf
  cases hp : plan env (h e.2) lk e.2 with
  | error err => intro o ho; simp at ho
  | ok a => exact plan_ops he hp

/-- Updates made for other records append nothing to `Errors` and
`Duplicates` of the record at `q` and write none of its weights. -/
theorem own_lists {p q : Ptr} {a : List Op} (h : ∀ o ∈ a, o.own p) (hq : q ≠ p) :
    errorsOf q a = [] ∧ duplicatesOf q a = [] ∧ multipliersOf q a = [] ∧
      baseWeightsOf q a = [] := by
  have hpq : ¬ p = q := fun e => hq e.symm
  refine ⟨?_, ?_, ?_, ?_⟩ <;>
  · simp only [errorsOf, duplicatesOf, multipliersOf, baseWeightsOf, List.filterMap_eq_nil_iff]
    intro o ho
    have := h o ho
    cases o <;> simp only [Op.own] at this <;> simp [this, hpq]

/-- The pointers that the updates append to `DependsOn` and `Blocks` are in
`S`, and they append none to the lists of a record outside `S`. -/
theorem within_lists {S : List Ptr} {q : Ptr} {a : List Op} (h : ∀ o ∈ a, o.within S) :
    (∀ d ∈ depsOf q a, d ∈ S) ∧ (∀ d ∈ blocksOf q a, d ∈ S) ∧
      (q ∉ S → depsOf q a = [] ∧ blocksOf q a = [] ∧
        a.all (fun o => !o.touches q) = true) := by
  refine ⟨?_, ?_, ?_⟩
  · intro d hd
    simp only [depsOf, List.mem_filterMap] at hd
    obtain ⟨o, ho, hod⟩ := hd
    have := h o ho
    cases o <;> simp only [Op.within] at this <;> simp at hod
    obtain ⟨_, rfl⟩ := hod
    exact this.2
  · intro d hd
    simp only [blocksOf, List.mem_filterMap] at hd
    obtain ⟨o, ho, hod⟩ := hd
    have := h o ho
    cases o <;> simp only [Op.within] at this <;> simp at hod
    obtain ⟨_, rfl⟩ := hod
    exact this.1
  · intro hq
    refine ⟨?_, ?_, ?_⟩
    · simp only [depsOf, List.filterMap_eq_nil_iff]
      intro o ho
      have := h o ho
      cases o <;> simp only [Op.within] at this <;> simp
      rintro rfl; exact absurd this.1 hq
    · simp only [blocksOf, List.filterMap_eq_nil_iff]
      intro o ho
      have := h o ho
      cases o <;> simp only [Op.within] at this <;> simp
      rintro rfl; exact absurd this.2 hq
    · rw [List.all_eq_true]
      intro o ho
      have := h o ho
      cases o <;> simp only [Op.within] at this <;> simp [Op.touches]
      exact ⟨fun e => hq (e ▸ this.1), fun e => hq (e ▸ this.2)⟩

theorem flatMap_own {β : Type} (g : Str × Ptr → List β) (q : Ptr)
    (hg : ∀ e, e.2 ≠ q → g e = []) :
    ∀ (l : Issues), (vals l).Nodup →
      (∀ e0 ∈ l, e0.2 = q → l.flatMap g = g e0) ∧ (q ∉ vals l → l.flatMap g = []) := by
  intro l
  induction l with
  | nil => intro _; exact ⟨fun e0 h0 => by simp at h0, fun _ => rfl⟩
  | cons e rest ih =>
    intro hnd
    simp only [vals, List.map_cons, List.nodup_cons] at hnd
    obtain ⟨ih1, ih2⟩ := ih hnd.2
    refine ⟨?_, ?_⟩
    · intro e0 h0 hq
      rw [List.flatMap_cons]
      rcases List.mem_cons.mp h0 with h1 | h1
      · subst h1
        rw [ih2 (by rw [← hq]; exact hnd.1), List.append_nil]
      · have hne : e.2 ≠ q := by
          intro he
          apply hnd.1
          rw [he, ← hq]
          exact List.mem_map.mpr ⟨e0, h1, rfl⟩
        rw [hg e hne, ih1 e0 h1 hq, List.nil_append]
    · intro hq
      simp only [vals, List.map_cons, List.mem_cons, not_or] at hq
      rw [List.flatMap_cons, hg e (fun he => hq.1 he.symm), ih2 hq.2]
      rfl

/-- What the visits of other records leave empty is the same for every
visiting order. -/
theorem flatMap_own_perm {β : Type} (g : Str × Ptr → List β) (q : Ptr)
    (hg : ∀ e, e.2 ≠ q → g e = []) {l1 l2 : Issues} (hp : l1.Perm l2)
    (hnd : (vals l1).Nodup) : l1.flatMap g = l2.flatMap g := by
  have hnd2 : (vals l2).Nodup := (hp.map Prod.snd).nodup_iff.mp hnd
  by_cases hq : q ∈ vals l1
  · obtain ⟨e0, h0, hq0⟩ := List.mem_map.mp hq
    rw [(flatMap_own g q hg l1 hnd).1 e0 h0 hq0,
      (flatMap_own g q hg l2 hnd2).1 e0 (hp.subset h0) hq0]
  · have hq2 : q ∉ vals l2 := fun h => hq ((hp.map Prod.snd).symm.subset h)
    rw [(flatMap_own g q hg l1 hnd).2 hq, (flatMap_own g q hg l2 hnd2).2 hq2]

theorem resetPass_perm (h : Heap) {m1 m2 : Issues} (hp : m1.Perm m2) :
    resetPass h m1 = resetPass h m2 := by
  funext q
  rw [resetPass_apply, resetPass_apply]
  have : q ∈ vals m1 ↔ q ∈ vals m2 := (hp.map Prod.snd).mem_iff
  by_cases hq : q ∈ vals m1
  · rw [if_pos hq, if_pos (this.mp hq)]
  · rw [if_neg hq, if_neg (fun h2 => hq (this.mpr h2))]

theorem wf_perm {h : Heap} {m1 m2 : Issues} (hp : m1.Perm m2) (hwf : WF ⟨h, m1⟩) :
    WF ⟨h, m2⟩ :=
  ⟨fun e he => hwf.1 e (hp.symm.subset he), (hp.map Prod.fst).nodup_iff.mp hwf.2⟩

theorem noHiddenRef_congr {env : Env} {h1 h2 : Heap} {m1 m2 : Issues}
    (hsame : ∀ q, SameInput (h1 q) (h2 q)) (hsub : vals m2 ⊆ vals m1)
    (hno : NoHiddenRef env ⟨h1, m1⟩) : NoHiddenRef env ⟨h2, m2⟩ := by
  intro p hp hnh m hm a ha
  have hs := hsame p
  have hnh1 : NoHide (h1 p) := by
    unfold NoHide at hnh ⊢
    rw [hs.2.1]; exact hnh
  have hm1 : m ∈ FindAllStringSubmatch dependsOnRegex (h1 p).Body ++
      FindAllStringSubmatch blocksRegex (h1 p).Body := by
    rw [hs.2.1]; exact hm
  rcases hno p (hsub hp) hnh1 m hm1 a (hsub ha) with h3 | h3
  · left
    unfold NoHide at h3 ⊢
    show FindStringSubmatch hideFromRoadmapRegex (h2 a).Body = none
    rw [← (hsame a).2.1]; exact h3
  · right
    show GetRelativeIssueURL env (h2 p) (lastGroup m) ≠ .ok (h2 a).URL
    rw [← GetRelativeIssueURL_congr env hs, ← (hsame a).1]
    exact h3

theorem foldl_delete_filter (D : List Str) : ∀ (m : Issues),
    D.foldl Issues.delete m = m.filter (fun e => decide (e.1 ∉ D)) := by
  induction D with
  | nil => intro m; simp
  | cons d ds ih =>
    intro m
    rw [List.foldl_cons, ih]
    unfold Issues.delete
    rw [List.filter_filter]
    congr 1
    funext e
    by_cases h1 : e.1 = d <;> by_cases h2 : e.1 ∈ ds <;> simp [h1, h2]

/-- The second loop, run on a collection keyed by URL in which no phrase of an
issue without the hide marker resolves to an issue that carries it, makes the
updates of the plans of the entries, one plan after the other. -/
theorem directivePass_flatMap {env : Env} {h0 : Heap} {m : Issues} {s : State}
    (hwf : WF ⟨h0, m⟩) (hno : NoHiddenRef env ⟨h0, m⟩)
    (hrun : directivePass env m ⟨h0, m⟩ = .ok s) :
    s = applyOps (m.flatMap (planOf env h0 m)) ⟨h0, m⟩ := by
  have key := directivePass_plan hwf hno m ⟨h0, m⟩ [] hwf.2 (fun e he => he)
    (fun q => SameInput.refl _) rfl (fun k hk => by simp at hk) (fun k hk => by simp at hk)
  rw [hrun] at key
  cases hp : plans env h0 m m with
  | error e => rw [hp] at key; simp at key
  | ok ops =>
    rw [hp] at key
    simp only [Except.ok.injEq] at key
    rw [key, plans_eq_bind m ops hp]

theorem planOf_perm {env : Env} {h0 : Heap} {m1 m2 : Issues} (hp : m1.Perm m2)
    (hnd : (keys m1).Nodup) : planOf env h0 m2 = planOf env h0 m1 := by
  funext e
  unfold planOf
  rw [plan_lookup_congr (fun k => (get_perm hp hnd k).symm)]

/-- The updates that the second loop makes in two visiting orders of the same
collection: the two lists are permutations of each other, the updates to the
errors, duplicates and weights of a record are the same lists, and the edges
join issues of the collection. -/
theorem directivePass_order {env : Env} {h0 : Heap} {m1 m2 : Issues} {s1 s2 : State}
    (hwf : WF ⟨h0, m1⟩) (hperm : m1.Perm m2) (hno : NoHiddenRef env ⟨h0, m1⟩)
    (h1 : directivePass env m1 ⟨h0, m1⟩ = .ok s1)
    (h2 : directivePass env m2 ⟨h0, m2⟩ = .ok s2) :
    ∃ ops1 ops2, s1 = applyOps ops1 ⟨h0, m1⟩ ∧ s2 = applyOps ops2 ⟨h0, m2⟩ ∧
      ops1.Perm ops2 ∧
      (∀ q, errorsOf q ops1 = errorsOf q ops2 ∧ duplicatesOf q ops1 = duplicatesOf q ops2 ∧
        multipliersOf q ops1 = multipliersOf q ops2 ∧
        baseWeightsOf q ops1 = baseWeightsOf q ops2) ∧
      (∀ o ∈ ops1, o.within (vals m1)) ∧ (∀ o ∈ ops2, o.within (vals m1)) := by
  have hwf2 : WF ⟨h0, m2⟩ := wf_perm hperm hwf
  have hno2 : NoHiddenRef env ⟨h0, m2⟩ :=
    noHiddenRef_congr (fun q => SameInput.refl _) (hperm.map Prod.snd).symm.subset hno
  have e1 := directivePass_flatMap hwf hno h1
  have e2 := directivePass_flatMap hwf2 hno2 h2
  rw [planOf_perm hperm hwf.2] at e2
  have hvn : (vals m1).Nodup := vals_nodup_of_keyed h0 m1 hwf.2 hwf.1
  have hown : ∀ (q : Ptr) (e : Str × Ptr), e.2 ∈ vals m1 → e.2 ≠ q →
      errorsOf q (planOf env h0 m1 e) = [] ∧ duplicatesOf q (planOf env h0 m1 e) = [] ∧
        multipliersOf q (planOf env h0 m1 e) = [] ∧
        baseWeightsOf q (planOf env h0 m1 e) = [] :=
    fun q e he hq => own_lists (fun o ho => (planOf_ops he o ho).1) (fun h => hq h.symm)
  have hin : ∀ o ∈ m1.flatMap (planOf env h0 m1), o.within (vals m1) := by
    intro o ho
    obtain ⟨e, he, hoe⟩ := List.mem_flatMap.mp ho
    exact (planOf_ops (List.mem_map.mpr ⟨e, he, rfl⟩) o hoe).2
  have hpo : (m1.flatMap (planOf env h0 m1)).Perm (m2.flatMap (planOf env h0 m1)) :=
    hperm.flatMap_right _
  refine ⟨_, _, e1, e2, hpo, ?_, hin, fun o ho => hin o (hpo.symm.subset ho)⟩
  intro q
  have gen : ∀ {β : Type} (f : Op → Option β),
      (∀ e : Str × Ptr, e.2 ∈ vals m1 → e.2 ≠ q → (planOf env h0 m1 e).filterMap f = []) →
      (m1.flatMap (planOf env h0 m1)).filterMap f
        = (m2.flatMap (planOf env h0 m1)).filterMap f := by
    intro β f hf
    rw [List.filterMap_flatMap, List.filterMap_flatMap]
    have hg : ∀ l : Issues, (∀ e ∈ l, e.2 ∈ vals m1) →
        l.flatMap (fun a => (planOf env h0 m1 a).filterMap f)
          = l.flatMap (fun a => if a.2 ∈ vals m1 then (planOf env h0 m1 a).filterMap f
              else []) := by
      intro l hl
      induction l with
      | nil => rfl
      | cons a rest ih =>
        rw [List.flatMap_cons, List.flatMap_cons, if_pos (hl a (List.mem_cons_self _ _)),
          ih (fun e he => hl e (List.mem_cons_of_mem _ he))]
    rw [hg m1 (fun e he => List.mem_map.mpr ⟨e, he, rfl⟩),
      hg m2 (fun e he => List.mem_map.mpr ⟨e, hperm.symm.subset he, rfl⟩)]
    refine flatMap_own_perm _ q ?_ hperm hvn
    intro e he
    split_ifs with hm
    · exact hf e hm he
    · rfl
  exact ⟨gen _ (fun e he hq => (hown q e he hq).1), gen _ (fun e he hq => (hown q e he hq).2.1),
    gen _ (fun e he hq => (hown q e he hq).2.2.1), gen _ (fun e he hq => (hown q e he hq).2.2.2)⟩

theorem hideIf (h : Heap) (p : Ptr) (c : Prop) [Decidable c] (x : Ptr) :
    ((if c then h.modify p (fun i => { i with Hidden := true }) else h) x).Duplicates
        = (h x).Duplicates ∧
      IsPR ((if c then h.modify p (fun i => { i with Hidden := true }) else h) x)
        = IsPR (h x) ∧
      (((if c then h.modify p (fun i => { i with Hidden := true }) else h) x).Hidden = true ↔
        ((h x).Hidden = true ∨ (x = p ∧ c))) := by
  by_cases hc : c
  · rw [if_pos hc, heap_modify_apply]
    by_cases hx : x = p
    · subst hx
      rw [if_pos rfl]
      exact ⟨rfl, rfl, by simp [hc]⟩
    · rw [if_neg hx]
      exact ⟨rfl, rfl, by simp [hx]⟩
  · rw [if_neg hc]
    exact ⟨rfl, rfl, by simp [hc]⟩

/-- The flag that the third loop leaves: an issue is hidden after it when it
was hidden before, or is an issue of the collection with a recorded duplicate
or a pull request. -/
theorem hidingPass_value :
    ∀ (m : Issues) (h h' : Heap), hidingPass m h = .ok h' →
      ∀ q, ((h' q).Hidden = true ↔
        ((h q).Hidden = true ∨
          (q ∈ vals m ∧ ((h q).Duplicates ≠ [] ∨ IsPR (h q) = .ok true)))) := by
  intro m
  induction m with
  | nil =>
    intro h h' hh q
    simp only [hidingPass, Except.ok.injEq] at hh
    subst hh
    simp [vals]
  | cons e rest ih =>
    intro h h' hh q
    obtain ⟨k, p⟩ := e
    simp only [hidingPass] at hh
    have f1 := hideIf h p ((h p).Duplicates.length > 0)
    generalize hg : (if (h p).Duplicates.length > 0 then
        h.modify p (fun i => { i with Hidden := true }) else h) = g at hh f1
    have hlen : (h p).Duplicates.length > 0 ↔ (h p).Duplicates ≠ [] :=
      List.length_pos
    rw [(f1 p).2.1] at hh
    obtain ⟨d1, i1, v1⟩ := f1 q
    simp only [vals, List.map_cons, List.mem_cons]
    cases hp : IsPR (h p) with
    | error err => rw [hp] at hh; simp at hh
    | ok b =>
      rw [hp] at hh
      cases b with
      | true =>
        simp only at hh
        have key := ih _ h' hh q
        obtain ⟨d2, i2, v2⟩ := hideIf g p True q
        simp only [if_true] at d2 i2 v2
        rw [key, d2, i2, v2, d1, i1, v1, hlen]
        simp only [vals, and_true]
        constructor
        · rintro (((h1 | h1) | h1) | h1)
          · exact Or.inl h1
          · exact Or.inr ⟨Or.inl h1.1, Or.inl (by rw [h1.1]; exact h1.2)⟩
          · exact Or.inr ⟨Or.inl h1, Or.inr (by rw [h1]; exact hp)⟩
          · exact Or.inr ⟨Or.inr h1.1, h1.2⟩
        · rintro (h1 | ⟨h1 | h1, h2⟩)
          · exact Or.inl (Or.inl (Or.inl h1))
          · exact Or.inl (Or.inr h1)
          · exact Or.inr ⟨h1, h2⟩
      | false =>
        simp only at hh
        have key := ih _ h' hh q
        rw [key, d1, i1, v1, hlen]
        simp only [vals]
        constructor
        · rintro ((h1 | h1) | h1)
          · exact Or.inl h1
          · exact Or.inr ⟨Or.inl h1.1, Or.inl (by rw [h1.1]; exact h1.2)⟩
          · exact Or.inr ⟨Or.inr h1.1, h1.2⟩
        · rintro (h1 | ⟨h1 | h1, h2 | h2⟩)
          · exact Or.inl (Or.inl h1)
          · exact Or.inl (Or.inr ⟨h1, by rw [← h1]; exact h2⟩)
          · rw [h1, hp] at h2; simp at h2
          · exact Or.inr ⟨h1, Or.inl h2⟩
          · exact Or.inr ⟨h1, Or.inr h2⟩

theorem reachesEpic_congr {env : Env} {r1 r2 : Heap} {next : Issue → IssueSlice}
    (hL : ∀ q, (r1 q).Labels = (r2 q).Labels)
    (hN : ∀ q d, d ∈ next (r1 q) → d ∈ next (r2 q)) (q : Ptr)
    (h : ReachesEpic env r1 next q) : ReachesEpic env r2 next q := by
  obtain ⟨e, he, hepic⟩ := h
  refine ⟨e, he.mono (fun a b hab => hN a b hab), ?_⟩
  rw [← IsEpic_congr env (hL e)]; exact hepic

/-- The reference definition of "linked with epic" reads the hidden flag, the
labels, and which issues are in `Blocks` and `DependsOn`. -/
theorem linkedSpec_congr {env : Env} {r1 r2 : Heap}
    (hH : ∀ q, (r1 q).Hidden = (r2 q).Hidden) (hL : ∀ q, (r1 q).Labels = (r2 q).Labels)
    (hB : ∀ q d, d ∈ (r1 q).Blocks ↔ d ∈ (r2 q).Blocks)
    (hD : ∀ q d, d ∈ (r1 q).DependsOn ↔ d ∈ (r2 q).DependsOn) (q : Ptr) :
    LinkedSpec env r1 q ↔ LinkedSpec env r2 q := by
  unfold LinkedSpec
  rw [hH q, IsEpic_congr env (hL q)]
  have b1 : ReachesEpic env r1 Issue.Blocks q ↔ ReachesEpic env r2 Issue.Blocks q :=
    ⟨reachesEpic_congr hL (fun a d => (hB a d).mp) q,
      reachesEpic_congr (fun x => (hL x).symm) (fun a d => (hB a d).mpr) q⟩
  have b2 : ReachesEpic env r1 Issue.DependsOn q ↔ ReachesEpic env r2 Issue.DependsOn q :=
    ⟨reachesEpic_congr hL (fun a d => (hD a d).mp) q,
      reachesEpic_congr (fun x => (hL x).symm) (fun a d => (hD a d).mpr) q⟩
  rw [b1, b2]

theorem unique_perm (h : Heap) {l1 l2 : IssueSlice} (hp : l1.Perm l2)
    (hinj : ∀ a ∈ l1, ∀ b ∈ l1, (h a).URL = (h b).URL → a = b) :
    (Unique h l1).Perm (Unique h l2) := by
  have hinj2 : ∀ a ∈ l2, ∀ b ∈ l2, (h a).URL = (h b).URL → a = b :=
    fun a ha b hb => hinj a (hp.symm.subset ha) b (hp.symm.subset hb)
  obtain ⟨n1, m1⟩ := unique_spec h l1 hinj
  obtain ⟨n2, m2⟩ := unique_spec h l2 hinj2
  rw [List.perm_ext_iff_of_nodup n1 n2]
  intro q
  rw [m1 q, m2 q]
  exact hp.mem_iff

/-- Two heaps whose records have the same URL and weight fields, and `Blocks`
lists that are equal or are permutations of each other within a set of issues
of distinct URLs, give the same weights. -/
theorem weights_perm {h1 h2 : Heap} {S : List Ptr}
    (hinj : ∀ a ∈ S, ∀ b ∈ S, (h1 a).URL = (h1 b).URL → a = b)
    (hurl : ∀ q, (h1 q).URL = (h2 q).URL)
    (hbw : ∀ q, (h1 q).BaseWeight = (h2 q).BaseWeight)
    (hwm : ∀ q, (h1 q).weightMultiplier = (h2 q).weightMultiplier)
    (hB : ∀ q, (h1 q).Blocks = (h2 q).Blocks ∨
      ((h1 q).Blocks.Perm (h2 q).Blocks ∧ ∀ d ∈ (h1 q).Blocks, d ∈ S)) :
    ∀ (n : Nat) (q : Ptr),
      WeightMultiplier h1 n (h1 q) = WeightMultiplier h2 n (h2 q) ∧
        Weight h1 n (h1 q) = Weight h2 n (h2 q) := by
  have hU : ∀ q, (Unique h1 (h1 q).Blocks).Perm (Unique h2 (h2 q).Blocks) := by
    intro q
    rcases hB q with hb | ⟨hb, hs⟩
    · rw [hb, unique_congr h1 h2 _ (fun a _ => hurl a)]
    · rw [← unique_congr h1 h2 _ (fun a _ => hurl a)]
      exact unique_perm h1 hb (fun a ha b hb2 => hinj a (hs a ha) b (hs b hb2))
  intro n
  induction n with
  | zero => intro q; exact ⟨rfl, rfl⟩
  | succ k ih =>
    intro q
    have hm : WeightMultiplier h1 (k + 1) (h1 q) = WeightMultiplier h2 (k + 1) (h2 q) := by
      simp only [WeightMultiplier]
      rw [mulLoop_congr _ _ (fun d _ => (ih d).1), hwm q]
      exact mulLoop_perm (fun d e he => weightMultiplier_fault h2 k (h2 d) e he) (hU q) _
    refine ⟨hm, ?_⟩
    simp only [Weight]
    rw [addLoop_congr _ _ (fun d _ => (ih d).2), hbw q,
      addLoop_perm (fun d e he => weight_fault h2 k (h2 d) e he) (hU q), (ih q).1]

theorem all_perm {α : Type} (f : α → Bool) {l1 l2 : List α} (hp : l1.Perm l2) :
    l1.all f = l2.all f := by
  rw [Bool.eq_iff_iff, List.all_eq_true, List.all_eq_true]
  exact ⟨fun h x hx => h x (hp.symm.subset hx), fun h x hx => h x (hp.subset hx)⟩

/-- The passes of a run of `prepare` that returns, and the fields of the
result that the last two passes do not write. -/
theorem prepare_parts {env : Env} {fuel : Nat} {st st' : State}
    (h : prepare env fuel st = .ok st') :
    ∃ d g, directivePass env st.issues ⟨resetPass st.heap st.issues, st.issues⟩ = .ok d ∧
      hidingPass d.issues d.heap = .ok g ∧
      processEpicLinks env fuel d.issues g = .ok st'.heap ∧ st'.issues = d.issues ∧
      ∀ q, ((st'.heap q).DependsOn = (d.heap q).DependsOn ∧
          (st'.heap q).Blocks = (d.heap q).Blocks ∧ (st'.heap q).Errors = (d.heap q).Errors ∧
          (st'.heap q).Duplicates = (d.heap q).Duplicates) ∧
        ((st'.heap q).weightMultiplier = (d.heap q).weightMultiplier ∧
          (st'.heap q).BaseWeight = (d.heap q).BaseWeight ∧
          (st'.heap q).IsOrphan = (d.heap q).IsOrphan) ∧
        (st'.heap q).Hidden = (g q).Hidden ∧
        (g q).LinkedWithEpic = (d.heap q).LinkedWithEpic ∧
        SameInput (d.heap q) (st'.heap q) := by
  obtain ⟨d, g, hd, hh, he, hi⟩ := prepare_cases h
  refine ⟨d, g, hd, hh, he, hi, fun q => ?_⟩
  obtain ⟨c, hc⟩ := processEpicLinks_apply _ _ _ he q
  obtain ⟨b, hb, _⟩ := hidingPass_apply _ _ _ hh q
  rw [hc, hb]
  exact ⟨⟨rfl, rfl, rfl, rfl⟩, ⟨rfl, rfl, rfl⟩, rfl, rfl,
    ⟨rfl, rfl, rfl, rfl, rfl, rfl, rfl, rfl, rfl, rfl⟩⟩

/-- C27, as the code has it: for a collection keyed by URL in which no
depends-on or blocks phrase of an issue without the hide marker resolves to an
issue that carries it, and for two orders of the map for which `prepare`
returns, the derived state is the same: the same entries remain, and every
record has the same `DependsOn` and `Blocks` as multisets, the same `Errors`
and `Duplicates`, the same `IsOrphan`, `Hidden` and `LinkedWithEpic`, the same
`BaseWeight` and `weightMultiplier`, and `Weight` and `WeightMultiplier`
return the same for it. -/
theorem prepare_order_independent (env : Env) (f1 f2 : Nat) (h : Heap) (m1 m2 : Issues)
    (s1 s2 : State) (hwf : WF ⟨h, m1⟩) (hperm : m1.Perm m2)
    (hno : NoHiddenRef env ⟨h, m1⟩)
    (h1 : prepare env f1 ⟨h, m1⟩ = .ok s1) (h2 : prepare env f2 ⟨h, m2⟩ = .ok s2) :
    s1.issues.Perm s2.issues ∧ (∀ q, SameDerived (s1.heap q) (s2.heap q)) ∧
      ∀ n q, Weight s1.heap n (s1.heap q) = Weight s2.heap n (s2.heap q) ∧
        WeightMultiplier s1.heap n (s1.heap q) = WeightMultiplier s2.heap n (s2.heap q) := by
  obtain ⟨d1, g1, hd1, hh1, he1, hi1, hf1⟩ := prepare_parts h1
  obtain ⟨d2, g2, hd2, hh2, he2, hi2, hf2⟩ := prepare_parts h2
  simp only at hd1 hd2
  rw [← resetPass_perm h hperm] at hd2
  have hwf0 : WF ⟨resetPass h m1, m1⟩ := wf_reset hwf
  have hno0 : NoHiddenRef env ⟨resetPass h m1, m1⟩ :=
    noHiddenRef_congr (fun q => resetPass_same m1 h q) (fun _ hx => hx) hno
  obtain ⟨ops1, ops2, e1, e2, hpo, hown, hin1, hin2⟩ :=
    directivePass_order hwf0 hperm hno0 hd1 hd2
  -- the entries that remain
  have hH : (hidesOf ops1).Perm (hidesOf ops2) := hpo.filterMap _
  have hiP : d1.issues.Perm d2.issues := by
    rw [e1, e2, applyOps_issues, applyOps_issues, foldl_delete_filter, foldl_delete_filter]
    have : (fun e : Str × Ptr => decide (e.1 ∉ hidesOf ops1))
        = (fun e : Str × Ptr => decide (e.1 ∉ hidesOf ops2)) := by
      funext e
      exact decide_eq_decide.mpr (not_congr hH.mem_iff)
    rw [this]
    exact hperm.filter _
  have hv : ∀ q, q ∈ vals d1.issues ↔ q ∈ vals d2.issues :=
    fun q => (hiP.map Prod.snd).mem_iff
  -- the records after the second loop
  have a1 := fun q => applyOps_fields ops1 ⟨resetPass h m1, m1⟩ q
  have a2 := fun q => applyOps_fields ops2 ⟨resetPass h m1, m2⟩ q
  rw [← e1] at a1
  rw [← e2] at a2
  simp only at a1 a2
  have hs1 : ∀ q, SameInput (resetPass h m1 q) (d1.heap q) := by
    intro q; rw [e1]; exact applyOps_same ops1 ⟨resetPass h m1, m1⟩ q
  have hs2 : ∀ q, SameInput (resetPass h m1 q) (d2.heap q) := by
    intro q; rw [e2]; exact applyOps_same ops2 ⟨resetPass h m1, m2⟩ q
  have hsame : ∀ q, SameInput (s1.heap q) (s2.heap q) := fun q =>
    (((hf1 q).2.2.2.2.symm.chain (hs1 q).symm).chain (hs2 q)).chain (hf2 q).2.2.2.2
  -- the hidden flag
  have hhid : ∀ q, (s1.heap q).Hidden = (s2.heap q).Hidden := by
    intro q
    rw [(hf1 q).2.2.1, (hf2 q).2.2.1, Bool.eq_iff_iff, hidingPass_value _ _ _ hh1 q,
      hidingPass_value _ _ _ hh2 q, hv q, (a1 q).2.2.1, (a2 q).2.2.1, (a1 q).1.2.2.2,
      (a2 q).1.2.2.2, (hown q).2.1, IsPR_congr ((hs1 q).symm.chain (hs2 q))]
  -- the lists
  have hdep : ∀ q, (s1.heap q).DependsOn.Perm (s2.heap q).DependsOn := by
    intro q
    rw [(hf1 q).1.1, (hf2 q).1.1, (a1 q).1.1, (a2 q).1.1]
    exact List.Perm.append_left _ (hpo.filterMap _)
  have hblk : ∀ q, (s1.heap q).Blocks.Perm (s2.heap q).Blocks := by
    intro q
    rw [(hf1 q).1.2.1, (hf2 q).1.2.1, (a1 q).1.2.1, (a2 q).1.2.1]
    exact List.Perm.append_left _ (hpo.filterMap _)
  have hbw : ∀ q, (s1.heap q).BaseWeight = (s2.heap q).BaseWeight := by
    intro q
    rw [(hf1 q).2.1.2.1, (hf2 q).2.1.2.1, (a1 q).2.1.2.1, (a2 q).2.1.2.1, (hown q).2.2.2]
  have hwm : ∀ q, (s1.heap q).weightMultiplier = (s2.heap q).weightMultiplier := by
    intro q
    rw [(hf1 q).2.1.1, (hf2 q).2.1.1, (a1 q).2.1.1, (a2 q).2.1.1, (hown q).2.2.1]
  -- the flag of the epic-linkage pass
  have hlnk : ∀ q, (s1.heap q).LinkedWithEpic = (s2.heap q).LinkedWithEpic := by
    intro q
    by_cases hq : q ∈ vals d1.issues
    · rw [Bool.eq_iff_iff, processEpicLinks_spec he1 q hq,
        processEpicLinks_spec he2 q ((hv q).mp hq)]
      exact linkedSpec_congr hhid (fun x => (hsame x).2.2.1)
        (fun x d => (hblk x).mem_iff) (fun x d => (hdep x).mem_iff) q
    · rw [processEpicLinks_outside _ _ _ he1 q hq,
        processEpicLinks_outside _ _ _ he2 q (fun hx => hq ((hv q).mpr hx)),
        (hf1 q).2.2.2.1, (hf2 q).2.2.2.1, (a1 q).2.2.2, (a2 q).2.2.2]
  refine ⟨by rw [hi1, hi2]; exact hiP, fun q => ⟨⟨hdep q, hblk q, ?_, ?_⟩, ⟨?_, hhid q, hlnk q⟩,
    hbw q, hwm q⟩, ?_⟩
  · rw [(hf1 q).1.2.2.1, (hf2 q).1.2.2.1, (a1 q).1.2.2.1, (a2 q).1.2.2.1, (hown q).1]
  · rw [(hf1 q).1.2.2.2, (hf2 q).1.2.2.2, (a1 q).1.2.2.2, (a2 q).1.2.2.2, (hown q).2.1]
  · rw [(hf1 q).2.1.2.2, (hf2 q).2.1.2.2, (a1 q).2.1.2.2, (a2 q).2.1.2.2, all_perm _ hpo]
  · -- the weights
    have hvn : ∀ a ∈ vals m1, ∀ b ∈ vals m1, (s1.heap a).URL = (s1.heap b).URL → a = b := by
      intro a ha b hb hab
      obtain ⟨ea, hea, rfl⟩ := List.mem_map.mp ha
      obtain ⟨eb, heb, rfl⟩ := List.mem_map.mp hb
      have u1 : ∀ x, (s1.heap x).URL = (h x).URL := fun x =>
        ((hf1 x).2.2.2.2.symm.chain ((hs1 x).symm.chain (resetPass_same m1 h x).symm)).1
      rw [u1, u1, hwf.1 ea hea, hwf.1 eb heb] at hab
      have g1 := get_of_mem hwf.2 (show (ea.1, ea.2) ∈ m1 from hea)
      have g2 := get_of_mem hwf.2 (show (eb.1, eb.2) ∈ m1 from heb)
      rw [hab] at g1
      rw [g1] at g2
      simpa using g2
    have hB : ∀ q, (s1.heap q).Blocks = (s2.heap q).Blocks ∨
        ((s1.heap q).Blocks.Perm (s2.heap q).Blocks ∧ ∀ d ∈ (s1.heap q).Blocks, d ∈ vals m1) := by
      intro q
      by_cases hq : q ∈ vals m1
      · right
        refine ⟨hblk q, ?_⟩
        rw [(hf1 q).1.2.1, (a1 q).1.2.1, resetPass_apply, if_pos hq]
        intro d hd
        exact (within_lists hin1).2.1 d (by simpa [resetIssue] using hd)
      · left
        rw [(hf1 q).1.2.1, (hf2 q).1.2.1, (a1 q).1.2.1, (a2 q).1.2.1,
          ((within_lists hin1).2.2 hq).2.1, ((within_lists hin2).2.2 hq).2.1]
    intro n q
    have key := weights_perm hvn (fun x => (hsame x).1) hbw hwm hB n q
    exact ⟨key.2, key.1⟩

/-- Witness for C27 as amended: issue 1 depends on issue 2 and names a missing
issue, issue 3 carries the hide marker and is referenced by no issue; the map
is visited in the order 1, 2, 3 and in the order 3, 2, 1. -/
theorem prepare_order_independent_witness :
    ∃ s1 s2, prepare goEnv 2 orderState = .ok s1 ∧
      prepare goEnv 3 (reversed orderState) = .ok s2 ∧
      s1.issues.Perm s2.issues ∧ (∀ q, SameDerived (s1.heap q) (s2.heap q)) ∧
      ∀ n q, Weight s1.heap n (s1.heap q) = Weight s2.heap n (s2.heap q) ∧
        WeightMultiplier s1.heap n (s1.heap q) = WeightMultiplier s2.heap n (s2.heap q) := by
  obtain ⟨s1, h1⟩ := except_ok_of (x := prepare goEnv 2 orderState) (by decide)
  obtain ⟨s2, h2⟩ := except_ok_of (x := prepare goEnv 3 (reversed orderState)) (by decide)
  exact ⟨s1, s2, h1, h2,
    prepare_order_independent goEnv 2 3 orderState.heap orderState.issues
      orderState.issues.reverse s1 s2 (by decide) (List.reverse_perm _).symm (by decide) h1 h2⟩

/-- Counterexample to C27 as stated: issue 1 says "depends on #2" and issue 2
carries the hide marker.  Visited in the order 1, 2, issue 1 gets issue 2 as a
dependency and is no orphan; visited in the order 2, 1, issue 2 is deleted
first, and issue 1 gets an error instead, no dependency, and stays an orphan.
Issue 1 remains in the collection in both runs. -/
theorem hidden_reference_order_counterexample :
    ∃ s1 s2, prepare goEnv 2 hiddenRefState = .ok s1 ∧
      prepare goEnv 2 (reversed hiddenRefState) = .ok s2 ∧
      (hiddenRefState.issues.Perm (reversed hiddenRefState).issues ∧
        (reversed hiddenRefState).heap = hiddenRefState.heap ∧ WF hiddenRefState) ∧
      (s1.issues = s2.issues ∧ 0 ∈ vals s1.issues) ∧
      ((s1.heap 0).DependsOn = [1] ∧ (s2.heap 0).DependsOn = []) ∧
      ((s1.heap 0).IsOrphan = false ∧ (s2.heap 0).IsOrphan = true) ∧
      (s1.heap 0).Errors = [] ∧
      (s2.heap 0).Errors = [.parentNotFound "https://github.com/o/r/issues/2".toList] := by
  obtain ⟨s1, h1⟩ := except_ok_of (x := prepare goEnv 2 hiddenRefState) (by decide)
  obtain ⟨s2, h2⟩ := except_ok_of (x := prepare goEnv 2 (reversed hiddenRefState)) (by decide)
  have a1 : (prepare goEnv 2 hiddenRefState).toOption.map (fun s => s.issues)
      = some [("https://github.com/o/r/issues/1".toList, 0)] := by decide
  have a2 : (prepare goEnv 2 (reversed hiddenRefState)).toOption.map (fun s => s.issues)
      = some [("https://github.com/o/r/issues/1".toList, 0)] := by decide
  have b1 : (prepare goEnv 2 hiddenRefState).toOption.map
      (fun s => ((s.heap 0).DependsOn, (s.heap 0).IsOrphan, (s.heap 0).Errors))
      = some ([1], false, []) := by decide
  have b2 : (prepare goEnv 2 (reversed hiddenRefState)).toOption.map
      (fun s => ((s.heap 0).DependsOn, (s.heap 0).IsOrphan, (s.heap 0).Errors))
      = some ([], true, [.parentNotFound "https://github.com/o/r/issues/2".toList]) := by
    decide
  rw [h1] at a1 b1
  rw [h2] at a2 b2
  simp only [Except.toOption, Option.map_some', Option.some.injEq, Prod.mk.injEq] at a1 a2 b1 b2
  refine ⟨s1, s2, h1, h2, ⟨(List.reverse_perm _).symm, rfl, by decide⟩, ⟨by rw [a1, a2], ?_⟩,
    ⟨b1.1, b2.1⟩, ⟨b1.2.1, b2.2.1⟩, b1.2.2, b2.2.2⟩
  rw [a1]; decide

/-! ## C6: a second run of `prepare`, in any visiting order -/

theorem plans_ok_mem {env : Env} {h : Heap} {lk : Issues} :
    ∀ (order : Issues) (ops : List Op), plans env h lk order = .ok ops →
      ∀ e ∈ order, plan env (h e.2) lk e.2 = .ok (planOf env h lk e) := by
  intro order
  induction order with
  | nil => intro ops _ e he; simp at he
  | cons x rest ih =>
    intro ops ho e he
    obtain ⟨k, p⟩ := x
    simp only [plans] at ho
    cases hp : plan env (h p) lk p with
    | error err => rw [hp] at ho; simp at ho
    | ok a =>
      rw [hp] at ho
      simp only at ho
      cases hr : plans env h lk rest with
      | error err => rw [hr] at ho; simp at ho
      | ok b =>
        rcases List.mem_cons.mp he with h1 | h1
        · subst h1
          unfold planOf
          simp only [hp]
        · exact ih b hr e h1

theorem plans_of_ok {env : Env} {h : Heap} {lk : Issues} :
    ∀ (order : Issues), (∀ e ∈ order, ∃ a, plan env (h e.2) lk e.2 = .ok a) →
      plans env h lk order = .ok (order.flatMap (planOf env h lk)) := by
  intro order
  induction order with
  | nil => intro _; rfl
  | cons x rest ih =>
    intro hall
    obtain ⟨k, p⟩ := x
    obtain ⟨a, ha⟩ := hall (k, p) (List.mem_cons_self _ _)
    simp only at ha
    simp only [plans]
    rw [ha, ih (fun e he => hall e (List.mem_cons_of_mem _ he)), List.flatMap_cons]
    unfold planOf
    simp only [ha]

/-- The second loop of a run that returns: the plans of all entries return,
and the state after the loop is the state after their updates. -/
theorem directivePass_plans {env : Env} {h0 : Heap} {m : Issues} {s : State}
    (hwf : WF ⟨h0, m⟩) (hno : NoHiddenRef env ⟨h0, m⟩)
    (hrun : directivePass env m ⟨h0, m⟩ = .ok s) :
    (∀ e ∈ m, plan env (h0 e.2) m e.2 = .ok (planOf env h0 m e)) ∧
      s = applyOps (m.flatMap (planOf env h0 m)) ⟨h0, m⟩ := by
  have key := directivePass_plan hwf hno m ⟨h0, m⟩ [] hwf.2 (fun e he => he)
    (fun q => SameInput.refl _) rfl (fun k hk => by simp at hk) (fun k hk => by simp at hk)
  rw [hrun] at key
  cases hp : plans env h0 m m with
  | error e => rw [hp] at key; simp at key
  | ok ops =>
    rw [hp] at key
    simp only [Except.ok.injEq] at key
    exact ⟨plans_ok_mem m ops hp, by rw [key, plans_eq_bind m ops hp]⟩

/-- The second loop returns when the plans of all entries do. -/
theorem directivePass_of_plans {env : Env} {h0 : Heap} {m : Issues}
    (hwf : WF ⟨h0, m⟩) (hno : NoHiddenRef env ⟨h0, m⟩)
    (hall : ∀ e ∈ m, ∃ a, plan env (h0 e.2) m e.2 = .ok a) :
    directivePass env m ⟨h0, m⟩
      = .ok (applyOps (m.flatMap (planOf env h0 m)) ⟨h0, m⟩) := by
  have key := directivePass_plan hwf hno m ⟨h0, m⟩ [] hwf.2 (fun e he => he)
    (fun q => SameInput.refl _) rfl (fun k hk => by simp at hk) (fun k hk => by simp at hk)
  rw [key, plans_of_ok m hall]

/-- A key that the updates delete is the key of an entry whose issue carries
the hide marker. -/
theorem hides_marked {env : Env} {h0 : Heap} {lk m : Issues}
    (hurl : ∀ e ∈ m, (h0 e.2).URL = e.1) {k : Str}
    (hk : k ∈ hidesOf (m.flatMap (planOf env h0 lk))) :
    ∃ p, (k, p) ∈ m ∧ ¬ NoHide (h0 p) := by
  unfold hidesOf at hk
  rw [List.filterMap_flatMap] at hk
  obtain ⟨e, he, hke⟩ := List.mem_flatMap.mp hk
  have hke2 : k ∈ hidesOf (planOf env h0 lk e) := hke
  unfold planOf at hke2
  cases hp : plan env (h0 e.2) lk e.2 with
  | error err => rw [hp] at hke2; simp [hidesOf] at hke2
  | ok a =>
    rw [hp] at hke2
    simp only at hke2
    rcases plan_hides hp with h1 | h1
    · rw [h1] at hke2; simp at hke2
    · rw [h1.1, hurl e he] at hke2
      simp only [List.mem_singleton] at hke2
      refine ⟨e.2, ?_, h1.2⟩
      rw [hke2]; exact he

theorem planMatches_congr {f g : List Str → Except Fault Op} :
    ∀ (ms : List (List Str)), (∀ m ∈ ms, f m = g m) → planMatches f ms = planMatches g ms := by
  intro ms
  induction ms with
  | nil => intro _; rfl
  | cons m ms ih =>
    intro h
    simp only [planMatches]
    rw [h m (List.mem_cons_self _ _), ih (fun x hx => h x (List.mem_cons_of_mem _ hx))]

/-- The plan of a visit reads the body and the URL of the record, and the map
at the references that the phrases of an issue without hide marker resolve
to. -/
theorem plan_congr {env : Env} {i j : Issue} {l1 l2 : Issues} {p : Ptr}
    (hs : SameInput i j)
    (hlk : NoHide i → ∀ m ∈ FindAllStringSubmatch dependsOnRegex i.Body ++
        FindAllStringSubmatch blocksRegex i.Body, ∀ num,
      GetRelativeIssueURL env i (lastGroup m) = .ok num → l1.get num = l2.get num) :
    plan env i l1 p = plan env j l2 p := by
  have ed : planDuplicate env j p = planDuplicate env i p := by
    unfold planDuplicate
    rw [← hs.2.1]
    cases FindStringSubmatch isDuplicateRegex i.Body with
    | none => rfl
    | some m => simp only; rw [← GetRelativeIssueURL_congr env hs]
  have ew : planWeightMultiplier j p = planWeightMultiplier i p := by
    unfold planWeightMultiplier; rw [← hs.2.1]
  have eb : planBaseWeight j p = planBaseWeight i p := by
    unfold planBaseWeight; rw [← hs.2.1]
  unfold plan
  rw [← hs.2.1, ← hs.1, ed, ew, eb]
  by_cases hb : i.Body = []
  · rw [if_pos hb, if_pos hb]
  · rw [if_neg hb, if_neg hb]
    cases planDuplicate env i p with
    | error e => rfl
    | ok o1 =>
      simp only
      cases hh : FindStringSubmatch hideFromRoadmapRegex i.Body with
      | some x => rfl
      | none =>
        simp only
        have e1 : planMatches (planDependsOn env j l2 p)
            (FindAllStringSubmatch dependsOnRegex i.Body)
            = planMatches (planDependsOn env i l1 p)
              (FindAllStringSubmatch dependsOnRegex i.Body) := by
          refine planMatches_congr _ (fun m hm => ?_)
          unfold planDependsOn
          rw [← GetRelativeIssueURL_congr env hs]
          cases hg : GetRelativeIssueURL env i (lastGroup m) with
          | error e => rfl
          | ok num =>
            simp only
            rw [hlk hh m (List.mem_append_left _ hm) num hg]
        have e2 : planMatches (planBlocks env j l2 p)
            (FindAllStringSubmatch blocksRegex i.Body)
            = planMatches (planBlocks env i l1 p)
              (FindAllStringSubmatch blocksRegex i.Body) := by
          refine planMatches_congr _ (fun m hm => ?_)
          unfold planBlocks
          rw [← GetRelativeIssueURL_congr env hs]
          cases hg : GetRelativeIssueURL env i (lastGroup m) with
          | error e => rfl
          | ok num =>
            simp only
            rw [hlk hh m (List.mem_append_right _ hm) num hg]
        rw [e1, e2]

theorem planDuplicate_light {env : Env} {i : Issue} {p : Ptr} {a : List Op}
    (h : planDuplicate env i p = .ok a) : ∀ o ∈ a, o.light := by
  unfold planDuplicate at h
  cases hf : FindStringSubmatch isDuplicateRegex i.Body with
  | none =>
    rw [hf] at h; simp only [Except.ok.injEq] at h; subst h
    intro o ho; simp at ho
  | some m =>
    rw [hf] at h
    simp only at h
    cases hg : GetRelativeIssueURL env i (lastGroup m) with
    | error e => rw [hg] at h; simp at h
    | ok u =>
      rw [hg] at h; simp only [Except.ok.injEq] at h; subst h
      intro o ho
      simp only [List.mem_singleton] at ho
      subst ho
      trivial

theorem planWeightMultiplier_light (i : Issue) (p : Ptr) :
    ∀ o ∈ planWeightMultiplier i p, o.light := by
  unfold planWeightMultiplier
  cases FindStringSubmatch weightMultiplierRegex i.Body with
  | none => intro o ho; simp at ho
  | some m =>
    intro o ho
    simp only [List.mem_singleton] at ho
    subst ho
    trivial

/-- The visit of an issue with the hide marker makes no update but to its own
`Duplicates` and `weightMultiplier` and the deletion of its key. -/
theorem plan_light {env : Env} {i : Issue} {lk : Issues} {p : Ptr} {a : List Op}
    (hm : ¬ NoHide i) (h : plan env i lk p = .ok a) : ∀ o ∈ a, o.light := by
  unfold plan at h
  by_cases hb : i.Body = []
  · exfalso
    apply hm
    unfold NoHide
    rw [hb]; exact hide_nil
  · rw [if_neg hb] at h
    cases hd : planDuplicate env i p with
    | error e => rw [hd] at h; simp at h
    | ok o1 =>
      rw [hd] at h
      simp only at h
      cases hh : FindStringSubmatch hideFromRoadmapRegex i.Body with
      | none => exact absurd hh hm
      | some x =>
        rw [hh] at h
        simp only [Except.ok.injEq] at h
        subst h
        intro o ho
        simp only [List.mem_append, List.mem_singleton] at ho
        rcases ho with (h1 | h1) | h1
        · exact planDuplicate_light hd o h1
        · exact planWeightMultiplier_light i p o h1
        · subst h1; trivial

/-- Updates of an issue with the hide marker append nothing to `DependsOn`,
`Blocks` and `Errors`, record no edge and write no `BaseWeight`. -/
theorem light_lists {a : List Op} (h : ∀ o ∈ a, o.light) (q : Ptr) :
    (depsOf q a = [] ∧ blocksOf q a = [] ∧ errorsOf q a = [] ∧ baseWeightsOf q a = []) ∧
      a.all (fun o => !o.touches q) = true := by
  refine ⟨⟨?_, ?_, ?_, ?_⟩, ?_⟩
  · simp only [depsOf, List.filterMap_eq_nil_iff]
    intro o ho
    have := h o ho
    cases o <;> simp only [Op.light] at this <;> rfl
  · simp only [blocksOf, List.filterMap_eq_nil_iff]
    intro o ho
    have := h o ho
    cases o <;> simp only [Op.light] at this <;> rfl
  · simp only [errorsOf, List.filterMap_eq_nil_iff]
    intro o ho
    have := h o ho
    cases o <;> simp only [Op.light] at this <;> rfl
  · simp only [baseWeightsOf, List.filterMap_eq_nil_iff]
    intro o ho
    have := h o ho
    cases o <;> simp only [Op.light] at this <;> rfl
  · rw [List.all_eq_true]
    intro o ho
    have := h o ho
    cases o <;> simp only [Op.light] at this <;> rfl

theorem flatMap_filter {β : Type} (g : Str × Ptr → List β) (P : Str × Ptr → Bool) :
    ∀ (l : Issues), (∀ e ∈ l, P e = false → g e = []) →
      (l.filter P).flatMap g = l.flatMap g := by
  intro l
  induction l with
  | nil => intro _; rfl
  | cons x rest ih =>
    intro h
    have ih2 := ih (fun e he => h e (List.mem_cons_of_mem _ he))
    by_cases hx : P x = true
    · rw [List.filter_cons_of_pos hx, List.flatMap_cons, List.flatMap_cons, ih2]
    · rw [List.filter_cons_of_neg hx, List.flatMap_cons, ih2,
        h x (List.mem_cons_self _ _) (by simpa using hx), List.nil_append]

theorem filterMap_flatMap_own {β : Type} (F : Str × Ptr → List Op) (f : Op → Option β)
    (q : Ptr) :
    ∀ (l : Issues), (vals l).Nodup → (∀ e ∈ l, e.2 ≠ q → (F e).filterMap f = []) →
      (∀ e0 ∈ l, e0.2 = q → (l.flatMap F).filterMap f = (F e0).filterMap f) ∧
        (q ∉ vals l → (l.flatMap F).filterMap f = []) := by
  intro l
  induction l with
  | nil => intro _ _; exact ⟨fun e0 h0 => by simp at h0, fun _ => rfl⟩
  | cons e rest ih =>
    intro hnd hf
    simp only [vals, List.map_cons, List.nodup_cons] at hnd
    obtain ⟨ih1, ih2⟩ := ih hnd.2 (fun x hx => hf x (List.mem_cons_of_mem _ hx))
    refine ⟨?_, ?_⟩
    · intro e0 h0 hq
      rw [List.flatMap_cons, List.filterMap_append]
      rcases List.mem_cons.mp h0 with h1 | h1
      · subst h1
        rw [ih2 (by rw [← hq]; exact hnd.1), List.append_nil]
      · have hne : e.2 ≠ q := by
          intro he
          apply hnd.1
          rw [he, ← hq]
          exact List.mem_map.mpr ⟨e0, h1, rfl⟩
        rw [hf e (List.mem_cons_self _ _) hne, ih1 e0 h1 hq, List.nil_append]
    · intro hq
      simp only [vals, List.map_cons, List.mem_cons, not_or] at hq
      rw [List.flatMap_cons, List.filterMap_append,
        hf e (List.mem_cons_self _ _) (fun he => hq.1 he.symm), ih2 hq.2]
      rfl

/-- The second run of the second loop, on what the first run left of the map
and in any visiting order: the plans of the entries are those of the first
run, they delete no key, and the updates of the first run are those of the
second together with updates of issues that carry the hide marker. -/
theorem second_pass {env : Env} {h0 k0 : Heap} {m1 m2 : Issues}
    (hwf : WF ⟨h0, m1⟩) (hno : NoHiddenRef env ⟨h0, m1⟩)
    (hsame : ∀ q, SameInput (h0 q) (k0 q))
    (hok : ∀ e ∈ m1, plan env (h0 e.2) m1 e.2 = .ok (planOf env h0 m1 e))
    (hperm : m2.Perm ((hidesOf (m1.flatMap (planOf env h0 m1))).foldl Issues.delete m1)) :
    ((∀ e ∈ m2, e ∈ m1) ∧ WF ⟨k0, m2⟩ ∧ NoHiddenRef env ⟨k0, m2⟩) ∧
      ((∀ e ∈ m2, plan env (k0 e.2) m2 e.2 = .ok (planOf env h0 m1 e)) ∧
        (∀ e ∈ m2, planOf env k0 m2 e = planOf env h0 m1 e) ∧
        hidesOf (m2.flatMap (planOf env h0 m1)) = []) ∧
      ∃ opsX, (m1.flatMap (planOf env h0 m1)).Perm
          (m2.flatMap (planOf env h0 m1) ++ opsX) ∧ ∀ o ∈ opsX, o.light := by
  generalize hH : hidesOf (m1.flatMap (planOf env h0 m1)) = H at hperm
  have hfil := foldl_delete_filter H m1
  rw [hfil] at hperm
  have hsub : ∀ e ∈ m2, e ∈ m1 ∧ e.1 ∉ H := by
    intro e he
    have := hperm.subset he
    simpa [List.mem_filter] using this
  have hmem : ∀ e ∈ m2, e ∈ m1 := fun e he => (hsub e he).1
  have hnd2 : (keys m2).Nodup :=
    (hperm.map Prod.fst).nodup_iff.mpr
      (((List.filter_sublist m1).map Prod.fst).nodup hwf.2)
  have hwf2 : WF ⟨k0, m2⟩ :=
    ⟨fun e he => by
      show (k0 e.2).URL = e.1
      rw [← (hsame e.2).1]; exact hwf.1 e (hmem e he), hnd2⟩
  have hvsub : vals m2 ⊆ vals m1 := by
    intro q hq
    obtain ⟨e, he, rfl⟩ := List.mem_map.mp hq
    exact List.mem_map.mpr ⟨e, hmem e he, rfl⟩
  have hno2 : NoHiddenRef env ⟨k0, m2⟩ := noHiddenRef_congr hsame hvsub hno
  have hmark : ∀ k ∈ H, ∃ p, (k, p) ∈ m1 ∧ ¬ NoHide (h0 p) := by
    intro k hk
    rw [← hH] at hk
    exact hides_marked hwf.1 hk
  -- the lookups of an issue without hide marker
  have hget : ∀ e ∈ m2, NoHide (h0 e.2) →
      ∀ m ∈ FindAllStringSubmatch dependsOnRegex (h0 e.2).Body ++
        FindAllStringSubmatch blocksRegex (h0 e.2).Body, ∀ num,
      GetRelativeIssueURL env (h0 e.2) (lastGroup m) = .ok num →
        m1.get num = m2.get num := by
    intro e he hnh m hm num hnum
    rw [get_perm hperm hnd2 num, ← hfil, get_foldl_delete]
    split_ifs with hin
    · exfalso
      obtain ⟨p, hp, hpm⟩ := hmark num hin
      have hev : e.2 ∈ vals m1 := List.mem_map.mpr ⟨e, hmem e he, rfl⟩
      have hpv : p ∈ vals m1 := List.mem_map.mpr ⟨(num, p), hp, rfl⟩
      rcases hno e.2 hev hnh m hm p hpv with h1 | h1
      · exact hpm h1
      · apply h1
        have : (h0 p).URL = num := hwf.1 _ hp
        show GetRelativeIssueURL env (h0 e.2) (lastGroup m) = .ok (h0 p).URL
        rw [this]; exact hnum
    · rfl
  have hplan : ∀ e ∈ m2, plan env (k0 e.2) m2 e.2 = plan env (h0 e.2) m1 e.2 :=
    fun e he => (plan_congr (hsame e.2) (hget e he)).symm
  have hplanOf : ∀ e ∈ m2, planOf env k0 m2 e = planOf env h0 m1 e := by
    intro e he
    unfold planOf
    rw [hplan e he]
  -- the entries that the first run deleted
  have hX : ∀ e ∈ m1.filter (fun e => !decide (e.1 ∉ H)), ∀ o ∈ planOf env h0 m1 e, o.light := by
    intro e he
    have he2 : e ∈ m1 ∧ e.1 ∈ H := by simpa [List.mem_filter] using he
    obtain ⟨p, hp, hpm⟩ := hmark e.1 he2.2
    have g1 := get_of_mem hwf.2 hp
    have g2 := get_of_mem hwf.2 (show (e.1, e.2) ∈ m1 from he2.1)
    rw [g1] at g2
    simp only [Option.some.injEq] at g2
    rw [g2] at hpm
    have hpl := hok e he2.1
    exact plan_light hpm hpl
  refine ⟨⟨hmem, hwf2, hno2⟩, ⟨fun e he => by rw [hplan e he]; exact hok e (hmem e he),
    hplanOf, ?_⟩, (m1.filter (fun e => !decide (e.1 ∉ H))).flatMap (planOf env h0 m1), ?_, ?_⟩
  · unfold hidesOf
    rw [List.filterMap_eq_nil_iff]
    intro o ho
    obtain ⟨e, he, hoe⟩ := List.mem_flatMap.mp ho
    cases o with
    | hide k =>
      exfalso
      have hk : k ∈ hidesOf (planOf env h0 m1 e) := by
        unfold hidesOf
        exact List.mem_filterMap.mpr ⟨.hide k, hoe, rfl⟩
      have hpl := hok e (hmem e he)
      rcases plan_hides hpl with h1 | h1
      · rw [h1] at hk; simp at hk
      · rw [h1.1, hwf.1 e (hmem e he)] at hk
        simp only [List.mem_singleton] at hk
        apply (hsub e he).2
        rw [← hk, ← hH]
        unfold hidesOf
        exact List.mem_filterMap.mpr ⟨.hide k,
          List.mem_flatMap.mpr ⟨e, hmem e he, hoe⟩, rfl⟩
    | dup _ _ => rfl
    | wm _ _ => rfl
    | bw _ _ => rfl
    | err _ _ => rfl
    | edge _ _ => rfl
  · rw [← List.flatMap_append]
    exact ((List.filter_append_perm _ m1).symm.trans
      (hperm.symm.append_right _)).flatMap_right _
  · intro o ho
    obtain ⟨e, he, hoe⟩ := List.mem_flatMap.mp ho
    exact hX e he o hoe

theorem own_second {env : Env} {h0 : Heap} {m1 m2 : Issues} (hv1 : (vals m1).Nodup)
    (hmem : ∀ e ∈ m2, e ∈ m1) (hv2 : (vals m2).Nodup) (q : Ptr) :
    (q ∈ vals m2 →
      errorsOf q (m2.flatMap (planOf env h0 m1)) = errorsOf q (m1.flatMap (planOf env h0 m1)) ∧
      duplicatesOf q (m2.flatMap (planOf env h0 m1))
        = duplicatesOf q (m1.flatMap (planOf env h0 m1)) ∧
      multipliersOf q (m2.flatMap (planOf env h0 m1))
        = multipliersOf q (m1.flatMap (planOf env h0 m1)) ∧
      baseWeightsOf q (m2.flatMap (planOf env h0 m1))
        = baseWeightsOf q (m1.flatMap (planOf env h0 m1))) ∧
    (q ∉ vals m2 →
      errorsOf q (m2.flatMap (planOf env h0 m1)) = [] ∧
      duplicatesOf q (m2.flatMap (planOf env h0 m1)) = [] ∧
      multipliersOf q (m2.flatMap (planOf env h0 m1)) = [] ∧
      baseWeightsOf q (m2.flatMap (planOf env h0 m1)) = []) := by
  have hown : ∀ e ∈ m1, e.2 ≠ q →
      errorsOf q (planOf env h0 m1 e) = [] ∧ duplicatesOf q (planOf env h0 m1 e) = [] ∧
        multipliersOf q (planOf env h0 m1 e) = [] ∧
        baseWeightsOf q (planOf env h0 m1 e) = [] :=
    fun e he hq => own_lists
      (fun o ho => (planOf_ops (List.mem_map.mpr ⟨e, he, rfl⟩) o ho).1) (fun h => hq h.symm)
  have gen : ∀ {β : Type} (f : Op → Option β),
      (∀ e ∈ m1, e.2 ≠ q → (planOf env h0 m1 e).filterMap f = []) →
      (q ∈ vals m2 → (m2.flatMap (planOf env h0 m1)).filterMap f
          = (m1.flatMap (planOf env h0 m1)).filterMap f) ∧
        (q ∉ vals m2 → (m2.flatMap (planOf env h0 m1)).filterMap f = []) := by
    intro β f hf
    obtain ⟨a1, _⟩ := filterMap_flatMap_own (planOf env h0 m1) f q m1 hv1 hf
    obtain ⟨b1, b2⟩ := filterMap_flatMap_own (planOf env h0 m1) f q m2 hv2
      (fun e he => hf e (hmem e he))
    refine ⟨fun hq => ?_, b2⟩
    obtain ⟨e0, h0, hq0⟩ := List.mem_map.mp hq
    rw [b1 e0 h0 hq0, a1 e0 (hmem e0 h0) hq0]
  have g1 := gen _ (fun e he hq => (hown e he hq).1)
  have g2 := gen _ (fun e he hq => (hown e he hq).2.1)
  have g3 := gen _ (fun e he hq => (hown e he hq).2.2.1)
  have g4 := gen _ (fun e he hq => (hown e he hq).2.2.2)
  exact ⟨fun hq => ⟨g1.1 hq, g2.1 hq, g3.1 hq, g4.1 hq⟩,
    fun hq => ⟨g1.2 hq, g2.2 hq, g3.2 hq, g4.2 hq⟩⟩

/-- The second loop of a second run of `prepare`, made on the result of a
first run in any visiting order of the map that the first run left.  The
entries stay, the updates of the first run are those of the second together
with updates of issues that carry the hide marker, and for every record the
fields after the loop are given by the updates. -/
theorem second_run_core {env : Env} {fuel : Nat} {st s1 : State} {m2 : Issues} {d2 : State}
    (hwf : WF st) (hno : NoHiddenRef env st) (hrun : prepare env fuel st = .ok s1)
    (hperm : m2.Perm s1.issues)
    (hd2 : directivePass env m2 ⟨resetPass s1.heap m2, m2⟩ = .ok d2) :
    (d2.issues = m2 ∧
      ∃ opsX, (st.issues.flatMap (planOf env (resetPass st.heap st.issues) st.issues)).Perm
          (m2.flatMap (planOf env (resetPass st.heap st.issues) st.issues) ++ opsX) ∧
        ∀ o ∈ opsX, o.light) ∧
    (∀ q, SameInput (s1.heap q) (d2.heap q) ∧ (d2.heap q).Hidden = (s1.heap q).Hidden ∧
      (d2.heap q).LinkedWithEpic = (s1.heap q).LinkedWithEpic ∧
      (q ∈ vals m2 → ((d2.heap q).Duplicates ≠ [] ∨ IsPR (d2.heap q) = .ok true) →
        (s1.heap q).Hidden = true)) ∧
    (∀ q, q ∈ vals m2 →
      ((s1.heap q).DependsOn
          = depsOf q (st.issues.flatMap (planOf env (resetPass st.heap st.issues) st.issues)) ∧
        (d2.heap q).DependsOn
          = depsOf q (m2.flatMap (planOf env (resetPass st.heap st.issues) st.issues)) ∧
        (s1.heap q).Blocks
          = blocksOf q (st.issues.flatMap (planOf env (resetPass st.heap st.issues) st.issues)) ∧
        (d2.heap q).Blocks
          = blocksOf q (m2.flatMap (planOf env (resetPass st.heap st.issues) st.issues))) ∧
      ((s1.heap q).IsOrphan
          = (st.issues.flatMap (planOf env (resetPass st.heap st.issues) st.issues)).all
              (fun o => !o.touches q) ∧
        (d2.heap q).IsOrphan
          = (m2.flatMap (planOf env (resetPass st.heap st.issues) st.issues)).all
              (fun o => !o.touches q)) ∧
      (d2.heap q).BaseWeight = (s1.heap q).BaseWeight ∧
      (d2.heap q).weightMultiplier = (s1.heap q).weightMultiplier) ∧
    (∀ q, q ∉ vals m2 →
      ((d2.heap q).DependsOn = (s1.heap q).DependsOn ∧
        (d2.heap q).Blocks = (s1.heap q).Blocks ∧
        (d2.heap q).IsOrphan = (s1.heap q).IsOrphan) ∧
      (d2.heap q).BaseWeight = (s1.heap q).BaseWeight ∧
      (d2.heap q).weightMultiplier = (s1.heap q).weightMultiplier) := by
  obtain ⟨d1, g1, hd1, hh1, he1, hi1, hf1⟩ := prepare_parts hrun
  have hwf0 : WF ⟨resetPass st.heap st.issues, st.issues⟩ := wf_reset hwf
  have hno0 : NoHiddenRef env ⟨resetPass st.heap st.issues, st.issues⟩ :=
    noHiddenRef_congr (fun q => resetPass_same st.issues st.heap q) (fun _ hx => hx) hno
  obtain ⟨hok, e1⟩ := directivePass_plans hwf0 hno0 hd1
  have hiss1 : d1.issues = (hidesOf (st.issues.flatMap
      (planOf env (resetPass st.heap st.issues) st.issues))).foldl Issues.delete st.issues := by
    rw [e1, applyOps_issues]
  have hs01 : ∀ q, SameInput (resetPass st.heap st.issues q) (s1.heap q) := by
    intro q
    have : SameInput (resetPass st.heap st.issues q) (d1.heap q) := by
      rw [e1]; exact applyOps_same _ ⟨resetPass st.heap st.issues, st.issues⟩ q
    exact this.chain (hf1 q).2.2.2.2
  have hsame0 : ∀ q, SameInput (resetPass st.heap st.issues q) (resetPass s1.heap m2 q) :=
    fun q => (hs01 q).chain (resetPass_same m2 s1.heap q)
  have hperm2 : m2.Perm ((hidesOf (st.issues.flatMap
      (planOf env (resetPass st.heap st.issues) st.issues))).foldl Issues.delete st.issues) := by
    rw [← hiss1, ← hi1]; exact hperm
  obtain ⟨⟨hmem, hwf2, hno2⟩, ⟨hplan2, hplanOf2, hhide2⟩, opsX, hpX, hlight⟩ :=
    second_pass hwf0 hno0 hsame0 hok hperm2
  have hin2 : ∀ o ∈ m2.flatMap (planOf env (resetPass st.heap st.issues) st.issues),
      o.within (vals m2) := by
    intro o ho
    obtain ⟨e, he, hoe⟩ := List.mem_flatMap.mp ho
    rw [← hplanOf2 e he] at hoe
    exact (planOf_ops (List.mem_map.mpr ⟨e, he, rfl⟩) o hoe).2
  have e2 := (directivePass_plans hwf2 hno2 hd2).2
  rw [List.flatMap_congr hplanOf2] at e2
  have hv1 : (vals st.issues).Nodup := vals_nodup_of_keyed _ st.issues hwf0.2 hwf0.1
  have hv2 : (vals m2).Nodup := vals_nodup_of_keyed _ m2 hwf2.2 hwf2.1
  have a1 := fun q => applyOps_fields (st.issues.flatMap
    (planOf env (resetPass st.heap st.issues) st.issues))
    ⟨resetPass st.heap st.issues, st.issues⟩ q
  have a2 := fun q => applyOps_fields (m2.flatMap
    (planOf env (resetPass st.heap st.issues) st.issues)) ⟨resetPass s1.heap m2, m2⟩ q
  rw [← e1] at a1
  rw [← e2] at a2
  simp only at a1 a2
  have hsub : vals m2 ⊆ vals st.issues := by
    intro q hq
    obtain ⟨e, he, rfl⟩ := List.mem_map.mp hq
    exact List.mem_map.mpr ⟨e, hmem e he, rfl⟩
  have hvd1 : ∀ q, q ∈ vals m2 → q ∈ vals d1.issues := by
    intro q hq
    rw [← hi1]
    exact (hperm.map Prod.snd).subset hq
  refine ⟨⟨by rw [e2]; exact applyOps_issues_same hhide2 _, opsX, hpX, hlight⟩, ?_, ?_, ?_⟩
  · intro q
    have hsq : SameInput (s1.heap q) (d2.heap q) := by
      have : SameInput (resetPass s1.heap m2 q) (d2.heap q) := by
        rw [e2]; exact applyOps_same _ ⟨resetPass s1.heap m2, m2⟩ q
      exact (resetPass_same m2 s1.heap q).chain this
    refine ⟨hsq, ?_, ?_, ?_⟩
    · rw [(a2 q).2.2.1]; exact (resetPass_flags s1.heap m2 q).2.1
    · rw [(a2 q).2.2.2]; exact (resetPass_flags s1.heap m2 q).2.2
    · intro hq hor
      rw [(hf1 q).2.2.1, hidingPass_value _ _ _ hh1 q]
      right
      refine ⟨hvd1 q hq, ?_⟩
      rcases hor with h1 | h1
      · left
        intro hnil
        apply h1
        rw [(a2 q).1.2.2.2, (resetPass_flags s1.heap m2 q).1, (hf1 q).1.2.2.2, hnil,
          ((own_second hv1 hmem hv2 q).1 hq).2.1]
        rw [(a1 q).1.2.2.2] at hnil
        rw [(List.append_eq_nil.mp hnil).2]
        rfl
      · right
        rw [IsPR_congr ((hf1 q).2.2.2.2.chain hsq)]
        exact h1
  · intro q hq
    have hq1 : q ∈ vals st.issues := hsub hq
    have r1 : resetPass st.heap st.issues q = resetIssue (st.heap q) := by
      rw [resetPass_apply, if_pos hq1]
    have r2 : resetPass s1.heap m2 q = resetIssue (s1.heap q) := by
      rw [resetPass_apply, if_pos hq]
    obtain ⟨_, _, o3, o4⟩ := (own_second hv1 hmem hv2 q).1 hq
    refine ⟨⟨?_, ?_, ?_, ?_⟩, ⟨?_, ?_⟩, ?_, ?_⟩
    · rw [(hf1 q).1.1, (a1 q).1.1, r1]; rfl
    · rw [(a2 q).1.1, r2]; rfl
    · rw [(hf1 q).1.2.1, (a1 q).1.2.1, r1]; rfl
    · rw [(a2 q).1.2.1, r2]; rfl
    · rw [(hf1 q).2.1.2.2, (a1 q).2.1.2.2, r1]; rfl
    · rw [(a2 q).2.1.2.2, r2]; rfl
    · rw [(a2 q).2.1.2.1, (hf1 q).2.1.2.1, (a1 q).2.1.2.1, r1, r2, o4]; rfl
    · rw [(a2 q).2.1.1, (hf1 q).2.1.1, (a1 q).2.1.1, r1, r2, o3]; rfl
  · intro q hq
    have r2 : resetPass s1.heap m2 q = s1.heap q := by
      rw [resetPass_apply, if_neg hq]
    obtain ⟨_, _, o3, o4⟩ := (own_second hv1 hmem hv2 q).2 hq
    obtain ⟨w1, w2, w3⟩ := (within_lists hin2 (q := q)).2.2 hq
    refine ⟨⟨?_, ?_, ?_⟩, ?_, ?_⟩
    · rw [(a2 q).1.1, r2, w1, List.append_nil]
    · rw [(a2 q).1.2.1, r2, w2, List.append_nil]
    · rw [(a2 q).2.1.2.2, r2, w3, Bool.and_true]
    · rw [(a2 q).2.1.2.1, r2, o4]; rfl
    · rw [(a2 q).2.1.1, r2, o3]; rfl

/-- The third loop returns when `IsPR` returns for every issue of the
collection. -/
theorem hidingPass_total :
    ∀ (m : Issues) (h : Heap), (∀ q ∈ vals m, ∃ b, IsPR (h q) = .ok b) →
      ∃ h', hidingPass m h = .ok h' := by
  intro m
  induction m with
  | nil => intro h _; exact ⟨h, rfl⟩
  | cons e rest ih =>
    intro h hall
    obtain ⟨k, p⟩ := e
    simp only [hidingPass]
    have f1 := hideIf h p ((h p).Duplicates.length > 0)
    generalize (if (h p).Duplicates.length > 0 then
        h.modify p (fun i => { i with Hidden := true }) else h) = g at f1
    rw [(f1 p).2.1]
    obtain ⟨b, hb⟩ := hall p (by simp [vals])
    rw [hb]
    have hrest : ∀ q ∈ vals rest, ∃ b, IsPR (g q) = .ok b := by
      intro q hq
      rw [(f1 q).2.1]
      exact hall q (by simp only [vals, List.map_cons, List.mem_cons]; exact Or.inr hq)
    cases b with
    | true =>
      simp only
      refine ih _ (fun q hq => ?_)
      have f2 := hideIf g p True q
      simp only [if_true] at f2
      rw [f2.2.1]
      exact hrest q hq
    | false =>
      simp only
      exact ih _ hrest

/-- The second loop of a second run returns, in any visiting order of the map
that the first run left. -/
theorem second_pass_returns {env : Env} {fuel : Nat} {st s1 : State} {m2 : Issues}
    (hwf : WF st) (hno : NoHiddenRef env st) (hrun : prepare env fuel st = .ok s1)
    (hperm : m2.Perm s1.issues) :
    ∃ d2, directivePass env m2 ⟨resetPass s1.heap m2, m2⟩ = .ok d2 := by
  obtain ⟨d1, g1, hd1, hh1, he1, hi1, hf1⟩ := prepare_parts hrun
  have hwf0 : WF ⟨resetPass st.heap st.issues, st.issues⟩ := wf_reset hwf
  have hno0 : NoHiddenRef env ⟨resetPass st.heap st.issues, st.issues⟩ :=
    noHiddenRef_congr (fun q => resetPass_same st.issues st.heap q) (fun _ hx => hx) hno
  obtain ⟨hok, e1⟩ := directivePass_plans hwf0 hno0 hd1
  have hiss1 : d1.issues = (hidesOf (st.issues.flatMap
      (planOf env (resetPass st.heap st.issues) st.issues))).foldl Issues.delete st.issues := by
    rw [e1, applyOps_issues]
  have hsame0 : ∀ q, SameInput (resetPass st.heap st.issues q) (resetPass s1.heap m2 q) := by
    intro q
    have : SameInput (resetPass st.heap st.issues q) (d1.heap q) := by
      rw [e1]; exact applyOps_same _ ⟨resetPass st.heap st.issues, st.issues⟩ q
    exact (this.chain (hf1 q).2.2.2.2).chain (resetPass_same m2 s1.heap q)
  have hperm2 : m2.Perm ((hidesOf (st.issues.flatMap
      (planOf env (resetPass st.heap st.issues) st.issues))).foldl Issues.delete st.issues) := by
    rw [← hiss1, ← hi1]; exact hperm
  obtain ⟨⟨_, hwf2, hno2⟩, ⟨hplan2, _, _⟩, _⟩ :=
    second_pass hwf0 hno0 hsame0 hok hperm2
  exact ⟨_, directivePass_of_plans hwf2 hno2 (fun e he => ⟨_, hplan2 e he⟩)⟩

/-- The third loop of a second run hides no issue that the first run left
visible. -/
theorem second_hiding {env : Env} {fuel : Nat} {st s1 : State} {m2 : Issues} {d2 : State}
    {g2 : Heap} (hwf : WF st) (hno : NoHiddenRef env st) (hrun : prepare env fuel st = .ok s1)
    (hperm : m2.Perm s1.issues)
    (hd2 : directivePass env m2 ⟨resetPass s1.heap m2, m2⟩ = .ok d2)
    (hh2 : hidingPass d2.issues d2.heap = .ok g2) (q : Ptr) :
    (g2 q).Hidden = (s1.heap q).Hidden := by
  obtain ⟨⟨hi2, _⟩, hall, _, _⟩ := second_run_core hwf hno hrun hperm hd2
  obtain ⟨_, hH, _, himp⟩ := hall q
  rw [Bool.eq_iff_iff, hidingPass_value _ _ _ hh2 q, hH, hi2]
  constructor
  · rintro (h1 | ⟨h1, h2⟩)
    · exact h1
    · exact himp h1 h2
  · exact fun h1 => Or.inl h1

/-- In the order that the first run left, the second run appends to
`DependsOn` and `Blocks` what the first run appended, in the same order. -/
theorem same_order_lists {env : Env} {h0 : Heap} {m1 : Issues} (hwf : WF ⟨h0, m1⟩)
    (hok : ∀ e ∈ m1, plan env (h0 e.2) m1 e.2 = .ok (planOf env h0 m1 e)) (q : Ptr) :
    depsOf q (((hidesOf (m1.flatMap (planOf env h0 m1))).foldl Issues.delete m1).flatMap
        (planOf env h0 m1)) = depsOf q (m1.flatMap (planOf env h0 m1)) ∧
      blocksOf q (((hidesOf (m1.flatMap (planOf env h0 m1))).foldl Issues.delete m1).flatMap
        (planOf env h0 m1)) = blocksOf q (m1.flatMap (planOf env h0 m1)) := by
  rw [foldl_delete_filter]
  have hlight : ∀ e ∈ m1,
      decide (e.1 ∉ hidesOf (m1.flatMap (planOf env h0 m1))) = false →
      ∀ o ∈ planOf env h0 m1 e, o.light := by
    intro e he hP
    have hin : e.1 ∈ hidesOf (m1.flatMap (planOf env h0 m1)) := by simpa using hP
    obtain ⟨p, hp, hpm⟩ := hides_marked hwf.1 hin
    have g1 := get_of_mem hwf.2 hp
    have g2 := get_of_mem hwf.2 (show (e.1, e.2) ∈ m1 from he)
    rw [g1] at g2
    simp only [Option.some.injEq] at g2
    rw [g2] at hpm
    exact plan_light hpm (hok e he)
  constructor
  · unfold depsOf
    rw [List.filterMap_flatMap, List.filterMap_flatMap]
    exact flatMap_filter _ _ m1 (fun e he hP => (light_lists (hlight e he hP) q).1.1)
  · unfold blocksOf
    rw [List.filterMap_flatMap, List.filterMap_flatMap]
    exact flatMap_filter _ _ m1 (fun e he hP => (light_lists (hlight e he hP) q).1.2.1)

theorem depsOf_append (q : Ptr) (a b : List Op) :
    depsOf q (a ++ b) = depsOf q a ++ depsOf q b := by
  unfold depsOf; rw [List.filterMap_append]

theorem blocksOf_append (q : Ptr) (a b : List Op) :
    blocksOf q (a ++ b) = blocksOf q a ++ blocksOf q b := by
  unfold blocksOf; rw [List.filterMap_append]

/-- C6, as the code has it: on a collection keyed by URL in which no
depends-on or blocks phrase of an issue without the hide marker resolves to an
issue that carries it, when `prepare` returns, running it again on the result
returns as well (same fuel, the map visited in the order the first run left),
with `DependsOn` and `Blocks` of every issue as they were; and whatever the
order in which a second run visits the map, when it returns it keeps the
entries of the collection and leaves `DependsOn` and `Blocks` of every issue
the same as multisets and `IsOrphan`, `Hidden`, `LinkedWithEpic`, `BaseWeight`
and `weightMultiplier` as they were after the first run. -/
theorem prepare_twice (env : Env) (fuel : Nat) (st s1 : State)
    (hwf : WF st) (hno : NoHiddenRef env st) (hrun : prepare env fuel st = .ok s1) :
    (∃ s2, prepare env fuel s1 = .ok s2 ∧
      ∀ q, (s2.heap q).DependsOn = (s1.heap q).DependsOn ∧
        (s2.heap q).Blocks = (s1.heap q).Blocks) ∧
    ∀ (f2 : Nat) (m2 : Issues) (s2 : State), m2.Perm s1.issues →
      prepare env f2 ⟨s1.heap, m2⟩ = .ok s2 →
      s2.issues.Perm s1.issues ∧
      ∀ q, ((s2.heap q).DependsOn.Perm (s1.heap q).DependsOn ∧
          (s2.heap q).Blocks.Perm (s1.heap q).Blocks) ∧
        ((s2.heap q).IsOrphan = (s1.heap q).IsOrphan ∧
          (s2.heap q).Hidden = (s1.heap q).Hidden ∧
          (s2.heap q).LinkedWithEpic = (s1.heap q).LinkedWithEpic) ∧
        (s2.heap q).BaseWeight = (s1.heap q).BaseWeight ∧
        (s2.heap q).weightMultiplier = (s1.heap q).weightMultiplier := by
  obtain ⟨d1, g1, hd1, hh1, he1, hi1, hf1⟩ := prepare_parts hrun
  refine ⟨?_, ?_⟩
  · -- the second run in the order that the first run left
    obtain ⟨d2, hd2⟩ := second_pass_returns hwf hno hrun (List.Perm.refl s1.issues)
    obtain ⟨⟨hi2, _⟩, hall, hin, hout⟩ :=
      second_run_core hwf hno hrun (List.Perm.refl s1.issues) hd2
    have hsd : ∀ q, SameInput (d1.heap q) (d2.heap q) :=
      fun q => (hf1 q).2.2.2.2.chain (hall q).1
    have hpr : ∀ q ∈ vals d2.issues, ∃ b, IsPR (d2.heap q) = .ok b := by
      intro q hq
      rw [hi2, hi1] at hq
      obtain ⟨b, hb, _⟩ := (hidingPass_sets _ _ _ hh1 q hq).2
      exact ⟨b, by rw [← IsPR_congr (hsd q)]; exact hb⟩
    obtain ⟨g2, hh2⟩ := hidingPass_total _ _ hpr
    have hH := fun q => second_hiding hwf hno hrun (List.Perm.refl s1.issues) hd2 hh2 q
    have hwf0 : WF ⟨resetPass st.heap st.issues, st.issues⟩ := wf_reset hwf
    have hno0 : NoHiddenRef env ⟨resetPass st.heap st.issues, st.issues⟩ :=
      noHiddenRef_congr (fun q => resetPass_same st.issues st.heap q) (fun _ hx => hx) hno
    obtain ⟨hok, e1⟩ := directivePass_plans hwf0 hno0 hd1
    have hiss1 : s1.issues = (hidesOf (st.issues.flatMap
        (planOf env (resetPass st.heap st.issues) st.issues))).foldl
          Issues.delete st.issues := by
      rw [hi1, e1, applyOps_issues]
    have hlist : ∀ q, (d2.heap q).DependsOn = (s1.heap q).DependsOn ∧
        (d2.heap q).Blocks = (s1.heap q).Blocks := by
      intro q
      by_cases hq : q ∈ vals s1.issues
      · obtain ⟨⟨c1, c2, c3, c4⟩, _⟩ := hin q hq
        rw [c1, c2, c3, c4, hiss1]
        exact same_order_lists hwf0 hok q
      · exact ⟨(hout q hq).1.1, (hout q hq).1.2.1⟩
    have hES : EpicSame g1 g2 := by
      intro q
      obtain ⟨b1, hb1, _⟩ := hidingPass_apply _ _ _ hh1 q
      obtain ⟨b2, hb2, _⟩ := hidingPass_apply _ _ _ hh2 q
      refine ⟨?_, ?_, ?_, ?_⟩
      · rw [hH q, (hf1 q).2.2.1]
      · rw [hb1, hb2]; exact (hsd q).2.2.1
      · have a1 : (g1 q).Blocks = (d1.heap q).Blocks := by rw [hb1]
        have a2 : (g2 q).Blocks = (d2.heap q).Blocks := by rw [hb2]
        rw [a1, a2, (hlist q).2, (hf1 q).1.2.1]
      · have a1 : (g1 q).DependsOn = (d1.heap q).DependsOn := by rw [hb1]
        have a2 : (g2 q).DependsOn = (d2.heap q).DependsOn := by rw [hb2]
        rw [a1, a2, (hlist q).1, (hf1 q).1.1]
    obtain ⟨r, hr, _⟩ := processEpicLinks_congr d1.issues g1 g2 s1.heap hES he1
    have hi21 : d2.issues = d1.issues := by rw [hi2, hi1]
    refine ⟨⟨r, d2.issues⟩, ?_, ?_⟩
    · unfold prepare
      rw [hd2]
      simp only
      rw [hh2]
      simp only
      rw [hi21, hr]
    · intro q
      obtain ⟨c, hc⟩ := processEpicLinks_apply _ _ _ hr q
      obtain ⟨b2, hb2, _⟩ := hidingPass_apply _ _ _ hh2 q
      have a1 : (r q).DependsOn = (d2.heap q).DependsOn := by rw [hc, hb2]
      have a2 : (r q).Blocks = (d2.heap q).Blocks := by rw [hc, hb2]
      exact ⟨a1.trans (hlist q).1, a2.trans (hlist q).2⟩
  · -- a second run in any order
    intro f2 m2 s2 hperm h2run
    obtain ⟨d2, g2, hd2, hh2, he2, hi2, hf2⟩ := prepare_parts h2run
    obtain ⟨⟨hd2i, opsX, hpX, hlight⟩, hall, hin, hout⟩ :=
      second_run_core hwf hno hrun hperm hd2
    have hH : ∀ q, (s2.heap q).Hidden = (s1.heap q).Hidden := fun q => by
      rw [(hf2 q).2.2.1]
      exact second_hiding hwf hno hrun hperm hd2 hh2 q
    have hdep : ∀ q, (s2.heap q).DependsOn.Perm (s1.heap q).DependsOn := by
      intro q
      rw [(hf2 q).1.1]
      by_cases hq : q ∈ vals m2
      · obtain ⟨⟨c1, c2, _, _⟩, _⟩ := hin q hq
        rw [c1, c2]
        have hp : (depsOf q (st.issues.flatMap
            (planOf env (resetPass st.heap st.issues) st.issues))).Perm
            (depsOf q (m2.flatMap (planOf env (resetPass st.heap st.issues) st.issues)
              ++ opsX)) := hpX.filterMap _
        rw [depsOf_append, (light_lists hlight q).1.1, List.append_nil] at hp
        exact hp.symm
      · rw [(hout q hq).1.1]
    have hblk : ∀ q, (s2.heap q).Blocks.Perm (s1.heap q).Blocks := by
      intro q
      rw [(hf2 q).1.2.1]
      by_cases hq : q ∈ vals m2
      · obtain ⟨⟨_, _, c3, c4⟩, _⟩ := hin q hq
        rw [c3, c4]
        have hp : (blocksOf q (st.issues.flatMap
            (planOf env (resetPass st.heap st.issues) st.issues))).Perm
            (blocksOf q (m2.flatMap (planOf env (resetPass st.heap st.issues) st.issues)
              ++ opsX)) := hpX.filterMap _
        rw [blocksOf_append, (light_lists hlight q).1.2.1, List.append_nil] at hp
        exact hp.symm
      · rw [(hout q hq).1.2.1]
    have hsame : ∀ q, SameInput (s2.heap q) (s1.heap q) :=
      fun q => ((hall q).1.chain (hf2 q).2.2.2.2).symm
    have hlnk : ∀ q, (s2.heap q).LinkedWithEpic = (s1.heap q).LinkedWithEpic := by
      intro q
      by_cases hq : q ∈ vals d2.issues
      · have hq1 : q ∈ vals d1.issues := by
          rw [hd2i] at hq
          rw [← hi1]
          exact (hperm.map Prod.snd).subset hq
        rw [Bool.eq_iff_iff, processEpicLinks_spec he2 q hq, processEpicLinks_spec he1 q hq1]
        exact linkedSpec_congr hH (fun x => (hsame x).2.2.1)
          (fun x d => (hblk x).mem_iff) (fun x d => (hdep x).mem_iff) q
      · have : s2.heap q = g2 q := processEpicLinks_outside _ _ _ he2 q hq
        rw [this, (hf2 q).2.2.2.1]
        exact (hall q).2.2.1
    refine ⟨by rw [hi2, hd2i]; exact hperm, fun q => ⟨⟨hdep q, hblk q⟩, ⟨?_, hH q, hlnk q⟩,
      ?_, ?_⟩⟩
    · rw [(hf2 q).2.1.2.2]
      by_cases hq : q ∈ vals m2
      · obtain ⟨_, ⟨c5, c6⟩, _⟩ := hin q hq
        rw [c5, c6, all_perm _ hpX, List.all_append, (light_lists hlight q).2, Bool.and_true]
      · exact (hout q hq).1.2.2
    · rw [(hf2 q).2.1.2.1]
      by_cases hq : q ∈ vals m2
      · exact (hin q hq).2.2.1
      · exact (hout q hq).2.1
    · rw [(hf2 q).2.1.1]
      by_cases hq : q ∈ vals m2
      · exact (hin q hq).2.2.2
      · exact (hout q hq).2.2

/-- Witness for C6 as amended: issue 1 depends on issue 2 and names a missing
issue, issue 3 carries the hide marker and is referenced by no issue; after
the first run the collection is prepared again in the order the first run
left, and in the opposite order. -/
theorem prepare_twice_witness :
    ∃ s1 s3, prepare goEnv 2 orderState = .ok s1 ∧
      prepare goEnv 3 ⟨s1.heap, s1.issues.reverse⟩ = .ok s3 ∧
      (∃ s2, prepare goEnv 2 s1 = .ok s2 ∧
        ∀ q, (s2.heap q).DependsOn = (s1.heap q).DependsOn ∧
          (s2.heap q).Blocks = (s1.heap q).Blocks) ∧
      s3.issues.Perm s1.issues ∧
      ∀ q, ((s3.heap q).DependsOn.Perm (s1.heap q).DependsOn ∧
          (s3.heap q).Blocks.Perm (s1.heap q).Blocks) ∧
        ((s3.heap q).IsOrphan = (s1.heap q).IsOrphan ∧
          (s3.heap q).Hidden = (s1.heap q).Hidden ∧
          (s3.heap q).LinkedWithEpic = (s1.heap q).LinkedWithEpic) ∧
        (s3.heap q).BaseWeight = (s1.heap q).BaseWeight ∧
        (s3.heap q).weightMultiplier = (s1.heap q).weightMultiplier := by
  obtain ⟨s1, h1⟩ := except_ok_of (x := prepare goEnv 2 orderState) (by decide)
  have h : ((prepare goEnv 2 orderState).toOption.bind (fun s =>
      (prepare goEnv 3 ⟨s.heap, s.issues.reverse⟩).toOption.map (fun _ => true)))
      = some true := by decide
  rw [h1] at h
  simp only [Except.toOption, Option.some_bind] at h
  cases h3 : prepare goEnv 3 ⟨s1.heap, s1.issues.reverse⟩ with
  | error e => rw [h3] at h; simp at h
  | ok s3 =>
    have key := prepare_twice goEnv 2 orderState s1 (by decide) (by decide) h1
    exact ⟨s1, s3, h1, h3, key.1, key.2 3 s1.issues.reverse s3 (List.reverse_perm _) h3⟩

end Depviz
